import Mathlib

/-!
# ltl2delta2: the term representation and the normalisation passes

A shallow embedding of `src/tree.hh`, `src/tree.cc` and `src/normalizer.cc`.

* A `Node*` is embedded as the formula tree it points to.  Reference counts and
  the release of nodes are memory management and have no counterpart here.
* `True`, `False` and the atomic propositions are canonical in the source, so
  for them pointer comparison is comparison of the kind and the name.  For the
  other nodes the comparison of two references is embedded as the comparison of
  the two trees (`Node.beq`, written `==`).
* The passes that are not structurally recursive (`removeWU`, `removeGF`,
  `fixGFW`, `fixFGU`) take a recursion budget and return `none` when it is
  exhausted; the theorems show that a large enough budget always exists.
-/

/-- The kinds of node, `Node::Op` in `tree.hh`. -/
inductive Op where
  | TT | FF | APROP | AND | OR | X | U | W | R | M | GF | FG
  deriving DecidableEq, Repr

/-- A formula node: its kind, its children and (for atomic propositions) its
name.  One constructor per `Op`, carrying the children that kind has;
`mkU l r` is `new Node(Op::U, l, r)`, and `tt`, `ff`, `ap name` are the
canonical leaves `Node::tt()`, `Node::ff()`, `Node::ap(name)`. -/
inductive Node where
  | tt : Node
  | ff : Node
  | ap (name : String) : Node
  | mkAND (cs : List Node) : Node
  | mkOR (cs : List Node) : Node
  | mkX (c : Node) : Node
  | mkU (l r : Node) : Node
  | mkW (l r : Node) : Node
  | mkR (l r : Node) : Node
  | mkM (l r : Node) : Node
  | mkGF (c : Node) : Node
  | mkFG (c : Node) : Node
  deriving Repr, Inhabited

namespace Node

/-- The field `type` of a node. -/
def type : Node → Op
  | .tt => .TT
  | .ff => .FF
  | .ap _ => .APROP
  | .mkAND _ => .AND
  | .mkOR _ => .OR
  | .mkX _ => .X
  | .mkU _ _ => .U
  | .mkW _ _ => .W
  | .mkR _ _ => .R
  | .mkM _ _ => .M
  | .mkGF _ => .GF
  | .mkFG _ => .FG

/-- The field `children` of a node. -/
def children : Node → List Node
  | .tt => []
  | .ff => []
  | .ap _ => []
  | .mkAND cs => cs
  | .mkOR cs => cs
  | .mkX c => [c]
  | .mkU l r => [l, r]
  | .mkW l r => [l, r]
  | .mkR l r => [l, r]
  | .mkM l r => [l, r]
  | .mkGF c => [c]
  | .mkFG c => [c]

mutual
/-- Comparison of two node references, as comparison of the trees. -/
def beq : Node → Node → Bool
  | .tt, .tt => true
  | .ff, .ff => true
  | .ap a, .ap b => a == b
  | .mkAND as, .mkAND bs => beqList as bs
  | .mkOR as, .mkOR bs => beqList as bs
  | .mkX a, .mkX b => beq a b
  | .mkU a b, .mkU c d => beq a c && beq b d
  | .mkW a b, .mkW c d => beq a c && beq b d
  | .mkR a b, .mkR c d => beq a c && beq b d
  | .mkM a b, .mkM c d => beq a c && beq b d
  | .mkGF a, .mkGF b => beq a b
  | .mkFG a, .mkFG b => beq a b
  | _, _ => false
/-- Pointwise comparison of two child vectors. -/
def beqList : List Node → List Node → Bool
  | [], [] => true
  | a :: as, b :: bs => beq a b && beqList as bs
  | _, _ => false
end

instance : BEq Node := ⟨beq⟩

/-- The inline `is(node, type)` of `tree.hh`. -/
def is (node : Node) (type : Op) : Bool :=
  node.type == type

/-- `Node::isConstant`. -/
def isConstant (node : Node) : Bool :=
  node.type == Op.TT || node.type == Op.FF

/-- `Node::isG`: `a W ff` or `ff R a`. -/
def isG : Node → Bool
  | .mkW _ r => is r Op.FF
  | .mkR l _ => is l Op.FF
  | _ => false

/-- `Node::isF`: `tt U a` or `a M tt`. -/
def isF : Node → Bool
  | .mkU l _ => is l Op.TT
  | .mkM _ r => is r Op.TT
  | _ => false

/-- `Node::And`: a `False` argument gives `False`, every `True` argument is
erased, a single remaining argument is returned as it is, and otherwise an
`AND` node is built over what remains. -/
def And (args : List Node) : Node :=
  if args.any (fun a => is a Op.FF) then Node.ff
  else
    let rest := args.filter (fun a => !is a Op.TT)
    match rest with
    | [a] => a
    | _ => Node.mkAND rest

/-- `Node::Or`, the dual of `Node::And`. -/
def Or (args : List Node) : Node :=
  if args.any (fun a => is a Op.TT) then Node.tt
  else
    let rest := args.filter (fun a => !is a Op.FF)
    match rest with
    | [a] => a
    | _ => Node.mkOR rest

/-- `Node::X`. -/
def X (arg : Node) : Node :=
  if arg.isConstant || is arg Op.GF || is arg Op.FG then arg
  else Node.mkX arg

/-- `Node::GF`. -/
def GF : Node → Node
  | .tt => .tt
  | .ff => .ff
  | .mkX c => GF c
  | .mkU .tt b => GF b
  | .mkM a .tt => GF a
  | arg => .mkGF arg

/-- `Node::FG`. -/
def FG : Node → Node
  | .tt => .tt
  | .ff => .ff
  | .mkX c => FG c
  | .mkW a .ff => FG a
  | .mkR .ff b => FG b
  | arg => .mkFG arg

mutual
/-- `Node::U`. -/
def U (left right : Node) : Node :=
  if is left Op.FF || left == right then right
  else if right.isConstant || right.isF then right
  else if is left Op.TT then
    match right with
    | .mkOR cs => Or (mapF cs)
    | .mkW a .ff => FG a
    | .mkR .ff b => FG b
    | _ => .mkU left right
  else .mkU left right
/-- The call `mapfn(children, Node::F)`. -/
def mapF : List Node → List Node
  | [] => []
  | c :: cs => U .tt c :: mapF cs
end

/-- `Node::F` of `tree.hh`. -/
def F (arg : Node) : Node :=
  U .tt arg

mutual
/-- `Node::W`. -/
def W (left right : Node) : Node :=
  if is left Op.FF || left == right then right
  else if is right Op.TT then .tt
  else if is left Op.TT then .tt
  else if left.isG then Or [left, right]
  else if is right Op.FF then
    match left with
    | .mkAND cs => And (mapG cs)
    | .mkU .tt b => GF b
    | .mkM a .tt => GF a
    | _ => .mkW left right
  else .mkW left right
/-- The call `mapfn(children, Node::G)`. -/
def mapG : List Node → List Node
  | [] => []
  | c :: cs => W c .ff :: mapG cs
end

/-- `Node::G` of `tree.hh`. -/
def G (arg : Node) : Node :=
  W arg .ff

/-- `Node::R`. -/
def R (left right : Node) : Node :=
  if is left Op.TT || left == right then right
  else if right.isConstant || right.isG then right
  else if is left Op.FF then
    match right with
    | .mkAND cs => And (mapG cs)
    | .mkU .tt b => GF b
    | .mkM a .tt => GF a
    | _ => .mkR left right
  else .mkR left right

/-- `Node::M`. -/
def M (left right : Node) : Node :=
  if is left Op.TT || left == right then right
  else if is right Op.FF then .ff
  else if is left Op.FF then .ff
  else if left.isF then And [left, right]
  else if is right Op.TT then
    match left with
    | .mkOR cs => Or (mapF cs)
    | .mkW a .ff => FG a
    | .mkR .ff b => FG b
    | _ => .mkM left right
  else .mkM left right

mutual
/-- The function `equal` of `tree.cc`: the two references are the same, or the
two nodes are not atomic propositions, have the same kind and as many children,
and the children are pairwise `equal`.  The replacement of `right` by `left` in
the caller leaves the tree as it is. -/
def equal (left right : Node) : Bool :=
  if left == right then true
  else
    match left, right with
    | .tt, .tt => true
    | .ff, .ff => true
    | .mkAND as, .mkAND bs => equalList as bs
    | .mkOR as, .mkOR bs => equalList as bs
    | .mkX a, .mkX b => equal a b
    | .mkU a b, .mkU c d => equal a c && equal b d
    | .mkW a b, .mkW c d => equal a c && equal b d
    | .mkR a b, .mkR c d => equal a c && equal b d
    | .mkM a b, .mkM c d => equal a c && equal b d
    | .mkGF a, .mkGF b => equal a b
    | .mkFG a, .mkFG b => equal a b
    | _, _ => false
/-- The loop of `equal` over two child vectors of the same length. -/
def equalList : List Node → List Node → Bool
  | [], [] => true
  | a :: as, b :: bs => equal a b && equalList as bs
  | _, _ => false
end

/-- `Node::make`: the smart constructor of the given kind.  The source returns
a null pointer for `APROP` and reads `args[0]`, `args[1]` where they must
exist; `none` stands for both. -/
def make : Op → List Node → Option Node
  | .TT, _ => some .tt
  | .FF, _ => some .ff
  | .X, a :: _ => some (X a)
  | .AND, args => some (And args)
  | .OR, args => some (Or args)
  | .U, a :: b :: _ => some (U a b)
  | .W, a :: b :: _ => some (W a b)
  | .R, a :: b :: _ => some (R a b)
  | .M, a :: b :: _ => some (M a b)
  | .GF, a :: _ => some (GF a)
  | .FG, a :: _ => some (FG a)
  | _, _ => none

end Node

namespace Normalizer

/-! ## Step 1: removing U/M below W/R -/

/-- The struct `FindUResult`: the argument of the rule's GF, the formula with
the U/M node replaced by false, and the formula with it replaced by W/R. -/
structure FindUResult where
  gfa : Node
  ff : Node
  weak : Node
  deriving Repr

mutual
/-- The function `containsU`. -/
def containsU : Node → Bool
  | .mkAND cs => containsUAny cs
  | .mkOR cs => containsUAny cs
  | .mkX c => containsU c
  | .mkW a b => containsU a || containsU b
  | .mkR a b => containsU a || containsU b
  | .mkU _ _ => true
  | .mkM _ _ => true
  | _ => false
/-- The call `any_of(children, containsU)`. -/
def containsUAny : List Node → Bool
  | [] => false
  | c :: cs => containsU c || containsUAny cs
end

/-- Entry `i` of a first copy of the children (`ff_copy`, `tt_copy`): the
replacement of the child when there is one, the child otherwise. -/
def copyFst (res : Option (Node × Node)) (child : Node) : Node :=
  match res with
  | some p => p.1
  | none => child

/-- Entry `i` of a second copy of the children (`weak_copy`, `strong_copy`). -/
def copySnd (res : Option (Node × Node)) (child : Node) : Node :=
  match res with
  | some p => p.2
  | none => child

mutual
/-- The function `replaceU`: the pair (ff variant, weak variant), `none` for
the pair of null pointers. -/
def replaceU (gfa : Node) : Node → Option (Node × Node)
  | .mkAND cs =>
    match replaceUList gfa cs with
    | (true, ffCopy, weakCopy) => some (Node.And ffCopy, Node.And weakCopy)
    | (false, _, _) => none
  | .mkOR cs =>
    match replaceUList gfa cs with
    | (true, ffCopy, weakCopy) => some (Node.Or ffCopy, Node.Or weakCopy)
    | (false, _, _) => none
  | .mkX c =>
    match replaceU gfa c with
    | some p => some (Node.X p.1, Node.X p.2)
    | none => none
  | .mkW a b =>
    match replaceU gfa a, replaceU gfa b with
    | none, none => none
    | ra, rb => some (Node.W (copyFst ra a) (copyFst rb b), Node.W (copySnd ra a) (copySnd rb b))
  | .mkR a b =>
    match replaceU gfa a, replaceU gfa b with
    | none, none => none
    | ra, rb => some (Node.R (copyFst ra a) (copyFst rb b), Node.R (copySnd ra a) (copySnd rb b))
  | .mkU a b => if Node.equal gfa b then some (Node.ff, Node.W a gfa) else none
  | .mkM a b => if Node.equal gfa a then some (Node.ff, Node.R gfa b) else none
  | _ => none
/-- The loop of `replaceU` over the children: `changed`, `ff_copy` and
`weak_copy`. -/
def replaceUList (gfa : Node) : List Node → Bool × List Node × List Node
  | [] => (false, [], [])
  | c :: cs =>
    let res := replaceU gfa c
    let rest := replaceUList gfa cs
    (res.isSome || rest.1, copyFst res c :: rest.2.1, copySnd res c :: rest.2.2)
end

mutual
/-- The function `findU`: `none` when it returns false, the result when it
returns true. -/
def findU : Node → Option FindUResult
  | .mkAND cs =>
    match findUList cs with
    | some (gfa, ffCopy, weakCopy) => some ⟨gfa, Node.And ffCopy, Node.And weakCopy⟩
    | none => none
  | .mkOR cs =>
    match findUList cs with
    | some (gfa, ffCopy, weakCopy) => some ⟨gfa, Node.Or ffCopy, Node.Or weakCopy⟩
    | none => none
  | .mkX c =>
    match findU c with
    | some res => some ⟨res.gfa, Node.X res.ff, Node.X res.weak⟩
    | none => none
  | .mkW a b =>
    match findU a with
    | some res =>
      let rb := replaceU res.gfa b
      some ⟨res.gfa, Node.W res.ff (copyFst rb b), Node.W res.weak (copySnd rb b)⟩
    | none =>
      match findU b with
      | some res => some ⟨res.gfa, Node.W a res.ff, Node.W a res.weak⟩
      | none => none
  | .mkR a b =>
    match findU a with
    | some res =>
      let rb := replaceU res.gfa b
      some ⟨res.gfa, Node.R res.ff (copyFst rb b), Node.R res.weak (copySnd rb b)⟩
    | none =>
      match findU b with
      | some res => some ⟨res.gfa, Node.R a res.ff, Node.R a res.weak⟩
      | none => none
  | .mkU a b => some ⟨b, Node.ff, Node.W a b⟩
  | .mkM a b => some ⟨a, Node.ff, Node.R a b⟩
  | _ => none
/-- The loop of `findU` over the children: the first child with a U/M node is
replaced by its variants and the later children go through `replaceU`. -/
def findUList : List Node → Option (Node × List Node × List Node)
  | [] => none
  | c :: cs =>
    match findU c with
    | some res =>
      let rest := replaceUList res.gfa cs
      some (res.gfa, res.ff :: rest.2.1, res.weak :: rest.2.2)
    | none =>
      match findUList cs with
      | some (gfa, ffCopy, weakCopy) => some (gfa, c :: ffCopy, c :: weakCopy)
      | none => none
end

/-- A function applied to every child, in the recursion budget: `none` as
soon as one call runs out of budget. -/
def mapOption (f : Node → Option Node) : List Node → Option (List Node)
  | [] => some []
  | c :: cs =>
    match f c, mapOption f cs with
    | some d, some ds => some (d :: ds)
    | _, _ => none

/-- The function `removeWU`, with a recursion budget. -/
def removeWU : Nat → Node → Option Node
  | 0, _ => none
  | k + 1, node =>
    match node with
    | .mkAND cs => do
      let copy ← mapOption (removeWU k) cs
      pure (if copy != cs then Node.And copy else node)
    | .mkOR cs => do
      let copy ← mapOption (removeWU k) cs
      pure (if copy != cs then Node.Or copy else node)
    | .mkX c => do
      let c1 ← removeWU k c
      pure (if c1 != c then Node.X c1 else node)
    | .mkU a b => do
      let a1 ← removeWU k a
      let b1 ← removeWU k b
      pure (if a1 != a || b1 != b then Node.U a1 b1 else node)
    | .mkM a b => do
      let a1 ← removeWU k a
      let b1 ← removeWU k b
      pure (if a1 != a || b1 != b then Node.M a1 b1 else node)
    | .mkW a b =>
      if containsU b then do
        let a1 ← removeWU k a
        let b1 ← removeWU k b
        let uNode := Node.U a1 b1
        let gNode := Node.G a
        let g1 ← removeWU k gNode
        pure (Node.Or [uNode, g1])
      else
        match findU a with
        | some found => do
          let wwNode := Node.W found.weak b
          let ww1 ← removeWU k wwNode
          let andNode := Node.And [Node.GF found.gfa, ww1]
          let gffNode := Node.G found.ff
          let gff1 ← removeWU k gffNode
          let urNode := Node.Or [b, gff1]
          let a1 ← removeWU k a
          let uNode := Node.U a1 urNode
          pure (Node.Or [andNode, uNode])
        | none => pure node
    | .mkR a b =>
      if containsU a then do
        let a1 ← removeWU k a
        let b1 ← removeWU k b
        let mNode := Node.M a1 b1
        let gNode := Node.G b
        let g1 ← removeWU k gNode
        pure (Node.Or [mNode, g1])
      else
        match findU b with
        | some found => do
          let rrNode := Node.R a found.weak
          let rr1 ← removeWU k rrNode
          let andNode := Node.And [Node.GF found.gfa, rr1]
          let gffNode := Node.G found.ff
          let gff1 ← removeWU k gffNode
          let mlNode := Node.Or [a, gff1]
          let b1 ← removeWU k b
          let mNode := Node.M mlNode b1
          pure (Node.Or [andNode, mNode])
        | none => pure node
    | _ => pure node

/-! ## Step 2: remove GF -/

mutual
/-- The function `findGF`: the innermost GF/FG node below a temporal
operator, `none` for the null pointer. -/
def findGF : Node → Bool → Option Node
  | .mkAND cs, proper => findGFList cs proper
  | .mkOR cs, proper => findGFList cs proper
  | .mkU a b, _ =>
    match findGF a true with
    | some g => some g
    | none => findGF b true
  | .mkX c, _ => findGF c true
  | .mkW a b, _ =>
    match findGF a true with
    | some g => some g
    | none => findGF b true
  | .mkR a b, _ =>
    match findGF a true with
    | some g => some g
    | none => findGF b true
  | .mkM a b, _ =>
    match findGF a true with
    | some g => some g
    | none => findGF b true
  | .mkGF c, proper =>
    match findGF c true with
    | some g => some g
    | none => if proper then some (.mkGF c) else none
  | .mkFG c, proper =>
    match findGF c true with
    | some g => some g
    | none => if proper then some (.mkFG c) else none
  | _, _ => none
/-- The loop of `findGF` over the children of an And/Or node. -/
def findGFList : List Node → Bool → Option Node
  | [], _ => none
  | c :: cs, proper =>
    match findGF c proper with
    | some g => some g
    | none => findGFList cs proper
end

/-- The test `node->type == left->type && equal(node->children[0],
left->children[0])` of `replace`, for a GF/FG node with child `c`. -/
def sameFairness (type : Op) (c left : Node) : Bool :=
  match left with
  | .mkGF lc => type == Op.GF && Node.equal c lc
  | .mkFG lc => type == Op.FG && Node.equal c lc
  | _ => false

mutual
/-- The function `replace`: every occurrence of the GF/FG node `left` is
replaced by `right`. -/
def replace (left right : Node) : Node → Node
  | .mkAND cs =>
    let copy := replaceList left right cs
    if copy != cs then Node.And copy else .mkAND cs
  | .mkOR cs =>
    let copy := replaceList left right cs
    if copy != cs then Node.Or copy else .mkOR cs
  | .mkX c =>
    let c1 := replace left right c
    if c1 != c then Node.X c1 else .mkX c
  | .mkU a b =>
    let a1 := replace left right a
    let b1 := replace left right b
    if a1 != a || b1 != b then Node.U a1 b1 else .mkU a b
  | .mkW a b =>
    let a1 := replace left right a
    let b1 := replace left right b
    if a1 != a || b1 != b then Node.W a1 b1 else .mkW a b
  | .mkR a b =>
    let a1 := replace left right a
    let b1 := replace left right b
    if a1 != a || b1 != b then Node.R a1 b1 else .mkR a b
  | .mkM a b =>
    let a1 := replace left right a
    let b1 := replace left right b
    if a1 != a || b1 != b then Node.M a1 b1 else .mkM a b
  | .mkGF c =>
    if sameFairness Op.GF c left then right
    else
      let c1 := replace left right c
      if c1 != c then Node.GF c1 else .mkGF c
  | .mkFG c =>
    if sameFairness Op.FG c left then right
    else
      let c1 := replace left right c
      if c1 != c then Node.FG c1 else .mkFG c
  | node => node
/-- The loop of `replace` over the children. -/
def replaceList (left right : Node) : List Node → List Node
  | [] => []
  | c :: cs => replace left right c :: replaceList left right cs
end

/-- The function `removeGF`, with a recursion budget, when every formula is
read as it was built: on an And/Or node the node is given its new children and
is not simplified again, and the ff variant is processed as `replace` has
returned it.  This is what the source computes as long as no node that it
rewrites in place is referred to from a formula that it reads later; the
function `removeGFInPlace` below follows the assignments through such
references, and agrees with this one under the view `sameView`. -/
def removeGF : Nat → Node → Option Node
  | 0, _ => none
  | k + 1, node =>
    match node with
    | .mkAND cs => do
      let cs1 ← mapOption (removeGF k) cs
      pure (.mkAND cs1)
    | .mkOR cs => do
      let cs1 ← mapOption (removeGF k) cs
      pure (.mkOR cs1)
    | _ =>
      match findGF node false with
      | some found => do
        let ttVariant := replace found Node.tt node
        let ffVariant := replace found Node.ff node
        let tt1 ← removeGF k ttVariant
        let andNode := Node.And [found, tt1]
        let ff1 ← removeGF k ffVariant
        pure (Node.Or [andNode, ff1])
      | none => pure node

/-! ## Step 3: remove W/R inside GF -/

/-- The struct `FindWResult`: the argument of the rule's FG, the formula with
the W/R node replaced by U/M, and the formula with it replaced by true. -/
structure FindWResult where
  fga : Node
  strong : Node
  tt : Node
  deriving Repr

mutual
/-- The function `replaceW`: the pair (tt variant, strong variant), `none`
for the pair of null pointers. -/
def replaceW (fga : Node) : Node → Option (Node × Node)
  | .mkAND cs =>
    match replaceWList fga cs with
    | (true, ttCopy, strongCopy) => some (Node.And ttCopy, Node.And strongCopy)
    | (false, _, _) => none
  | .mkOR cs =>
    match replaceWList fga cs with
    | (true, ttCopy, strongCopy) => some (Node.Or ttCopy, Node.Or strongCopy)
    | (false, _, _) => none
  | .mkX c =>
    match replaceW fga c with
    | some p => some (Node.X p.1, Node.X p.2)
    | none => none
  | .mkU a b =>
    match replaceW fga a, replaceW fga b with
    | none, none => none
    | ra, rb => some (Node.U (copyFst ra a) (copyFst rb b), Node.U (copySnd ra a) (copySnd rb b))
  | .mkM a b =>
    match replaceW fga a, replaceW fga b with
    | none, none => none
    | ra, rb => some (Node.M (copyFst ra a) (copyFst rb b), Node.M (copySnd ra a) (copySnd rb b))
  | .mkW a b => if Node.equal fga a then some (Node.tt, Node.U fga b) else none
  | .mkR a b => if Node.equal fga b then some (Node.tt, Node.M a fga) else none
  | _ => none
/-- The loop of `replaceW` over the children: `changed`, `tt_copy` and
`strong_copy`. -/
def replaceWList (fga : Node) : List Node → Bool × List Node × List Node
  | [] => (false, [], [])
  | c :: cs =>
    let res := replaceW fga c
    let rest := replaceWList fga cs
    (res.isSome || rest.1, copyFst res c :: rest.2.1, copySnd res c :: rest.2.2)
end

mutual
/-- The function `findW`: `none` when it returns false, the result when it
returns true. -/
def findW : Node → Option FindWResult
  | .mkAND cs =>
    match findWList cs with
    | some (fga, strongCopy, ttCopy) => some ⟨fga, Node.And strongCopy, Node.And ttCopy⟩
    | none => none
  | .mkOR cs =>
    match findWList cs with
    | some (fga, strongCopy, ttCopy) => some ⟨fga, Node.Or strongCopy, Node.Or ttCopy⟩
    | none => none
  | .mkX c =>
    match findW c with
    | some res => some ⟨res.fga, Node.X res.strong, Node.X res.tt⟩
    | none => none
  | .mkU a b =>
    match findW a with
    | some res =>
      let rb := replaceW res.fga b
      some ⟨res.fga, Node.U res.strong (copySnd rb b), Node.U res.tt (copyFst rb b)⟩
    | none =>
      match findW b with
      | some res => some ⟨res.fga, Node.U a res.strong, Node.U a res.tt⟩
      | none => none
  | .mkM a b =>
    match findW a with
    | some res =>
      let rb := replaceW res.fga b
      some ⟨res.fga, Node.M res.strong (copySnd rb b), Node.M res.tt (copyFst rb b)⟩
    | none =>
      match findW b with
      | some res => some ⟨res.fga, Node.M a res.strong, Node.M a res.tt⟩
      | none => none
  | .mkW a b => some ⟨a, Node.U a b, Node.tt⟩
  | .mkR a b => some ⟨b, Node.M a b, Node.tt⟩
  | .mkGF c => some ⟨c, Node.ff, Node.tt⟩
  | .mkFG c => some ⟨c, Node.ff, Node.tt⟩
  | _ => none
/-- The loop of `findW` over the children: the result is the argument of the
rule's FG, `strong_copy` and `tt_copy`. -/
def findWList : List Node → Option (Node × List Node × List Node)
  | [] => none
  | c :: cs =>
    match findW c with
    | some res =>
      let rest := replaceWList res.fga cs
      some (res.fga, res.strong :: rest.2.2, res.tt :: rest.2.1)
    | none =>
      match findWList cs with
      | some (fga, strongCopy, ttCopy) => some (fga, c :: strongCopy, c :: ttCopy)
      | none => none
end

/-- The value returned when nothing is left to repair: the node `existing`
when it is given, a new node otherwise. -/
def orExisting (existing : Option Node) (fresh : Node) : Node :=
  match existing with
  | some e => e
  | none => fresh

mutual
/-- The function `fixGFW`, with a recursion budget; `existing` is `none` for
the null pointer. -/
def fixGFW : Nat → Node → Option Node → Option Node
  | 0, _, _ => none
  | k + 1, node, existing =>
    match findW node with
    | some found => do
      let fg1 ← fixFGU k found.fga none
      let tt1 ← fixGFW k found.tt none
      let andNode := Node.And [fg1, tt1]
      let st1 ← fixGFW k found.strong none
      pure (Node.Or [st1, andNode])
    | none => pure (orExisting existing (Node.GF node))
/-- The function `fixFGU`, with a recursion budget. -/
def fixFGU : Nat → Node → Option Node → Option Node
  | 0, _, _ => none
  | k + 1, node, existing =>
    match findU node with
    | some found => do
      let gf1 ← fixGFW k found.gfa none
      let wk1 ← fixFGU k found.weak none
      let andNode := Node.And [gf1, wk1]
      let ff1 ← fixFGU k found.ff none
      pure (Node.Or [andNode, ff1])
    | none => pure (orExisting existing (Node.F (Node.G node)))
end

mutual
/-- The function `fixGF`; the budget is the one of `fixGFW` and `fixFGU`. -/
def fixGF (k : Nat) : Node → Option Node
  | .mkAND cs => do
    let copy ← fixGFList k cs
    pure (if copy != cs then Node.And copy else .mkAND cs)
  | .mkOR cs => do
    let copy ← fixGFList k cs
    pure (if copy != cs then Node.Or copy else .mkOR cs)
  | .mkGF c => fixGFW k c (some (.mkGF c))
  | .mkFG c => fixFGU k c (some (.mkFG c))
  | node => some node
/-- The loop of `fixGF` over the children. -/
def fixGFList (k : Nat) : List Node → Option (List Node)
  | [] => some []
  | c :: cs =>
    match fixGF k c, fixGFList k cs with
    | some d, some ds => some (d :: ds)
    | _, _ => none
end

/-! ## Complete normalization -/

/-- The function `normalize` with `removeGF` read as above; the budget is
given to each of the three passes.  `normalizeInPlace` below is the function
with the assignments in place of `removeGF`. -/
def normalize (k : Nat) (tree : Node) : Option Node := do
  let t1 ← removeWU k tree
  let t2 ← removeGF k t1
  fixGF k t2

end Normalizer

/-! ## Semantics over infinite words -/

/-- An infinite word: the set of atomic propositions that hold at each
position. -/
abbrev Word := Nat → Set String

mutual
/-- The formula holds on the word `w` read from position `i` on: the standard
semantics of LTL, a zero-child And being true and a zero-child Or false. -/
def sem : Node → Word → Nat → Prop
  | .tt, _, _ => True
  | .ff, _, _ => False
  | .ap name, w, i => name ∈ w i
  | .mkAND cs, w, i => semAll cs w i
  | .mkOR cs, w, i => semAny cs w i
  | .mkX c, w, i => sem c w (i + 1)
  | .mkU a b, w, i => ∃ j, i ≤ j ∧ sem b w j ∧ ∀ k, i ≤ k → k < j → sem a w k
  | .mkW a b, w, i =>
    (∃ j, i ≤ j ∧ sem b w j ∧ ∀ k, i ≤ k → k < j → sem a w k) ∨ ∀ k, i ≤ k → sem a w k
  | .mkR a b, w, i => ∀ j, i ≤ j → sem b w j ∨ ∃ k, i ≤ k ∧ k < j ∧ sem a w k
  | .mkM a b, w, i => ∃ j, i ≤ j ∧ sem a w j ∧ ∀ k, i ≤ k → k ≤ j → sem b w k
  | .mkGF c, w, i => ∀ k, i ≤ k → ∃ j, k ≤ j ∧ sem c w j
  | .mkFG c, w, i => ∃ k, i ≤ k ∧ ∀ j, k ≤ j → sem c w j
/-- Every formula of the list holds. -/
def semAll : List Node → Word → Nat → Prop
  | [], _, _ => True
  | c :: cs, w, i => sem c w i ∧ semAll cs w i
/-- Some formula of the list holds. -/
def semAny : List Node → Word → Nat → Prop
  | [], _, _ => False
  | c :: cs, w, i => sem c w i ∨ semAny cs w i
end

/-- Two formulas are satisfied by the same infinite words, from every
position on. -/
def LtlEquiv (f g : Node) : Prop :=
  ∀ (w : Word) (i : Nat), sem f w i ↔ sem g w i

/-! ## Shapes of formulas -/

mutual
/-- Some node of the formula is an Until or a StrongRelease node. -/
def hasStrong : Node → Bool
  | .mkAND cs => hasStrongAny cs
  | .mkOR cs => hasStrongAny cs
  | .mkX c => hasStrong c
  | .mkU _ _ => true
  | .mkM _ _ => true
  | .mkW a b => hasStrong a || hasStrong b
  | .mkR a b => hasStrong a || hasStrong b
  | .mkGF c => hasStrong c
  | .mkFG c => hasStrong c
  | _ => false
/-- Some formula of the list has an Until or a StrongRelease node. -/
def hasStrongAny : List Node → Bool
  | [] => false
  | c :: cs => hasStrong c || hasStrongAny cs
end

mutual
/-- Some node of the formula is a WeakUntil or a Release node. -/
def hasWeak : Node → Bool
  | .mkAND cs => hasWeakAny cs
  | .mkOR cs => hasWeakAny cs
  | .mkX c => hasWeak c
  | .mkU a b => hasWeak a || hasWeak b
  | .mkM a b => hasWeak a || hasWeak b
  | .mkW _ _ => true
  | .mkR _ _ => true
  | .mkGF c => hasWeak c
  | .mkFG c => hasWeak c
  | _ => false
/-- Some formula of the list has a WeakUntil or a Release node. -/
def hasWeakAny : List Node → Bool
  | [] => false
  | c :: cs => hasWeak c || hasWeakAny cs
end

mutual
/-- Some WeakUntil or Release node of the formula has an Until or a
StrongRelease node among its descendants. -/
def strongBelowWeak : Node → Bool
  | .mkAND cs => strongBelowWeakAny cs
  | .mkOR cs => strongBelowWeakAny cs
  | .mkX c => strongBelowWeak c
  | .mkU a b => strongBelowWeak a || strongBelowWeak b
  | .mkM a b => strongBelowWeak a || strongBelowWeak b
  | .mkW a b => hasStrong a || hasStrong b
  | .mkR a b => hasStrong a || hasStrong b
  | .mkGF c => strongBelowWeak c
  | .mkFG c => strongBelowWeak c
  | _ => false
/-- The same for some formula of the list. -/
def strongBelowWeakAny : List Node → Bool
  | [] => false
  | c :: cs => strongBelowWeak c || strongBelowWeakAny cs
end

mutual
/-- Some GF node of the formula has a WeakUntil or a Release node among its
descendants. -/
def weakBelowGF : Node → Bool
  | .mkAND cs => weakBelowGFAny cs
  | .mkOR cs => weakBelowGFAny cs
  | .mkX c => weakBelowGF c
  | .mkU a b => weakBelowGF a || weakBelowGF b
  | .mkM a b => weakBelowGF a || weakBelowGF b
  | .mkW a b => weakBelowGF a || weakBelowGF b
  | .mkR a b => weakBelowGF a || weakBelowGF b
  | .mkGF c => hasWeak c
  | .mkFG c => weakBelowGF c
  | _ => false
/-- The same for some formula of the list. -/
def weakBelowGFAny : List Node → Bool
  | [] => false
  | c :: cs => weakBelowGF c || weakBelowGFAny cs
end

mutual
/-- Some FG node of the formula has an Until or a StrongRelease node among its
descendants. -/
def strongBelowFG : Node → Bool
  | .mkAND cs => strongBelowFGAny cs
  | .mkOR cs => strongBelowFGAny cs
  | .mkX c => strongBelowFG c
  | .mkU a b => strongBelowFG a || strongBelowFG b
  | .mkM a b => strongBelowFG a || strongBelowFG b
  | .mkW a b => strongBelowFG a || strongBelowFG b
  | .mkR a b => strongBelowFG a || strongBelowFG b
  | .mkGF c => strongBelowFG c
  | .mkFG c => hasStrong c
  | _ => false
/-- The same for some formula of the list. -/
def strongBelowFGAny : List Node → Bool
  | [] => false
  | c :: cs => strongBelowFG c || strongBelowFGAny cs
end

/-! ## Measures for the recursion of the passes -/

mutual
/-- A weight that no smart constructor increases: constants weigh 0, an
And/Or node one more than its children and one per child, a binary temporal
node twice its children and one. -/
def wt : Node → Nat
  | .tt => 0
  | .ff => 0
  | .ap _ => 1
  | .mkAND cs => 1 + wtList cs
  | .mkOR cs => 1 + wtList cs
  | .mkX c => 1 + wt c
  | .mkU a b => 2 * (wt a + wt b) + 1
  | .mkW a b => 2 * (wt a + wt b) + 1
  | .mkR a b => 2 * (wt a + wt b) + 1
  | .mkM a b => 2 * (wt a + wt b) + 1
  | .mkGF c => 1 + wt c
  | .mkFG c => 1 + wt c
/-- The weight of a list of children: one more than its weight per child. -/
def wtList : List Node → Nat
  | [] => 0
  | c :: cs => wt c + 1 + wtList cs
end

mutual
/-- The number of Until and StrongRelease nodes. -/
def nStrong : Node → Nat
  | .mkAND cs => nStrongList cs
  | .mkOR cs => nStrongList cs
  | .mkX c => nStrong c
  | .mkU a b => 1 + nStrong a + nStrong b
  | .mkM a b => 1 + nStrong a + nStrong b
  | .mkW a b => nStrong a + nStrong b
  | .mkR a b => nStrong a + nStrong b
  | .mkGF c => nStrong c
  | .mkFG c => nStrong c
  | _ => 0
/-- The number of Until and StrongRelease nodes in a list. -/
def nStrongList : List Node → Nat
  | [] => 0
  | c :: cs => nStrong c + nStrongList cs
end

mutual
/-- The number of WeakUntil, Release, GF and FG nodes. -/
def nWeak : Node → Nat
  | .mkAND cs => nWeakList cs
  | .mkOR cs => nWeakList cs
  | .mkX c => nWeak c
  | .mkU a b => nWeak a + nWeak b
  | .mkM a b => nWeak a + nWeak b
  | .mkW a b => 1 + nWeak a + nWeak b
  | .mkR a b => 1 + nWeak a + nWeak b
  | .mkGF c => 1 + nWeak c
  | .mkFG c => 1 + nWeak c
  | _ => 0
/-- The number of WeakUntil, Release, GF and FG nodes in a list. -/
def nWeakList : List Node → Nat
  | [] => 0
  | c :: cs => nWeak c + nWeakList cs
end

mutual
/-- Some WeakUntil or Release node that is not below a GF or FG node has an
Until or a StrongRelease node below it that is not below a GF or FG node
either (`containsU` finds exactly such nodes). -/
def strongBelowWeakOutsideFairness : Node → Bool
  | .mkAND cs => strongBelowWeakOutsideFairnessAny cs
  | .mkOR cs => strongBelowWeakOutsideFairnessAny cs
  | .mkX c => strongBelowWeakOutsideFairness c
  | .mkU a b => strongBelowWeakOutsideFairness a || strongBelowWeakOutsideFairness b
  | .mkM a b => strongBelowWeakOutsideFairness a || strongBelowWeakOutsideFairness b
  | .mkW a b => Normalizer.containsU a || Normalizer.containsU b
  | .mkR a b => Normalizer.containsU a || Normalizer.containsU b
  | _ => false
/-- The same for some formula of the list. -/
def strongBelowWeakOutsideFairnessAny : List Node → Bool
  | [] => false
  | c :: cs => strongBelowWeakOutsideFairness c || strongBelowWeakOutsideFairnessAny cs
end

mutual
/-- No node of the formula is a GF node. -/
def noGF : Node → Bool
  | .mkAND cs => noGFAll cs
  | .mkOR cs => noGFAll cs
  | .mkX c => noGF c
  | .mkU a b => noGF a && noGF b
  | .mkW a b => noGF a && noGF b
  | .mkR a b => noGF a && noGF b
  | .mkM a b => noGF a && noGF b
  | .mkGF _ => false
  | .mkFG c => noGF c
  | _ => true
/-- No formula of the list has a GF node. -/
def noGFAll : List Node → Bool
  | [] => true
  | c :: cs => noGF c && noGFAll cs
end

mutual
/-- No GF node lies below an Until or a StrongRelease node of the formula. -/
def strongArgsNoGF : Node → Bool
  | .mkAND cs => strongArgsNoGFAll cs
  | .mkOR cs => strongArgsNoGFAll cs
  | .mkX c => strongArgsNoGF c
  | .mkU a b => noGF a && noGF b
  | .mkM a b => noGF a && noGF b
  | .mkW a b => strongArgsNoGF a && strongArgsNoGF b
  | .mkR a b => strongArgsNoGF a && strongArgsNoGF b
  | .mkGF c => strongArgsNoGF c
  | .mkFG c => strongArgsNoGF c
  | _ => true
/-- The same for every formula of the list. -/
def strongArgsNoGFAll : List Node → Bool
  | [] => true
  | c :: cs => strongArgsNoGF c && strongArgsNoGFAll cs
end

mutual
/-- No node of the formula is a GF or an FG node. -/
def fairFree : Node → Bool
  | .mkAND cs => fairFreeAll cs
  | .mkOR cs => fairFreeAll cs
  | .mkX c => fairFree c
  | .mkU a b => fairFree a && fairFree b
  | .mkW a b => fairFree a && fairFree b
  | .mkR a b => fairFree a && fairFree b
  | .mkM a b => fairFree a && fairFree b
  | .mkGF _ => false
  | .mkFG _ => false
  | _ => true
/-- No formula of the list has a GF or an FG node. -/
def fairFreeAll : List Node → Bool
  | [] => true
  | c :: cs => fairFree c && fairFreeAll cs
end

mutual
/-- Every GF or FG node of the formula is reached from the root through
And/Or nodes only (so none lies below a temporal operator or below another
GF or FG node). -/
def topFair : Node → Bool
  | .mkAND cs => topFairAll cs
  | .mkOR cs => topFairAll cs
  | .mkX c => fairFree c
  | .mkU a b => fairFree a && fairFree b
  | .mkW a b => fairFree a && fairFree b
  | .mkR a b => fairFree a && fairFree b
  | .mkM a b => fairFree a && fairFree b
  | .mkGF c => fairFree c
  | .mkFG c => fairFree c
  | _ => true
/-- The same for every formula of the list. -/
def topFairAll : List Node → Bool
  | [] => true
  | c :: cs => topFair c && topFairAll cs
end

/-! ## Predicates used in the proofs -/

open Normalizer

/-- The two copies of a child are not heavier than the child and have no more
U/M nodes, and fewer when the child was replaced. -/
def GoodU (res : Option (Node × Node)) (c : Node) : Prop :=
  wt (copyFst res c) ≤ wt c ∧ wt (copySnd res c) ≤ wt c ∧
  nStrong (copyFst res c) ≤ nStrong c ∧ nStrong (copySnd res c) ≤ nStrong c ∧
  (res.isSome = true → nStrong (copyFst res c) < nStrong c ∧ nStrong (copySnd res c) < nStrong c)

/-- What `findU` returns is smaller than the formula: the witness is lighter,
the two variants are not heavier and have fewer U/M nodes. -/
def FoundU (res : FindUResult) (n : Node) : Prop :=
  wt res.gfa < wt n ∧ wt res.ff ≤ wt n ∧ wt res.weak ≤ wt n ∧
  nStrong res.ff < nStrong n ∧ nStrong res.weak < nStrong n

/-- The same for the copies built by `replaceW` and the number of W/R/GF/FG
nodes. -/
def GoodW (res : Option (Node × Node)) (c : Node) : Prop :=
  wt (copyFst res c) ≤ wt c ∧ wt (copySnd res c) ≤ wt c ∧
  nWeak (copyFst res c) ≤ nWeak c ∧ nWeak (copySnd res c) ≤ nWeak c ∧
  (res.isSome = true → nWeak (copyFst res c) < nWeak c ∧ nWeak (copySnd res c) < nWeak c)

/-- What `findW` returns is smaller than the formula, for the number of
W/R/GF/FG nodes. -/
def FoundW (res : FindWResult) (n : Node) : Prop :=
  wt res.fga < wt n ∧ wt res.tt ≤ wt n ∧ wt res.strong ≤ wt n ∧
  nWeak res.tt < nWeak n ∧ nWeak res.strong < nWeak n

/-- Under the hypothesis `H` on the word and the position, `x` gives `y`. -/
def Imp (H : Word → Nat → Prop) (x y : Node) : Prop :=
  ∀ w i, H w i → sem x w i → sem y w i

/-- The hypothesis holds at every later position once it holds. -/
def Closed (H : Word → Nat → Prop) : Prop :=
  ∀ w i j, i ≤ j → H w i → H w j

/-- The formula holds infinitely often from the position on. -/
def InfOften (g : Node) (w : Word) (i : Nat) : Prop :=
  ∀ k, i ≤ k → ∃ j, k ≤ j ∧ sem g w j

/-- The formula never holds from the position on. -/
def Never (g : Node) (w : Word) (i : Nat) : Prop :=
  ∀ j, i ≤ j → ¬ sem g w j

/-- The formula always holds from the position on. -/
def Always (g : Node) (w : Word) (i : Nat) : Prop :=
  ∀ j, i ≤ j → sem g w j

/-- The formula fails infinitely often from the position on. -/
def InfFails (g : Node) (w : Word) (i : Nat) : Prop :=
  ∀ k, i ≤ k → ∃ j, k ≤ j ∧ ¬ sem g w j

/-- No hypothesis. -/
def NoHyp (_ : Word) (_ : Nat) : Prop := True

/-- The ff variant `f` and the weak variant `wk` of `c` for the witness `g`:
`f` gives `c` and `c` gives `wk`; `wk` gives `c` when `g` holds infinitely
often, and `c` gives `f` when `g` never holds. -/
structure VarU (g c f wk : Node) : Prop where
  ff_imp : Imp NoHyp f c
  imp_weak : Imp NoHyp c wk
  weak_imp : Imp (InfOften g) wk c
  imp_ff : Imp (Never g) c f

/-- The same for the copies of a list of children. -/
structure VarUList (g : Node) (cs fs ws : List Node) : Prop where
  ff_imp : List.Forall₂ (Imp NoHyp) fs cs
  imp_weak : List.Forall₂ (Imp NoHyp) cs ws
  weak_imp : List.Forall₂ (Imp (InfOften g)) ws cs
  imp_ff : List.Forall₂ (Imp (Never g)) cs fs

/-- The result of `replace` in both directions: it gives the formula when
`right` gives `left`, and the formula gives it when `left` gives `right`. -/
def ReplaceOk (H : Word → Nat → Prop) (left right n m : Node) : Prop :=
  (Imp H right left → Imp H m n) ∧ (Imp H left right → Imp H n m)

/-- A GF or FG node. -/
def IsFair (g : Node) : Prop :=
  (∃ c, g = .mkGF c) ∨ (∃ c, g = .mkFG c)

/-- The property holds for the constants and passes from the children to an
And, Or or Next node over them. -/
structure BoolClosed (P : Node → Bool) : Prop where
  tt : P .tt = true
  ff : P .ff = true
  mkAND : ∀ cs, (∀ c ∈ cs, P c = true) → P (.mkAND cs) = true
  mkOR : ∀ cs, (∀ c ∈ cs, P c = true) → P (.mkOR cs) = true
  mkX : ∀ c, P c = true → P (.mkX c) = true

/-- The strong variant `st` and the tt variant `tv` of `c` for the witness
`g`: `st` gives `c` and `c` gives `tv`; `tv` gives `c` when `g` always holds,
and `c` gives `st` when `g` fails infinitely often. -/
structure VarW (g c st tv : Node) : Prop where
  strong_imp : Imp NoHyp st c
  imp_tt : Imp NoHyp c tv
  tt_imp : Imp (Always g) tv c
  imp_strong : Imp (InfFails g) c st

/-- The same for the copies of a list of children. -/
structure VarWList (g : Node) (cs ss ts : List Node) : Prop where
  strong_imp : List.Forall₂ (Imp NoHyp) ss cs
  imp_tt : List.Forall₂ (Imp NoHyp) cs ts
  tt_imp : List.Forall₂ (Imp (Always g)) ts cs
  imp_strong : List.Forall₂ (Imp (InfFails g)) cs ss

/-! ## The formulas built by the public constructors, and `equal` again -/

namespace Node

/-- The field `name` of a node: the name of an atomic proposition, empty at
the other nodes. -/
def name : Node → String
  | .ap n => n
  | _ => ""

mutual
/-- The function `equal` of `tree.cc`, the comparison `left == right` of the
two references being the parameter `same`: true when the references are the
same, or when the left node is not an atomic proposition, both nodes have the
same kind and as many children, and the children are pairwise equal. -/
def equalWith (same : Node → Node → Bool) (left right : Node) : Bool :=
  if same left right then true
  else
    match left, right with
    | .tt, .tt => true
    | .ff, .ff => true
    | .mkAND as, .mkAND bs => equalWithList same as bs
    | .mkOR as, .mkOR bs => equalWithList same as bs
    | .mkX a, .mkX b => equalWith same a b
    | .mkU a b, .mkU c d => equalWith same a c && equalWith same b d
    | .mkW a b, .mkW c d => equalWith same a c && equalWith same b d
    | .mkR a b, .mkR c d => equalWith same a c && equalWith same b d
    | .mkM a b, .mkM c d => equalWith same a c && equalWith same b d
    | .mkGF a, .mkGF b => equalWith same a b
    | .mkFG a, .mkFG b => equalWith same a b
    | _, _ => false
/-- The loop of `equal` over two child vectors. -/
def equalWithList (same : Node → Node → Bool) : List Node → List Node → Bool
  | [], [] => true
  | a :: as, b :: bs => equalWith same a b && equalWithList same as bs
  | _, _ => false
end

end Node

/-- The nodes that the public constructors of `tree.hh` can return: the
private constructors being out of reach, every formula of a caller is one of
these. -/
inductive Built : Node → Prop
  | tt : Built .tt
  | ff : Built .ff
  | ap (name : String) : Built (.ap name)
  | X {a : Node} : Built a → Built (Node.X a)
  | And {args : List Node} : (∀ a ∈ args, Built a) → Built (Node.And args)
  | Or {args : List Node} : (∀ a ∈ args, Built a) → Built (Node.Or args)
  | U {a b : Node} : Built a → Built b → Built (Node.U a b)
  | W {a b : Node} : Built a → Built b → Built (Node.W a b)
  | R {a b : Node} : Built a → Built b → Built (Node.R a b)
  | M {a b : Node} : Built a → Built b → Built (Node.M a b)
  | GF {a : Node} : Built a → Built (Node.GF a)
  | FG {a : Node} : Built a → Built (Node.FG a)

/-- The word on which the atomic proposition `a` holds at the even positions
and nothing holds at the odd ones. -/
def evenWord : Word := fun i => if i % 2 = 0 then {"a"} else ∅

/-- The shape rule at the root of a formula: a WeakUntil node has not `True`
as right child, and a Release node has not `True` as left child. -/
def rootOk : Node → Bool
  | .mkW _ r => !Node.is r Op.TT
  | .mkR l _ => !Node.is l Op.TT
  | _ => true

/-! ## `findU` with its result parameter, and the measures of the recursions -/

namespace Normalizer

/-- The struct `FindUResult` as the caller of `findU` holds it: a field is
`none` as long as no node has been assigned to it. -/
structure FindUSlots where
  gfa : Option Node
  ff : Option Node
  weak : Option Node
  deriving Repr

mutual
/-- The function `findU` with its parameter `result`: the value returned and
the struct afterwards; `none` stands for the use of a field that holds no
node. -/
def findUOut : Node → FindUSlots → Option (Bool × FindUSlots)
  | .mkAND cs, s =>
    match findUOutList cs s with
    | none => none
    | some (none, s1) => some (false, s1)
    | some (some (ffCopy, weakCopy), s1) =>
      some (true, ⟨s1.gfa, some (Node.And ffCopy), some (Node.And weakCopy)⟩)
  | .mkOR cs, s =>
    match findUOutList cs s with
    | none => none
    | some (none, s1) => some (false, s1)
    | some (some (ffCopy, weakCopy), s1) =>
      some (true, ⟨s1.gfa, some (Node.Or ffCopy), some (Node.Or weakCopy)⟩)
  | .mkX c, s =>
    match findUOut c s with
    | none => none
    | some (false, s1) => some (false, s1)
    | some (true, s1) =>
      match s1.ff, s1.weak with
      | some f, some w => some (true, ⟨s1.gfa, some (Node.X f), some (Node.X w)⟩)
      | _, _ => none
  | .mkW a b, s =>
    match findUOut a s with
    | none => none
    | some (true, s1) =>
      match s1.gfa, s1.ff, s1.weak with
      | some g, some f, some w =>
        let rb := replaceU g b
        some (true, ⟨some g, some (Node.W f (copyFst rb b)), some (Node.W w (copySnd rb b))⟩)
      | _, _, _ => none
    | some (false, s1) =>
      match findUOut b s1 with
      | none => none
      | some (false, s2) => some (false, s2)
      | some (true, s2) =>
        match s2.ff, s2.weak with
        | some f, some w => some (true, ⟨s2.gfa, some (Node.W a f), some (Node.W a w)⟩)
        | _, _ => none
  | .mkR a b, s =>
    match findUOut a s with
    | none => none
    | some (true, s1) =>
      match s1.gfa, s1.ff, s1.weak with
      | some g, some f, some w =>
        let rb := replaceU g b
        some (true, ⟨some g, some (Node.R f (copyFst rb b)), some (Node.R w (copySnd rb b))⟩)
      | _, _, _ => none
    | some (false, s1) =>
      match findUOut b s1 with
      | none => none
      | some (false, s2) => some (false, s2)
      | some (true, s2) =>
        match s2.ff, s2.weak with
        | some f, some w => some (true, ⟨s2.gfa, some (Node.R a f), some (Node.R a w)⟩)
        | _, _ => none
  | .mkU a b, _ => some (true, ⟨some b, some Node.ff, some (Node.W a b)⟩)
  | .mkM a b, _ => some (true, ⟨some a, some Node.ff, some (Node.R a b)⟩)
  | _, s => some (false, s)
/-- The loop of `findU` over the children of an And/Or node: the two copies of
the children when a child returned true, and the struct afterwards.  The field
`gfa` is read only when a later child goes through `replaceU`. -/
def findUOutList : List Node → FindUSlots →
    Option (Option (List Node × List Node) × FindUSlots)
  | [], s => some (none, s)
  | c :: cs, s =>
    match findUOut c s with
    | none => none
    | some (true, s1) =>
      match s1.ff, s1.weak with
      | some f, some w =>
        match cs with
        | [] => some (some ([f], [w]), s1)
        | d :: ds =>
          match s1.gfa with
          | some g =>
            let rest := replaceUList g (d :: ds)
            some (some (f :: rest.2.1, w :: rest.2.2), s1)
          | none => none
      | _, _ => none
    | some (false, s1) =>
      match findUOutList cs s1 with
      | none => none
      | some (none, s2) => some (none, s2)
      | some (some (ffCopy, weakCopy), s2) => some (some (c :: ffCopy, c :: weakCopy), s2)
end

end Normalizer

/-- The lexicographic order on pairs of numbers. -/
def lexLt (x y : Nat × Nat) : Prop :=
  Prod.Lex (fun a b => a < b) (fun a b => a < b) x y

/-- The measure of a call of `removeWU`: the number of Until and StrongRelease
nodes of the argument, then its weight. -/
def measWU (n : Node) : Nat × Nat := (nStrong n, wt n)

/-- The measure of a call of `fixGFW`: the weight of the argument, then its
number of WeakUntil, Release, GF and FG nodes. -/
def measGFW (n : Node) : Nat × Nat := (wt n, nWeak n)

/-- The measure of a call of `fixFGU`: the weight of the argument, then its
number of Until and StrongRelease nodes. -/
def measFGU (n : Node) : Nat × Nat := (wt n, nStrong n)

/-- What `findU` leaves in its parameter: the three fields of the result when
it returns true, the struct as it was when it returns false. -/
def SlotsOk (n : Node) : Prop :=
  ∀ s, (∀ f, Normalizer.findU n = some f →
      Normalizer.findUOut n s = some (true, ⟨some f.gfa, some f.ff, some f.weak⟩)) ∧
    (Normalizer.findU n = none → Normalizer.findUOut n s = some (false, s))

/-! ## `removeGF` with its assignments in place

On an And/Or node `removeGF` assigns the new children to the node itself
(`child = newChild`), and `replace` returns the subtrees it has not changed as
they are, so that the tt variant, the ff variant and the formula they come
from can refer to the same And/Or node.  A node that `removeGF` rewrites while
it works on the tt variant is then read rewritten when the ff variant is
processed.

A formula is a tree here, so that the references are not part of it.  What
they add is taken as follows.  The state records every assignment, as the
value of the node before and after.  `removeGF` holds a reference across a
call of itself at five places: a child of an And/Or node that the loop has not
reached yet, a child that the loop has assigned (read when the node is
returned), the found node, the ff variant, and the node `andNode`.  At each
of them the formula is read through a `View`.  A node that the reference leads
to has either been rewritten, and then its value `old` has become `new` for an
assignment `(old, new)` of the state, or it has not; so the formula read comes
from the formula the reference was taken with by replacing occurrences of
`old` by `new`, for assignments of the state.  This is the relation `Seen`,
and a view is valid when it only returns such formulas.  What is proved of
`removeGFInPlace` is proved for every valid view, hence for the one that the
references of a run make: `sameView` is the case where no rewritten node is
referred to from elsewhere, `sharedView` the case where every occurrence of a
rewritten node is the node itself. -/

namespace Normalizer

/-- The assignments `child = newChild` done so far, latest first: for each
And/Or node that `removeGF` has gone through, the formula it was when the loop
over its children started and the formula it is after the loop. -/
abbrev Log := List (Node × Node)

/-- The value with which a reference is read: `view i log n` is the formula
found behind a reference that was taken when the node was `n`, at the read
number `i`, after the assignments of `log`.  Which occurrences of a rewritten
node are the rewritten node itself, and which are copies of it, is what a view
chooses; the read number lets it choose differently for two references with
the same formula. -/
abbrev View := Nat → Log → Node → Node

/-- The state that `removeGF` threads through its calls: the assignments done
and the number of reads made through the view. -/
structure GFState where
  log : Log
  reads : Nat

/-- The formulas of a list as they are read after the assignments of `log`,
the first one at read number `i`. -/
def readAll (view : View) (log : Log) : Nat → List Node → List Node
  | _, [] => []
  | i, c :: cs => view i log c :: readAll view log (i + 1) cs

/-- The loop `for (Node*& child : node->children)` of `removeGF`: each child
is read when the loop reaches it, after the calls on the children before
it. -/
def loopInPlace (call : GFState → Node → Option (Node × GFState)) (view : View) :
    GFState → List Node → Option (List Node × GFState)
  | s, [] => some ([], s)
  | s, c :: cs =>
    match call ⟨s.log, s.reads + 1⟩ (view s.reads s.log c) with
    | none => none
    | some (r, s1) =>
      match loopInPlace call view s1 cs with
      | none => none
      | some (rs, s2) => some (r :: rs, s2)

/-- The function `removeGF`, with a recursion budget, on the formula that its
argument is when the call starts.  An And/Or node keeps its identity: its
children are assigned in place, the node is not simplified again, and the
assignment is recorded.  Below the ff variant, the found node and the node
`andNode` are read after a call that may have rewritten nodes they refer
to. -/
def removeGFInPlace (view : View) : Nat → GFState → Node → Option (Node × GFState)
  | 0, _, _ => none
  | k + 1, s, node =>
    match node with
    | .mkAND cs =>
      match loopInPlace (removeGFInPlace view k) view s cs with
      | none => none
      | some (rs, s1) =>
        let now := Node.mkAND (readAll view s1.log s1.reads rs)
        some (now, ⟨(node, now) :: s1.log, s1.reads + rs.length⟩)
    | .mkOR cs =>
      match loopInPlace (removeGFInPlace view k) view s cs with
      | none => none
      | some (rs, s1) =>
        let now := Node.mkOR (readAll view s1.log s1.reads rs)
        some (now, ⟨(node, now) :: s1.log, s1.reads + rs.length⟩)
    | _ =>
      match findGF node false with
      | some found =>
        let ttVariant := replace found Node.tt node
        let ffVariant := replace found Node.ff node
        match removeGFInPlace view k s ttVariant with
        | none => none
        | some (tt1, s1) =>
          let andNode := Node.And [view s1.reads s1.log found, tt1]
          match removeGFInPlace view k ⟨s1.log, s1.reads + 2⟩
              (view (s1.reads + 1) s1.log ffVariant) with
          | none => none
          | some (ff1, s2) =>
            some (Node.Or [view s2.reads s2.log andNode, ff1], ⟨s2.log, s2.reads + 1⟩)
      | none => some (node, s)

/-- The function `normalize` with the assignments in place of `removeGF`; the
budget is given to each of the three passes. -/
def normalizeInPlace (view : View) (k : Nat) (tree : Node) : Option Node :=
  match removeWU k tree with
  | none => none
  | some t1 =>
    match removeGFInPlace view k ⟨[], 0⟩ t1 with
    | none => none
    | some (t2, _) => fixGF k t2

/-- The view when no rewritten node is referred to from elsewhere: every
reference is read with the value it was taken with. -/
def sameView : View := fun _ _ n => n

mutual
/-- Every occurrence of the formula `old` replaced by `new`. -/
def rewriteAll (old new : Node) (n : Node) : Node :=
  if n == old then new
  else
    match n with
    | .mkAND cs => .mkAND (rewriteAllList old new cs)
    | .mkOR cs => .mkOR (rewriteAllList old new cs)
    | .mkX c => .mkX (rewriteAll old new c)
    | .mkU a b => .mkU (rewriteAll old new a) (rewriteAll old new b)
    | .mkW a b => .mkW (rewriteAll old new a) (rewriteAll old new b)
    | .mkR a b => .mkR (rewriteAll old new a) (rewriteAll old new b)
    | .mkM a b => .mkM (rewriteAll old new a) (rewriteAll old new b)
    | .mkGF c => .mkGF (rewriteAll old new c)
    | .mkFG c => .mkFG (rewriteAll old new c)
    | other => other
/-- The same in every formula of a list. -/
def rewriteAllList (old new : Node) : List Node → List Node
  | [] => []
  | c :: cs => rewriteAll old new c :: rewriteAllList old new cs
end

/-- The view when every occurrence of a rewritten node is the node itself:
the assignments are applied to every occurrence, the earliest first. -/
def sharedView : View :=
  fun _ log n => log.foldr (fun p acc => rewriteAll p.1 p.2 acc) n

/-- The Or node `X (r ∧ (s ∨ (p W GF d))) ∨ e`. -/
def sharedOr : Node :=
  .mkOR [.mkX (.mkAND [.ap "r", .mkOR [.ap "s", .mkW (.ap "p") (.mkGF (.ap "d"))]]), .ap "e"]

/-- The formula `(GF b) R (X (r ∧ (s ∨ (p W GF d))) ∨ e)`.  Its tt variant
`True R y` is the Or node `y` itself and its ff variant is a new node
`False R y` over the same `y`, so that the ff variant refers to a node that
the call on the tt variant rewrites. -/
def sharedInput : Node :=
  .mkR (.mkGF (.ap "b")) sharedOr

/-- What the call of `removeGF` on the tt variant of `sharedInput` makes of
the node `sharedOr`: `((GF d ∧ X r) ∨ X (r ∧ (s ∨ (p W False)))) ∨ e`. -/
def sharedOrAfter : Node :=
  .mkOR [.mkOR [.mkAND [.mkGF (.ap "d"), .mkX (.ap "r")],
    .mkX (.mkAND [.ap "r", .mkOR [.ap "s", .mkW (.ap "p") .ff]])], .ap "e"]

/-- What `removeGF` returns on `sharedInput` when the ff variant is read with
the rewritten Or node. -/
def sharedOutput : Node :=
  .mkOR [.mkAND [.mkGF (.ap "b"), sharedOrAfter],
    .mkOR [.mkAND [.mkGF (.ap "d"),
        .mkR .ff (.mkOR [.mkOR [.mkX (.ap "r"),
          .mkX (.mkAND [.ap "r", .mkOR [.ap "s", .mkW (.ap "p") .ff]])], .ap "e"])],
      .mkR .ff (.mkOR [.mkX (.mkAND [.ap "r", .mkOR [.ap "s", .mkW (.ap "p") .ff]]),
        .ap "e"])]]

end Normalizer

/-! ## The measure of the recursion of `removeGF` in place -/

/-- Four to the power `n + 1`. -/
def pow4 (n : Nat) : Nat := 4 ^ (n + 1)

mutual
/-- A weight that no smart constructor increases and that is more than the
sum of the weights of the tt variant, the ff variant and the found node: an
And/Or node weighs one more than its children and one per child, a temporal
node four to the power of one more than the weight of its children. -/
def rankGF : Node → Nat
  | .tt => 0
  | .ff => 0
  | .ap _ => 1
  | .mkAND cs => 1 + rankGFList cs
  | .mkOR cs => 1 + rankGFList cs
  | .mkX c => pow4 (rankGF c)
  | .mkU a b => pow4 (rankGF a + rankGF b)
  | .mkW a b => pow4 (rankGF a + rankGF b)
  | .mkR a b => pow4 (rankGF a + rankGF b)
  | .mkM a b => pow4 (rankGF a + rankGF b)
  | .mkGF c => pow4 (rankGF c)
  | .mkFG c => pow4 (rankGF c)
/-- The weight of a list of children: one more than its weight per child. -/
def rankGFList : List Node → Nat
  | [] => 0
  | c :: cs => rankGF c + 1 + rankGFList cs
end

/-- The variant is lighter than the formula, and four times lighter when the
formula is not an And/Or node. -/
def Lighter (n m : Node) : Prop :=
  rankGF m < rankGF n ∧
    ((∀ cs, n ≠ .mkAND cs) → (∀ cs, n ≠ .mkOR cs) → 4 * rankGF m ≤ rankGF n)

/-! ## What a reference can be read with -/

/-- One occurrence of the formula `old` in a formula is replaced by `new`. -/
inductive Rewrite1 (old new : Node) : Node → Node → Prop
  | here : Rewrite1 old new old new
  | inAND (pre post : List Node) (c d : Node) : Rewrite1 old new c d →
      Rewrite1 old new (.mkAND (pre ++ c :: post)) (.mkAND (pre ++ d :: post))
  | inOR (pre post : List Node) (c d : Node) : Rewrite1 old new c d →
      Rewrite1 old new (.mkOR (pre ++ c :: post)) (.mkOR (pre ++ d :: post))
  | inX (c d : Node) : Rewrite1 old new c d → Rewrite1 old new (.mkX c) (.mkX d)
  | inU1 (a b d : Node) : Rewrite1 old new a d → Rewrite1 old new (.mkU a b) (.mkU d b)
  | inU2 (a b d : Node) : Rewrite1 old new b d → Rewrite1 old new (.mkU a b) (.mkU a d)
  | inW1 (a b d : Node) : Rewrite1 old new a d → Rewrite1 old new (.mkW a b) (.mkW d b)
  | inW2 (a b d : Node) : Rewrite1 old new b d → Rewrite1 old new (.mkW a b) (.mkW a d)
  | inR1 (a b d : Node) : Rewrite1 old new a d → Rewrite1 old new (.mkR a b) (.mkR d b)
  | inR2 (a b d : Node) : Rewrite1 old new b d → Rewrite1 old new (.mkR a b) (.mkR a d)
  | inM1 (a b d : Node) : Rewrite1 old new a d → Rewrite1 old new (.mkM a b) (.mkM d b)
  | inM2 (a b d : Node) : Rewrite1 old new b d → Rewrite1 old new (.mkM a b) (.mkM a d)
  | inGF (c d : Node) : Rewrite1 old new c d → Rewrite1 old new (.mkGF c) (.mkGF d)
  | inFG (c d : Node) : Rewrite1 old new c d → Rewrite1 old new (.mkFG c) (.mkFG d)

/-- One occurrence of a node that an assignment of the log has rewritten is
replaced by what the assignment has made of it. -/
def LogStep (log : Normalizer.Log) (n m : Node) : Prop :=
  ∃ p ∈ log, Rewrite1 p.1 p.2 n m

/-- The formula `m` can be found behind a reference taken when the node was
`n`: it comes from `n` by replacing, any number of times, an occurrence of a
node that an assignment of the log has rewritten by its new value. -/
def Seen (log : Normalizer.Log) (n m : Node) : Prop :=
  Relation.ReflTransGen (LogStep log) n m

/-- A view that reads every reference with a value it can have. -/
def ValidView (view : Normalizer.View) : Prop :=
  ∀ i log n, Seen log n (view i log n)

/-- What every assignment of a run of `removeGF` satisfies: the new value of
the node is equivalent to the old one and not heavier, and a node whose GF and
FG nodes are reached through And/Or nodes only is left as it is. -/
def LogOk (log : Normalizer.Log) : Prop :=
  ∀ p ∈ log, LtlEquiv p.2 p.1 ∧ rankGF p.2 ≤ rankGF p.1 ∧ (topFair p.1 = true → p.2 = p.1)

/-- What a call of `removeGF` on the formula `node` has done when it returns
`r` and leaves the state `s`: the assignments are as `LogOk` says, `r` is
equivalent to `node` and not heavier, its GF and FG nodes are reached through
And/Or nodes only, and it is `node` itself when this holds of `node`
already. -/
def RunOk (node r : Node) (s : Normalizer.GFState) : Prop :=
  LogOk s.log ∧ LtlEquiv r node ∧ topFair r = true ∧ rankGF r ≤ rankGF node ∧
    (topFair node = true → r = node)

/-- The same for a child of an And/Or node and what the loop assigns to its
place. -/
def ChildOk (c r : Node) : Prop :=
  LtlEquiv r c ∧ topFair r = true ∧ rankGF r ≤ rankGF c ∧ (topFair c = true → r = c)

/-! ## The node type: induction and equality -/

section NodeInduction

variable {P : Node → Prop}
  (htt : P .tt) (hff : P .ff) (hap : ∀ name, P (.ap name))
  (hand : ∀ cs, (∀ c ∈ cs, P c) → P (.mkAND cs))
  (hor : ∀ cs, (∀ c ∈ cs, P c) → P (.mkOR cs))
  (hx : ∀ c, P c → P (.mkX c))
  (hu : ∀ a b, P a → P b → P (.mkU a b))
  (hw : ∀ a b, P a → P b → P (.mkW a b))
  (hr : ∀ a b, P a → P b → P (.mkR a b))
  (hm : ∀ a b, P a → P b → P (.mkM a b))
  (hgf : ∀ c, P c → P (.mkGF c))
  (hfg : ∀ c, P c → P (.mkFG c))

include htt hff hap hand hor hx hu hw hr hm hgf hfg in
/-- Induction over formulas, with the hypothesis for every child of an
And/Or node. -/
theorem Node.induct : ∀ n, P n := by
  intro n
  refine @Node.rec P (fun cs => ∀ c ∈ cs, P c)
    htt hff hap hand hor hx hu hw hr hm hgf hfg ?_ ?_ n
  · intro c hc
    cases hc
  · intro hd tl h1 h2 c hc
    rcases List.mem_cons.mp hc with h | h
    · exact h ▸ h1
    · exact h2 c h

end NodeInduction

/-! ### Comparison of trees -/

theorem beqList_refl (cs : List Node) (h : ∀ c ∈ cs, Node.beq c c = true) :
    Node.beqList cs cs = true := by
  induction cs with
  | nil => simp [Node.beqList]
  | cons c cs ih =>
    simp only [Node.beqList, Bool.and_eq_true]
    exact ⟨h c (List.mem_cons_self _ _), ih (fun d hd => h d (List.mem_cons_of_mem _ hd))⟩

theorem beq_refl (n : Node) : Node.beq n n = true := by
  induction n using Node.induct with
  | hand cs ih => simpa [Node.beq] using beqList_refl cs ih
  | hor cs ih => simpa [Node.beq] using beqList_refl cs ih
  | _ => simp_all [Node.beq]

theorem eq_of_beqList (as : List Node)
    (h : ∀ a ∈ as, ∀ b, Node.beq a b = true → a = b) :
    ∀ bs, Node.beqList as bs = true → as = bs := by
  induction as with
  | nil =>
    intro bs hb
    cases bs with
    | nil => rfl
    | cons b bs => simp [Node.beqList] at hb
  | cons a as ih =>
    intro bs hb
    cases bs with
    | nil => simp [Node.beqList] at hb
    | cons b bs =>
      simp only [Node.beqList, Bool.and_eq_true] at hb
      rw [h a (List.mem_cons_self _ _) b hb.1,
        ih (fun d hd => h d (List.mem_cons_of_mem _ hd)) bs hb.2]

theorem eq_of_beq (a : Node) : ∀ b, Node.beq a b = true → a = b := by
  induction a using Node.induct with
  | htt => intro b h; cases b <;> simp [Node.beq] at h ⊢
  | hff => intro b h; cases b <;> simp [Node.beq] at h ⊢
  | hap name => intro b h; cases b <;> simp [Node.beq] at h ⊢; exact h
  | hand cs ih =>
    intro b h
    cases b <;> simp [Node.beq] at h ⊢
    exact eq_of_beqList cs ih _ h
  | hor cs ih =>
    intro b h
    cases b <;> simp [Node.beq] at h ⊢
    exact eq_of_beqList cs ih _ h
  | hx c ih => intro b h; cases b <;> simp [Node.beq] at h ⊢; exact ih _ h
  | hu a1 a2 ih1 ih2 =>
    intro b h; cases b <;> simp [Node.beq] at h ⊢; exact ⟨ih1 _ h.1, ih2 _ h.2⟩
  | hw a1 a2 ih1 ih2 =>
    intro b h; cases b <;> simp [Node.beq] at h ⊢; exact ⟨ih1 _ h.1, ih2 _ h.2⟩
  | hr a1 a2 ih1 ih2 =>
    intro b h; cases b <;> simp [Node.beq] at h ⊢; exact ⟨ih1 _ h.1, ih2 _ h.2⟩
  | hm a1 a2 ih1 ih2 =>
    intro b h; cases b <;> simp [Node.beq] at h ⊢; exact ⟨ih1 _ h.1, ih2 _ h.2⟩
  | hgf c ih => intro b h; cases b <;> simp [Node.beq] at h ⊢; exact ih _ h
  | hfg c ih => intro b h; cases b <;> simp [Node.beq] at h ⊢; exact ih _ h

instance : LawfulBEq Node where
  eq_of_beq := fun {a b} h => eq_of_beq a b h
  rfl := fun {a} => beq_refl a

instance : DecidableEq Node := fun a b =>
  decidable_of_iff ((a == b) = true) (by simp)

/-! ### The tests on the kind of a node -/

@[simp] theorem is_TT (n : Node) : Node.is n Op.TT = true ↔ n = .tt := by
  cases n <;> simp [Node.is, Node.type]

@[simp] theorem is_FF (n : Node) : Node.is n Op.FF = true ↔ n = .ff := by
  cases n <;> simp [Node.is, Node.type]

@[simp] theorem is_TT_false (n : Node) : Node.is n Op.TT = false ↔ n ≠ .tt := by
  cases n <;> simp [Node.is, Node.type]

@[simp] theorem is_FF_false (n : Node) : Node.is n Op.FF = false ↔ n ≠ .ff := by
  cases n <;> simp [Node.is, Node.type]

theorem is_GF (n : Node) : Node.is n Op.GF = true ↔ ∃ c, n = .mkGF c := by
  cases n <;> simp [Node.is, Node.type]

theorem is_FG (n : Node) : Node.is n Op.FG = true ↔ ∃ c, n = .mkFG c := by
  cases n <;> simp [Node.is, Node.type]

theorem isConstant_iff (n : Node) : n.isConstant = true ↔ n = .tt ∨ n = .ff := by
  cases n <;> simp [Node.isConstant, Node.type]

theorem isG_iff (n : Node) :
    n.isG = true ↔ (∃ a, n = .mkW a .ff) ∨ (∃ b, n = .mkR .ff b) := by
  cases n <;> simp [Node.isG]

theorem isF_iff (n : Node) :
    n.isF = true ↔ (∃ b, n = .mkU .tt b) ∨ (∃ a, n = .mkM a .tt) := by
  cases n <;> simp [Node.isF]

/-! ### The deep comparison `equal` -/

theorem equalList_imp (as : List Node)
    (h : ∀ a ∈ as, ∀ b, Node.equal a b = true → a = b) :
    ∀ bs, Node.equalList as bs = true → as = bs := by
  induction as with
  | nil =>
    intro bs hb
    cases bs with
    | nil => rfl
    | cons b bs => simp [Node.equalList] at hb
  | cons a as ih =>
    intro bs hb
    cases bs with
    | nil => simp [Node.equalList] at hb
    | cons b bs =>
      simp only [Node.equalList, Bool.and_eq_true] at hb
      rw [h a (List.mem_cons_self _ _) b hb.1,
        ih (fun d hd => h d (List.mem_cons_of_mem _ hd)) bs hb.2]

theorem equal_imp (a : Node) : ∀ b, Node.equal a b = true → a = b := by
  induction a using Node.induct with
  | htt => intro b h; cases b <;> simp [Node.equal] at h ⊢
  | hff => intro b h; cases b <;> simp [Node.equal] at h ⊢
  | hap name => intro b h; cases b <;> simp [Node.equal] at h ⊢; exact h
  | hand cs ih =>
    intro b h
    cases b <;> simp [Node.equal] at h ⊢
    rcases h with h | h
    · exact h
    · exact equalList_imp cs ih _ h
  | hor cs ih =>
    intro b h
    cases b <;> simp [Node.equal] at h ⊢
    rcases h with h | h
    · exact h
    · exact equalList_imp cs ih _ h
  | hx c ih =>
    intro b h; cases b <;> simp [Node.equal] at h ⊢
    rcases h with h | h
    · exact h
    · exact ih _ h
  | hu a1 a2 ih1 ih2 =>
    intro b h; cases b <;> simp [Node.equal] at h ⊢
    rcases h with h | h
    · exact h
    · exact ⟨ih1 _ h.1, ih2 _ h.2⟩
  | hw a1 a2 ih1 ih2 =>
    intro b h; cases b <;> simp [Node.equal] at h ⊢
    rcases h with h | h
    · exact h
    · exact ⟨ih1 _ h.1, ih2 _ h.2⟩
  | hr a1 a2 ih1 ih2 =>
    intro b h; cases b <;> simp [Node.equal] at h ⊢
    rcases h with h | h
    · exact h
    · exact ⟨ih1 _ h.1, ih2 _ h.2⟩
  | hm a1 a2 ih1 ih2 =>
    intro b h; cases b <;> simp [Node.equal] at h ⊢
    rcases h with h | h
    · exact h
    · exact ⟨ih1 _ h.1, ih2 _ h.2⟩
  | hgf c ih =>
    intro b h; cases b <;> simp [Node.equal] at h ⊢
    rcases h with h | h
    · exact h
    · exact ih _ h
  | hfg c ih =>
    intro b h; cases b <;> simp [Node.equal] at h ⊢
    rcases h with h | h
    · exact h
    · exact ih _ h

@[simp] theorem equal_iff (a b : Node) : Node.equal a b = true ↔ a = b := by
  constructor
  · exact equal_imp a b
  · intro h
    subst h
    unfold Node.equal
    simp

/-! ### Semantics of lists -/

theorem semAll_iff (cs : List Node) (w : Word) (i : Nat) :
    semAll cs w i ↔ ∀ c ∈ cs, sem c w i := by
  induction cs with
  | nil => simp [semAll]
  | cons c cs ih => simp [semAll, ih]

theorem semAny_iff (cs : List Node) (w : Word) (i : Nat) :
    semAny cs w i ↔ ∃ c ∈ cs, sem c w i := by
  induction cs with
  | nil => simp [semAny]
  | cons c cs ih => simp [semAny, ih]

theorem LtlEquiv.refl (f : Node) : LtlEquiv f f := fun _ _ => Iff.rfl

theorem LtlEquiv.symm {f g : Node} (h : LtlEquiv f g) : LtlEquiv g f :=
  fun w i => (h w i).symm

theorem LtlEquiv.trans {f g h : Node} (h1 : LtlEquiv f g) (h2 : LtlEquiv g h) :
    LtlEquiv f h := fun w i => (h1 w i).trans (h2 w i)

/-! ## The smart constructors preserve the semantics -/

theorem sem_mkGF_iff (c : Node) (w : Word) (i : Nat) :
    sem (.mkGF c) w i ↔ ∀ k, ∃ j, k ≤ j ∧ sem c w j := by
  simp only [sem]
  constructor
  · intro h k
    obtain ⟨j, hj, hs⟩ := h (max i k) (le_max_left _ _)
    exact ⟨j, le_trans (le_max_right _ _) hj, hs⟩
  · intro h k _
    exact h k

theorem sem_mkFG_iff (c : Node) (w : Word) (i : Nat) :
    sem (.mkFG c) w i ↔ ∃ k, ∀ j, k ≤ j → sem c w j := by
  simp only [sem]
  constructor
  · rintro ⟨k, _, h⟩
    exact ⟨k, h⟩
  · rintro ⟨k, h⟩
    exact ⟨max i k, le_max_left _ _, fun j hj => h j (le_trans (le_max_right _ _) hj)⟩

/-- The fairness operators do not depend on the position. -/
theorem sem_mkGF_shift (c : Node) (w : Word) (i j : Nat) :
    sem (.mkGF c) w i ↔ sem (.mkGF c) w j := by
  rw [sem_mkGF_iff, sem_mkGF_iff]

theorem sem_mkFG_shift (c : Node) (w : Word) (i j : Nat) :
    sem (.mkFG c) w i ↔ sem (.mkFG c) w j := by
  rw [sem_mkFG_iff, sem_mkFG_iff]

theorem semAll_filter_TT (args : List Node) (w : Word) (i : Nat) :
    semAll (args.filter (fun a => !Node.is a Op.TT)) w i ↔ semAll args w i := by
  simp only [semAll_iff, List.mem_filter]
  constructor
  · intro h c hc
    by_cases ht : c = .tt
    · subst ht; simp [sem]
    · exact h c ⟨hc, by simpa using ht⟩
  · intro h c hc
    exact h c hc.1

theorem semAny_filter_FF (args : List Node) (w : Word) (i : Nat) :
    semAny (args.filter (fun a => !Node.is a Op.FF)) w i ↔ semAny args w i := by
  simp only [semAny_iff, List.mem_filter]
  constructor
  · rintro ⟨c, hc, hs⟩
    exact ⟨c, hc.1, hs⟩
  · rintro ⟨c, hc, hs⟩
    refine ⟨c, ⟨hc, ?_⟩, hs⟩
    by_cases ht : c = .ff
    · subst ht; simp [sem] at hs
    · simpa using ht

theorem And_sem (args : List Node) (w : Word) (i : Nat) :
    sem (Node.And args) w i ↔ semAll args w i := by
  unfold Node.And
  split
  · rename_i h
    simp only [List.any_eq_true, is_FF] at h
    obtain ⟨c, hc, rfl⟩ := h
    simp only [sem, false_iff, semAll_iff, not_forall]
    exact ⟨.ff, hc, by simp [sem]⟩
  · rw [← semAll_filter_TT args w i]
    simp only
    split
    · rename_i a heq
      rw [heq]; simp [semAll]
    · simp [sem]

theorem Or_sem (args : List Node) (w : Word) (i : Nat) :
    sem (Node.Or args) w i ↔ semAny args w i := by
  unfold Node.Or
  split
  · rename_i h
    simp only [List.any_eq_true, is_TT] at h
    obtain ⟨c, hc, rfl⟩ := h
    simp only [sem, true_iff, semAny_iff]
    exact ⟨.tt, hc, by simp [sem]⟩
  · rw [← semAny_filter_FF args w i]
    simp only
    split
    · rename_i a heq
      rw [heq]; simp [semAny]
    · simp [sem]

theorem X_sem (arg : Node) (w : Word) (i : Nat) :
    sem (Node.X arg) w i ↔ sem (.mkX arg) w i := by
  unfold Node.X
  split
  · rename_i h
    simp only [Bool.or_eq_true, isConstant_iff, is_GF, is_FG] at h
    rcases h with (((rfl | rfl) | ⟨c, rfl⟩) | ⟨c, rfl⟩)
    · simp [sem]
    · simp [sem]
    · rw [sem]; exact sem_mkGF_shift c w i (i + 1)
    · rw [sem]; exact sem_mkFG_shift c w i (i + 1)
  · rfl

theorem sem_mkGF_mkX (c : Node) (w : Word) (i : Nat) :
    sem (.mkGF (.mkX c)) w i ↔ sem (.mkGF c) w i := by
  rw [sem_mkGF_iff, sem_mkGF_iff]
  simp only [sem]
  constructor
  · intro h k
    obtain ⟨j, hj, hs⟩ := h k
    exact ⟨j + 1, by omega, hs⟩
  · intro h k
    obtain ⟨j, hj, hs⟩ := h (k + 1)
    exact ⟨j - 1, by omega, by rwa [Nat.sub_add_cancel (by omega)]⟩

theorem sem_mkFG_mkX (c : Node) (w : Word) (i : Nat) :
    sem (.mkFG (.mkX c)) w i ↔ sem (.mkFG c) w i := by
  rw [sem_mkFG_iff, sem_mkFG_iff]
  simp only [sem]
  constructor
  · rintro ⟨k, h⟩
    refine ⟨k + 1, fun j hj => ?_⟩
    have := h (j - 1) (by omega)
    rwa [Nat.sub_add_cancel (by omega)] at this
  · rintro ⟨k, h⟩
    exact ⟨k, fun j hj => h (j + 1) (by omega)⟩

/-- `F x` as `tt U x`. -/
theorem sem_mkU_tt (b : Node) (w : Word) (i : Nat) :
    sem (.mkU .tt b) w i ↔ ∃ j, i ≤ j ∧ sem b w j := by
  simp [sem]

/-- `F x` as `x M tt`. -/
theorem sem_mkM_tt (a : Node) (w : Word) (i : Nat) :
    sem (.mkM a .tt) w i ↔ ∃ j, i ≤ j ∧ sem a w j := by
  simp [sem]

/-- `G x` as `x W ff`. -/
theorem sem_mkW_ff (a : Node) (w : Word) (i : Nat) :
    sem (.mkW a .ff) w i ↔ ∀ k, i ≤ k → sem a w k := by
  simp [sem]

/-- `G x` as `ff R x`. -/
theorem sem_mkR_ff (b : Node) (w : Word) (i : Nat) :
    sem (.mkR .ff b) w i ↔ ∀ k, i ≤ k → sem b w k := by
  simp [sem]

theorem sem_GF_of_F (f c : Node) (hf : ∀ w i, sem f w i ↔ ∃ j, i ≤ j ∧ sem c w j)
    (w : Word) (i : Nat) : sem (.mkGF f) w i ↔ sem (.mkGF c) w i := by
  simp only [sem_mkGF_iff, hf]
  constructor
  · intro h k
    obtain ⟨j, hj, j2, hj2, hs⟩ := h k
    exact ⟨j2, le_trans hj hj2, hs⟩
  · intro h k
    obtain ⟨j, hj, hs⟩ := h k
    exact ⟨j, hj, j, le_refl _, hs⟩

theorem sem_FG_of_G (f c : Node) (hf : ∀ w i, sem f w i ↔ ∀ j, i ≤ j → sem c w j)
    (w : Word) (i : Nat) : sem (.mkFG f) w i ↔ sem (.mkFG c) w i := by
  simp only [sem_mkFG_iff, hf]
  constructor
  · rintro ⟨k, h⟩
    exact ⟨k, fun j hj => h j hj j (le_refl _)⟩
  · rintro ⟨k, h⟩
    exact ⟨k, fun j hj j2 hj2 => h j2 (le_trans hj hj2)⟩

theorem GF_sem (arg : Node) : ∀ (w : Word) (i : Nat),
    sem (Node.GF arg) w i ↔ sem (.mkGF arg) w i := by
  induction arg using Node.induct with
  | htt => intro w i; simp only [Node.GF, sem, true_iff]; exact fun k _ => ⟨k, le_refl _, trivial⟩
  | hff => intro w i; simp only [Node.GF, sem, false_iff]; exact fun h => (h i (le_refl _)).elim fun _ h2 => h2.2
  | hx c ih => intro w i; rw [Node.GF, ih, sem_mkGF_mkX]
  | hu a b _ ihb =>
    intro w i
    by_cases ha : a = .tt
    · subst ha
      rw [Node.GF, ihb]
      exact (sem_GF_of_F _ b (sem_mkU_tt b) w i).symm
    · rw [Node.GF] <;> simp_all
  | hm a b iha _ =>
    intro w i
    by_cases hb : b = .tt
    · subst hb
      rw [Node.GF, iha]
      exact (sem_GF_of_F _ a (sem_mkM_tt a) w i).symm
    · rw [Node.GF] <;> simp_all
  | _ => intro w i; simp [Node.GF]

theorem FG_sem (arg : Node) : ∀ (w : Word) (i : Nat),
    sem (Node.FG arg) w i ↔ sem (.mkFG arg) w i := by
  induction arg using Node.induct with
  | htt => intro w i; simp only [Node.FG, sem, true_iff]; exact ⟨i, le_refl _, fun _ _ => trivial⟩
  | hff => intro w i; simp only [Node.FG, sem, false_iff]; exact fun ⟨k, _, h⟩ => h k (le_refl _)
  | hx c ih => intro w i; rw [Node.FG, ih, sem_mkFG_mkX]
  | hw a b iha _ =>
    intro w i
    by_cases hb : b = .ff
    · subst hb
      rw [Node.FG, iha]
      exact (sem_FG_of_G _ a (sem_mkW_ff a) w i).symm
    · rw [Node.FG] <;> simp_all
  | hr a b _ ihb =>
    intro w i
    by_cases ha : a = .ff
    · subst ha
      rw [Node.FG, ihb]
      exact (sem_FG_of_G _ b (sem_mkR_ff b) w i).symm
    · rw [Node.FG] <;> simp_all
  | _ => intro w i; simp [Node.FG]

theorem mapF_eq (cs : List Node) : Node.mapF cs = cs.map (fun c => Node.U .tt c) := by
  induction cs with
  | nil => simp [Node.mapF]
  | cons c cs ih => simp [Node.mapF, ih]

theorem mapG_eq (cs : List Node) : Node.mapG cs = cs.map (fun c => Node.W c .ff) := by
  induction cs with
  | nil => simp [Node.mapG]
  | cons c cs ih => simp [Node.mapG, ih]

/-! ### Facts of LTL used by the constructors -/

theorem sem_mkU_ff_left (r : Node) (w : Word) (i : Nat) :
    sem (.mkU .ff r) w i ↔ sem r w i := by
  simp only [sem]
  constructor
  · rintro ⟨j, hij, hr, hk⟩
    rcases Nat.eq_or_lt_of_le hij with h | h
    · rwa [h]
    · exact (hk i (le_refl _) h).elim
  · intro h
    exact ⟨i, le_refl _, h, fun k h1 h2 => absurd h2 (by omega)⟩

theorem sem_mkU_self (a : Node) (w : Word) (i : Nat) :
    sem (.mkU a a) w i ↔ sem a w i := by
  simp only [sem]
  constructor
  · rintro ⟨j, hij, hr, hk⟩
    rcases Nat.eq_or_lt_of_le hij with h | h
    · rwa [h]
    · exact hk i (le_refl _) h
  · intro h
    exact ⟨i, le_refl _, h, fun k h1 h2 => absurd h2 (by omega)⟩

/-- When `r` at a later position gives `r` now, `l U r` is `r`. -/
theorem sem_mkU_of_back (l r : Node) (w : Word)
    (hr : ∀ i j, i ≤ j → sem r w j → sem r w i) (i : Nat) :
    sem (.mkU l r) w i ↔ sem r w i := by
  simp only [sem]
  constructor
  · rintro ⟨j, hij, h, _⟩
    exact hr i j hij h
  · intro h
    exact ⟨i, le_refl _, h, fun k h1 h2 => absurd h2 (by omega)⟩

theorem sem_back_of_isF (r : Node) (h : r.isF = true) (w : Word) :
    ∀ i j, i ≤ j → sem r w j → sem r w i := by
  intro i j hij hs
  rcases (isF_iff r).mp h with ⟨b, rfl⟩ | ⟨a, rfl⟩
  · rw [sem_mkU_tt] at hs ⊢
    obtain ⟨k, hk, hs⟩ := hs
    exact ⟨k, le_trans hij hk, hs⟩
  · rw [sem_mkM_tt] at hs ⊢
    obtain ⟨k, hk, hs⟩ := hs
    exact ⟨k, le_trans hij hk, hs⟩

theorem sem_back_of_isConstant (r : Node) (h : r.isConstant = true) (w : Word) :
    ∀ i j, i ≤ j → sem r w j → sem r w i := by
  intro i j _ hs
  rcases (isConstant_iff r).mp h with rfl | rfl
  · simp [sem]
  · simp [sem] at hs

theorem sem_fwd_of_isG (l : Node) (h : l.isG = true) (w : Word) :
    ∀ i j, i ≤ j → sem l w i → sem l w j := by
  intro i j hij hs
  rcases (isG_iff l).mp h with ⟨a, rfl⟩ | ⟨b, rfl⟩
  · rw [sem_mkW_ff] at hs ⊢
    exact fun k hk => hs k (le_trans hij hk)
  · rw [sem_mkR_ff] at hs ⊢
    exact fun k hk => hs k (le_trans hij hk)

theorem sem_F_mkOR (cs : List Node) (w : Word) (i : Nat) :
    sem (.mkU .tt (.mkOR cs)) w i ↔ ∃ c ∈ cs, sem (.mkU .tt c) w i := by
  simp only [sem_mkU_tt]
  simp only [sem, semAny_iff]
  constructor
  · rintro ⟨j, hj, c, hc, hs⟩
    exact ⟨c, hc, j, hj, hs⟩
  · rintro ⟨c, hc, j, hj, hs⟩
    exact ⟨j, hj, c, hc, hs⟩

theorem sem_F_G (f a : Node) (hf : ∀ w i, sem f w i ↔ ∀ j, i ≤ j → sem a w j)
    (w : Word) (i : Nat) : sem (.mkU .tt f) w i ↔ sem (.mkFG a) w i := by
  simp only [sem_mkU_tt, hf]
  simp only [sem]

theorem sem_G_mkAND (cs : List Node) (w : Word) (i : Nat) :
    sem (.mkW (.mkAND cs) .ff) w i ↔ ∀ c ∈ cs, sem (.mkW c .ff) w i := by
  simp only [sem_mkW_ff]
  simp only [sem, semAll_iff]
  constructor
  · intro h c hc k hk
    exact h k hk c hc
  · intro h k hk c hc
    exact h c hc k hk

theorem sem_G_F (f a : Node) (hf : ∀ w i, sem f w i ↔ ∃ j, i ≤ j ∧ sem a w j)
    (w : Word) (i : Nat) : sem (.mkW f .ff) w i ↔ sem (.mkGF a) w i := by
  simp only [sem_mkW_ff, hf]
  simp only [sem]

theorem U_sem_aux (left right : Node)
    (hOr : ∀ cs, right = .mkOR cs → ∀ c ∈ cs, ∀ w i,
      sem (Node.U .tt c) w i ↔ sem (.mkU .tt c) w i)
    (w : Word) (i : Nat) :
    sem (Node.U left right) w i ↔ sem (.mkU left right) w i := by
  unfold Node.U
  split_ifs with h1 h2 h3
  · simp only [Bool.or_eq_true, is_FF, beq_iff_eq] at h1
    rcases h1 with rfl | rfl
    · exact (sem_mkU_ff_left right w i).symm
    · exact (sem_mkU_self left w i).symm
  · simp only [Bool.or_eq_true] at h2
    rcases h2 with h2 | h2
    · exact (sem_mkU_of_back left right w (sem_back_of_isConstant right h2 w) i).symm
    · exact (sem_mkU_of_back left right w (sem_back_of_isF right h2 w) i).symm
  · rw [is_TT] at h3
    subst h3
    split
    · rename_i cs
      rw [Or_sem, semAny_iff, sem_F_mkOR, mapF_eq]
      simp only [List.mem_map, exists_exists_and_eq_and]
      constructor
      · rintro ⟨c, hc, hs⟩
        exact ⟨c, hc, (hOr cs rfl c hc w i).mp hs⟩
      · rintro ⟨c, hc, hs⟩
        exact ⟨c, hc, (hOr cs rfl c hc w i).mpr hs⟩
    · rename_i a
      rw [FG_sem]
      exact (sem_F_G _ a (sem_mkW_ff a) w i).symm
    · rename_i b
      rw [FG_sem]
      exact (sem_F_G _ b (sem_mkR_ff b) w i).symm
    · rfl
  · rfl

theorem U_sem (left right : Node) (w : Word) (i : Nat) :
    sem (Node.U left right) w i ↔ sem (.mkU left right) w i := by
  revert left w i
  induction right using Node.induct with
  | hor cs ih =>
    intro left w i
    refine U_sem_aux left _ ?_ w i
    intro cs2 h c hc
    cases h
    exact ih c hc .tt
  | _ =>
    intro left w i
    refine U_sem_aux left _ ?_ w i
    intro cs2 h
    cases h

theorem F_sem (arg : Node) (w : Word) (i : Nat) :
    sem (Node.F arg) w i ↔ ∃ j, i ≤ j ∧ sem arg w j := by
  rw [Node.F, U_sem, sem_mkU_tt]

theorem sem_mkW_ff_left (r : Node) (w : Word) (i : Nat) :
    sem (.mkW .ff r) w i ↔ sem r w i := by
  simp only [sem]
  constructor
  · rintro (⟨j, hij, hr, hk⟩ | h)
    · rcases Nat.eq_or_lt_of_le hij with h | h
      · rwa [h]
      · exact (hk i (le_refl _) h).elim
    · exact (h i (le_refl _)).elim
  · intro h
    exact Or.inl ⟨i, le_refl _, h, fun k h1 h2 => absurd h2 (by omega)⟩

theorem sem_mkW_self (a : Node) (w : Word) (i : Nat) :
    sem (.mkW a a) w i ↔ sem a w i := by
  simp only [sem]
  constructor
  · rintro (⟨j, hij, hr, hk⟩ | h)
    · rcases Nat.eq_or_lt_of_le hij with h | h
      · rwa [h]
      · exact hk i (le_refl _) h
    · exact h i (le_refl _)
  · intro h
    exact Or.inl ⟨i, le_refl _, h, fun k h1 h2 => absurd h2 (by omega)⟩

theorem sem_mkW_tt_right (l : Node) (w : Word) (i : Nat) : sem (.mkW l .tt) w i := by
  simp only [sem]
  exact Or.inl ⟨i, le_refl _, trivial, fun k h1 h2 => absurd h2 (by omega)⟩

theorem sem_mkW_tt_left (r : Node) (w : Word) (i : Nat) : sem (.mkW .tt r) w i := by
  simp only [sem]
  exact Or.inr (fun _ _ => trivial)

/-- When `l` now gives `l` at every later position, `l W r` is `l ∨ r`. -/
theorem sem_mkW_of_fwd (l r : Node) (w : Word)
    (hl : ∀ i j, i ≤ j → sem l w i → sem l w j) (i : Nat) :
    sem (.mkW l r) w i ↔ sem l w i ∨ sem r w i := by
  simp only [sem]
  constructor
  · rintro (⟨j, hij, hr, hk⟩ | h)
    · rcases Nat.eq_or_lt_of_le hij with h | h
      · right; rwa [h]
      · left; exact hk i (le_refl _) h
    · left; exact h i (le_refl _)
  · rintro (h | h)
    · exact Or.inr (fun k hk => hl i k hk h)
    · exact Or.inl ⟨i, le_refl _, h, fun k h1 h2 => absurd h2 (by omega)⟩

theorem W_sem_aux (left right : Node)
    (hAnd : ∀ cs, left = .mkAND cs → ∀ c ∈ cs, ∀ w i,
      sem (Node.W c .ff) w i ↔ sem (.mkW c .ff) w i)
    (w : Word) (i : Nat) :
    sem (Node.W left right) w i ↔ sem (.mkW left right) w i := by
  unfold Node.W
  split_ifs with h1 h2 h3 h4 h5
  · simp only [Bool.or_eq_true, is_FF, beq_iff_eq] at h1
    rcases h1 with rfl | rfl
    · exact (sem_mkW_ff_left right w i).symm
    · exact (sem_mkW_self left w i).symm
  · rw [is_TT] at h2
    subst h2
    simp only [sem_mkW_tt_right, iff_true]
    simp [sem]
  · rw [is_TT] at h3
    subst h3
    simp only [sem_mkW_tt_left, iff_true]
    simp [sem]
  · rw [Or_sem, sem_mkW_of_fwd left right w (sem_fwd_of_isG left h4 w) i]
    simp [semAny]
  · rw [is_FF] at h5
    subst h5
    split
    · rename_i cs
      rw [And_sem, semAll_iff, sem_G_mkAND, mapG_eq]
      simp only [List.mem_map, forall_exists_index, and_imp, forall_apply_eq_imp_iff₂]
      constructor
      · intro h c hc
        exact (hAnd cs rfl c hc w i).mp (h c hc)
      · intro h c hc
        exact (hAnd cs rfl c hc w i).mpr (h c hc)
    · rename_i b
      rw [GF_sem]
      exact (sem_G_F _ b (sem_mkU_tt b) w i).symm
    · rename_i a
      rw [GF_sem]
      exact (sem_G_F _ a (sem_mkM_tt a) w i).symm
    · rfl
  · rfl

theorem W_sem (left right : Node) (w : Word) (i : Nat) :
    sem (Node.W left right) w i ↔ sem (.mkW left right) w i := by
  revert right w i
  induction left using Node.induct with
  | hand cs ih =>
    intro right w i
    refine W_sem_aux _ right ?_ w i
    intro cs2 h c hc
    cases h
    exact ih c hc .ff
  | _ =>
    intro right w i
    refine W_sem_aux _ right ?_ w i
    intro cs2 h
    cases h

theorem G_sem (arg : Node) (w : Word) (i : Nat) :
    sem (Node.G arg) w i ↔ ∀ k, i ≤ k → sem arg w k := by
  rw [Node.G, W_sem, sem_mkW_ff]

theorem sem_mkR_tt_left (r : Node) (w : Word) (i : Nat) :
    sem (.mkR .tt r) w i ↔ sem r w i := by
  simp only [sem]
  constructor
  · intro h
    rcases h i (le_refl _) with h | ⟨k, h1, h2, _⟩
    · exact h
    · omega
  · intro h j hj
    rcases Nat.eq_or_lt_of_le hj with h2 | h2
    · left; rwa [← h2]
    · right; exact ⟨i, le_refl _, h2, trivial⟩

theorem sem_mkR_self (a : Node) (w : Word) (i : Nat) :
    sem (.mkR a a) w i ↔ sem a w i := by
  simp only [sem]
  constructor
  · intro h
    rcases h i (le_refl _) with h | ⟨k, h1, h2, _⟩
    · exact h
    · omega
  · intro h j hj
    rcases Nat.eq_or_lt_of_le hj with h2 | h2
    · left; rwa [← h2]
    · right; exact ⟨i, le_refl _, h2, h⟩

/-- When `r` now gives `r` at every later position, `l R r` is `r`. -/
theorem sem_mkR_of_fwd (l r : Node) (w : Word)
    (hr : ∀ i j, i ≤ j → sem r w i → sem r w j) (i : Nat) :
    sem (.mkR l r) w i ↔ sem r w i := by
  simp only [sem]
  constructor
  · intro h
    rcases h i (le_refl _) with h | ⟨k, h1, h2, _⟩
    · exact h
    · omega
  · intro h j hj
    exact Or.inl (hr i j hj h)

theorem sem_fwd_of_isConstant (r : Node) (h : r.isConstant = true) (w : Word) :
    ∀ i j, i ≤ j → sem r w i → sem r w j := by
  intro i j _ hs
  rcases (isConstant_iff r).mp h with rfl | rfl
  · simp [sem]
  · simp [sem] at hs

theorem sem_mkR_ff_mkAND (cs : List Node) (w : Word) (i : Nat) :
    sem (.mkR .ff (.mkAND cs)) w i ↔ ∀ c ∈ cs, sem (.mkW c .ff) w i := by
  rw [sem_mkR_ff]
  simp only [sem_mkW_ff]
  simp only [sem, semAll_iff]
  constructor
  · intro h c hc k hk
    exact h k hk c hc
  · intro h k hk c hc
    exact h c hc k hk

theorem sem_mkR_ff_F (f a : Node) (hf : ∀ w i, sem f w i ↔ ∃ j, i ≤ j ∧ sem a w j)
    (w : Word) (i : Nat) : sem (.mkR .ff f) w i ↔ sem (.mkGF a) w i := by
  simp only [sem_mkR_ff, hf]
  simp only [sem]

theorem R_sem (left right : Node) (w : Word) (i : Nat) :
    sem (Node.R left right) w i ↔ sem (.mkR left right) w i := by
  unfold Node.R
  split_ifs with h1 h2 h3
  · simp only [Bool.or_eq_true, is_TT, beq_iff_eq] at h1
    rcases h1 with rfl | rfl
    · exact (sem_mkR_tt_left right w i).symm
    · exact (sem_mkR_self left w i).symm
  · simp only [Bool.or_eq_true] at h2
    rcases h2 with h2 | h2
    · exact (sem_mkR_of_fwd left right w (sem_fwd_of_isConstant right h2 w) i).symm
    · exact (sem_mkR_of_fwd left right w (sem_fwd_of_isG right h2 w) i).symm
  · rw [is_FF] at h3
    subst h3
    split
    · rename_i cs
      rw [And_sem, semAll_iff, sem_mkR_ff_mkAND, mapG_eq]
      simp only [List.mem_map, forall_exists_index, and_imp, forall_apply_eq_imp_iff₂]
      constructor
      · intro h c hc
        exact (W_sem c .ff w i).mp (h c hc)
      · intro h c hc
        exact (W_sem c .ff w i).mpr (h c hc)
    · rename_i b
      rw [GF_sem]
      exact (sem_mkR_ff_F _ b (sem_mkU_tt b) w i).symm
    · rename_i a
      rw [GF_sem]
      exact (sem_mkR_ff_F _ a (sem_mkM_tt a) w i).symm
    · rfl
  · rfl

theorem sem_mkM_tt_left (r : Node) (w : Word) (i : Nat) :
    sem (.mkM .tt r) w i ↔ sem r w i := by
  simp only [sem]
  constructor
  · rintro ⟨j, hij, _, hk⟩
    exact hk i (le_refl _) hij
  · intro h
    exact ⟨i, le_refl _, trivial, fun k h1 h2 => by rwa [show k = i by omega]⟩

theorem sem_mkM_self (a : Node) (w : Word) (i : Nat) :
    sem (.mkM a a) w i ↔ sem a w i := by
  simp only [sem]
  constructor
  · rintro ⟨j, hij, _, hk⟩
    exact hk i (le_refl _) hij
  · intro h
    exact ⟨i, le_refl _, h, fun k h1 h2 => by rwa [show k = i by omega]⟩

theorem sem_mkM_ff_right (l : Node) (w : Word) (i : Nat) : ¬ sem (.mkM l .ff) w i := by
  simp only [sem]
  rintro ⟨j, hij, _, hk⟩
  exact hk i (le_refl _) hij

theorem sem_mkM_ff_left (r : Node) (w : Word) (i : Nat) : ¬ sem (.mkM .ff r) w i := by
  simp only [sem]
  rintro ⟨j, _, h, _⟩
  exact h

/-- When `l` at a later position gives `l` now, `l M r` is `l ∧ r`. -/
theorem sem_mkM_of_back (l r : Node) (w : Word)
    (hl : ∀ i j, i ≤ j → sem l w j → sem l w i) (i : Nat) :
    sem (.mkM l r) w i ↔ sem l w i ∧ sem r w i := by
  simp only [sem]
  constructor
  · rintro ⟨j, hij, h, hk⟩
    exact ⟨hl i j hij h, hk i (le_refl _) hij⟩
  · rintro ⟨h1, h2⟩
    exact ⟨i, le_refl _, h1, fun k h3 h4 => by rwa [show k = i by omega]⟩

theorem sem_mkM_mkOR_tt (cs : List Node) (w : Word) (i : Nat) :
    sem (.mkM (.mkOR cs) .tt) w i ↔ ∃ c ∈ cs, sem (.mkU .tt c) w i := by
  rw [sem_mkM_tt]
  simp only [sem_mkU_tt]
  simp only [sem, semAny_iff]
  constructor
  · rintro ⟨j, hj, c, hc, hs⟩
    exact ⟨c, hc, j, hj, hs⟩
  · rintro ⟨c, hc, j, hj, hs⟩
    exact ⟨j, hj, c, hc, hs⟩

theorem sem_mkM_G_tt (f a : Node) (hf : ∀ w i, sem f w i ↔ ∀ j, i ≤ j → sem a w j)
    (w : Word) (i : Nat) : sem (.mkM f .tt) w i ↔ sem (.mkFG a) w i := by
  simp only [sem_mkM_tt, hf]
  simp only [sem]

theorem M_sem (left right : Node) (w : Word) (i : Nat) :
    sem (Node.M left right) w i ↔ sem (.mkM left right) w i := by
  unfold Node.M
  split_ifs with h1 h2 h3 h4 h5
  · simp only [Bool.or_eq_true, is_TT, beq_iff_eq] at h1
    rcases h1 with rfl | rfl
    · exact (sem_mkM_tt_left right w i).symm
    · exact (sem_mkM_self left w i).symm
  · rw [is_FF] at h2
    subst h2
    simp only [sem_mkM_ff_right, iff_false]
    simp [sem]
  · rw [is_FF] at h3
    subst h3
    simp only [sem_mkM_ff_left, iff_false]
    simp [sem]
  · rw [And_sem, sem_mkM_of_back left right w (sem_back_of_isF left h4 w) i]
    simp [semAll]
  · rw [is_TT] at h5
    subst h5
    split
    · rename_i cs
      rw [Or_sem, semAny_iff, sem_mkM_mkOR_tt, mapF_eq]
      simp only [List.mem_map, exists_exists_and_eq_and]
      constructor
      · rintro ⟨c, hc, hs⟩
        exact ⟨c, hc, (U_sem .tt c w i).mp hs⟩
      · rintro ⟨c, hc, hs⟩
        exact ⟨c, hc, (U_sem .tt c w i).mpr hs⟩
    · rename_i a
      rw [FG_sem]
      exact (sem_mkM_G_tt _ a (sem_mkW_ff a) w i).symm
    · rename_i b
      rw [FG_sem]
      exact (sem_mkM_G_tt _ b (sem_mkR_ff b) w i).symm
    · rfl
  · rfl

/-! ## The smart constructors do not increase the measures -/

theorem And_cases (args : List Node) :
    Node.And args = .ff ∨
    (∃ a, args.filter (fun a => !Node.is a Op.TT) = [a] ∧ Node.And args = a) ∨
    Node.And args = .mkAND (args.filter (fun a => !Node.is a Op.TT)) := by
  unfold Node.And
  split
  · exact Or.inl rfl
  · simp only
    split
    · rename_i a h
      exact Or.inr (Or.inl ⟨a, h, rfl⟩)
    · exact Or.inr (Or.inr rfl)

theorem Or_cases (args : List Node) :
    Node.Or args = .tt ∨
    (∃ a, args.filter (fun a => !Node.is a Op.FF) = [a] ∧ Node.Or args = a) ∨
    Node.Or args = .mkOR (args.filter (fun a => !Node.is a Op.FF)) := by
  unfold Node.Or
  split
  · exact Or.inl rfl
  · simp only
    split
    · rename_i a h
      exact Or.inr (Or.inl ⟨a, h, rfl⟩)
    · exact Or.inr (Or.inr rfl)

theorem wtList_filter_le (p : Node → Bool) (cs : List Node) :
    wtList (cs.filter p) ≤ wtList cs := by
  induction cs with
  | nil => simp
  | cons c cs ih =>
    by_cases h : p c = true
    · simp only [List.filter_cons_of_pos h, wtList]; omega
    · simp only [List.filter_cons_of_neg h, wtList]; omega

theorem nStrongList_filter_le (p : Node → Bool) (cs : List Node) :
    nStrongList (cs.filter p) ≤ nStrongList cs := by
  induction cs with
  | nil => simp
  | cons c cs ih =>
    by_cases h : p c = true
    · simp only [List.filter_cons_of_pos h, nStrongList]; omega
    · simp only [List.filter_cons_of_neg h, nStrongList]; omega

theorem nWeakList_filter_le (p : Node → Bool) (cs : List Node) :
    nWeakList (cs.filter p) ≤ nWeakList cs := by
  induction cs with
  | nil => simp
  | cons c cs ih =>
    by_cases h : p c = true
    · simp only [List.filter_cons_of_pos h, nWeakList]; omega
    · simp only [List.filter_cons_of_neg h, nWeakList]; omega

theorem wt_And_le (args : List Node) : wt (Node.And args) ≤ 1 + wtList args := by
  have hf := wtList_filter_le (fun a => !Node.is a Op.TT) args
  rcases And_cases args with h | ⟨a, h1, h2⟩ | h
  · rw [h]; simp [wt]
  · rw [h2]; rw [h1] at hf; simp only [wtList] at hf; omega
  · rw [h]; simp only [wt]; omega

theorem wt_Or_le (args : List Node) : wt (Node.Or args) ≤ 1 + wtList args := by
  have hf := wtList_filter_le (fun a => !Node.is a Op.FF) args
  rcases Or_cases args with h | ⟨a, h1, h2⟩ | h
  · rw [h]; simp [wt]
  · rw [h2]; rw [h1] at hf; simp only [wtList] at hf; omega
  · rw [h]; simp only [wt]; omega

theorem nStrong_And_le (args : List Node) : nStrong (Node.And args) ≤ nStrongList args := by
  have hf := nStrongList_filter_le (fun a => !Node.is a Op.TT) args
  rcases And_cases args with h | ⟨a, h1, h2⟩ | h
  · rw [h]; simp [nStrong]
  · rw [h2]; rw [h1] at hf; simp only [nStrongList] at hf; omega
  · rw [h]; simp only [nStrong]; omega

theorem nStrong_Or_le (args : List Node) : nStrong (Node.Or args) ≤ nStrongList args := by
  have hf := nStrongList_filter_le (fun a => !Node.is a Op.FF) args
  rcases Or_cases args with h | ⟨a, h1, h2⟩ | h
  · rw [h]; simp [nStrong]
  · rw [h2]; rw [h1] at hf; simp only [nStrongList] at hf; omega
  · rw [h]; simp only [nStrong]; omega

theorem nWeak_And_le (args : List Node) : nWeak (Node.And args) ≤ nWeakList args := by
  have hf := nWeakList_filter_le (fun a => !Node.is a Op.TT) args
  rcases And_cases args with h | ⟨a, h1, h2⟩ | h
  · rw [h]; simp [nWeak]
  · rw [h2]; rw [h1] at hf; simp only [nWeakList] at hf; omega
  · rw [h]; simp only [nWeak]; omega

theorem nWeak_Or_le (args : List Node) : nWeak (Node.Or args) ≤ nWeakList args := by
  have hf := nWeakList_filter_le (fun a => !Node.is a Op.FF) args
  rcases Or_cases args with h | ⟨a, h1, h2⟩ | h
  · rw [h]; simp [nWeak]
  · rw [h2]; rw [h1] at hf; simp only [nWeakList] at hf; omega
  · rw [h]; simp only [nWeak]; omega

theorem X_cases (arg : Node) : Node.X arg = arg ∨ Node.X arg = .mkX arg := by
  unfold Node.X
  split
  · exact Or.inl rfl
  · exact Or.inr rfl

theorem wt_X_le (arg : Node) : wt (Node.X arg) ≤ 1 + wt arg := by
  rcases X_cases arg with h | h <;> rw [h] <;> simp [wt]

theorem nStrong_X_le (arg : Node) : nStrong (Node.X arg) ≤ nStrong arg := by
  rcases X_cases arg with h | h <;> rw [h] <;> simp [nStrong]

theorem nWeak_X_le (arg : Node) : nWeak (Node.X arg) ≤ nWeak arg := by
  rcases X_cases arg with h | h <;> rw [h] <;> simp [nWeak]

theorem GF_measures (arg : Node) :
    wt (Node.GF arg) ≤ 1 + wt arg ∧ nStrong (Node.GF arg) ≤ nStrong arg ∧
    nWeak (Node.GF arg) ≤ 1 + nWeak arg := by
  induction arg using Node.induct with
  | hx c ih => rw [Node.GF]; simp only [wt, nStrong, nWeak]; omega
  | hu a b _ ihb =>
    by_cases ha : a = .tt
    · subst ha; rw [Node.GF]; simp only [wt, nStrong, nWeak]; omega
    · rw [Node.GF] <;> simp_all [wt, nStrong, nWeak]
  | hm a b iha _ =>
    by_cases hb : b = .tt
    · subst hb; rw [Node.GF]; simp only [wt, nStrong, nWeak]; omega
    · rw [Node.GF] <;> simp_all [wt, nStrong, nWeak]
  | _ => simp [Node.GF, wt, nStrong, nWeak]

theorem FG_measures (arg : Node) :
    wt (Node.FG arg) ≤ 1 + wt arg ∧ nStrong (Node.FG arg) ≤ nStrong arg ∧
    nWeak (Node.FG arg) ≤ 1 + nWeak arg := by
  induction arg using Node.induct with
  | hx c ih => rw [Node.FG]; simp only [wt, nStrong, nWeak]; omega
  | hw a b iha _ =>
    by_cases hb : b = .ff
    · subst hb; rw [Node.FG]; simp only [wt, nStrong, nWeak]; omega
    · rw [Node.FG] <;> simp_all [wt, nStrong, nWeak]
  | hr a b _ ihb =>
    by_cases ha : a = .ff
    · subst ha; rw [Node.FG]; simp only [wt, nStrong, nWeak]; omega
    · rw [Node.FG] <;> simp_all [wt, nStrong, nWeak]
  | _ => simp [Node.FG, wt, nStrong, nWeak]

theorem wt_pos (n : Node) (h1 : n ≠ .tt) (h2 : n ≠ .ff) : 1 ≤ wt n := by
  cases n <;> simp_all [wt]

theorem wt_pos_of_isG (n : Node) (h : n.isG = true) : 1 ≤ wt n := by
  rcases (isG_iff n).mp h with ⟨a, rfl⟩ | ⟨b, rfl⟩ <;> simp [wt]

theorem wt_pos_of_isF (n : Node) (h : n.isF = true) : 1 ≤ wt n := by
  rcases (isF_iff n).mp h with ⟨a, rfl⟩ | ⟨b, rfl⟩ <;> simp [wt]

theorem Or_pair_ff (l : Node) (h1 : l ≠ .tt) (h2 : l ≠ .ff) : Node.Or [l, .ff] = l := by
  have e1 : Node.is l Op.TT = false := by simpa using h1
  have e2 : Node.is l Op.FF = false := by simpa using h2
  have e3 : Node.is Node.ff Op.TT = false := rfl
  have e4 : Node.is Node.ff Op.FF = true := rfl
  simp [Node.Or, e1, e2, e3, e4]

theorem And_pair_tt (l : Node) (h1 : l ≠ .tt) (h2 : l ≠ .ff) : Node.And [l, .tt] = l := by
  have e1 : Node.is l Op.TT = false := by simpa using h1
  have e2 : Node.is l Op.FF = false := by simpa using h2
  have e3 : Node.is Node.tt Op.TT = true := rfl
  have e4 : Node.is Node.tt Op.FF = false := rfl
  simp [Node.And, e1, e2, e3, e4]

theorem ne_const_of_isG (l : Node) (h : l.isG = true) : l ≠ .tt ∧ l ≠ .ff := by
  rcases (isG_iff l).mp h with ⟨a, rfl⟩ | ⟨b, rfl⟩ <;> simp

theorem ne_const_of_isF (l : Node) (h : l.isF = true) : l ≠ .tt ∧ l ≠ .ff := by
  rcases (isF_iff l).mp h with ⟨a, rfl⟩ | ⟨b, rfl⟩ <;> simp

theorem wt_Or_pair_le (l r : Node) (hl : 1 ≤ wt l) (hl1 : l ≠ .tt) (hl2 : l ≠ .ff)
    (hr : r ≠ .tt) : wt (Node.Or [l, r]) ≤ 2 * (wt l + wt r) + 1 := by
  by_cases h : r = .ff
  · subst h
    rw [Or_pair_ff l hl1 hl2]; omega
  · have := wt_pos r hr h
    have h2 := wt_Or_le [l, r]
    simp only [wtList] at h2
    omega

theorem wt_And_pair_le (l r : Node) (hl : 1 ≤ wt l) (hl1 : l ≠ .tt) (hl2 : l ≠ .ff)
    (hr : r ≠ .ff) : wt (Node.And [l, r]) ≤ 2 * (wt l + wt r) + 1 := by
  by_cases h : r = .tt
  · subst h
    rw [And_pair_tt l hl1 hl2]; omega
  · have := wt_pos r h hr
    have h2 := wt_And_le [l, r]
    simp only [wtList] at h2
    omega

theorem W_measures_aux (left right : Node)
    (hAnd : ∀ cs, left = .mkAND cs → ∀ c ∈ cs,
      wt (Node.W c .ff) ≤ 2 * (wt c + wt Node.ff) + 1 ∧
      nStrong (Node.W c .ff) ≤ nStrong c + nStrong Node.ff) :
    wt (Node.W left right) ≤ 2 * (wt left + wt right) + 1 ∧
    nStrong (Node.W left right) ≤ nStrong left + nStrong right := by
  unfold Node.W
  split_ifs with h1 h2 h3 h4 h5
  · constructor <;> omega
  · simp [wt, nStrong]
  · simp [wt, nStrong]
  · rw [is_TT] at h2
    obtain ⟨e1, e2⟩ := ne_const_of_isG left h4
    refine ⟨wt_Or_pair_le left right (wt_pos_of_isG left h4) e1 e2 h2, ?_⟩
    have := nStrong_Or_le [left, right]
    simpa [nStrongList] using this
  · rw [is_FF] at h5
    subst h5
    split
    · rename_i cs
      have hw : wtList (Node.mapG cs) ≤ 2 * wtList cs := by
        have : ∀ ds : List Node, (∀ c ∈ ds, c ∈ cs) →
            wtList (Node.mapG ds) ≤ 2 * wtList ds := by
          intro ds
          induction ds with
          | nil => intro _; simp [Node.mapG, wtList]
          | cons d ds ih =>
            intro hm
            have h1 := (hAnd cs rfl d (hm d (List.mem_cons_self _ _))).1
            have h2 := ih (fun c hc => hm c (List.mem_cons_of_mem _ hc))
            simp only [Node.mapG, wtList, wt] at h1 h2 ⊢
            omega
        exact this cs (fun c hc => hc)
      have hs : nStrongList (Node.mapG cs) ≤ nStrongList cs := by
        have : ∀ ds : List Node, (∀ c ∈ ds, c ∈ cs) →
            nStrongList (Node.mapG ds) ≤ nStrongList ds := by
          intro ds
          induction ds with
          | nil => intro _; simp [Node.mapG, nStrongList]
          | cons d ds ih =>
            intro hm
            have h1 := (hAnd cs rfl d (hm d (List.mem_cons_self _ _))).2
            have h2 := ih (fun c hc => hm c (List.mem_cons_of_mem _ hc))
            simp only [Node.mapG, nStrongList, nStrong] at h1 h2 ⊢
            omega
        exact this cs (fun c hc => hc)
      have a1 := wt_And_le (Node.mapG cs)
      have a2 := nStrong_And_le (Node.mapG cs)
      simp only [wt, nStrong]
      constructor <;> omega
    · rename_i b
      have := GF_measures b
      simp only [wt, nStrong]
      constructor <;> omega
    · rename_i a
      have := GF_measures a
      simp only [wt, nStrong]
      constructor <;> omega
    · simp [wt, nStrong]
  · simp [wt, nStrong]

theorem W_measures (left right : Node) :
    wt (Node.W left right) ≤ 2 * (wt left + wt right) + 1 ∧
    nStrong (Node.W left right) ≤ nStrong left + nStrong right := by
  revert right
  induction left using Node.induct with
  | hand cs ih =>
    intro right
    refine W_measures_aux _ right ?_
    intro cs2 h c hc
    cases h
    exact ih c hc .ff
  | _ =>
    intro right
    refine W_measures_aux _ right ?_
    intro cs2 h
    cases h

theorem wtList_mapG_le (cs : List Node) : wtList (Node.mapG cs) ≤ 2 * wtList cs := by
  induction cs with
  | nil => simp [Node.mapG, wtList]
  | cons d ds ih =>
    have h1 := (W_measures d .ff).1
    simp only [Node.mapG, wtList, wt] at h1 ih ⊢
    omega

theorem nStrongList_mapG_le (cs : List Node) :
    nStrongList (Node.mapG cs) ≤ nStrongList cs := by
  induction cs with
  | nil => simp [Node.mapG, nStrongList]
  | cons d ds ih =>
    have h1 := (W_measures d .ff).2
    simp only [Node.mapG, nStrongList, nStrong] at h1 ih ⊢
    omega

theorem G_measures (arg : Node) :
    wt (Node.G arg) ≤ 2 * wt arg + 1 ∧ nStrong (Node.G arg) ≤ nStrong arg := by
  have := W_measures arg .ff
  simpa [Node.G, wt, nStrong] using this

theorem R_measures (left right : Node) :
    wt (Node.R left right) ≤ 2 * (wt left + wt right) + 1 ∧
    nStrong (Node.R left right) ≤ nStrong left + nStrong right := by
  unfold Node.R
  split_ifs with h1 h2 h3
  · constructor <;> omega
  · constructor <;> omega
  · rw [is_FF] at h3
    subst h3
    split
    · rename_i cs
      have hw := wtList_mapG_le cs
      have hs := nStrongList_mapG_le cs
      have a1 := wt_And_le (Node.mapG cs)
      have a2 := nStrong_And_le (Node.mapG cs)
      simp only [wt, nStrong]
      constructor <;> omega
    · rename_i b
      have := GF_measures b
      simp only [wt, nStrong]
      constructor <;> omega
    · rename_i a
      have := GF_measures a
      simp only [wt, nStrong]
      constructor <;> omega
    · simp [wt, nStrong]
  · simp [wt, nStrong]

theorem U_measures_aux (left right : Node)
    (hOr : ∀ cs, right = .mkOR cs → ∀ c ∈ cs,
      wt (Node.U .tt c) ≤ 2 * (wt Node.tt + wt c) + 1 ∧
      nWeak (Node.U .tt c) ≤ nWeak Node.tt + nWeak c) :
    wt (Node.U left right) ≤ 2 * (wt left + wt right) + 1 ∧
    nWeak (Node.U left right) ≤ nWeak left + nWeak right := by
  unfold Node.U
  split_ifs with h1 h2 h3
  · constructor <;> omega
  · constructor <;> omega
  · rw [is_TT] at h3
    subst h3
    split
    · rename_i cs
      have hw : wtList (Node.mapF cs) ≤ 2 * wtList cs := by
        have : ∀ ds : List Node, (∀ c ∈ ds, c ∈ cs) →
            wtList (Node.mapF ds) ≤ 2 * wtList ds := by
          intro ds
          induction ds with
          | nil => intro _; simp [Node.mapF, wtList]
          | cons d ds ih =>
            intro hm
            have h1 := (hOr cs rfl d (hm d (List.mem_cons_self _ _))).1
            have h2 := ih (fun c hc => hm c (List.mem_cons_of_mem _ hc))
            simp only [Node.mapF, wtList, wt] at h1 h2 ⊢
            omega
        exact this cs (fun c hc => hc)
      have hs : nWeakList (Node.mapF cs) ≤ nWeakList cs := by
        have : ∀ ds : List Node, (∀ c ∈ ds, c ∈ cs) →
            nWeakList (Node.mapF ds) ≤ nWeakList ds := by
          intro ds
          induction ds with
          | nil => intro _; simp [Node.mapF, nWeakList]
          | cons d ds ih =>
            intro hm
            have h1 := (hOr cs rfl d (hm d (List.mem_cons_self _ _))).2
            have h2 := ih (fun c hc => hm c (List.mem_cons_of_mem _ hc))
            simp only [Node.mapF, nWeakList, nWeak] at h1 h2 ⊢
            omega
        exact this cs (fun c hc => hc)
      have a1 := wt_Or_le (Node.mapF cs)
      have a2 := nWeak_Or_le (Node.mapF cs)
      simp only [wt, nWeak]
      constructor <;> omega
    · rename_i a
      have := FG_measures a
      simp only [wt, nWeak]
      constructor <;> omega
    · rename_i b
      have := FG_measures b
      simp only [wt, nWeak]
      constructor <;> omega
    · simp [wt, nWeak]
  · simp [wt, nWeak]

theorem U_measures (left right : Node) :
    wt (Node.U left right) ≤ 2 * (wt left + wt right) + 1 ∧
    nWeak (Node.U left right) ≤ nWeak left + nWeak right := by
  revert left
  induction right using Node.induct with
  | hor cs ih =>
    intro left
    refine U_measures_aux left _ ?_
    intro cs2 h c hc
    cases h
    exact ih c hc .tt
  | _ =>
    intro left
    refine U_measures_aux left _ ?_
    intro cs2 h
    cases h

theorem wtList_mapF_le (cs : List Node) : wtList (Node.mapF cs) ≤ 2 * wtList cs := by
  induction cs with
  | nil => simp [Node.mapF, wtList]
  | cons d ds ih =>
    have h1 := (U_measures .tt d).1
    simp only [Node.mapF, wtList, wt] at h1 ih ⊢
    omega

theorem nWeakList_mapF_le (cs : List Node) :
    nWeakList (Node.mapF cs) ≤ nWeakList cs := by
  induction cs with
  | nil => simp [Node.mapF, nWeakList]
  | cons d ds ih =>
    have h1 := (U_measures .tt d).2
    simp only [Node.mapF, nWeakList, nWeak] at h1 ih ⊢
    omega

theorem M_measures (left right : Node) :
    wt (Node.M left right) ≤ 2 * (wt left + wt right) + 1 ∧
    nWeak (Node.M left right) ≤ nWeak left + nWeak right := by
  unfold Node.M
  split_ifs with h1 h2 h3 h4 h5
  · constructor <;> omega
  · simp [wt, nWeak]
  · simp [wt, nWeak]
  · rw [is_FF] at h2
    obtain ⟨e1, e2⟩ := ne_const_of_isF left h4
    refine ⟨wt_And_pair_le left right (wt_pos_of_isF left h4) e1 e2 h2, ?_⟩
    have := nWeak_And_le [left, right]
    simpa [nWeakList] using this
  · rw [is_TT] at h5
    subst h5
    split
    · rename_i cs
      have hw := wtList_mapF_le cs
      have hs := nWeakList_mapF_le cs
      have a1 := wt_Or_le (Node.mapF cs)
      have a2 := nWeak_Or_le (Node.mapF cs)
      simp only [wt, nWeak]
      constructor <;> omega
    · rename_i a
      have := FG_measures a
      simp only [wt, nWeak]
      constructor <;> omega
    · rename_i b
      have := FG_measures b
      simp only [wt, nWeak]
      constructor <;> omega
    · simp [wt, nWeak]
  · simp [wt, nWeak]

open Normalizer

/-! ## The variants built by `findU` and `findW` are smaller -/

theorem GoodU_none (c : Node) : GoodU none c := by
  simp [GoodU, copyFst, copySnd]

theorem GoodU_some (c f w : Node) (h1 : wt f ≤ wt c) (h2 : wt w ≤ wt c)
    (h3 : nStrong f < nStrong c) (h4 : nStrong w < nStrong c) : GoodU (some (f, w)) c := by
  simp only [GoodU, copyFst, copySnd]
  exact ⟨h1, h2, le_of_lt h3, le_of_lt h4, fun _ => ⟨h3, h4⟩⟩

theorem replaceUList_good (gfa : Node) (cs : List Node)
    (h : ∀ c ∈ cs, GoodU (replaceU gfa c) c) :
    wtList (replaceUList gfa cs).2.1 ≤ wtList cs ∧
    wtList (replaceUList gfa cs).2.2 ≤ wtList cs ∧
    nStrongList (replaceUList gfa cs).2.1 ≤ nStrongList cs ∧
    nStrongList (replaceUList gfa cs).2.2 ≤ nStrongList cs ∧
    ((replaceUList gfa cs).1 = true →
      nStrongList (replaceUList gfa cs).2.1 < nStrongList cs ∧
      nStrongList (replaceUList gfa cs).2.2 < nStrongList cs) := by
  induction cs with
  | nil => simp [replaceUList, wtList, nStrongList]
  | cons c cs ih =>
    have hc := h c (List.mem_cons_self _ _)
    have ht := ih (fun d hd => h d (List.mem_cons_of_mem _ hd))
    obtain ⟨c1, c2, c3, c4, c5⟩ := hc
    obtain ⟨t1, t2, t3, t4, t5⟩ := ht
    simp only [replaceUList, wtList, nStrongList, Bool.or_eq_true]
    refine ⟨by omega, by omega, by omega, by omega, ?_⟩
    rintro (hh | hh)
    · have := c5 hh
      constructor <;> omega
    · have := t5 hh
      constructor <;> omega

theorem replaceU_good (gfa : Node) (n : Node) : GoodU (replaceU gfa n) n := by
  induction n using Node.induct with
  | hand cs ih =>
    have hl := replaceUList_good gfa cs ih
    rw [replaceU]
    rcases hr : replaceUList gfa cs with ⟨ch, fc, wc⟩
    rw [hr] at hl
    obtain ⟨t1, t2, t3, t4, t5⟩ := hl
    cases ch with
    | false => exact GoodU_none _
    | true =>
      have := t5 rfl
      have a1 := wt_And_le fc
      have a2 := wt_And_le wc
      have a3 := nStrong_And_le fc
      have a4 := nStrong_And_le wc
      simp only at t1 t2 t3 t4 this
      exact GoodU_some _ _ _ (by simp only [wt]; omega) (by simp only [wt]; omega)
        (by simp only [nStrong]; omega) (by simp only [nStrong]; omega)
  | hor cs ih =>
    have hl := replaceUList_good gfa cs ih
    rw [replaceU]
    rcases hr : replaceUList gfa cs with ⟨ch, fc, wc⟩
    rw [hr] at hl
    obtain ⟨t1, t2, t3, t4, t5⟩ := hl
    cases ch with
    | false => exact GoodU_none _
    | true =>
      have := t5 rfl
      have a1 := wt_Or_le fc
      have a2 := wt_Or_le wc
      have a3 := nStrong_Or_le fc
      have a4 := nStrong_Or_le wc
      simp only at t1 t2 t3 t4 this
      exact GoodU_some _ _ _ (by simp only [wt]; omega) (by simp only [wt]; omega)
        (by simp only [nStrong]; omega) (by simp only [nStrong]; omega)
  | hx c ih =>
    rw [replaceU]
    rcases hr : replaceU gfa c with _ | p
    · exact GoodU_none _
    · rw [hr] at ih
      obtain ⟨c1, c2, c3, c4, c5⟩ := ih
      have := c5 rfl
      simp only [copyFst, copySnd] at c1 c2 c3 c4 this
      have a1 := wt_X_le p.1
      have a2 := wt_X_le p.2
      have a3 := nStrong_X_le p.1
      have a4 := nStrong_X_le p.2
      exact GoodU_some _ _ _ (by simp only [wt]; omega) (by simp only [wt]; omega)
        (by simp only [nStrong]; omega) (by simp only [nStrong]; omega)
  | hw a b iha ihb =>
    rw [replaceU]
    obtain ⟨c1, c2, c3, c4, c5⟩ := iha
    obtain ⟨d1, d2, d3, d4, d5⟩ := ihb
    have a1 := W_measures (copyFst (replaceU gfa a) a) (copyFst (replaceU gfa b) b)
    have a2 := W_measures (copySnd (replaceU gfa a) a) (copySnd (replaceU gfa b) b)
    split
    · exact GoodU_none _
    · rename_i hne
      have hs : (replaceU gfa a).isSome = true ∨ (replaceU gfa b).isSome = true := by
        rcases ha : replaceU gfa a with _ | p
        · rcases hb : replaceU gfa b with _ | q
          · exact absurd hb (hne ha)
          · simp
        · simp
      refine GoodU_some _ _ _ (by simp only [wt]; omega) (by simp only [wt]; omega) ?_ ?_
      · simp only [nStrong]
        rcases hs with hs | hs
        · have := c5 hs; omega
        · have := d5 hs; omega
      · simp only [nStrong]
        rcases hs with hs | hs
        · have := c5 hs; omega
        · have := d5 hs; omega
  | hr a b iha ihb =>
    rw [replaceU]
    obtain ⟨c1, c2, c3, c4, c5⟩ := iha
    obtain ⟨d1, d2, d3, d4, d5⟩ := ihb
    have a1 := R_measures (copyFst (replaceU gfa a) a) (copyFst (replaceU gfa b) b)
    have a2 := R_measures (copySnd (replaceU gfa a) a) (copySnd (replaceU gfa b) b)
    split
    · exact GoodU_none _
    · rename_i hne
      have hs : (replaceU gfa a).isSome = true ∨ (replaceU gfa b).isSome = true := by
        rcases ha : replaceU gfa a with _ | p
        · rcases hb : replaceU gfa b with _ | q
          · exact absurd hb (hne ha)
          · simp
        · simp
      refine GoodU_some _ _ _ (by simp only [wt]; omega) (by simp only [wt]; omega) ?_ ?_
      · simp only [nStrong]
        rcases hs with hs | hs
        · have := c5 hs; omega
        · have := d5 hs; omega
      · simp only [nStrong]
        rcases hs with hs | hs
        · have := c5 hs; omega
        · have := d5 hs; omega
  | hu a b _ _ =>
    rw [replaceU]
    split
    · rename_i he
      rw [equal_iff] at he
      subst he
      have a1 := W_measures a gfa
      exact GoodU_some _ _ _ (by simp [wt]) (by simp only [wt]; omega)
        (by simp [nStrong]) (by simp only [nStrong]; omega)
    · exact GoodU_none _
  | hm a b _ _ =>
    rw [replaceU]
    split
    · rename_i he
      rw [equal_iff] at he
      subst he
      have a1 := R_measures gfa b
      exact GoodU_some _ _ _ (by simp [wt]) (by simp only [wt]; omega)
        (by simp [nStrong]) (by simp only [nStrong]; omega)
    · exact GoodU_none _
  | _ => rw [replaceU] <;> first | exact GoodU_none _ | simp

theorem findUList_found (cs : List Node)
    (h : ∀ c ∈ cs, ∀ res, findU c = some res → FoundU res c) :
    ∀ g fc wc, findUList cs = some (g, fc, wc) →
      wt g < wtList cs ∧ wtList fc ≤ wtList cs ∧ wtList wc ≤ wtList cs ∧
      nStrongList fc < nStrongList cs ∧ nStrongList wc < nStrongList cs := by
  induction cs with
  | nil => intro g fc wc hf; simp [findUList] at hf
  | cons c cs ih =>
    intro g fc wc hf
    rw [findUList] at hf
    rcases hc : findU c with _ | res
    · rw [hc] at hf
      rcases hl : findUList cs with _ | ⟨g2, fc2, wc2⟩
      · rw [hl] at hf; simp at hf
      · rw [hl] at hf
        simp only [Option.some.injEq, Prod.mk.injEq] at hf
        obtain ⟨rfl, rfl, rfl⟩ := hf
        have := ih (fun d hd => h d (List.mem_cons_of_mem _ hd)) _ _ _ hl
        simp only [wtList, nStrongList]
        omega
    · rw [hc] at hf
      simp only [Option.some.injEq, Prod.mk.injEq] at hf
      obtain ⟨rfl, rfl, rfl⟩ := hf
      obtain ⟨f1, f2, f3, f4, f5⟩ := h c (List.mem_cons_self _ _) res hc
      obtain ⟨t1, t2, t3, t4, _⟩ := replaceUList_good res.gfa cs
        (fun d _ => replaceU_good res.gfa d)
      simp only [wtList, nStrongList]
      omega

theorem findU_found (n : Node) : ∀ res, findU n = some res → FoundU res n := by
  induction n using Node.induct with
  | hand cs ih =>
    intro res hf
    rw [findU] at hf
    rcases hl : findUList cs with _ | ⟨g, fc, wc⟩
    · rw [hl] at hf; simp at hf
    · rw [hl] at hf
      simp only [Option.some.injEq] at hf
      subst hf
      have := findUList_found cs ih _ _ _ hl
      have a1 := wt_And_le fc
      have a2 := wt_And_le wc
      have a3 := nStrong_And_le fc
      have a4 := nStrong_And_le wc
      simp only [FoundU, wt, nStrong]
      omega
  | hor cs ih =>
    intro res hf
    rw [findU] at hf
    rcases hl : findUList cs with _ | ⟨g, fc, wc⟩
    · rw [hl] at hf; simp at hf
    · rw [hl] at hf
      simp only [Option.some.injEq] at hf
      subst hf
      have := findUList_found cs ih _ _ _ hl
      have a1 := wt_Or_le fc
      have a2 := wt_Or_le wc
      have a3 := nStrong_Or_le fc
      have a4 := nStrong_Or_le wc
      simp only [FoundU, wt, nStrong]
      omega
  | hx c ih =>
    intro res hf
    rw [findU] at hf
    rcases hc : findU c with _ | r
    · rw [hc] at hf; simp at hf
    · rw [hc] at hf
      simp only [Option.some.injEq] at hf
      subst hf
      obtain ⟨f1, f2, f3, f4, f5⟩ := ih r hc
      have a1 := wt_X_le r.ff
      have a2 := wt_X_le r.weak
      have a3 := nStrong_X_le r.ff
      have a4 := nStrong_X_le r.weak
      simp only [FoundU, wt, nStrong]
      omega
  | hw a b iha ihb =>
    intro res hf
    rw [findU] at hf
    rcases ha : findU a with _ | r
    · rw [ha] at hf
      rcases hb : findU b with _ | r
      · rw [hb] at hf; simp at hf
      · rw [hb] at hf
        simp only [Option.some.injEq] at hf
        subst hf
        obtain ⟨f1, f2, f3, f4, f5⟩ := ihb r hb
        have a1 := W_measures a r.ff
        have a2 := W_measures a r.weak
        simp only [FoundU, wt, nStrong]
        omega
    · rw [ha] at hf
      simp only [Option.some.injEq] at hf
      subst hf
      obtain ⟨f1, f2, f3, f4, f5⟩ := iha r ha
      obtain ⟨c1, c2, c3, c4, _⟩ := replaceU_good r.gfa b
      have a1 := W_measures r.ff (copyFst (replaceU r.gfa b) b)
      have a2 := W_measures r.weak (copySnd (replaceU r.gfa b) b)
      simp only [FoundU, wt, nStrong]
      omega
  | hr a b iha ihb =>
    intro res hf
    rw [findU] at hf
    rcases ha : findU a with _ | r
    · rw [ha] at hf
      rcases hb : findU b with _ | r
      · rw [hb] at hf; simp at hf
      · rw [hb] at hf
        simp only [Option.some.injEq] at hf
        subst hf
        obtain ⟨f1, f2, f3, f4, f5⟩ := ihb r hb
        have a1 := R_measures a r.ff
        have a2 := R_measures a r.weak
        simp only [FoundU, wt, nStrong]
        omega
    · rw [ha] at hf
      simp only [Option.some.injEq] at hf
      subst hf
      obtain ⟨f1, f2, f3, f4, f5⟩ := iha r ha
      obtain ⟨c1, c2, c3, c4, _⟩ := replaceU_good r.gfa b
      have a1 := R_measures r.ff (copyFst (replaceU r.gfa b) b)
      have a2 := R_measures r.weak (copySnd (replaceU r.gfa b) b)
      simp only [FoundU, wt, nStrong]
      omega
  | hu a b _ _ =>
    intro res hf
    rw [findU] at hf
    simp only [Option.some.injEq] at hf
    subst hf
    have a1 := W_measures a b
    simp only [FoundU, wt, nStrong]
    omega
  | hm a b _ _ =>
    intro res hf
    rw [findU] at hf
    simp only [Option.some.injEq] at hf
    subst hf
    have a1 := R_measures a b
    simp only [FoundU, wt, nStrong]
    omega
  | _ => intro res hf; simp [findU] at hf

theorem GoodW_none (c : Node) : GoodW none c := by
  simp [GoodW, copyFst, copySnd]

theorem GoodW_some (c f w : Node) (h1 : wt f ≤ wt c) (h2 : wt w ≤ wt c)
    (h3 : nWeak f < nWeak c) (h4 : nWeak w < nWeak c) : GoodW (some (f, w)) c := by
  simp only [GoodW, copyFst, copySnd]
  exact ⟨h1, h2, le_of_lt h3, le_of_lt h4, fun _ => ⟨h3, h4⟩⟩

theorem replaceWList_good (fga : Node) (cs : List Node)
    (h : ∀ c ∈ cs, GoodW (replaceW fga c) c) :
    wtList (replaceWList fga cs).2.1 ≤ wtList cs ∧
    wtList (replaceWList fga cs).2.2 ≤ wtList cs ∧
    nWeakList (replaceWList fga cs).2.1 ≤ nWeakList cs ∧
    nWeakList (replaceWList fga cs).2.2 ≤ nWeakList cs ∧
    ((replaceWList fga cs).1 = true →
      nWeakList (replaceWList fga cs).2.1 < nWeakList cs ∧
      nWeakList (replaceWList fga cs).2.2 < nWeakList cs) := by
  induction cs with
  | nil => simp [replaceWList, wtList, nWeakList]
  | cons c cs ih =>
    have hc := h c (List.mem_cons_self _ _)
    have ht := ih (fun d hd => h d (List.mem_cons_of_mem _ hd))
    obtain ⟨c1, c2, c3, c4, c5⟩ := hc
    obtain ⟨t1, t2, t3, t4, t5⟩ := ht
    simp only [replaceWList, wtList, nWeakList, Bool.or_eq_true]
    refine ⟨by omega, by omega, by omega, by omega, ?_⟩
    rintro (hh | hh)
    · have := c5 hh
      constructor <;> omega
    · have := t5 hh
      constructor <;> omega

theorem replaceW_good (fga : Node) (n : Node) : GoodW (replaceW fga n) n := by
  induction n using Node.induct with
  | hand cs ih =>
    have hl := replaceWList_good fga cs ih
    rw [replaceW]
    rcases hr : replaceWList fga cs with ⟨ch, fc, wc⟩
    rw [hr] at hl
    obtain ⟨t1, t2, t3, t4, t5⟩ := hl
    cases ch with
    | false => exact GoodW_none _
    | true =>
      have := t5 rfl
      have a1 := wt_And_le fc
      have a2 := wt_And_le wc
      have a3 := nWeak_And_le fc
      have a4 := nWeak_And_le wc
      simp only at t1 t2 t3 t4 this
      exact GoodW_some _ _ _ (by simp only [wt]; omega) (by simp only [wt]; omega)
        (by simp only [nWeak]; omega) (by simp only [nWeak]; omega)
  | hor cs ih =>
    have hl := replaceWList_good fga cs ih
    rw [replaceW]
    rcases hr : replaceWList fga cs with ⟨ch, fc, wc⟩
    rw [hr] at hl
    obtain ⟨t1, t2, t3, t4, t5⟩ := hl
    cases ch with
    | false => exact GoodW_none _
    | true =>
      have := t5 rfl
      have a1 := wt_Or_le fc
      have a2 := wt_Or_le wc
      have a3 := nWeak_Or_le fc
      have a4 := nWeak_Or_le wc
      simp only at t1 t2 t3 t4 this
      exact GoodW_some _ _ _ (by simp only [wt]; omega) (by simp only [wt]; omega)
        (by simp only [nWeak]; omega) (by simp only [nWeak]; omega)
  | hx c ih =>
    rw [replaceW]
    rcases hr : replaceW fga c with _ | p
    · exact GoodW_none _
    · rw [hr] at ih
      obtain ⟨c1, c2, c3, c4, c5⟩ := ih
      have := c5 rfl
      simp only [copyFst, copySnd] at c1 c2 c3 c4 this
      have a1 := wt_X_le p.1
      have a2 := wt_X_le p.2
      have a3 := nWeak_X_le p.1
      have a4 := nWeak_X_le p.2
      exact GoodW_some _ _ _ (by simp only [wt]; omega) (by simp only [wt]; omega)
        (by simp only [nWeak]; omega) (by simp only [nWeak]; omega)
  | hu a b iha ihb =>
    rw [replaceW]
    obtain ⟨c1, c2, c3, c4, c5⟩ := iha
    obtain ⟨d1, d2, d3, d4, d5⟩ := ihb
    have a1 := U_measures (copyFst (replaceW fga a) a) (copyFst (replaceW fga b) b)
    have a2 := U_measures (copySnd (replaceW fga a) a) (copySnd (replaceW fga b) b)
    split
    · exact GoodW_none _
    · rename_i hne
      have hs : (replaceW fga a).isSome = true ∨ (replaceW fga b).isSome = true := by
        rcases ha : replaceW fga a with _ | p
        · rcases hb : replaceW fga b with _ | q
          · exact absurd hb (hne ha)
          · simp
        · simp
      refine GoodW_some _ _ _ (by simp only [wt]; omega) (by simp only [wt]; omega) ?_ ?_
      · simp only [nWeak]
        rcases hs with hs | hs
        · have := c5 hs; omega
        · have := d5 hs; omega
      · simp only [nWeak]
        rcases hs with hs | hs
        · have := c5 hs; omega
        · have := d5 hs; omega
  | hm a b iha ihb =>
    rw [replaceW]
    obtain ⟨c1, c2, c3, c4, c5⟩ := iha
    obtain ⟨d1, d2, d3, d4, d5⟩ := ihb
    have a1 := M_measures (copyFst (replaceW fga a) a) (copyFst (replaceW fga b) b)
    have a2 := M_measures (copySnd (replaceW fga a) a) (copySnd (replaceW fga b) b)
    split
    · exact GoodW_none _
    · rename_i hne
      have hs : (replaceW fga a).isSome = true ∨ (replaceW fga b).isSome = true := by
        rcases ha : replaceW fga a with _ | p
        · rcases hb : replaceW fga b with _ | q
          · exact absurd hb (hne ha)
          · simp
        · simp
      refine GoodW_some _ _ _ (by simp only [wt]; omega) (by simp only [wt]; omega) ?_ ?_
      · simp only [nWeak]
        rcases hs with hs | hs
        · have := c5 hs; omega
        · have := d5 hs; omega
      · simp only [nWeak]
        rcases hs with hs | hs
        · have := c5 hs; omega
        · have := d5 hs; omega
  | hw a b _ _ =>
    rw [replaceW]
    split
    · rename_i he
      rw [equal_iff] at he
      subst he
      have a1 := U_measures fga b
      exact GoodW_some _ _ _ (by simp [wt]) (by simp only [wt]; omega)
        (by simp [nWeak]) (by simp only [nWeak]; omega)
    · exact GoodW_none _
  | hr a b _ _ =>
    rw [replaceW]
    split
    · rename_i he
      rw [equal_iff] at he
      subst he
      have a1 := M_measures a fga
      exact GoodW_some _ _ _ (by simp [wt]) (by simp only [wt]; omega)
        (by simp [nWeak]) (by simp only [nWeak]; omega)
    · exact GoodW_none _
  | _ => rw [replaceW] <;> first | exact GoodW_none _ | simp

theorem findWList_found (cs : List Node)
    (h : ∀ c ∈ cs, ∀ res, findW c = some res → FoundW res c) :
    ∀ g fc wc, findWList cs = some (g, fc, wc) →
      wt g < wtList cs ∧ wtList fc ≤ wtList cs ∧ wtList wc ≤ wtList cs ∧
      nWeakList fc < nWeakList cs ∧ nWeakList wc < nWeakList cs := by
  induction cs with
  | nil => intro g fc wc hf; simp [findWList] at hf
  | cons c cs ih =>
    intro g fc wc hf
    rw [findWList] at hf
    rcases hc : findW c with _ | res
    · rw [hc] at hf
      rcases hl : findWList cs with _ | ⟨g2, fc2, wc2⟩
      · rw [hl] at hf; simp at hf
      · rw [hl] at hf
        simp only [Option.some.injEq, Prod.mk.injEq] at hf
        obtain ⟨rfl, rfl, rfl⟩ := hf
        have := ih (fun d hd => h d (List.mem_cons_of_mem _ hd)) _ _ _ hl
        simp only [wtList, nWeakList]
        omega
    · rw [hc] at hf
      simp only [Option.some.injEq, Prod.mk.injEq] at hf
      obtain ⟨rfl, rfl, rfl⟩ := hf
      obtain ⟨f1, f2, f3, f4, f5⟩ := h c (List.mem_cons_self _ _) res hc
      obtain ⟨t1, t2, t3, t4, _⟩ := replaceWList_good res.fga cs
        (fun d _ => replaceW_good res.fga d)
      simp only [wtList, nWeakList]
      omega

theorem findW_found (n : Node) : ∀ res, findW n = some res → FoundW res n := by
  induction n using Node.induct with
  | hand cs ih =>
    intro res hf
    rw [findW] at hf
    rcases hl : findWList cs with _ | ⟨g, fc, wc⟩
    · rw [hl] at hf; simp at hf
    · rw [hl] at hf
      simp only [Option.some.injEq] at hf
      subst hf
      have := findWList_found cs ih _ _ _ hl
      have a1 := wt_And_le fc
      have a2 := wt_And_le wc
      have a3 := nWeak_And_le fc
      have a4 := nWeak_And_le wc
      simp only [FoundW, wt, nWeak]
      omega
  | hor cs ih =>
    intro res hf
    rw [findW] at hf
    rcases hl : findWList cs with _ | ⟨g, fc, wc⟩
    · rw [hl] at hf; simp at hf
    · rw [hl] at hf
      simp only [Option.some.injEq] at hf
      subst hf
      have := findWList_found cs ih _ _ _ hl
      have a1 := wt_Or_le fc
      have a2 := wt_Or_le wc
      have a3 := nWeak_Or_le fc
      have a4 := nWeak_Or_le wc
      simp only [FoundW, wt, nWeak]
      omega
  | hx c ih =>
    intro res hf
    rw [findW] at hf
    rcases hc : findW c with _ | r
    · rw [hc] at hf; simp at hf
    · rw [hc] at hf
      simp only [Option.some.injEq] at hf
      subst hf
      obtain ⟨f1, f2, f3, f4, f5⟩ := ih r hc
      have a1 := wt_X_le r.tt
      have a2 := wt_X_le r.strong
      have a3 := nWeak_X_le r.tt
      have a4 := nWeak_X_le r.strong
      simp only [FoundW, wt, nWeak]
      omega
  | hu a b iha ihb =>
    intro res hf
    rw [findW] at hf
    rcases ha : findW a with _ | r
    · rw [ha] at hf
      rcases hb : findW b with _ | r
      · rw [hb] at hf; simp at hf
      · rw [hb] at hf
        simp only [Option.some.injEq] at hf
        subst hf
        obtain ⟨f1, f2, f3, f4, f5⟩ := ihb r hb
        have a1 := U_measures a r.tt
        have a2 := U_measures a r.strong
        simp only [FoundW, wt, nWeak]
        omega
    · rw [ha] at hf
      simp only [Option.some.injEq] at hf
      subst hf
      obtain ⟨f1, f2, f3, f4, f5⟩ := iha r ha
      obtain ⟨c1, c2, c3, c4, _⟩ := replaceW_good r.fga b
      have a1 := U_measures r.tt (copyFst (replaceW r.fga b) b)
      have a2 := U_measures r.strong (copySnd (replaceW r.fga b) b)
      simp only [FoundW, wt, nWeak]
      omega
  | hm a b iha ihb =>
    intro res hf
    rw [findW] at hf
    rcases ha : findW a with _ | r
    · rw [ha] at hf
      rcases hb : findW b with _ | r
      · rw [hb] at hf; simp at hf
      · rw [hb] at hf
        simp only [Option.some.injEq] at hf
        subst hf
        obtain ⟨f1, f2, f3, f4, f5⟩ := ihb r hb
        have a1 := M_measures a r.tt
        have a2 := M_measures a r.strong
        simp only [FoundW, wt, nWeak]
        omega
    · rw [ha] at hf
      simp only [Option.some.injEq] at hf
      subst hf
      obtain ⟨f1, f2, f3, f4, f5⟩ := iha r ha
      obtain ⟨c1, c2, c3, c4, _⟩ := replaceW_good r.fga b
      have a1 := M_measures r.tt (copyFst (replaceW r.fga b) b)
      have a2 := M_measures r.strong (copySnd (replaceW r.fga b) b)
      simp only [FoundW, wt, nWeak]
      omega
  | hw a b _ _ =>
    intro res hf
    rw [findW] at hf
    simp only [Option.some.injEq] at hf
    subst hf
    have a1 := U_measures a b
    simp only [FoundW, wt, nWeak]
    omega
  | hr a b _ _ =>
    intro res hf
    rw [findW] at hf
    simp only [Option.some.injEq] at hf
    subst hf
    have a1 := M_measures a b
    simp only [FoundW, wt, nWeak]
    omega
  | hgf c _ =>
    intro res hf
    rw [findW] at hf
    simp only [Option.some.injEq] at hf
    subst hf
    simp only [FoundW, wt, nWeak]
    omega
  | hfg c _ =>
    intro res hf
    rw [findW] at hf
    simp only [Option.some.injEq] at hf
    subst hf
    simp only [FoundW, wt, nWeak]
    omega
  | _ => intro res hf; simp [findW] at hf

open Normalizer

/-! ## `replace` makes the formula lighter -/

theorem replaceList_wt_le (left right : Node) (cs : List Node)
    (h : ∀ c ∈ cs, wt (replace left right c) ≤ wt c) :
    wtList (replaceList left right cs) ≤ wtList cs := by
  induction cs with
  | nil => simp [replaceList]
  | cons c cs ih =>
    have h1 := h c (List.mem_cons_self _ _)
    have h2 := ih (fun d hd => h d (List.mem_cons_of_mem _ hd))
    simp only [replaceList, wtList]
    omega

theorem replace_wt_le (left right : Node) (hr : wt right = 0) (n : Node) :
    wt (replace left right n) ≤ wt n := by
  induction n using Node.induct with
  | hand cs ih =>
    have hl := replaceList_wt_le left right cs ih
    have a1 := wt_And_le (replaceList left right cs)
    rw [replace]
    try dsimp only
    split
    · simp only [wt]; omega
    · exact le_refl _
  | hor cs ih =>
    have hl := replaceList_wt_le left right cs ih
    have a1 := wt_Or_le (replaceList left right cs)
    rw [replace]
    try dsimp only
    split
    · simp only [wt]; omega
    · exact le_refl _
  | hx c ih =>
    have a1 := wt_X_le (replace left right c)
    rw [replace]
    try dsimp only
    split
    · simp only [wt]; omega
    · exact le_refl _
  | hu a b iha ihb =>
    have a1 := U_measures (replace left right a) (replace left right b)
    rw [replace]
    try dsimp only
    split
    · simp only [wt]; omega
    · exact le_refl _
  | hw a b iha ihb =>
    have a1 := W_measures (replace left right a) (replace left right b)
    rw [replace]
    try dsimp only
    split
    · simp only [wt]; omega
    · exact le_refl _
  | hr a b iha ihb =>
    have a1 := R_measures (replace left right a) (replace left right b)
    rw [replace]
    try dsimp only
    split
    · simp only [wt]; omega
    · exact le_refl _
  | hm a b iha ihb =>
    have a1 := M_measures (replace left right a) (replace left right b)
    rw [replace]
    try dsimp only
    split
    · simp only [wt]; omega
    · exact le_refl _
  | hgf c ih =>
    have a1 := GF_measures (replace left right c)
    rw [replace]
    split
    · omega
    · try dsimp only
      split
      · simp only [wt]; omega
      · exact le_refl _
  | hfg c ih =>
    have a1 := FG_measures (replace left right c)
    rw [replace]
    split
    · omega
    · try dsimp only
      split
      · simp only [wt]; omega
      · exact le_refl _
  | _ => simp [replace]

theorem sameFairness_self_GF (c : Node) : sameFairness Op.GF c (.mkGF c) = true := by
  simp [sameFairness]

theorem sameFairness_self_FG (c : Node) : sameFairness Op.FG c (.mkFG c) = true := by
  simp [sameFairness]

theorem findGFList_replace_lt (right : Node) (hr : wt right = 0) (cs : List Node)
    (h : ∀ c ∈ cs, ∀ p g, findGF c p = some g → wt (replace g right c) < wt c) :
    ∀ p g, findGFList cs p = some g → wtList (replaceList g right cs) < wtList cs := by
  induction cs with
  | nil => intro p g hf; simp [findGFList] at hf
  | cons c cs ih =>
    intro p g hf
    rw [findGFList] at hf
    simp only [replaceList, wtList]
    rcases hc : findGF c p with _ | g2
    · rw [hc] at hf
      have h1 := ih (fun d hd => h d (List.mem_cons_of_mem _ hd)) p g hf
      have h2 := replace_wt_le g right hr c
      omega
    · rw [hc] at hf
      simp only [Option.some.injEq] at hf
      subst hf
      have h1 := h c (List.mem_cons_self _ _) p g2 hc
      have h2 := replaceList_wt_le g2 right cs (fun d _ => replace_wt_le g2 right hr d)
      omega

theorem binary_replace_lt (right g a b : Node) (hr : wt right = 0)
    (iha : ∀ p g, findGF a p = some g → wt (replace g right a) < wt a)
    (ihb : ∀ p g, findGF b p = some g → wt (replace g right b) < wt b)
    (hf : (match findGF a true with
      | some g => some g
      | none => findGF b true) = some g) :
    wt (replace g right a) + wt (replace g right b) < wt a + wt b := by
  have ha := replace_wt_le g right hr a
  have hb := replace_wt_le g right hr b
  rcases hc : findGF a true with _ | g2
  · rw [hc] at hf
    have := ihb true g hf
    omega
  · rw [hc] at hf
    simp only [Option.some.injEq] at hf
    subst hf
    have := iha true g2 hc
    omega

theorem findGF_replace_lt (right : Node) (hr : wt right = 0) (n : Node) :
    ∀ p g, findGF n p = some g → wt (replace g right n) < wt n := by
  induction n using Node.induct with
  | hand cs ih =>
    intro p g hf
    rw [findGF] at hf
    have hl := findGFList_replace_lt right hr cs ih p g hf
    have a1 := wt_And_le (replaceList g right cs)
    rw [replace]
    try dsimp only
    split
    · simp only [wt]; omega
    · rename_i hne
      simp only [bne_iff_ne, ne_eq, Decidable.not_not] at hne
      rw [hne] at hl
      omega
  | hor cs ih =>
    intro p g hf
    rw [findGF] at hf
    have hl := findGFList_replace_lt right hr cs ih p g hf
    have a1 := wt_Or_le (replaceList g right cs)
    rw [replace]
    try dsimp only
    split
    · simp only [wt]; omega
    · rename_i hne
      simp only [bne_iff_ne, ne_eq, Decidable.not_not] at hne
      rw [hne] at hl
      omega
  | hx c ih =>
    intro p g hf
    rw [findGF] at hf
    have hl := ih true g hf
    have a1 := wt_X_le (replace g right c)
    rw [replace]
    try dsimp only
    split
    · simp only [wt]; omega
    · rename_i hne
      simp only [bne_iff_ne, ne_eq, Decidable.not_not] at hne
      rw [hne] at hl
      omega
  | hu a b iha ihb =>
    intro p g hf
    rw [findGF] at hf
    have hl := binary_replace_lt right g a b hr iha ihb hf
    have a1 := U_measures (replace g right a) (replace g right b)
    rw [replace]
    try dsimp only
    split
    · simp only [wt]; omega
    · rename_i hne
      simp only [Bool.or_eq_true, bne_iff_ne, ne_eq, not_or, Decidable.not_not] at hne
      rw [hne.1, hne.2] at hl
      omega
  | hw a b iha ihb =>
    intro p g hf
    rw [findGF] at hf
    have hl := binary_replace_lt right g a b hr iha ihb hf
    have a1 := W_measures (replace g right a) (replace g right b)
    rw [replace]
    try dsimp only
    split
    · simp only [wt]; omega
    · rename_i hne
      simp only [Bool.or_eq_true, bne_iff_ne, ne_eq, not_or, Decidable.not_not] at hne
      rw [hne.1, hne.2] at hl
      omega
  | hr a b iha ihb =>
    intro p g hf
    rw [findGF] at hf
    have hl := binary_replace_lt right g a b hr iha ihb hf
    have a1 := R_measures (replace g right a) (replace g right b)
    rw [replace]
    try dsimp only
    split
    · simp only [wt]; omega
    · rename_i hne
      simp only [Bool.or_eq_true, bne_iff_ne, ne_eq, not_or, Decidable.not_not] at hne
      rw [hne.1, hne.2] at hl
      omega
  | hm a b iha ihb =>
    intro p g hf
    rw [findGF] at hf
    have hl := binary_replace_lt right g a b hr iha ihb hf
    have a1 := M_measures (replace g right a) (replace g right b)
    rw [replace]
    try dsimp only
    split
    · simp only [wt]; omega
    · rename_i hne
      simp only [Bool.or_eq_true, bne_iff_ne, ne_eq, not_or, Decidable.not_not] at hne
      rw [hne.1, hne.2] at hl
      omega
  | hgf c ih =>
    intro p g hf
    rw [findGF] at hf
    rcases hc : findGF c true with _ | g2
    · simp only [hc] at hf
      split at hf
      · simp only [Option.some.injEq] at hf
        subst hf
        rw [replace, if_pos (sameFairness_self_GF c)]
        simp only [wt]; omega
      · simp at hf
    · rw [hc] at hf
      simp only [Option.some.injEq] at hf
      subst hf
      have hl := ih true g2 hc
      have a1 := GF_measures (replace g2 right c)
      rw [replace]
      split
      · simp only [wt]; omega
      · try dsimp only
        split
        · simp only [wt]; omega
        · rename_i hne
          simp only [bne_iff_ne, ne_eq, Decidable.not_not] at hne
          rw [hne] at hl
          omega
  | hfg c ih =>
    intro p g hf
    rw [findGF] at hf
    rcases hc : findGF c true with _ | g2
    · simp only [hc] at hf
      split at hf
      · simp only [Option.some.injEq] at hf
        subst hf
        rw [replace, if_pos (sameFairness_self_FG c)]
        simp only [wt]; omega
      · simp at hf
    · rw [hc] at hf
      simp only [Option.some.injEq] at hf
      subst hf
      have hl := ih true g2 hc
      have a1 := FG_measures (replace g2 right c)
      rw [replace]
      split
      · simp only [wt]; omega
      · try dsimp only
        split
        · simp only [wt]; omega
        · rename_i hne
          simp only [bne_iff_ne, ne_eq, Decidable.not_not] at hne
          rw [hne] at hl
          omega
  | _ => intro p g hf; simp [findGF] at hf

open Normalizer

/-! ## A larger recursion budget gives the same result -/

theorem mapOption_mono (f g : Node → Option Node) (cs : List Node)
    (h : ∀ c ∈ cs, ∀ r, f c = some r → g c = some r) :
    ∀ rs, mapOption f cs = some rs → mapOption g cs = some rs := by
  induction cs with
  | nil => intro rs hr; simpa [mapOption] using hr
  | cons c cs ih =>
    intro rs hr
    rw [mapOption] at hr ⊢
    rcases hc : f c with _ | d
    · rw [hc] at hr; simp at hr
    · rcases hl : mapOption f cs with _ | ds
      · rw [hc, hl] at hr; simp at hr
      · rw [hc, hl] at hr
        rw [h c (List.mem_cons_self _ _) d hc,
          ih (fun e he => h e (List.mem_cons_of_mem _ he)) ds hl]
        exact hr

theorem removeWU_succ (k : Nat) :
    ∀ n r, removeWU k n = some r → removeWU (k + 1) n = some r := by
  induction k with
  | zero => intro n r h; simp [removeWU] at h
  | succ k ih =>
    intro n r h
    cases n with
    | mkAND cs =>
      simp only [removeWU, bind, pure, Option.bind_eq_some] at h ⊢
      obtain ⟨copy, h1, h2⟩ := h
      exact ⟨copy, mapOption_mono _ _ cs (fun c _ => ih c) copy h1, h2⟩
    | mkOR cs =>
      simp only [removeWU, bind, pure, Option.bind_eq_some] at h ⊢
      obtain ⟨copy, h1, h2⟩ := h
      exact ⟨copy, mapOption_mono _ _ cs (fun c _ => ih c) copy h1, h2⟩
    | mkX c =>
      simp only [removeWU, bind, pure, Option.bind_eq_some] at h ⊢
      obtain ⟨c1, h1, h2⟩ := h
      exact ⟨c1, ih _ _ h1, h2⟩
    | mkU a b =>
      simp only [removeWU, bind, pure, Option.bind_eq_some] at h ⊢
      obtain ⟨a1, h1, b1, h2, h3⟩ := h
      exact ⟨a1, ih _ _ h1, b1, ih _ _ h2, h3⟩
    | mkM a b =>
      simp only [removeWU, bind, pure, Option.bind_eq_some] at h ⊢
      obtain ⟨a1, h1, b1, h2, h3⟩ := h
      exact ⟨a1, ih _ _ h1, b1, ih _ _ h2, h3⟩
    | mkW a b =>
      simp only [removeWU, bind, pure] at h ⊢
      split at h
      · rename_i hc
        rw [if_pos hc]
        simp only [Option.bind_eq_some] at h ⊢
        obtain ⟨a1, h1, b1, h2, g1, h3, h4⟩ := h
        exact ⟨a1, ih _ _ h1, b1, ih _ _ h2, g1, ih _ _ h3, h4⟩
      · rename_i hc
        rw [if_neg hc]
        rcases hf : findU a with _ | found
        · simp only [hf] at h ⊢
          exact h
        · simp only [hf, Option.bind_eq_some] at h ⊢
          obtain ⟨a1, h1, b1, h2, g1, h3, h4⟩ := h
          exact ⟨a1, ih _ _ h1, b1, ih _ _ h2, g1, ih _ _ h3, h4⟩
    | mkR a b =>
      simp only [removeWU, bind, pure] at h ⊢
      split at h
      · rename_i hc
        rw [if_pos hc]
        simp only [Option.bind_eq_some] at h ⊢
        obtain ⟨a1, h1, b1, h2, g1, h3, h4⟩ := h
        exact ⟨a1, ih _ _ h1, b1, ih _ _ h2, g1, ih _ _ h3, h4⟩
      · rename_i hc
        rw [if_neg hc]
        rcases hf : findU b with _ | found
        · simp only [hf] at h ⊢
          exact h
        · simp only [hf, Option.bind_eq_some] at h ⊢
          obtain ⟨a1, h1, b1, h2, g1, h3, h4⟩ := h
          exact ⟨a1, ih _ _ h1, b1, ih _ _ h2, g1, ih _ _ h3, h4⟩
    | _ => simpa [removeWU] using h

theorem removeWU_mono {k k2 : Nat} (hk : k ≤ k2) {n r : Node}
    (h : removeWU k n = some r) : removeWU k2 n = some r := by
  induction hk with
  | refl => exact h
  | step _ ih => exact removeWU_succ _ _ _ ih

theorem removeGF_other (k : Nat) (n : Node) (h1 : ∀ cs, n ≠ .mkAND cs)
    (h2 : ∀ cs, n ≠ .mkOR cs) :
    removeGF (k + 1) n =
      match findGF n false with
      | some found =>
        (removeGF k (replace found Node.tt n)).bind fun tt1 =>
          (removeGF k (replace found Node.ff n)).bind fun ff1 =>
            some (Node.Or [Node.And [found, tt1], ff1])
      | none => some n := by
  cases n with
  | mkAND cs => exact absurd rfl (h1 cs)
  | mkOR cs => exact absurd rfl (h2 cs)
  | _ => rfl

theorem removeGF_succ (k : Nat) :
    ∀ n r, removeGF k n = some r → removeGF (k + 1) n = some r := by
  induction k with
  | zero => intro n r h; simp [removeGF] at h
  | succ k ih =>
    intro n r h
    by_cases h1 : ∃ cs, n = .mkAND cs
    · obtain ⟨cs, rfl⟩ := h1
      simp only [removeGF, bind, pure, Option.bind_eq_some] at h ⊢
      obtain ⟨copy, h1, h2⟩ := h
      exact ⟨copy, mapOption_mono _ _ _ (fun c _ => ih c) copy h1, h2⟩
    by_cases h2 : ∃ cs, n = .mkOR cs
    · obtain ⟨cs, rfl⟩ := h2
      simp only [removeGF, bind, pure, Option.bind_eq_some] at h ⊢
      obtain ⟨copy, h1, h2⟩ := h
      exact ⟨copy, mapOption_mono _ _ _ (fun c _ => ih c) copy h1, h2⟩
    have e1 : ∀ cs, n ≠ .mkAND cs := fun cs hc => h1 ⟨cs, hc⟩
    have e2 : ∀ cs, n ≠ .mkOR cs := fun cs hc => h2 ⟨cs, hc⟩
    rw [removeGF_other _ n e1 e2] at h ⊢
    rcases hf : findGF n false with _ | found
    · simp only [hf] at h ⊢
      exact h
    · simp only [hf, Option.bind_eq_some] at h ⊢
      obtain ⟨t1, ht, f1, hff, hr⟩ := h
      exact ⟨t1, ih _ _ ht, f1, ih _ _ hff, hr⟩

theorem removeGF_mono {k k2 : Nat} (hk : k ≤ k2) {n r : Node}
    (h : removeGF k n = some r) : removeGF k2 n = some r := by
  induction hk with
  | refl => exact h
  | step _ ih => exact removeGF_succ _ _ _ ih

theorem fix_succ (k : Nat) :
    (∀ n e r, fixGFW k n e = some r → fixGFW (k + 1) n e = some r) ∧
    (∀ n e r, fixFGU k n e = some r → fixFGU (k + 1) n e = some r) := by
  induction k with
  | zero => constructor <;> intro n e r h <;> simp [fixGFW, fixFGU] at h
  | succ k ih =>
    constructor
    · intro n e r h
      rw [fixGFW] at h ⊢
      split at h
      · rename_i found hf
        simp only [bind, pure, Option.bind_eq_some] at h ⊢
        obtain ⟨a1, h1, b1, h2, c1, h3, h4⟩ := h
        exact ⟨a1, ih.2 _ _ _ h1, b1, ih.1 _ _ _ h2, c1, ih.1 _ _ _ h3, h4⟩
      · exact h
    · intro n e r h
      rw [fixFGU] at h ⊢
      split at h
      · rename_i found hf
        simp only [bind, pure, Option.bind_eq_some] at h ⊢
        obtain ⟨a1, h1, b1, h2, c1, h3, h4⟩ := h
        exact ⟨a1, ih.1 _ _ _ h1, b1, ih.2 _ _ _ h2, c1, ih.2 _ _ _ h3, h4⟩
      · exact h

theorem fixGFW_mono {k k2 : Nat} (hk : k ≤ k2) {n r : Node} {e : Option Node}
    (h : fixGFW k n e = some r) : fixGFW k2 n e = some r := by
  induction hk with
  | refl => exact h
  | step _ ih => exact (fix_succ _).1 _ _ _ ih

theorem fixFGU_mono {k k2 : Nat} (hk : k ≤ k2) {n r : Node} {e : Option Node}
    (h : fixFGU k n e = some r) : fixFGU k2 n e = some r := by
  induction hk with
  | refl => exact h
  | step _ ih => exact (fix_succ _).2 _ _ _ ih

open Normalizer

/-! ## The passes return a result when the budget is large enough -/

theorem mem_wtList_lt (cs : List Node) (c : Node) (h : c ∈ cs) : wt c < wtList cs := by
  induction cs with
  | nil => cases h
  | cons d ds ih =>
    simp only [wtList]
    rcases List.mem_cons.mp h with rfl | h
    · omega
    · have := ih h; omega

theorem mem_nStrongList_le (cs : List Node) (c : Node) (h : c ∈ cs) :
    nStrong c ≤ nStrongList cs := by
  induction cs with
  | nil => cases h
  | cons d ds ih =>
    simp only [nStrongList]
    rcases List.mem_cons.mp h with rfl | h
    · omega
    · have := ih h; omega

theorem containsUAny_nStrong (cs : List Node)
    (h : ∀ c ∈ cs, containsU c = true → 1 ≤ nStrong c) :
    containsUAny cs = true → 1 ≤ nStrongList cs := by
  induction cs with
  | nil => intro hc; simp [containsUAny] at hc
  | cons d ds ih =>
    intro hc
    simp only [containsUAny, Bool.or_eq_true] at hc
    simp only [nStrongList]
    rcases hc with hc | hc
    · have := h d (List.mem_cons_self _ _) hc; omega
    · have := ih (fun c hm => h c (List.mem_cons_of_mem _ hm)) hc; omega

theorem containsU_nStrong (n : Node) : containsU n = true → 1 ≤ nStrong n := by
  induction n using Node.induct with
  | hand cs ih => intro h; rw [containsU] at h; rw [nStrong]; exact containsUAny_nStrong cs ih h
  | hor cs ih => intro h; rw [containsU] at h; rw [nStrong]; exact containsUAny_nStrong cs ih h
  | hx c ih => intro h; rw [containsU] at h; rw [nStrong]; exact ih h
  | hw a b iha ihb =>
    intro h
    simp only [containsU, Bool.or_eq_true] at h
    simp only [nStrong]
    rcases h with h | h
    · have := iha h; omega
    · have := ihb h; omega
  | hr a b iha ihb =>
    intro h
    simp only [containsU, Bool.or_eq_true] at h
    simp only [nStrong]
    rcases h with h | h
    · have := iha h; omega
    · have := ihb h; omega
  | hu a b _ _ => intro _; simp only [nStrong]; omega
  | hm a b _ _ => intro _; simp only [nStrong]; omega
  | _ => intro h; simp [containsU] at h

theorem mapOption_total (f : Nat → Node → Option Node)
    (hmono : ∀ k k2 n r, k ≤ k2 → f k n = some r → f k2 n = some r)
    (cs : List Node) (h : ∀ c ∈ cs, ∃ k r, f k c = some r) :
    ∃ k rs, mapOption (f k) cs = some rs := by
  induction cs with
  | nil => exact ⟨0, [], rfl⟩
  | cons c cs ih =>
    obtain ⟨k1, r, hr⟩ := h c (List.mem_cons_self _ _)
    obtain ⟨k2, rs, hrs⟩ := ih (fun d hd => h d (List.mem_cons_of_mem _ hd))
    refine ⟨k1 + k2, r :: rs, ?_⟩
    rw [mapOption, hmono k1 (k1 + k2) c r (by omega) hr,
      mapOption_mono (f k2) (f (k1 + k2)) cs
        (fun d _ r2 hd => hmono k2 (k1 + k2) d r2 (by omega) hd) rs hrs]

theorem removeWU_total_aux (s : Nat) :
    ∀ w n, nStrong n ≤ s → wt n ≤ w → ∃ k r, removeWU k n = some r := by
  induction s using Nat.strong_induction_on with
  | _ s ihs =>
    intro w
    induction w using Nat.strong_induction_on with
    | _ w ihw =>
      intro n hs hw
      have rec1 : ∀ m, nStrong m < nStrong n → ∃ k r, removeWU k m = some r :=
        fun m hm => ihs (nStrong m) (by omega) (wt m) m le_rfl le_rfl
      have rec2 : ∀ m, nStrong m ≤ nStrong n → wt m < wt n →
          ∃ k r, removeWU k m = some r :=
        fun m h1 h2 => ihw (wt m) (by omega) m (by omega) le_rfl
      have hlist : ∀ cs : List Node, nStrongList cs ≤ nStrong n → wtList cs < wt n →
          ∃ k rs, mapOption (removeWU k) cs = some rs := by
        intro cs h1 h2
        refine mapOption_total removeWU (fun k k2 n r hk h => removeWU_mono hk h) cs ?_
        intro c hc
        have := mem_wtList_lt cs c hc
        have := mem_nStrongList_le cs c hc
        exact rec2 c (by omega) (by omega)
      have hbin : ∀ a b : Node, nStrong a + nStrong b ≤ nStrong n → wt a + wt b < wt n →
          ∃ k a1 b1, removeWU k a = some a1 ∧ removeWU k b = some b1 := by
        intro a b h1 h2
        obtain ⟨ka, a1, ha⟩ := rec2 a (by omega) (by omega)
        obtain ⟨kb, b1, hb⟩ := rec2 b (by omega) (by omega)
        exact ⟨ka + kb, a1, b1, removeWU_mono (by omega) ha, removeWU_mono (by omega) hb⟩
      cases n with
      | mkAND cs =>
        obtain ⟨k, rs, hrs⟩ := hlist cs (by simp [nStrong]) (by simp only [wt]; omega)
        exact ⟨k + 1, _, by simp only [removeWU, bind, pure, hrs, Option.some_bind]; rfl⟩
      | mkOR cs =>
        obtain ⟨k, rs, hrs⟩ := hlist cs (by simp [nStrong]) (by simp only [wt]; omega)
        exact ⟨k + 1, _, by simp only [removeWU, bind, pure, hrs, Option.some_bind]; rfl⟩
      | mkX c =>
        obtain ⟨k, r, hr⟩ := rec2 c (by simp [nStrong]) (by simp only [wt]; omega)
        exact ⟨k + 1, _, by simp only [removeWU, bind, pure, hr, Option.some_bind]; rfl⟩
      | mkU a b =>
        obtain ⟨k, a1, b1, ha, hb⟩ := hbin a b (by simp only [nStrong]; omega)
          (by simp only [wt]; omega)
        exact ⟨k + 1, _, by simp only [removeWU, bind, pure, ha, hb, Option.some_bind]; rfl⟩
      | mkM a b =>
        obtain ⟨k, a1, b1, ha, hb⟩ := hbin a b (by simp only [nStrong]; omega)
          (by simp only [wt]; omega)
        exact ⟨k + 1, _, by simp only [removeWU, bind, pure, ha, hb, Option.some_bind]; rfl⟩
      | mkW a b =>
        obtain ⟨k, a1, b1, ha, hb⟩ := hbin a b (by simp only [nStrong]; omega)
          (by simp only [wt]; omega)
        by_cases hc : containsU b = true
        · have h1 := containsU_nStrong b hc
          have h2 := (G_measures a).2
          obtain ⟨kg, g1, hg⟩ := rec1 (Node.G a) (by simp only [nStrong]; omega)
          refine ⟨k + kg + 1, Option.isSome_iff_exists.mp ?_⟩
          simp only [removeWU, bind, pure, if_pos hc,
            removeWU_mono (Nat.le_add_right k kg) ha, removeWU_mono (Nat.le_add_right k kg) hb,
            removeWU_mono (Nat.le_add_left kg k) hg, Option.some_bind]
          rfl
        · rcases hf : findU a with _ | found
          · exact ⟨1, _, by simp only [removeWU, pure, if_neg hc, hf]; rfl⟩
          · obtain ⟨f1, f2, f3, f4, f5⟩ := findU_found a found hf
            have h1 := (W_measures found.weak b).2
            have h2 := (G_measures found.ff).2
            obtain ⟨kw, w1, hw1⟩ := rec1 (Node.W found.weak b) (by simp only [nStrong]; omega)
            obtain ⟨kg, g1, hg⟩ := rec1 (Node.G found.ff) (by simp only [nStrong]; omega)
            refine ⟨k + kw + kg + 1, Option.isSome_iff_exists.mp ?_⟩
            simp only [removeWU, bind, pure, if_neg hc, hf,
              removeWU_mono (show k ≤ k + kw + kg by omega) ha,
              removeWU_mono (show kw ≤ k + kw + kg by omega) hw1,
              removeWU_mono (show kg ≤ k + kw + kg by omega) hg, Option.some_bind]
            rfl
      | mkR a b =>
        obtain ⟨k, a1, b1, ha, hb⟩ := hbin a b (by simp only [nStrong]; omega)
          (by simp only [wt]; omega)
        by_cases hc : containsU a = true
        · have h1 := containsU_nStrong a hc
          have h2 := (G_measures b).2
          obtain ⟨kg, g1, hg⟩ := rec1 (Node.G b) (by simp only [nStrong]; omega)
          refine ⟨k + kg + 1, Option.isSome_iff_exists.mp ?_⟩
          simp only [removeWU, bind, pure, if_pos hc,
            removeWU_mono (Nat.le_add_right k kg) ha, removeWU_mono (Nat.le_add_right k kg) hb,
            removeWU_mono (Nat.le_add_left kg k) hg, Option.some_bind]
          rfl
        · rcases hf : findU b with _ | found
          · exact ⟨1, _, by simp only [removeWU, pure, if_neg hc, hf]; rfl⟩
          · obtain ⟨f1, f2, f3, f4, f5⟩ := findU_found b found hf
            have h1 := (R_measures a found.weak).2
            have h2 := (G_measures found.ff).2
            obtain ⟨kw, w1, hw1⟩ := rec1 (Node.R a found.weak) (by simp only [nStrong]; omega)
            obtain ⟨kg, g1, hg⟩ := rec1 (Node.G found.ff) (by simp only [nStrong]; omega)
            refine ⟨k + kw + kg + 1, Option.isSome_iff_exists.mp ?_⟩
            simp only [removeWU, bind, pure, if_neg hc, hf,
              removeWU_mono (show k ≤ k + kw + kg by omega) hb,
              removeWU_mono (show kw ≤ k + kw + kg by omega) hw1,
              removeWU_mono (show kg ≤ k + kw + kg by omega) hg, Option.some_bind]
            rfl
      | _ => exact ⟨1, _, rfl⟩

/-- `removeWU` returns a result when the budget is large enough. -/
theorem removeWU_total (n : Node) : ∃ k r, removeWU k n = some r :=
  removeWU_total_aux (nStrong n) (wt n) n le_rfl le_rfl

theorem removeGF_total_aux (w : Nat) :
    ∀ n, wt n ≤ w → ∃ k r, removeGF k n = some r := by
  induction w using Nat.strong_induction_on with
  | _ w ihw =>
    intro n hw
    have rec1 : ∀ m, wt m < wt n → ∃ k r, removeGF k m = some r :=
      fun m hm => ihw (wt m) (by omega) m le_rfl
    have hlist : ∀ cs : List Node, wtList cs < wt n →
        ∃ k rs, mapOption (removeGF k) cs = some rs := by
      intro cs h2
      refine mapOption_total removeGF (fun k k2 n r hk h => removeGF_mono hk h) cs ?_
      intro c hc
      have := mem_wtList_lt cs c hc
      exact rec1 c (by omega)
    by_cases h1 : ∃ cs, n = .mkAND cs
    · obtain ⟨cs, rfl⟩ := h1
      obtain ⟨k, rs, hrs⟩ := hlist cs (by simp only [wt]; omega)
      exact ⟨k + 1, _, by simp only [removeGF, bind, pure, hrs, Option.some_bind]; rfl⟩
    by_cases h2 : ∃ cs, n = .mkOR cs
    · obtain ⟨cs, rfl⟩ := h2
      obtain ⟨k, rs, hrs⟩ := hlist cs (by simp only [wt]; omega)
      exact ⟨k + 1, _, by simp only [removeGF, bind, pure, hrs, Option.some_bind]; rfl⟩
    have e1 : ∀ cs, n ≠ .mkAND cs := fun cs hc => h1 ⟨cs, hc⟩
    have e2 : ∀ cs, n ≠ .mkOR cs := fun cs hc => h2 ⟨cs, hc⟩
    rcases hf : findGF n false with _ | found
    · refine ⟨1, Option.isSome_iff_exists.mp ?_⟩
      rw [removeGF_other _ n e1 e2]
      simp only [hf]
      rfl
    · obtain ⟨kt, t1, ht⟩ := rec1 _ (findGF_replace_lt Node.tt rfl n false found hf)
      obtain ⟨kf, f1, hff⟩ := rec1 _ (findGF_replace_lt Node.ff rfl n false found hf)
      refine ⟨kt + kf + 1, Option.isSome_iff_exists.mp ?_⟩
      rw [removeGF_other _ n e1 e2]
      simp only [hf, removeGF_mono (Nat.le_add_right kt kf) ht,
        removeGF_mono (Nat.le_add_left kf kt) hff, Option.some_bind]
      rfl

/-- `removeGF` returns a result when the budget is large enough. -/
theorem removeGF_total (n : Node) : ∃ k r, removeGF k n = some r :=
  removeGF_total_aux (wt n) n le_rfl

theorem fix_total_aux (w : Nat) :
    ∀ n, wt n ≤ w →
      (∀ e, ∃ k r, fixGFW k n e = some r) ∧ (∀ e, ∃ k r, fixFGU k n e = some r) := by
  induction w using Nat.strong_induction_on with
  | _ w ihw =>
    have hG : ∀ s n, wt n ≤ w → nWeak n ≤ s → ∀ e, ∃ k r, fixGFW k n e = some r := by
      intro s
      induction s using Nat.strong_induction_on with
      | _ s ihs =>
        intro n hw hs e
        rcases hf : findW n with _ | found
        · exact ⟨1, _, by simp only [fixGFW, hf]; rfl⟩
        · obtain ⟨f1, f2, f3, f4, f5⟩ := findW_found n found hf
          obtain ⟨k1, r1, h1⟩ := (ihw (wt found.fga) (by omega) found.fga le_rfl).2 none
          obtain ⟨k2, r2, h2⟩ := ihs (nWeak found.tt) (by omega) found.tt (by omega) le_rfl none
          obtain ⟨k3, r3, h3⟩ :=
            ihs (nWeak found.strong) (by omega) found.strong (by omega) le_rfl none
          refine ⟨k1 + k2 + k3 + 1, Option.isSome_iff_exists.mp ?_⟩
          simp only [fixGFW, hf, bind, pure,
            fixFGU_mono (show k1 ≤ k1 + k2 + k3 by omega) h1,
            fixGFW_mono (show k2 ≤ k1 + k2 + k3 by omega) h2,
            fixGFW_mono (show k3 ≤ k1 + k2 + k3 by omega) h3, Option.some_bind]
          rfl
    have hF : ∀ s n, wt n ≤ w → nStrong n ≤ s → ∀ e, ∃ k r, fixFGU k n e = some r := by
      intro s
      induction s using Nat.strong_induction_on with
      | _ s ihs =>
        intro n hw hs e
        rcases hf : findU n with _ | found
        · exact ⟨1, _, by simp only [fixFGU, hf]; rfl⟩
        · obtain ⟨f1, f2, f3, f4, f5⟩ := findU_found n found hf
          obtain ⟨k1, r1, h1⟩ := (ihw (wt found.gfa) (by omega) found.gfa le_rfl).1 none
          obtain ⟨k2, r2, h2⟩ :=
            ihs (nStrong found.weak) (by omega) found.weak (by omega) le_rfl none
          obtain ⟨k3, r3, h3⟩ := ihs (nStrong found.ff) (by omega) found.ff (by omega) le_rfl none
          refine ⟨k1 + k2 + k3 + 1, Option.isSome_iff_exists.mp ?_⟩
          simp only [fixFGU, hf, bind, pure,
            fixGFW_mono (show k1 ≤ k1 + k2 + k3 by omega) h1,
            fixFGU_mono (show k2 ≤ k1 + k2 + k3 by omega) h2,
            fixFGU_mono (show k3 ≤ k1 + k2 + k3 by omega) h3, Option.some_bind]
          rfl
    intro n hw
    exact ⟨hG (nWeak n) n hw le_rfl, hF (nStrong n) n hw le_rfl⟩

/-- `fixGFW` returns a result when the budget is large enough. -/
theorem fixGFW_total (n : Node) (e : Option Node) : ∃ k r, fixGFW k n e = some r :=
  (fix_total_aux (wt n) n le_rfl).1 e

/-- `fixFGU` returns a result when the budget is large enough. -/
theorem fixFGU_total (n : Node) (e : Option Node) : ∃ k r, fixFGU k n e = some r :=
  (fix_total_aux (wt n) n le_rfl).2 e

theorem fixGFList_mono {k k2 : Nat} (cs : List Node)
    (h : ∀ c ∈ cs, ∀ r, fixGF k c = some r → fixGF k2 c = some r) :
    ∀ rs, fixGFList k cs = some rs → fixGFList k2 cs = some rs := by
  induction cs with
  | nil => intro rs hr; simpa [fixGFList] using hr
  | cons c cs ih =>
    intro rs hr
    rw [fixGFList] at hr ⊢
    rcases hc : fixGF k c with _ | d
    · rw [hc] at hr; simp at hr
    · rcases hl : fixGFList k cs with _ | ds
      · rw [hc, hl] at hr; simp at hr
      · rw [hc, hl] at hr
        rw [h c (List.mem_cons_self _ _) d hc,
          ih (fun e he => h e (List.mem_cons_of_mem _ he)) ds hl]
        exact hr

theorem fixGF_mono {k k2 : Nat} (hk : k ≤ k2) (n : Node) :
    ∀ r, fixGF k n = some r → fixGF k2 n = some r := by
  induction n using Node.induct with
  | hand cs ih =>
    intro r h
    simp only [fixGF, bind, pure, Option.bind_eq_some] at h ⊢
    obtain ⟨copy, h1, h2⟩ := h
    exact ⟨copy, fixGFList_mono cs ih copy h1, h2⟩
  | hor cs ih =>
    intro r h
    simp only [fixGF, bind, pure, Option.bind_eq_some] at h ⊢
    obtain ⟨copy, h1, h2⟩ := h
    exact ⟨copy, fixGFList_mono cs ih copy h1, h2⟩
  | hgf c _ => intro r h; rw [fixGF] at h ⊢; exact fixGFW_mono hk h
  | hfg c _ => intro r h; rw [fixGF] at h ⊢; exact fixFGU_mono hk h
  | _ => intro r h; simpa [fixGF] using h

theorem fixGFList_total (cs : List Node) (h : ∀ c ∈ cs, ∃ k r, fixGF k c = some r) :
    ∃ k rs, fixGFList k cs = some rs := by
  induction cs with
  | nil => exact ⟨0, [], rfl⟩
  | cons c cs ih =>
    obtain ⟨k1, r, hr⟩ := h c (List.mem_cons_self _ _)
    obtain ⟨k2, rs, hrs⟩ := ih (fun d hd => h d (List.mem_cons_of_mem _ hd))
    refine ⟨k1 + k2, r :: rs, ?_⟩
    rw [fixGFList, fixGF_mono (Nat.le_add_right k1 k2) c r hr,
      fixGFList_mono cs (fun d _ => fixGF_mono (Nat.le_add_left k2 k1) d) rs hrs]

/-- `fixGF` returns a result when the budget is large enough. -/
theorem fixGF_total (n : Node) : ∃ k r, fixGF k n = some r := by
  induction n using Node.induct with
  | hand cs ih =>
    obtain ⟨k, rs, hrs⟩ := fixGFList_total cs ih
    exact ⟨k, _, by simp only [fixGF, bind, pure, hrs, Option.some_bind]; rfl⟩
  | hor cs ih =>
    obtain ⟨k, rs, hrs⟩ := fixGFList_total cs ih
    exact ⟨k, _, by simp only [fixGF, bind, pure, hrs, Option.some_bind]; rfl⟩
  | hgf c _ => exact fixGFW_total c _
  | hfg c _ => exact fixFGU_total c _
  | _ => exact ⟨0, _, rfl⟩

theorem normalize_mono {k k2 : Nat} (hk : k ≤ k2) {n r : Node}
    (h : normalize k n = some r) : normalize k2 n = some r := by
  simp only [Normalizer.normalize, bind, Option.bind_eq_some] at h ⊢
  obtain ⟨t1, h1, t2, h2, h3⟩ := h
  exact ⟨t1, removeWU_mono hk h1, t2, removeGF_mono hk h2, fixGF_mono hk t2 r h3⟩

/-- `normalize` returns a result when the budget is large enough. -/
theorem normalize_total (n : Node) : ∃ k r, normalize k n = some r := by
  obtain ⟨k1, t1, h1⟩ := removeWU_total n
  obtain ⟨k2, t2, h2⟩ := removeGF_total t1
  obtain ⟨k3, t3, h3⟩ := fixGF_total t2
  refine ⟨k1 + k2 + k3, t3, ?_⟩
  simp only [Normalizer.normalize, bind, Option.bind_eq_some]
  exact ⟨t1, removeWU_mono (by omega) h1, t2, removeGF_mono (by omega) h2,
    fixGF_mono (by omega) t2 t3 h3⟩

/-! ## Implications between formulas under a hypothesis on the word -/

theorem Closed_NoHyp : Closed NoHyp := fun _ _ _ _ _ => trivial

theorem Closed_InfOften (g : Node) : Closed (InfOften g) :=
  fun _ _ _ hij h k hk => h k (le_trans hij hk)

theorem Closed_Never (g : Node) : Closed (Never g) :=
  fun _ _ _ hij h k hk => h k (le_trans hij hk)

theorem Closed_Always (g : Node) : Closed (Always g) :=
  fun _ _ _ hij h k hk => h k (le_trans hij hk)

theorem Closed_InfFails (g : Node) : Closed (InfFails g) :=
  fun _ _ _ hij h k hk => h k (le_trans hij hk)

theorem Imp_rfl (H : Word → Nat → Prop) (x : Node) : Imp H x x := fun _ _ _ h => h

theorem Imp_mkX {H : Word → Nat → Prop} (hH : Closed H) {a a2 : Node} (h : Imp H a a2) :
    Imp H (.mkX a) (.mkX a2) := by
  intro w i hi hs
  simp only [sem] at hs ⊢
  exact h w (i + 1) (hH w i (i + 1) (by omega) hi) hs

theorem Imp_mkU {H : Word → Nat → Prop} (hH : Closed H) {a a2 b b2 : Node}
    (ha : Imp H a a2) (hb : Imp H b b2) : Imp H (.mkU a b) (.mkU a2 b2) := by
  intro w i hi hs
  simp only [sem] at hs ⊢
  obtain ⟨j, hj, h1, h2⟩ := hs
  exact ⟨j, hj, hb w j (hH w i j hj hi) h1, fun k hk hk2 => ha w k (hH w i k hk hi) (h2 k hk hk2)⟩

theorem Imp_mkW {H : Word → Nat → Prop} (hH : Closed H) {a a2 b b2 : Node}
    (ha : Imp H a a2) (hb : Imp H b b2) : Imp H (.mkW a b) (.mkW a2 b2) := by
  intro w i hi hs
  simp only [sem] at hs ⊢
  rcases hs with ⟨j, hj, h1, h2⟩ | h
  · exact Or.inl ⟨j, hj, hb w j (hH w i j hj hi) h1,
      fun k hk hk2 => ha w k (hH w i k hk hi) (h2 k hk hk2)⟩
  · exact Or.inr (fun k hk => ha w k (hH w i k hk hi) (h k hk))

theorem Imp_mkR {H : Word → Nat → Prop} (hH : Closed H) {a a2 b b2 : Node}
    (ha : Imp H a a2) (hb : Imp H b b2) : Imp H (.mkR a b) (.mkR a2 b2) := by
  intro w i hi hs
  simp only [sem] at hs ⊢
  intro j hj
  rcases hs j hj with h | ⟨k, hk, hk2, h⟩
  · exact Or.inl (hb w j (hH w i j hj hi) h)
  · exact Or.inr ⟨k, hk, hk2, ha w k (hH w i k hk hi) h⟩

theorem Imp_mkM {H : Word → Nat → Prop} (hH : Closed H) {a a2 b b2 : Node}
    (ha : Imp H a a2) (hb : Imp H b b2) : Imp H (.mkM a b) (.mkM a2 b2) := by
  intro w i hi hs
  simp only [sem] at hs ⊢
  obtain ⟨j, hj, h1, h2⟩ := hs
  exact ⟨j, hj, ha w j (hH w i j hj hi) h1, fun k hk hk2 => hb w k (hH w i k hk hi) (h2 k hk hk2)⟩

theorem Imp_mkAND {H : Word → Nat → Prop} {cs ds : List Node}
    (h : List.Forall₂ (Imp H) cs ds) : Imp H (.mkAND cs) (.mkAND ds) := by
  intro w i hi hs
  simp only [sem] at hs ⊢
  induction h with
  | nil => exact hs
  | cons hc _ ih =>
    simp only [semAll] at hs ⊢
    exact ⟨hc w i hi hs.1, ih hs.2⟩

theorem Imp_mkOR {H : Word → Nat → Prop} {cs ds : List Node}
    (h : List.Forall₂ (Imp H) cs ds) : Imp H (.mkOR cs) (.mkOR ds) := by
  intro w i hi hs
  simp only [sem] at hs ⊢
  induction h with
  | nil => exact hs
  | cons hc _ ih =>
    simp only [semAny] at hs ⊢
    rcases hs with hs | hs
    · exact Or.inl (hc w i hi hs)
    · exact Or.inr (ih hs)

/-! The same for the smart constructors. -/

theorem Imp_of_equiv {H : Word → Nat → Prop} {x x2 y y2 : Node}
    (hx : LtlEquiv x2 x) (hy : LtlEquiv y2 y) (h : Imp H x y) : Imp H x2 y2 :=
  fun w i hi hs => (hy w i).mpr (h w i hi ((hx w i).mp hs))

theorem Imp_X {H : Word → Nat → Prop} (hH : Closed H) {a a2 : Node} (h : Imp H a a2) :
    Imp H (Node.X a) (Node.X a2) :=
  Imp_of_equiv (X_sem a) (X_sem a2) (Imp_mkX hH h)

theorem Imp_U {H : Word → Nat → Prop} (hH : Closed H) {a a2 b b2 : Node}
    (ha : Imp H a a2) (hb : Imp H b b2) : Imp H (Node.U a b) (Node.U a2 b2) :=
  Imp_of_equiv (U_sem a b) (U_sem a2 b2) (Imp_mkU hH ha hb)

theorem Imp_W {H : Word → Nat → Prop} (hH : Closed H) {a a2 b b2 : Node}
    (ha : Imp H a a2) (hb : Imp H b b2) : Imp H (Node.W a b) (Node.W a2 b2) :=
  Imp_of_equiv (W_sem a b) (W_sem a2 b2) (Imp_mkW hH ha hb)

theorem Imp_R {H : Word → Nat → Prop} (hH : Closed H) {a a2 b b2 : Node}
    (ha : Imp H a a2) (hb : Imp H b b2) : Imp H (Node.R a b) (Node.R a2 b2) :=
  Imp_of_equiv (R_sem a b) (R_sem a2 b2) (Imp_mkR hH ha hb)

theorem Imp_M {H : Word → Nat → Prop} (hH : Closed H) {a a2 b b2 : Node}
    (ha : Imp H a a2) (hb : Imp H b b2) : Imp H (Node.M a b) (Node.M a2 b2) :=
  Imp_of_equiv (M_sem a b) (M_sem a2 b2) (Imp_mkM hH ha hb)

theorem And_equiv (cs : List Node) : LtlEquiv (Node.And cs) (.mkAND cs) :=
  fun w i => by rw [And_sem]; simp only [sem]

theorem Or_equiv (cs : List Node) : LtlEquiv (Node.Or cs) (.mkOR cs) :=
  fun w i => by rw [Or_sem]; simp only [sem]

theorem Imp_And {H : Word → Nat → Prop} {cs ds : List Node}
    (h : List.Forall₂ (Imp H) cs ds) : Imp H (Node.And cs) (Node.And ds) :=
  Imp_of_equiv (And_equiv cs) (And_equiv ds) (Imp_mkAND h)

theorem Imp_Or {H : Word → Nat → Prop} {cs ds : List Node}
    (h : List.Forall₂ (Imp H) cs ds) : Imp H (Node.Or cs) (Node.Or ds) :=
  Imp_of_equiv (Or_equiv cs) (Or_equiv ds) (Imp_mkOR h)

theorem Imp_mkGF {H : Word → Nat → Prop} (hH : Closed H) {a a2 : Node} (h : Imp H a a2) :
    Imp H (.mkGF a) (.mkGF a2) := by
  intro w i hi hs
  simp only [sem] at hs ⊢
  intro k hk
  obtain ⟨j, hj, hh⟩ := hs k hk
  exact ⟨j, hj, h w j (hH w i j (le_trans hk hj) hi) hh⟩

theorem Imp_mkFG {H : Word → Nat → Prop} (hH : Closed H) {a a2 : Node} (h : Imp H a a2) :
    Imp H (.mkFG a) (.mkFG a2) := by
  intro w i hi hs
  simp only [sem] at hs ⊢
  obtain ⟨k, hk, hh⟩ := hs
  exact ⟨k, hk, fun j hj => h w j (hH w i j (le_trans hk hj) hi) (hh j hj)⟩

theorem Imp_GF {H : Word → Nat → Prop} (hH : Closed H) {a a2 : Node} (h : Imp H a a2) :
    Imp H (Node.GF a) (Node.GF a2) :=
  Imp_of_equiv (GF_sem a) (GF_sem a2) (Imp_mkGF hH h)

theorem Imp_FG {H : Word → Nat → Prop} (hH : Closed H) {a a2 : Node} (h : Imp H a a2) :
    Imp H (Node.FG a) (Node.FG a2) :=
  Imp_of_equiv (FG_sem a) (FG_sem a2) (Imp_mkFG hH h)

open Normalizer

/-! ## The variants of `findU` and `replaceU` -/

theorem exists_least (p : Nat → Prop) (i : Nat) :
    ∀ j, i ≤ j → p j → ∃ j0, i ≤ j0 ∧ j0 ≤ j ∧ p j0 ∧ ∀ k, i ≤ k → k < j0 → ¬ p k := by
  intro j
  induction j using Nat.strong_induction_on with
  | _ j ih =>
    intro hij hp
    by_cases h : ∃ k, i ≤ k ∧ k < j ∧ p k
    · obtain ⟨k, hk1, hk2, hk3⟩ := h
      obtain ⟨j0, h1, h2, h3, h4⟩ := ih k hk2 hk1 hk3
      exact ⟨j0, h1, by omega, h3, h4⟩
    · exact ⟨j, hij, le_refl _, hp, fun k hk1 hk2 hk3 => h ⟨k, hk1, hk2, hk3⟩⟩

theorem VarU_refl (g c : Node) : VarU g c c c :=
  ⟨Imp_rfl _ _, Imp_rfl _ _, Imp_rfl _ _, Imp_rfl _ _⟩

theorem VarUList_nil (g : Node) : VarUList g [] [] [] :=
  ⟨.nil, .nil, .nil, .nil⟩

theorem VarUList_cons {g c f wk : Node} {cs fs ws : List Node}
    (h : VarU g c f wk) (t : VarUList g cs fs ws) :
    VarUList g (c :: cs) (f :: fs) (wk :: ws) :=
  ⟨.cons h.ff_imp t.ff_imp, .cons h.imp_weak t.imp_weak,
    .cons h.weak_imp t.weak_imp, .cons h.imp_ff t.imp_ff⟩

theorem VarU_X {g c f wk : Node} (h : VarU g c f wk) :
    VarU g (.mkX c) (Node.X f) (Node.X wk) :=
  ⟨Imp_of_equiv (X_sem f) (LtlEquiv.refl _) (Imp_mkX Closed_NoHyp h.ff_imp),
   Imp_of_equiv (LtlEquiv.refl _) (X_sem wk) (Imp_mkX Closed_NoHyp h.imp_weak),
   Imp_of_equiv (X_sem wk) (LtlEquiv.refl _) (Imp_mkX (Closed_InfOften g) h.weak_imp),
   Imp_of_equiv (LtlEquiv.refl _) (X_sem f) (Imp_mkX (Closed_Never g) h.imp_ff)⟩

theorem VarU_W {g a fa wa b fb wb : Node} (ha : VarU g a fa wa) (hb : VarU g b fb wb) :
    VarU g (.mkW a b) (Node.W fa fb) (Node.W wa wb) :=
  ⟨Imp_of_equiv (W_sem fa fb) (LtlEquiv.refl _) (Imp_mkW Closed_NoHyp ha.ff_imp hb.ff_imp),
   Imp_of_equiv (LtlEquiv.refl _) (W_sem wa wb) (Imp_mkW Closed_NoHyp ha.imp_weak hb.imp_weak),
   Imp_of_equiv (W_sem wa wb) (LtlEquiv.refl _)
     (Imp_mkW (Closed_InfOften g) ha.weak_imp hb.weak_imp),
   Imp_of_equiv (LtlEquiv.refl _) (W_sem fa fb)
     (Imp_mkW (Closed_Never g) ha.imp_ff hb.imp_ff)⟩

theorem VarU_R {g a fa wa b fb wb : Node} (ha : VarU g a fa wa) (hb : VarU g b fb wb) :
    VarU g (.mkR a b) (Node.R fa fb) (Node.R wa wb) :=
  ⟨Imp_of_equiv (R_sem fa fb) (LtlEquiv.refl _) (Imp_mkR Closed_NoHyp ha.ff_imp hb.ff_imp),
   Imp_of_equiv (LtlEquiv.refl _) (R_sem wa wb) (Imp_mkR Closed_NoHyp ha.imp_weak hb.imp_weak),
   Imp_of_equiv (R_sem wa wb) (LtlEquiv.refl _)
     (Imp_mkR (Closed_InfOften g) ha.weak_imp hb.weak_imp),
   Imp_of_equiv (LtlEquiv.refl _) (R_sem fa fb)
     (Imp_mkR (Closed_Never g) ha.imp_ff hb.imp_ff)⟩

theorem VarU_And {g : Node} {cs fs ws : List Node} (h : VarUList g cs fs ws) :
    VarU g (.mkAND cs) (Node.And fs) (Node.And ws) :=
  ⟨Imp_of_equiv (And_equiv fs) (LtlEquiv.refl _) (Imp_mkAND h.ff_imp),
   Imp_of_equiv (LtlEquiv.refl _) (And_equiv ws) (Imp_mkAND h.imp_weak),
   Imp_of_equiv (And_equiv ws) (LtlEquiv.refl _) (Imp_mkAND h.weak_imp),
   Imp_of_equiv (LtlEquiv.refl _) (And_equiv fs) (Imp_mkAND h.imp_ff)⟩

theorem VarU_Or {g : Node} {cs fs ws : List Node} (h : VarUList g cs fs ws) :
    VarU g (.mkOR cs) (Node.Or fs) (Node.Or ws) :=
  ⟨Imp_of_equiv (Or_equiv fs) (LtlEquiv.refl _) (Imp_mkOR h.ff_imp),
   Imp_of_equiv (LtlEquiv.refl _) (Or_equiv ws) (Imp_mkOR h.imp_weak),
   Imp_of_equiv (Or_equiv ws) (LtlEquiv.refl _) (Imp_mkOR h.weak_imp),
   Imp_of_equiv (LtlEquiv.refl _) (Or_equiv fs) (Imp_mkOR h.imp_ff)⟩

/-- The rule for `a U b`: false and `a W b`, with the witness `b`. -/
theorem VarU_mkU (a b : Node) : VarU b (.mkU a b) .ff (Node.W a b) := by
  refine ⟨?_, ?_, ?_, ?_⟩
  · intro w i _ h
    simp [sem] at h
  · intro w i _ h
    rw [W_sem]
    simp only [sem] at h ⊢
    exact Or.inl h
  · intro w i hg h
    rw [W_sem] at h
    simp only [sem] at h ⊢
    rcases h with h | h
    · exact h
    · obtain ⟨j, hj, hb⟩ := hg i (le_refl _)
      exact ⟨j, hj, hb, fun k hk _ => h k hk⟩
  · intro w i hg h
    simp only [sem] at h
    obtain ⟨j, hj, hb, _⟩ := h
    exact absurd hb (hg j hj)

theorem sem_mkM_imp_mkR (a b : Node) (w : Word) (i : Nat) (h : sem (.mkM a b) w i) :
    sem (.mkR a b) w i := by
  simp only [sem] at h ⊢
  obtain ⟨j, hj, ha, hb⟩ := h
  intro j2 hj2
  by_cases hc : j2 ≤ j
  · exact Or.inl (hb j2 hj2 hc)
  · exact Or.inr ⟨j, hj, by omega, ha⟩

/-- When `a` holds at some later position, `a R b` gives `a M b`. -/
theorem sem_mkR_imp_mkM (a b : Node) (w : Word) (i j : Nat) (hj : i ≤ j)
    (ha : sem a w j) (h : sem (.mkR a b) w i) : sem (.mkM a b) w i := by
  obtain ⟨j0, h1, _, h3, h4⟩ := exists_least (fun k => sem a w k) i j hj ha
  simp only [sem] at h ⊢
  refine ⟨j0, h1, h3, fun k hk hk2 => ?_⟩
  rcases h k hk with h | ⟨k2, hk3, hk4, h5⟩
  · exact h
  · exact absurd h5 (h4 k2 hk3 (by omega))

/-- The rule for `a M b`: false and `a R b`, with the witness `a`. -/
theorem VarU_mkM (a b : Node) : VarU a (.mkM a b) .ff (Node.R a b) := by
  refine ⟨?_, ?_, ?_, ?_⟩
  · intro w i _ h
    simp [sem] at h
  · intro w i _ h
    rw [R_sem]
    exact sem_mkM_imp_mkR a b w i h
  · intro w i hg h
    rw [R_sem] at h
    obtain ⟨j, hj, ha⟩ := hg i (le_refl _)
    exact sem_mkR_imp_mkM a b w i j hj ha h
  · intro w i hg h
    simp only [sem] at h
    obtain ⟨j, hj, ha, _⟩ := h
    exact absurd ha (hg j hj)

theorem replaceUList_var (g : Node) (cs : List Node)
    (h : ∀ c ∈ cs, VarU g c (copyFst (replaceU g c) c) (copySnd (replaceU g c) c)) :
    VarUList g cs (replaceUList g cs).2.1 (replaceUList g cs).2.2 := by
  induction cs with
  | nil => exact VarUList_nil g
  | cons c cs ih =>
    simp only [replaceUList]
    exact VarUList_cons (h c (List.mem_cons_self _ _))
      (ih (fun d hd => h d (List.mem_cons_of_mem _ hd)))

theorem replaceU_var (g : Node) (n : Node) :
    VarU g n (copyFst (replaceU g n) n) (copySnd (replaceU g n) n) := by
  induction n using Node.induct with
  | hand cs ih =>
    have hl := replaceUList_var g cs ih
    rw [replaceU]
    rcases hr : replaceUList g cs with ⟨ch, fc, wc⟩
    rw [hr] at hl
    cases ch with
    | false => exact VarU_refl _ _
    | true => exact VarU_And hl
  | hor cs ih =>
    have hl := replaceUList_var g cs ih
    rw [replaceU]
    rcases hr : replaceUList g cs with ⟨ch, fc, wc⟩
    rw [hr] at hl
    cases ch with
    | false => exact VarU_refl _ _
    | true => exact VarU_Or hl
  | hx c ih =>
    rw [replaceU]
    rcases hr : replaceU g c with _ | p
    · exact VarU_refl _ _
    · rw [hr] at ih
      exact VarU_X ih
  | hw a b iha ihb =>
    rw [replaceU]
    split
    · exact VarU_refl _ _
    · exact VarU_W iha ihb
  | hr a b iha ihb =>
    rw [replaceU]
    split
    · exact VarU_refl _ _
    · exact VarU_R iha ihb
  | hu a b _ _ =>
    rw [replaceU]
    split
    · rename_i he
      rw [equal_iff] at he
      subst he
      exact VarU_mkU a g
    · exact VarU_refl _ _
  | hm a b _ _ =>
    rw [replaceU]
    split
    · rename_i he
      rw [equal_iff] at he
      subst he
      exact VarU_mkM g b
    · exact VarU_refl _ _
  | _ => rw [replaceU] <;> first | exact VarU_refl _ _ | simp

theorem findUList_var (cs : List Node)
    (h : ∀ c ∈ cs, ∀ res, findU c = some res → VarU res.gfa c res.ff res.weak) :
    ∀ g fc wc, findUList cs = some (g, fc, wc) → VarUList g cs fc wc := by
  induction cs with
  | nil => intro g fc wc hf; simp [findUList] at hf
  | cons c cs ih =>
    intro g fc wc hf
    rw [findUList] at hf
    rcases hc : findU c with _ | res
    · rw [hc] at hf
      rcases hl : findUList cs with _ | ⟨g2, fc2, wc2⟩
      · rw [hl] at hf; simp at hf
      · rw [hl] at hf
        simp only [Option.some.injEq, Prod.mk.injEq] at hf
        obtain ⟨rfl, rfl, rfl⟩ := hf
        exact VarUList_cons (VarU_refl _ _)
          (ih (fun d hd => h d (List.mem_cons_of_mem _ hd)) _ _ _ hl)
    · rw [hc] at hf
      simp only [Option.some.injEq, Prod.mk.injEq] at hf
      obtain ⟨rfl, rfl, rfl⟩ := hf
      exact VarUList_cons (h c (List.mem_cons_self _ _) res hc)
        (replaceUList_var res.gfa cs (fun d _ => replaceU_var res.gfa d))

theorem findU_var (n : Node) :
    ∀ res, findU n = some res → VarU res.gfa n res.ff res.weak := by
  induction n using Node.induct with
  | hand cs ih =>
    intro res hf
    rw [findU] at hf
    rcases hl : findUList cs with _ | ⟨g, fc, wc⟩
    · rw [hl] at hf; simp at hf
    · rw [hl] at hf
      simp only [Option.some.injEq] at hf
      subst hf
      exact VarU_And (findUList_var cs ih _ _ _ hl)
  | hor cs ih =>
    intro res hf
    rw [findU] at hf
    rcases hl : findUList cs with _ | ⟨g, fc, wc⟩
    · rw [hl] at hf; simp at hf
    · rw [hl] at hf
      simp only [Option.some.injEq] at hf
      subst hf
      exact VarU_Or (findUList_var cs ih _ _ _ hl)
  | hx c ih =>
    intro res hf
    rw [findU] at hf
    rcases hc : findU c with _ | r
    · rw [hc] at hf; simp at hf
    · rw [hc] at hf
      simp only [Option.some.injEq] at hf
      subst hf
      exact VarU_X (ih r hc)
  | hw a b iha ihb =>
    intro res hf
    rw [findU] at hf
    rcases ha : findU a with _ | r
    · rw [ha] at hf
      rcases hb : findU b with _ | r
      · rw [hb] at hf; simp at hf
      · rw [hb] at hf
        simp only [Option.some.injEq] at hf
        subst hf
        exact VarU_W (VarU_refl _ _) (ihb r hb)
    · rw [ha] at hf
      simp only [Option.some.injEq] at hf
      subst hf
      exact VarU_W (iha r ha) (replaceU_var r.gfa b)
  | hr a b iha ihb =>
    intro res hf
    rw [findU] at hf
    rcases ha : findU a with _ | r
    · rw [ha] at hf
      rcases hb : findU b with _ | r
      · rw [hb] at hf; simp at hf
      · rw [hb] at hf
        simp only [Option.some.injEq] at hf
        subst hf
        exact VarU_R (VarU_refl _ _) (ihb r hb)
    · rw [ha] at hf
      simp only [Option.some.injEq] at hf
      subst hf
      exact VarU_R (iha r ha) (replaceU_var r.gfa b)
  | hu a b _ _ =>
    intro res hf
    rw [findU] at hf
    simp only [Option.some.injEq] at hf
    subst hf
    exact VarU_mkU a b
  | hm a b _ _ =>
    intro res hf
    rw [findU] at hf
    simp only [Option.some.injEq] at hf
    subst hf
    exact VarU_mkM a b
  | _ => intro res hf; simp [findU] at hf

open Normalizer

/-! ## `removeWU` preserves the semantics -/

theorem LtlEquiv.imp {H : Word → Nat → Prop} {x y : Node} (h : LtlEquiv x y) : Imp H x y :=
  fun w i _ hs => (h w i).mp hs

theorem LtlEquiv.of_imp {x y : Node} (h1 : Imp NoHyp x y) (h2 : Imp NoHyp y x) :
    LtlEquiv x y :=
  fun w i => ⟨h1 w i trivial, h2 w i trivial⟩

theorem equiv_mkX {a a2 : Node} (h : LtlEquiv a a2) : LtlEquiv (.mkX a) (.mkX a2) :=
  LtlEquiv.of_imp (Imp_mkX Closed_NoHyp h.imp) (Imp_mkX Closed_NoHyp h.symm.imp)

theorem equiv_mkU {a a2 b b2 : Node} (ha : LtlEquiv a a2) (hb : LtlEquiv b b2) :
    LtlEquiv (.mkU a b) (.mkU a2 b2) :=
  LtlEquiv.of_imp (Imp_mkU Closed_NoHyp ha.imp hb.imp)
    (Imp_mkU Closed_NoHyp ha.symm.imp hb.symm.imp)

theorem equiv_mkW {a a2 b b2 : Node} (ha : LtlEquiv a a2) (hb : LtlEquiv b b2) :
    LtlEquiv (.mkW a b) (.mkW a2 b2) :=
  LtlEquiv.of_imp (Imp_mkW Closed_NoHyp ha.imp hb.imp)
    (Imp_mkW Closed_NoHyp ha.symm.imp hb.symm.imp)

theorem equiv_mkR {a a2 b b2 : Node} (ha : LtlEquiv a a2) (hb : LtlEquiv b b2) :
    LtlEquiv (.mkR a b) (.mkR a2 b2) :=
  LtlEquiv.of_imp (Imp_mkR Closed_NoHyp ha.imp hb.imp)
    (Imp_mkR Closed_NoHyp ha.symm.imp hb.symm.imp)

theorem equiv_mkM {a a2 b b2 : Node} (ha : LtlEquiv a a2) (hb : LtlEquiv b b2) :
    LtlEquiv (.mkM a b) (.mkM a2 b2) :=
  LtlEquiv.of_imp (Imp_mkM Closed_NoHyp ha.imp hb.imp)
    (Imp_mkM Closed_NoHyp ha.symm.imp hb.symm.imp)

theorem Forall₂_equiv_imp {H : Word → Nat → Prop} {cs ds : List Node}
    (h : List.Forall₂ LtlEquiv cs ds) : List.Forall₂ (Imp H) cs ds :=
  h.imp (fun _ _ e => LtlEquiv.imp e)

theorem Forall₂_equiv_symm {cs ds : List Node}
    (h : List.Forall₂ LtlEquiv cs ds) : List.Forall₂ LtlEquiv ds cs :=
  h.flip.imp (fun _ _ e => LtlEquiv.symm e)

theorem equiv_mkAND {cs ds : List Node} (h : List.Forall₂ LtlEquiv cs ds) :
    LtlEquiv (.mkAND cs) (.mkAND ds) :=
  LtlEquiv.of_imp (Imp_mkAND (Forall₂_equiv_imp h))
    (Imp_mkAND (Forall₂_equiv_imp (Forall₂_equiv_symm h)))

theorem equiv_mkOR {cs ds : List Node} (h : List.Forall₂ LtlEquiv cs ds) :
    LtlEquiv (.mkOR cs) (.mkOR ds) :=
  LtlEquiv.of_imp (Imp_mkOR (Forall₂_equiv_imp h))
    (Imp_mkOR (Forall₂_equiv_imp (Forall₂_equiv_symm h)))

theorem equiv_mkGF {a a2 : Node} (h : LtlEquiv a a2) : LtlEquiv (.mkGF a) (.mkGF a2) := by
  intro w i
  simp only [sem]
  constructor
  · intro hs k hk
    obtain ⟨j, hj, hh⟩ := hs k hk
    exact ⟨j, hj, (h w j).mp hh⟩
  · intro hs k hk
    obtain ⟨j, hj, hh⟩ := hs k hk
    exact ⟨j, hj, (h w j).mpr hh⟩

theorem equiv_mkFG {a a2 : Node} (h : LtlEquiv a a2) : LtlEquiv (.mkFG a) (.mkFG a2) := by
  intro w i
  simp only [sem]
  constructor
  · rintro ⟨k, hk, hs⟩
    exact ⟨k, hk, fun j hj => (h w j).mp (hs j hj)⟩
  · rintro ⟨k, hk, hs⟩
    exact ⟨k, hk, fun j hj => (h w j).mpr (hs j hj)⟩

theorem mapOption_forall₂ (f : Node → Option Node) (cs : List Node) :
    ∀ rs, mapOption f cs = some rs → List.Forall₂ (fun c r => f c = some r) cs rs := by
  induction cs with
  | nil =>
    intro rs h
    simp only [mapOption, Option.some.injEq] at h
    subst h
    exact .nil
  | cons c cs ih =>
    intro rs h
    rw [mapOption] at h
    rcases hc : f c with _ | d
    · rw [hc] at h; simp at h
    · rcases hl : mapOption f cs with _ | ds
      · rw [hc, hl] at h; simp at h
      · rw [hc, hl] at h
        simp only [Option.some.injEq] at h
        subst h
        exact .cons hc (ih ds hl)

/-- Rule (1) for Release: `a R b` is `(a M b) ∨ G b`. -/
theorem rule1_R (a b : Node) (w : Word) (i : Nat) :
    sem (.mkR a b) w i ↔ sem (.mkM a b) w i ∨ ∀ k, i ≤ k → sem b w k := by
  constructor
  · intro h
    by_cases hc : ∃ j, i ≤ j ∧ sem a w j
    · obtain ⟨j, hj, ha⟩ := hc
      exact Or.inl (sem_mkR_imp_mkM a b w i j hj ha h)
    · right
      intro k hk
      simp only [sem] at h
      rcases h k hk with h | ⟨k2, h1, _, h3⟩
      · exact h
      · exact absurd ⟨k2, h1, h3⟩ hc
  · rintro (h | h)
    · exact sem_mkM_imp_mkR a b w i h
    · simp only [sem]
      exact fun j hj => Or.inl (h j hj)

/-- Either the witness holds infinitely often, or it never holds from some
position on. -/
theorem infOften_or_never (g : Node) (w : Word) (i : Nat) :
    InfOften g w i ∨ ∃ i0, i ≤ i0 ∧ Never g w i0 := by
  by_cases h : InfOften g w i
  · exact Or.inl h
  · right
    simp only [InfOften, not_forall, not_exists, not_and] at h
    obtain ⟨k, hk, h2⟩ := h
    exact ⟨k, hk, fun j hj => h2 j hj⟩

/-- Rule (2) for WeakUntil:
`f[x U y] W c = (GF y ∧ f[x W y] W c) ∨ f[x U y] U (c ∨ G f[ff])`. -/
theorem rule2_W {g a f wk : Node} (h : VarU g a f wk) (b : Node) (w : Word) (i : Nat) :
    sem (.mkW a b) w i ↔
      (InfOften g w i ∧ sem (.mkW wk b) w i) ∨
      ∃ j, i ≤ j ∧ (sem b w j ∨ Always f w j) ∧ ∀ k, i ≤ k → k < j → sem a w k := by
  constructor
  · intro hs
    rcases infOften_or_never g w i with hg | ⟨i0, hi0, hn⟩
    · exact Or.inl ⟨hg, Imp_mkW Closed_NoHyp h.imp_weak (Imp_rfl _ b) w i trivial hs⟩
    · right
      simp only [sem] at hs
      rcases hs with ⟨j, hj, hb, ha⟩ | ha
      · exact ⟨j, hj, Or.inl hb, ha⟩
      · refine ⟨i0, hi0, Or.inr ?_, fun k hk _ => ha k hk⟩
        intro j hj
        exact h.imp_ff w j (Closed_Never g w i0 j hj hn) (ha j (le_trans hi0 hj))
  · rintro (⟨hg, hs⟩ | ⟨j, hj, hb | hf, ha⟩)
    · exact Imp_mkW (Closed_InfOften g) h.weak_imp (Imp_rfl _ b) w i hg hs
    · simp only [sem]
      exact Or.inl ⟨j, hj, hb, ha⟩
    · simp only [sem]
      right
      intro k hk
      by_cases hc : k < j
      · exact ha k hk hc
      · exact h.ff_imp w k trivial (hf k (by omega))

/-- Rule (2) for Release:
`a R f[x U y] = (GF y ∧ a R f[x W y]) ∨ (a ∨ G f[ff]) M f[x U y]`. -/
theorem rule2_R {g b f wk : Node} (h : VarU g b f wk) (a : Node) (w : Word) (i : Nat) :
    sem (.mkR a b) w i ↔
      (InfOften g w i ∧ sem (.mkR a wk) w i) ∨
      ∃ j, i ≤ j ∧ (sem a w j ∨ Always f w j) ∧ ∀ k, i ≤ k → k ≤ j → sem b w k := by
  constructor
  · intro hs
    rcases infOften_or_never g w i with hg | ⟨i0, hi0, hn⟩
    · exact Or.inl ⟨hg, Imp_mkR Closed_NoHyp (Imp_rfl _ a) h.imp_weak w i trivial hs⟩
    · right
      rcases (rule1_R a b w i).mp hs with hm | hb
      · simp only [sem] at hm
        obtain ⟨j, hj, ha, hb⟩ := hm
        exact ⟨j, hj, Or.inl ha, hb⟩
      · refine ⟨i0, hi0, Or.inr ?_, fun k hk _ => hb k hk⟩
        intro j hj
        exact h.imp_ff w j (Closed_Never g w i0 j hj hn) (hb j (le_trans hi0 hj))
  · rintro (⟨hg, hs⟩ | ⟨j, hj, ha | hf, hb⟩)
    · exact Imp_mkR (Closed_InfOften g) (Imp_rfl _ a) h.weak_imp w i hg hs
    · apply sem_mkM_imp_mkR
      simp only [sem]
      exact ⟨j, hj, ha, hb⟩
    · apply (rule1_R a b w i).mpr
      right
      intro k hk
      by_cases hc : k ≤ j
      · exact hb k hk hc
      · exact h.ff_imp w k trivial (hf k (by omega))

theorem forall₂_removeWU_equiv {k : Nat}
    (ih : ∀ n r, removeWU k n = some r → LtlEquiv r n) {cs rs : List Node}
    (h : List.Forall₂ (fun c r => removeWU k c = some r) cs rs) :
    List.Forall₂ LtlEquiv rs cs :=
  h.flip.imp (fun _ _ e => ih _ _ e)

theorem sem_Or_pair (x y : Node) (w : Word) (i : Nat) :
    sem (Node.Or [x, y]) w i ↔ sem x w i ∨ sem y w i := by
  rw [Or_sem]; simp [semAny]

theorem sem_And_pair (x y : Node) (w : Word) (i : Nat) :
    sem (Node.And [x, y]) w i ↔ sem x w i ∧ sem y w i := by
  rw [And_sem]; simp [semAll]

/-- `removeWU` returns a formula equivalent to its argument. -/
theorem removeWU_sem (k : Nat) : ∀ n r, removeWU k n = some r → LtlEquiv r n := by
  induction k with
  | zero => intro n r h; simp [removeWU] at h
  | succ k ih =>
    intro n r h
    cases n with
    | mkAND cs =>
      simp only [removeWU, bind, pure, Option.bind_eq_some, Option.some.injEq] at h
      obtain ⟨copy, h1, h2⟩ := h
      have he := equiv_mkAND (forall₂_removeWU_equiv ih (mapOption_forall₂ _ cs copy h1))
      subst h2
      split
      · exact (And_equiv copy).trans he
      · exact LtlEquiv.refl _
    | mkOR cs =>
      simp only [removeWU, bind, pure, Option.bind_eq_some, Option.some.injEq] at h
      obtain ⟨copy, h1, h2⟩ := h
      have he := equiv_mkOR (forall₂_removeWU_equiv ih (mapOption_forall₂ _ cs copy h1))
      subst h2
      split
      · exact (Or_equiv copy).trans he
      · exact LtlEquiv.refl _
    | mkX c =>
      simp only [removeWU, bind, pure, Option.bind_eq_some, Option.some.injEq] at h
      obtain ⟨c1, h1, h2⟩ := h
      subst h2
      split
      · exact LtlEquiv.trans (X_sem c1) (equiv_mkX (ih _ _ h1))
      · exact LtlEquiv.refl _
    | mkU a b =>
      simp only [removeWU, bind, pure, Option.bind_eq_some, Option.some.injEq] at h
      obtain ⟨a1, h1, b1, h2, h3⟩ := h
      subst h3
      split
      · exact LtlEquiv.trans (U_sem a1 b1) (equiv_mkU (ih _ _ h1) (ih _ _ h2))
      · exact LtlEquiv.refl _
    | mkM a b =>
      simp only [removeWU, bind, pure, Option.bind_eq_some, Option.some.injEq] at h
      obtain ⟨a1, h1, b1, h2, h3⟩ := h
      subst h3
      split
      · exact LtlEquiv.trans (M_sem a1 b1) (equiv_mkM (ih _ _ h1) (ih _ _ h2))
      · exact LtlEquiv.refl _
    | mkW a b =>
      simp only [removeWU, bind, pure] at h
      split at h
      · simp only [Option.bind_eq_some, Option.some.injEq] at h
        obtain ⟨a1, h1, b1, h2, g1, h3, h4⟩ := h
        subst h4
        intro w i
        rw [sem_Or_pair, U_sem, (equiv_mkU (ih _ _ h1) (ih _ _ h2)) w i, (ih _ _ h3) w i, G_sem]
        simp only [sem]
      · rcases hf : findU a with _ | found
        · simp only [hf, Option.some.injEq] at h
          subst h
          exact LtlEquiv.refl _
        · simp only [hf, Option.bind_eq_some, Option.some.injEq] at h
          obtain ⟨ww1, h1, gff1, h2, a1, h3, h4⟩ := h
          subst h4
          have hv := findU_var a found hf
          intro w i
          rw [rule2_W hv b w i, sem_Or_pair, sem_And_pair, GF_sem, (ih _ _ h1) w i, W_sem, U_sem]
          apply or_congr
          · exact Iff.rfl
          · simp only [sem]
            apply exists_congr
            intro j
            apply and_congr Iff.rfl
            apply and_congr
            · rw [sem_Or_pair, (ih _ _ h2) w j, G_sem]
              exact Iff.rfl
            · exact forall_congr' fun k => forall_congr' fun _ => forall_congr' fun _ =>
                (ih _ _ h3) w k
    | mkR a b =>
      simp only [removeWU, bind, pure] at h
      split at h
      · simp only [Option.bind_eq_some, Option.some.injEq] at h
        obtain ⟨a1, h1, b1, h2, g1, h3, h4⟩ := h
        subst h4
        intro w i
        rw [sem_Or_pair, M_sem, (equiv_mkM (ih _ _ h1) (ih _ _ h2)) w i, (ih _ _ h3) w i, G_sem]
        exact (rule1_R a b w i).symm
      · rcases hf : findU b with _ | found
        · simp only [hf, Option.some.injEq] at h
          subst h
          exact LtlEquiv.refl _
        · simp only [hf, Option.bind_eq_some, Option.some.injEq] at h
          obtain ⟨rr1, h1, gff1, h2, b1, h3, h4⟩ := h
          subst h4
          have hv := findU_var b found hf
          intro w i
          rw [rule2_R hv a w i, sem_Or_pair, sem_And_pair, GF_sem, (ih _ _ h1) w i, R_sem, M_sem]
          apply or_congr
          · exact Iff.rfl
          · simp only [sem]
            apply exists_congr
            intro j
            apply and_congr Iff.rfl
            apply and_congr
            · rw [sem_Or_pair, (ih _ _ h2) w j, G_sem]
              exact Iff.rfl
            · exact forall_congr' fun k => forall_congr' fun _ => forall_congr' fun _ =>
                (ih _ _ h3) w k
    | _ =>
      simp only [removeWU, pure, Option.some.injEq] at h
      subst h
      exact LtlEquiv.refl _

open Normalizer

/-! ## `removeGF` preserves the semantics -/

theorem sameFairness_GF_iff (c left : Node) :
    sameFairness Op.GF c left = true ↔ left = .mkGF c := by
  cases left <;> simp [sameFairness]
  exact eq_comm

theorem sameFairness_FG_iff (c left : Node) :
    sameFairness Op.FG c left = true ↔ left = .mkFG c := by
  cases left <;> simp [sameFairness]
  exact eq_comm

theorem ReplaceOk_rfl (H : Word → Nat → Prop) (left right n : Node) :
    ReplaceOk H left right n n :=
  ⟨fun _ => Imp_rfl _ _, fun _ => Imp_rfl _ _⟩

theorem replaceList_ok (H : Word → Nat → Prop) (left right : Node) (cs : List Node)
    (h : ∀ c ∈ cs, ReplaceOk H left right c (replace left right c)) :
    (Imp H right left → List.Forall₂ (Imp H) (replaceList left right cs) cs) ∧
    (Imp H left right → List.Forall₂ (Imp H) cs (replaceList left right cs)) := by
  induction cs with
  | nil => exact ⟨fun _ => .nil, fun _ => .nil⟩
  | cons c cs ih =>
    have hc := h c (List.mem_cons_self _ _)
    have ht := ih (fun d hd => h d (List.mem_cons_of_mem _ hd))
    simp only [replaceList]
    exact ⟨fun e => .cons (hc.1 e) (ht.1 e), fun e => .cons (hc.2 e) (ht.2 e)⟩

theorem replace_ok (H : Word → Nat → Prop) (hH : Closed H) (left right : Node) (n : Node) :
    ReplaceOk H left right n (replace left right n) := by
  induction n using Node.induct with
  | hand cs ih =>
    have hl := replaceList_ok H left right cs ih
    rw [replace]
    try dsimp only
    split
    · exact ⟨fun e => Imp_of_equiv (And_equiv _) (LtlEquiv.refl _) (Imp_mkAND (hl.1 e)),
        fun e => Imp_of_equiv (LtlEquiv.refl _) (And_equiv _) (Imp_mkAND (hl.2 e))⟩
    · exact ReplaceOk_rfl _ _ _ _
  | hor cs ih =>
    have hl := replaceList_ok H left right cs ih
    rw [replace]
    try dsimp only
    split
    · exact ⟨fun e => Imp_of_equiv (Or_equiv _) (LtlEquiv.refl _) (Imp_mkOR (hl.1 e)),
        fun e => Imp_of_equiv (LtlEquiv.refl _) (Or_equiv _) (Imp_mkOR (hl.2 e))⟩
    · exact ReplaceOk_rfl _ _ _ _
  | hx c ih =>
    rw [replace]
    try dsimp only
    split
    · exact ⟨fun e => Imp_of_equiv (X_sem _) (LtlEquiv.refl _) (Imp_mkX hH (ih.1 e)),
        fun e => Imp_of_equiv (LtlEquiv.refl _) (X_sem _) (Imp_mkX hH (ih.2 e))⟩
    · exact ReplaceOk_rfl _ _ _ _
  | hu a b iha ihb =>
    rw [replace]
    try dsimp only
    split
    · exact ⟨fun e => Imp_of_equiv (U_sem _ _) (LtlEquiv.refl _) (Imp_mkU hH (iha.1 e) (ihb.1 e)),
        fun e => Imp_of_equiv (LtlEquiv.refl _) (U_sem _ _) (Imp_mkU hH (iha.2 e) (ihb.2 e))⟩
    · exact ReplaceOk_rfl _ _ _ _
  | hw a b iha ihb =>
    rw [replace]
    try dsimp only
    split
    · exact ⟨fun e => Imp_of_equiv (W_sem _ _) (LtlEquiv.refl _) (Imp_mkW hH (iha.1 e) (ihb.1 e)),
        fun e => Imp_of_equiv (LtlEquiv.refl _) (W_sem _ _) (Imp_mkW hH (iha.2 e) (ihb.2 e))⟩
    · exact ReplaceOk_rfl _ _ _ _
  | hr a b iha ihb =>
    rw [replace]
    try dsimp only
    split
    · exact ⟨fun e => Imp_of_equiv (R_sem _ _) (LtlEquiv.refl _) (Imp_mkR hH (iha.1 e) (ihb.1 e)),
        fun e => Imp_of_equiv (LtlEquiv.refl _) (R_sem _ _) (Imp_mkR hH (iha.2 e) (ihb.2 e))⟩
    · exact ReplaceOk_rfl _ _ _ _
  | hm a b iha ihb =>
    rw [replace]
    try dsimp only
    split
    · exact ⟨fun e => Imp_of_equiv (M_sem _ _) (LtlEquiv.refl _) (Imp_mkM hH (iha.1 e) (ihb.1 e)),
        fun e => Imp_of_equiv (LtlEquiv.refl _) (M_sem _ _) (Imp_mkM hH (iha.2 e) (ihb.2 e))⟩
    · exact ReplaceOk_rfl _ _ _ _
  | hgf c ih =>
    rw [replace]
    split
    · rename_i hs
      rw [sameFairness_GF_iff] at hs
      subst hs
      exact ⟨fun e => e, fun e => e⟩
    · try dsimp only
      split
      · exact ⟨fun e => Imp_of_equiv (GF_sem _) (LtlEquiv.refl _) (Imp_mkGF hH (ih.1 e)),
          fun e => Imp_of_equiv (LtlEquiv.refl _) (GF_sem _) (Imp_mkGF hH (ih.2 e))⟩
      · exact ReplaceOk_rfl _ _ _ _
  | hfg c ih =>
    rw [replace]
    split
    · rename_i hs
      rw [sameFairness_FG_iff] at hs
      subst hs
      exact ⟨fun e => e, fun e => e⟩
    · try dsimp only
      split
      · exact ⟨fun e => Imp_of_equiv (FG_sem _) (LtlEquiv.refl _) (Imp_mkFG hH (ih.1 e)),
          fun e => Imp_of_equiv (LtlEquiv.refl _) (FG_sem _) (Imp_mkFG hH (ih.2 e))⟩
      · exact ReplaceOk_rfl _ _ _ _
  | _ => rw [replace] <;> first | exact ReplaceOk_rfl _ _ _ _ | simp

theorem findGFList_fair (cs : List Node)
    (h : ∀ c ∈ cs, ∀ p g, findGF c p = some g → IsFair g) :
    ∀ p g, findGFList cs p = some g → IsFair g := by
  induction cs with
  | nil => intro p g hf; simp [findGFList] at hf
  | cons c cs ih =>
    intro p g hf
    rw [findGFList] at hf
    rcases hc : findGF c p with _ | g2
    · rw [hc] at hf
      exact ih (fun d hd => h d (List.mem_cons_of_mem _ hd)) p g hf
    · rw [hc] at hf
      simp only [Option.some.injEq] at hf
      subst hf
      exact h c (List.mem_cons_self _ _) p g2 hc

theorem binary_fair {a b g : Node}
    (iha : ∀ p g, findGF a p = some g → IsFair g)
    (ihb : ∀ p g, findGF b p = some g → IsFair g)
    (hf : (match findGF a true with
      | some g => some g
      | none => findGF b true) = some g) : IsFair g := by
  rcases hc : findGF a true with _ | g2
  · rw [hc] at hf
    exact ihb true g hf
  · rw [hc] at hf
    simp only [Option.some.injEq] at hf
    subst hf
    exact iha true g2 hc

/-- What `findGF` returns is a GF or FG node. -/
theorem findGF_fair (n : Node) : ∀ p g, findGF n p = some g → IsFair g := by
  induction n using Node.induct with
  | hand cs ih => intro p g hf; rw [findGF] at hf; exact findGFList_fair cs ih p g hf
  | hor cs ih => intro p g hf; rw [findGF] at hf; exact findGFList_fair cs ih p g hf
  | hx c ih => intro p g hf; rw [findGF] at hf; exact ih true g hf
  | hu a b iha ihb => intro p g hf; rw [findGF] at hf; exact binary_fair iha ihb hf
  | hw a b iha ihb => intro p g hf; rw [findGF] at hf; exact binary_fair iha ihb hf
  | hr a b iha ihb => intro p g hf; rw [findGF] at hf; exact binary_fair iha ihb hf
  | hm a b iha ihb => intro p g hf; rw [findGF] at hf; exact binary_fair iha ihb hf
  | hgf c ih =>
    intro p g hf
    rw [findGF] at hf
    rcases hc : findGF c true with _ | g2
    · simp only [hc] at hf
      split at hf
      · simp only [Option.some.injEq] at hf
        subst hf
        exact Or.inl ⟨c, rfl⟩
      · simp at hf
    · rw [hc] at hf
      simp only [Option.some.injEq] at hf
      subst hf
      exact ih true g2 hc
  | hfg c ih =>
    intro p g hf
    rw [findGF] at hf
    rcases hc : findGF c true with _ | g2
    · simp only [hc] at hf
      split at hf
      · simp only [Option.some.injEq] at hf
        subst hf
        exact Or.inr ⟨c, rfl⟩
      · simp at hf
    · rw [hc] at hf
      simp only [Option.some.injEq] at hf
      subst hf
      exact ih true g2 hc
  | _ => intro p g hf; simp [findGF] at hf

theorem sem_fair_shift {g : Node} (hg : IsFair g) (w : Word) (i j : Nat) :
    sem g w i ↔ sem g w j := by
  rcases hg with ⟨c, rfl⟩ | ⟨c, rfl⟩
  · exact sem_mkGF_shift c w i j
  · exact sem_mkFG_shift c w i j

/-- Rules (3) and (4): `f[GF a] = (GF a ∧ f[tt]) ∨ f[ff]`, and the same for FG. -/
theorem rule3 {g : Node} (hg : IsFair g) (n : Node) (w : Word) (i : Nat) :
    sem n w i ↔ (sem g w i ∧ sem (replace g .tt n) w i) ∨ sem (replace g .ff n) w i := by
  have c1 : Closed (fun w i => sem g w i) := fun w i j _ h => (sem_fair_shift hg w i j).mp h
  have c2 : Closed (fun w i => ¬ sem g w i) :=
    fun w i j _ h h2 => h ((sem_fair_shift hg w i j).mpr h2)
  constructor
  · intro hs
    by_cases hc : sem g w i
    · exact Or.inl ⟨hc, (replace_ok _ c1 g .tt n).2 (fun _ _ _ _ => by simp [sem]) w i hc hs⟩
    · exact Or.inr ((replace_ok _ c2 g .ff n).2 (fun _ _ h h2 => absurd h2 h) w i hc hs)
  · rintro (⟨hc, hs⟩ | hs)
    · exact (replace_ok _ c1 g .tt n).1 (fun _ _ h _ => h) w i hc hs
    · exact (replace_ok NoHyp Closed_NoHyp g .ff n).1
        (fun _ _ _ h => by simp [sem] at h) w i trivial hs

theorem forall₂_removeGF_equiv {k : Nat}
    (ih : ∀ n r, removeGF k n = some r → LtlEquiv r n) {cs rs : List Node}
    (h : List.Forall₂ (fun c r => removeGF k c = some r) cs rs) :
    List.Forall₂ LtlEquiv rs cs :=
  h.flip.imp (fun _ _ e => ih _ _ e)

/-- `removeGF` returns a formula equivalent to its argument. -/
theorem removeGF_sem (k : Nat) : ∀ n r, removeGF k n = some r → LtlEquiv r n := by
  induction k with
  | zero => intro n r h; simp [removeGF] at h
  | succ k ih =>
    intro n r h
    by_cases h1 : ∃ cs, n = .mkAND cs
    · obtain ⟨cs, rfl⟩ := h1
      simp only [removeGF, bind, pure, Option.bind_eq_some, Option.some.injEq] at h
      obtain ⟨copy, h1, h2⟩ := h
      subst h2
      exact equiv_mkAND (forall₂_removeGF_equiv ih (mapOption_forall₂ _ cs copy h1))
    by_cases h2 : ∃ cs, n = .mkOR cs
    · obtain ⟨cs, rfl⟩ := h2
      simp only [removeGF, bind, pure, Option.bind_eq_some, Option.some.injEq] at h
      obtain ⟨copy, h1, h2⟩ := h
      subst h2
      exact equiv_mkOR (forall₂_removeGF_equiv ih (mapOption_forall₂ _ cs copy h1))
    have e1 : ∀ cs, n ≠ .mkAND cs := fun cs hc => h1 ⟨cs, hc⟩
    have e2 : ∀ cs, n ≠ .mkOR cs := fun cs hc => h2 ⟨cs, hc⟩
    rw [removeGF_other _ n e1 e2] at h
    rcases hf : findGF n false with _ | found
    · simp only [hf, Option.some.injEq] at h
      subst h
      exact LtlEquiv.refl _
    · simp only [hf, Option.bind_eq_some, Option.some.injEq] at h
      obtain ⟨t1, ht, f1, hff, hr⟩ := h
      subst hr
      intro w i
      rw [rule3 (findGF_fair n false found hf) n w i, sem_Or_pair, sem_And_pair,
        (ih _ _ ht) w i, (ih _ _ hff) w i]

open Normalizer

/-! ## After `removeWU` no U/M is left below W/R outside GF and FG -/

theorem forall₂_all {P : Node → Prop} {f : Node → Option Node} {cs rs : List Node}
    (h2 : List.Forall₂ (fun c r => f c = some r) cs rs)
    (h : ∀ c ∈ cs, ∀ r, f c = some r → P r) : ∀ r ∈ rs, P r := by
  induction h2 with
  | nil => intro r hr; cases hr
  | cons hc _ ih =>
    intro r hr
    rcases List.mem_cons.mp hr with rfl | hr
    · exact h _ (List.mem_cons_self _ _) _ hc
    · exact ih (fun c hm => h c (List.mem_cons_of_mem _ hm)) r hr

open Normalizer

/-! ## The formulas seen by the repair pass -/

theorem noGFAll_iff (cs : List Node) : noGFAll cs = true ↔ ∀ c ∈ cs, noGF c = true := by
  induction cs with
  | nil => simp [noGFAll]
  | cons c cs ih => simp [noGFAll, ih]

theorem strongArgsNoGFAll_iff (cs : List Node) :
    strongArgsNoGFAll cs = true ↔ ∀ c ∈ cs, strongArgsNoGF c = true := by
  induction cs with
  | nil => simp [strongArgsNoGFAll]
  | cons c cs ih => simp [strongArgsNoGFAll, ih]

theorem fairFreeAll_iff (cs : List Node) :
    fairFreeAll cs = true ↔ ∀ c ∈ cs, fairFree c = true := by
  induction cs with
  | nil => simp [fairFreeAll]
  | cons c cs ih => simp [fairFreeAll, ih]

theorem topFairAll_iff (cs : List Node) :
    topFairAll cs = true ↔ ∀ c ∈ cs, topFair c = true := by
  induction cs with
  | nil => simp [topFairAll]
  | cons c cs ih => simp [topFairAll, ih]

theorem noGF_of_fairFree (n : Node) : fairFree n = true → noGF n = true := by
  induction n using Node.induct with
  | hand cs ih =>
    intro h
    rw [fairFree, fairFreeAll_iff] at h
    rw [noGF, noGFAll_iff]
    exact fun c hc => ih c hc (h c hc)
  | hor cs ih =>
    intro h
    rw [fairFree, fairFreeAll_iff] at h
    rw [noGF, noGFAll_iff]
    exact fun c hc => ih c hc (h c hc)
  | hx c ih => intro h; rw [fairFree] at h; rw [noGF]; exact ih h
  | hu a b iha ihb =>
    intro h
    simp only [fairFree, Bool.and_eq_true] at h
    simp only [noGF, Bool.and_eq_true]
    exact ⟨iha h.1, ihb h.2⟩
  | hw a b iha ihb =>
    intro h
    simp only [fairFree, Bool.and_eq_true] at h
    simp only [noGF, Bool.and_eq_true]
    exact ⟨iha h.1, ihb h.2⟩
  | hr a b iha ihb =>
    intro h
    simp only [fairFree, Bool.and_eq_true] at h
    simp only [noGF, Bool.and_eq_true]
    exact ⟨iha h.1, ihb h.2⟩
  | hm a b iha ihb =>
    intro h
    simp only [fairFree, Bool.and_eq_true] at h
    simp only [noGF, Bool.and_eq_true]
    exact ⟨iha h.1, ihb h.2⟩
  | hgf c _ => intro h; simp [fairFree] at h
  | hfg c _ => intro h; simp [fairFree] at h
  | _ => intro _; simp [noGF]

theorem strongArgsNoGF_of_noGF (n : Node) : noGF n = true → strongArgsNoGF n = true := by
  induction n using Node.induct with
  | hand cs ih =>
    intro h
    rw [noGF, noGFAll_iff] at h
    rw [strongArgsNoGF, strongArgsNoGFAll_iff]
    exact fun c hc => ih c hc (h c hc)
  | hor cs ih =>
    intro h
    rw [noGF, noGFAll_iff] at h
    rw [strongArgsNoGF, strongArgsNoGFAll_iff]
    exact fun c hc => ih c hc (h c hc)
  | hx c ih => intro h; rw [noGF] at h; rw [strongArgsNoGF]; exact ih h
  | hu a b _ _ => intro h; rw [noGF] at h; rw [strongArgsNoGF]; exact h
  | hm a b _ _ => intro h; rw [noGF] at h; rw [strongArgsNoGF]; exact h
  | hw a b iha ihb =>
    intro h
    simp only [noGF, Bool.and_eq_true] at h
    simp only [strongArgsNoGF, Bool.and_eq_true]
    exact ⟨iha h.1, ihb h.2⟩
  | hr a b iha ihb =>
    intro h
    simp only [noGF, Bool.and_eq_true] at h
    simp only [strongArgsNoGF, Bool.and_eq_true]
    exact ⟨iha h.1, ihb h.2⟩
  | hgf c _ => intro h; simp [noGF] at h
  | hfg c ih => intro h; rw [noGF] at h; rw [strongArgsNoGF]; exact ih h
  | _ => intro _; simp [strongArgsNoGF]

/-! ### A property kept by `And`, `Or` and `X` -/

theorem BoolClosed.And {P : Node → Bool} (hP : BoolClosed P) (cs : List Node)
    (h : ∀ c ∈ cs, P c = true) : P (Node.And cs) = true := by
  rcases And_cases cs with e | ⟨a, e1, e2⟩ | e
  · rw [e]; exact hP.ff
  · rw [e2]
    exact h a (List.mem_of_mem_filter (by rw [e1]; exact List.mem_singleton_self a))
  · rw [e]
    exact hP.mkAND _ (fun c hc => h c (List.mem_of_mem_filter hc))

theorem BoolClosed.Or {P : Node → Bool} (hP : BoolClosed P) (cs : List Node)
    (h : ∀ c ∈ cs, P c = true) : P (Node.Or cs) = true := by
  rcases Or_cases cs with e | ⟨a, e1, e2⟩ | e
  · rw [e]; exact hP.tt
  · rw [e2]
    exact h a (List.mem_of_mem_filter (by rw [e1]; exact List.mem_singleton_self a))
  · rw [e]
    exact hP.mkOR _ (fun c hc => h c (List.mem_of_mem_filter hc))

theorem BoolClosed.And2 {P : Node → Bool} (hP : BoolClosed P) {x y : Node}
    (hx : P x = true) (hy : P y = true) : P (Node.And [x, y]) = true := by
  apply hP.And
  intro c hc
  simp only [List.mem_cons, List.mem_singleton, List.not_mem_nil, or_false] at hc
  rcases hc with rfl | rfl
  · exact hx
  · exact hy

theorem BoolClosed.Or2 {P : Node → Bool} (hP : BoolClosed P) {x y : Node}
    (hx : P x = true) (hy : P y = true) : P (Node.Or [x, y]) = true := by
  apply hP.Or
  intro c hc
  simp only [List.mem_cons, List.mem_singleton, List.not_mem_nil, or_false] at hc
  rcases hc with rfl | rfl
  · exact hx
  · exact hy

theorem BoolClosed.X {P : Node → Bool} (hP : BoolClosed P) (c : Node)
    (h : P c = true) : P (Node.X c) = true := by
  rcases X_cases c with e | e <;> rw [e]
  · exact h
  · exact hP.mkX c h

theorem noGF_closed : BoolClosed noGF :=
  ⟨rfl, rfl, fun cs h => by rw [noGF, noGFAll_iff]; exact h,
    fun cs h => by rw [noGF, noGFAll_iff]; exact h, fun c h => by rw [noGF]; exact h⟩

theorem strongArgsNoGF_closed : BoolClosed strongArgsNoGF :=
  ⟨rfl, rfl, fun cs h => by rw [strongArgsNoGF, strongArgsNoGFAll_iff]; exact h,
    fun cs h => by rw [strongArgsNoGF, strongArgsNoGFAll_iff]; exact h,
    fun c h => by rw [strongArgsNoGF]; exact h⟩

theorem topFair_closed_And (cs : List Node) (h : ∀ c ∈ cs, topFair c = true) :
    topFair (Node.And cs) = true := by
  rcases And_cases cs with e | ⟨a, e1, e2⟩ | e
  · rw [e]; rfl
  · rw [e2]
    exact h a (List.mem_of_mem_filter (by rw [e1]; exact List.mem_singleton_self a))
  · rw [e, topFair, topFairAll_iff]
    exact fun c hc => h c (List.mem_of_mem_filter hc)

theorem topFair_closed_Or (cs : List Node) (h : ∀ c ∈ cs, topFair c = true) :
    topFair (Node.Or cs) = true := by
  rcases Or_cases cs with e | ⟨a, e1, e2⟩ | e
  · rw [e]; rfl
  · rw [e2]
    exact h a (List.mem_of_mem_filter (by rw [e1]; exact List.mem_singleton_self a))
  · rw [e, topFair, topFairAll_iff]
    exact fun c hc => h c (List.mem_of_mem_filter hc)

/-! ### The strong constructors keep `noGF` -/

theorem noGF_FG (c : Node) : noGF c = true → noGF (Node.FG c) = true := by
  induction c using Node.induct with
  | hx c ih => intro h; rw [noGF] at h; rw [Node.FG]; exact ih h
  | hw a b iha _ =>
    intro h
    simp only [noGF, Bool.and_eq_true] at h
    by_cases hb : b = .ff
    · subst hb; rw [Node.FG]; exact iha h.1
    · rw [Node.FG] <;> simp_all [noGF]
  | hr a b _ ihb =>
    intro h
    simp only [noGF, Bool.and_eq_true] at h
    by_cases ha : a = .ff
    · subst ha; rw [Node.FG]; exact ihb h.2
    · rw [Node.FG] <;> simp_all [noGF]
  | hgf c _ => intro h; simp [noGF] at h
  | _ => intro h; simp_all [Node.FG, noGF]

theorem noGF_U_aux (left right : Node)
    (hOr : ∀ cs, right = .mkOR cs → ∀ c ∈ cs, noGF c = true → noGF (Node.U .tt c) = true)
    (hl : noGF left = true) (hr : noGF right = true) : noGF (Node.U left right) = true := by
  unfold Node.U
  split_ifs with h1 h2 h3
  · exact hr
  · exact hr
  · split
    · rename_i cs
      apply noGF_closed.Or
      rw [mapF_eq]
      intro c hc
      obtain ⟨d, hd, rfl⟩ := List.mem_map.mp hc
      rw [noGF, noGFAll_iff] at hr
      exact hOr cs rfl d hd (hr d hd)
    · rename_i a
      simp only [noGF, Bool.and_eq_true] at hr
      exact noGF_FG a hr.1
    · rename_i b
      simp only [noGF, Bool.and_eq_true] at hr
      exact noGF_FG b hr.2
    · rw [noGF, hl, hr]; rfl
  · rw [noGF, hl, hr]; rfl

theorem noGF_U (left right : Node) (hl : noGF left = true) (hr : noGF right = true) :
    noGF (Node.U left right) = true := by
  revert left
  induction right using Node.induct with
  | hor cs ih =>
    intro left hl
    refine noGF_U_aux left _ ?_ hl hr
    intro cs2 h c hc hcc
    cases h
    exact ih c hc hcc .tt rfl
  | _ =>
    intro left hl
    refine noGF_U_aux left _ ?_ hl hr
    intro cs2 h
    cases h

theorem noGF_M (left right : Node) (hl : noGF left = true) (hr : noGF right = true) :
    noGF (Node.M left right) = true := by
  unfold Node.M
  split_ifs with h1 h2 h3 h4 h5
  · exact hr
  · rfl
  · rfl
  · exact noGF_closed.And2 hl hr
  · split
    · rename_i cs
      apply noGF_closed.Or
      rw [mapF_eq]
      intro c hc
      obtain ⟨d, hd, rfl⟩ := List.mem_map.mp hc
      rw [noGF, noGFAll_iff] at hl
      exact noGF_U .tt d rfl (hl d hd)
    · rename_i a
      simp only [noGF, Bool.and_eq_true] at hl
      exact noGF_FG a hl.1
    · rename_i b
      simp only [noGF, Bool.and_eq_true] at hl
      exact noGF_FG b hl.2
    · rw [noGF, hl, hr]; rfl
  · rw [noGF, hl, hr]; rfl

/-! ### The weak constructors keep `strongArgsNoGF` -/

theorem strongArgsNoGF_GF_of_noGF (c : Node) :
    noGF c = true → strongArgsNoGF (Node.GF c) = true := by
  induction c using Node.induct with
  | hx c ih => intro h; rw [noGF] at h; rw [Node.GF]; exact ih h
  | hu a b _ ihb =>
    intro h
    have h0 := h
    simp only [noGF, Bool.and_eq_true] at h
    by_cases ha : a = .tt
    · subst ha; rw [Node.GF]; exact ihb h.2
    · rw [Node.GF] <;> simp_all [strongArgsNoGF]
  | hm a b iha _ =>
    intro h
    have h0 := h
    simp only [noGF, Bool.and_eq_true] at h
    by_cases hb : b = .tt
    · subst hb; rw [Node.GF]; exact iha h.1
    · rw [Node.GF] <;> simp_all [strongArgsNoGF]
  | hgf c _ => intro h; simp [noGF] at h
  | hand cs _ =>
    intro h
    rw [Node.GF] <;> first | (rw [strongArgsNoGF]; exact strongArgsNoGF_of_noGF _ h) | simp
  | hor cs _ =>
    intro h
    rw [Node.GF] <;> first | (rw [strongArgsNoGF]; exact strongArgsNoGF_of_noGF _ h) | simp
  | hw a b _ _ =>
    intro h
    rw [Node.GF] <;> first | (rw [strongArgsNoGF]; exact strongArgsNoGF_of_noGF _ h) | simp
  | hr a b _ _ =>
    intro h
    rw [Node.GF] <;> first | (rw [strongArgsNoGF]; exact strongArgsNoGF_of_noGF _ h) | simp
  | hfg c _ =>
    intro h
    rw [Node.GF] <;> first | (rw [strongArgsNoGF]; exact strongArgsNoGF_of_noGF _ h) | simp
  | hap name =>
    intro h
    rw [Node.GF] <;> first | (rw [strongArgsNoGF]; exact strongArgsNoGF_of_noGF _ h) | simp
  | _ => intro _; simp [Node.GF, strongArgsNoGF]

theorem strongArgsNoGF_W_aux (left right : Node)
    (hAnd : ∀ cs, left = .mkAND cs → ∀ c ∈ cs, strongArgsNoGF c = true →
      strongArgsNoGF (Node.W c .ff) = true)
    (hl : strongArgsNoGF left = true) (hr : strongArgsNoGF right = true) :
    strongArgsNoGF (Node.W left right) = true := by
  unfold Node.W
  split_ifs with h1 h2 h3 h4 h5
  · exact hr
  · rfl
  · rfl
  · exact strongArgsNoGF_closed.Or2 hl hr
  · split
    · rename_i cs
      apply strongArgsNoGF_closed.And
      rw [mapG_eq]
      intro c hc
      obtain ⟨d, hd, rfl⟩ := List.mem_map.mp hc
      rw [strongArgsNoGF, strongArgsNoGFAll_iff] at hl
      exact hAnd cs rfl d hd (hl d hd)
    · rename_i b
      simp only [strongArgsNoGF, Bool.and_eq_true] at hl
      exact strongArgsNoGF_GF_of_noGF b hl.2
    · rename_i a
      simp only [strongArgsNoGF, Bool.and_eq_true] at hl
      exact strongArgsNoGF_GF_of_noGF a hl.1
    · rw [strongArgsNoGF, hl, hr]; rfl
  · rw [strongArgsNoGF, hl, hr]; rfl

theorem strongArgsNoGF_W (left right : Node)
    (hl : strongArgsNoGF left = true) (hr : strongArgsNoGF right = true) :
    strongArgsNoGF (Node.W left right) = true := by
  revert right
  induction left using Node.induct with
  | hand cs ih =>
    intro right hr
    refine strongArgsNoGF_W_aux _ right ?_ hl hr
    intro cs2 h c hc hcc
    cases h
    exact ih c hc hcc .ff rfl
  | _ =>
    intro right hr
    refine strongArgsNoGF_W_aux _ right ?_ hl hr
    intro cs2 h
    cases h

theorem strongArgsNoGF_R (left right : Node)
    (hl : strongArgsNoGF left = true) (hr : strongArgsNoGF right = true) :
    strongArgsNoGF (Node.R left right) = true := by
  unfold Node.R
  split_ifs with h1 h2 h3
  · exact hr
  · exact hr
  · split
    · rename_i cs
      apply strongArgsNoGF_closed.And
      rw [mapG_eq]
      intro c hc
      obtain ⟨d, hd, rfl⟩ := List.mem_map.mp hc
      rw [strongArgsNoGF, strongArgsNoGFAll_iff] at hr
      exact strongArgsNoGF_W d .ff (hr d hd) rfl
    · rename_i b
      simp only [strongArgsNoGF, Bool.and_eq_true] at hr
      exact strongArgsNoGF_GF_of_noGF b hr.2
    · rename_i a
      simp only [strongArgsNoGF, Bool.and_eq_true] at hr
      exact strongArgsNoGF_GF_of_noGF a hr.1
    · rw [strongArgsNoGF, hl, hr]; rfl
  · rw [strongArgsNoGF, hl, hr]; rfl

/-! ### The variants of `findU` keep `strongArgsNoGF` -/

theorem replaceUList_keeps (g : Node) (cs : List Node)
    (h : ∀ c ∈ cs, strongArgsNoGF c = true →
      strongArgsNoGF (copyFst (replaceU g c) c) = true ∧
      strongArgsNoGF (copySnd (replaceU g c) c) = true)
    (hcs : ∀ c ∈ cs, strongArgsNoGF c = true) :
    (∀ c ∈ (replaceUList g cs).2.1, strongArgsNoGF c = true) ∧
    (∀ c ∈ (replaceUList g cs).2.2, strongArgsNoGF c = true) := by
  induction cs with
  | nil => simp [replaceUList]
  | cons c cs ih =>
    have hc := h c (List.mem_cons_self _ _) (hcs c (List.mem_cons_self _ _))
    have ht := ih (fun d hd => h d (List.mem_cons_of_mem _ hd))
      (fun d hd => hcs d (List.mem_cons_of_mem _ hd))
    simp only [replaceUList, List.mem_cons, forall_eq_or_imp]
    exact ⟨⟨hc.1, ht.1⟩, ⟨hc.2, ht.2⟩⟩

theorem replaceU_keeps (g : Node) (n : Node) :
    strongArgsNoGF n = true →
      strongArgsNoGF (copyFst (replaceU g n) n) = true ∧
      strongArgsNoGF (copySnd (replaceU g n) n) = true := by
  induction n using Node.induct with
  | hand cs ih =>
    intro hn
    have hn2 := hn
    rw [strongArgsNoGF, strongArgsNoGFAll_iff] at hn2
    have hl := replaceUList_keeps g cs ih hn2
    rw [replaceU]
    rcases hr : replaceUList g cs with ⟨ch, fc, wc⟩
    rw [hr] at hl
    cases ch with
    | false => exact ⟨hn, hn⟩
    | true =>
      exact ⟨strongArgsNoGF_closed.And _ hl.1, strongArgsNoGF_closed.And _ hl.2⟩
  | hor cs ih =>
    intro hn
    have hn2 := hn
    rw [strongArgsNoGF, strongArgsNoGFAll_iff] at hn2
    have hl := replaceUList_keeps g cs ih hn2
    rw [replaceU]
    rcases hr : replaceUList g cs with ⟨ch, fc, wc⟩
    rw [hr] at hl
    cases ch with
    | false => exact ⟨hn, hn⟩
    | true =>
      exact ⟨strongArgsNoGF_closed.Or _ hl.1, strongArgsNoGF_closed.Or _ hl.2⟩
  | hx c ih =>
    intro hn
    have hn2 := hn
    rw [strongArgsNoGF] at hn2
    rw [replaceU]
    rcases hr : replaceU g c with _ | p
    · exact ⟨hn, hn⟩
    · have := ih hn2
      rw [hr] at this
      exact ⟨strongArgsNoGF_closed.X _ this.1, strongArgsNoGF_closed.X _ this.2⟩
  | hw a b iha ihb =>
    intro hn
    have hn2 := hn
    simp only [strongArgsNoGF, Bool.and_eq_true] at hn2
    rw [replaceU]
    split
    · exact ⟨hn, hn⟩
    · exact ⟨strongArgsNoGF_W _ _ (iha hn2.1).1 (ihb hn2.2).1,
        strongArgsNoGF_W _ _ (iha hn2.1).2 (ihb hn2.2).2⟩
  | hr a b iha ihb =>
    intro hn
    have hn2 := hn
    simp only [strongArgsNoGF, Bool.and_eq_true] at hn2
    rw [replaceU]
    split
    · exact ⟨hn, hn⟩
    · exact ⟨strongArgsNoGF_R _ _ (iha hn2.1).1 (ihb hn2.2).1,
        strongArgsNoGF_R _ _ (iha hn2.1).2 (ihb hn2.2).2⟩
  | hu a b _ _ =>
    intro hn
    have hn2 := hn
    simp only [strongArgsNoGF, Bool.and_eq_true] at hn2
    rw [replaceU]
    split
    · rename_i he
      rw [equal_iff] at he
      subst he
      exact ⟨rfl, strongArgsNoGF_W _ _ (strongArgsNoGF_of_noGF _ hn2.1)
        (strongArgsNoGF_of_noGF _ hn2.2)⟩
    · exact ⟨hn, hn⟩
  | hm a b _ _ =>
    intro hn
    have hn2 := hn
    simp only [strongArgsNoGF, Bool.and_eq_true] at hn2
    rw [replaceU]
    split
    · rename_i he
      rw [equal_iff] at he
      subst he
      exact ⟨rfl, strongArgsNoGF_R _ _ (strongArgsNoGF_of_noGF _ hn2.1)
        (strongArgsNoGF_of_noGF _ hn2.2)⟩
    · exact ⟨hn, hn⟩
  | _ => intro hn; rw [replaceU] <;> first | exact ⟨hn, hn⟩ | simp

theorem findUList_keeps (cs : List Node)
    (h : ∀ c ∈ cs, ∀ res, findU c = some res → strongArgsNoGF c = true →
      noGF res.gfa = true ∧ strongArgsNoGF res.ff = true ∧ strongArgsNoGF res.weak = true)
    (hcs : ∀ c ∈ cs, strongArgsNoGF c = true) :
    ∀ g fc wc, findUList cs = some (g, fc, wc) →
      noGF g = true ∧ (∀ c ∈ fc, strongArgsNoGF c = true) ∧
      (∀ c ∈ wc, strongArgsNoGF c = true) := by
  induction cs with
  | nil => intro g fc wc hf; simp [findUList] at hf
  | cons c cs ih =>
    intro g fc wc hf
    rw [findUList] at hf
    have hc0 := hcs c (List.mem_cons_self _ _)
    have hcs2 : ∀ d ∈ cs, strongArgsNoGF d = true :=
      fun d hd => hcs d (List.mem_cons_of_mem _ hd)
    rcases hc : findU c with _ | res
    · rw [hc] at hf
      rcases hl : findUList cs with _ | ⟨g2, fc2, wc2⟩
      · rw [hl] at hf; simp at hf
      · rw [hl] at hf
        simp only [Option.some.injEq, Prod.mk.injEq] at hf
        obtain ⟨rfl, rfl, rfl⟩ := hf
        have := ih (fun d hd => h d (List.mem_cons_of_mem _ hd)) hcs2 _ _ _ hl
        simp only [List.mem_cons, forall_eq_or_imp]
        exact ⟨this.1, ⟨hc0, this.2.1⟩, ⟨hc0, this.2.2⟩⟩
    · rw [hc] at hf
      simp only [Option.some.injEq, Prod.mk.injEq] at hf
      obtain ⟨rfl, rfl, rfl⟩ := hf
      obtain ⟨f1, f2, f3⟩ := h c (List.mem_cons_self _ _) res hc hc0
      have hl := replaceUList_keeps res.gfa cs (fun d _ => replaceU_keeps res.gfa d) hcs2
      simp only [List.mem_cons, forall_eq_or_imp]
      exact ⟨f1, ⟨f2, hl.1⟩, ⟨f3, hl.2⟩⟩

/-- The witness found by `findU` has no GF node, and the two variants keep
every GF node away from the arguments of U/M. -/
theorem findU_keeps (n : Node) :
    ∀ res, findU n = some res → strongArgsNoGF n = true →
      noGF res.gfa = true ∧ strongArgsNoGF res.ff = true ∧
      strongArgsNoGF res.weak = true := by
  induction n using Node.induct with
  | hand cs ih =>
    intro res hf hn
    rw [strongArgsNoGF, strongArgsNoGFAll_iff] at hn
    rw [findU] at hf
    rcases hl : findUList cs with _ | ⟨g, fc, wc⟩
    · rw [hl] at hf; simp at hf
    · rw [hl] at hf
      simp only [Option.some.injEq] at hf
      subst hf
      have := findUList_keeps cs ih hn _ _ _ hl
      exact ⟨this.1, strongArgsNoGF_closed.And _ this.2.1,
        strongArgsNoGF_closed.And _ this.2.2⟩
  | hor cs ih =>
    intro res hf hn
    rw [strongArgsNoGF, strongArgsNoGFAll_iff] at hn
    rw [findU] at hf
    rcases hl : findUList cs with _ | ⟨g, fc, wc⟩
    · rw [hl] at hf; simp at hf
    · rw [hl] at hf
      simp only [Option.some.injEq] at hf
      subst hf
      have := findUList_keeps cs ih hn _ _ _ hl
      exact ⟨this.1, strongArgsNoGF_closed.Or _ this.2.1,
        strongArgsNoGF_closed.Or _ this.2.2⟩
  | hx c ih =>
    intro res hf hn
    rw [strongArgsNoGF] at hn
    rw [findU] at hf
    rcases hc : findU c with _ | r
    · rw [hc] at hf; simp at hf
    · rw [hc] at hf
      simp only [Option.some.injEq] at hf
      subst hf
      have := ih r hc hn
      exact ⟨this.1, strongArgsNoGF_closed.X _ this.2.1, strongArgsNoGF_closed.X _ this.2.2⟩
  | hw a b iha ihb =>
    intro res hf hn
    simp only [strongArgsNoGF, Bool.and_eq_true] at hn
    rw [findU] at hf
    rcases ha : findU a with _ | r
    · rw [ha] at hf
      rcases hb : findU b with _ | r
      · rw [hb] at hf; simp at hf
      · rw [hb] at hf
        simp only [Option.some.injEq] at hf
        subst hf
        have := ihb r hb hn.2
        exact ⟨this.1, strongArgsNoGF_W _ _ hn.1 this.2.1, strongArgsNoGF_W _ _ hn.1 this.2.2⟩
    · rw [ha] at hf
      simp only [Option.some.injEq] at hf
      subst hf
      have := iha r ha hn.1
      have hb := replaceU_keeps r.gfa b hn.2
      exact ⟨this.1, strongArgsNoGF_W _ _ this.2.1 hb.1, strongArgsNoGF_W _ _ this.2.2 hb.2⟩
  | hr a b iha ihb =>
    intro res hf hn
    simp only [strongArgsNoGF, Bool.and_eq_true] at hn
    rw [findU] at hf
    rcases ha : findU a with _ | r
    · rw [ha] at hf
      rcases hb : findU b with _ | r
      · rw [hb] at hf; simp at hf
      · rw [hb] at hf
        simp only [Option.some.injEq] at hf
        subst hf
        have := ihb r hb hn.2
        exact ⟨this.1, strongArgsNoGF_R _ _ hn.1 this.2.1, strongArgsNoGF_R _ _ hn.1 this.2.2⟩
    · rw [ha] at hf
      simp only [Option.some.injEq] at hf
      subst hf
      have := iha r ha hn.1
      have hb := replaceU_keeps r.gfa b hn.2
      exact ⟨this.1, strongArgsNoGF_R _ _ this.2.1 hb.1, strongArgsNoGF_R _ _ this.2.2 hb.2⟩
  | hu a b _ _ =>
    intro res hf hn
    simp only [strongArgsNoGF, Bool.and_eq_true] at hn
    rw [findU] at hf
    simp only [Option.some.injEq] at hf
    subst hf
    exact ⟨hn.2, rfl, strongArgsNoGF_W _ _ (strongArgsNoGF_of_noGF _ hn.1)
      (strongArgsNoGF_of_noGF _ hn.2)⟩
  | hm a b _ _ =>
    intro res hf hn
    simp only [strongArgsNoGF, Bool.and_eq_true] at hn
    rw [findU] at hf
    simp only [Option.some.injEq] at hf
    subst hf
    exact ⟨hn.1, rfl, strongArgsNoGF_R _ _ (strongArgsNoGF_of_noGF _ hn.1)
      (strongArgsNoGF_of_noGF _ hn.2)⟩
  | _ => intro res hf; simp [findU] at hf

open Normalizer

/-! ### The variants of `findW` keep `noGF` -/

theorem replaceWList_keeps (g : Node) (cs : List Node)
    (h : ∀ c ∈ cs, noGF c = true →
      noGF (copyFst (replaceW g c) c) = true ∧ noGF (copySnd (replaceW g c) c) = true)
    (hcs : ∀ c ∈ cs, noGF c = true) :
    (∀ c ∈ (replaceWList g cs).2.1, noGF c = true) ∧
    (∀ c ∈ (replaceWList g cs).2.2, noGF c = true) := by
  induction cs with
  | nil => simp [replaceWList]
  | cons c cs ih =>
    have hc := h c (List.mem_cons_self _ _) (hcs c (List.mem_cons_self _ _))
    have ht := ih (fun d hd => h d (List.mem_cons_of_mem _ hd))
      (fun d hd => hcs d (List.mem_cons_of_mem _ hd))
    simp only [replaceWList, List.mem_cons, forall_eq_or_imp]
    exact ⟨⟨hc.1, ht.1⟩, ⟨hc.2, ht.2⟩⟩

theorem replaceW_keeps (g : Node) (n : Node) :
    noGF n = true →
      noGF (copyFst (replaceW g n) n) = true ∧ noGF (copySnd (replaceW g n) n) = true := by
  induction n using Node.induct with
  | hand cs ih =>
    intro hn
    have hn2 := hn
    rw [noGF, noGFAll_iff] at hn2
    have hl := replaceWList_keeps g cs ih hn2
    rw [replaceW]
    rcases hr : replaceWList g cs with ⟨ch, fc, wc⟩
    rw [hr] at hl
    cases ch with
    | false => exact ⟨hn, hn⟩
    | true => exact ⟨noGF_closed.And _ hl.1, noGF_closed.And _ hl.2⟩
  | hor cs ih =>
    intro hn
    have hn2 := hn
    rw [noGF, noGFAll_iff] at hn2
    have hl := replaceWList_keeps g cs ih hn2
    rw [replaceW]
    rcases hr : replaceWList g cs with ⟨ch, fc, wc⟩
    rw [hr] at hl
    cases ch with
    | false => exact ⟨hn, hn⟩
    | true => exact ⟨noGF_closed.Or _ hl.1, noGF_closed.Or _ hl.2⟩
  | hx c ih =>
    intro hn
    have hn2 := hn
    rw [noGF] at hn2
    rw [replaceW]
    rcases hr : replaceW g c with _ | p
    · exact ⟨hn, hn⟩
    · have := ih hn2
      rw [hr] at this
      exact ⟨noGF_closed.X _ this.1, noGF_closed.X _ this.2⟩
  | hu a b iha ihb =>
    intro hn
    have hn2 := hn
    simp only [noGF, Bool.and_eq_true] at hn2
    rw [replaceW]
    split
    · exact ⟨hn, hn⟩
    · exact ⟨noGF_U _ _ (iha hn2.1).1 (ihb hn2.2).1, noGF_U _ _ (iha hn2.1).2 (ihb hn2.2).2⟩
  | hm a b iha ihb =>
    intro hn
    have hn2 := hn
    simp only [noGF, Bool.and_eq_true] at hn2
    rw [replaceW]
    split
    · exact ⟨hn, hn⟩
    · exact ⟨noGF_M _ _ (iha hn2.1).1 (ihb hn2.2).1, noGF_M _ _ (iha hn2.1).2 (ihb hn2.2).2⟩
  | hw a b _ _ =>
    intro hn
    have hn2 := hn
    simp only [noGF, Bool.and_eq_true] at hn2
    rw [replaceW]
    split
    · rename_i he
      rw [equal_iff] at he
      subst he
      exact ⟨rfl, noGF_U _ _ hn2.1 hn2.2⟩
    · exact ⟨hn, hn⟩
  | hr a b _ _ =>
    intro hn
    have hn2 := hn
    simp only [noGF, Bool.and_eq_true] at hn2
    rw [replaceW]
    split
    · rename_i he
      rw [equal_iff] at he
      subst he
      exact ⟨rfl, noGF_M _ _ hn2.1 hn2.2⟩
    · exact ⟨hn, hn⟩
  | _ => intro hn; rw [replaceW] <;> first | exact ⟨hn, hn⟩ | simp

theorem findWList_keeps (cs : List Node)
    (h : ∀ c ∈ cs, ∀ res, findW c = some res → noGF c = true →
      noGF res.fga = true ∧ noGF res.strong = true ∧ noGF res.tt = true)
    (hcs : ∀ c ∈ cs, noGF c = true) :
    ∀ g sc tc, findWList cs = some (g, sc, tc) →
      noGF g = true ∧ (∀ c ∈ sc, noGF c = true) ∧ (∀ c ∈ tc, noGF c = true) := by
  induction cs with
  | nil => intro g sc tc hf; simp [findWList] at hf
  | cons c cs ih =>
    intro g sc tc hf
    rw [findWList] at hf
    have hc0 := hcs c (List.mem_cons_self _ _)
    have hcs2 : ∀ d ∈ cs, noGF d = true := fun d hd => hcs d (List.mem_cons_of_mem _ hd)
    rcases hc : findW c with _ | res
    · rw [hc] at hf
      rcases hl : findWList cs with _ | ⟨g2, sc2, tc2⟩
      · rw [hl] at hf; simp at hf
      · rw [hl] at hf
        simp only [Option.some.injEq, Prod.mk.injEq] at hf
        obtain ⟨rfl, rfl, rfl⟩ := hf
        have := ih (fun d hd => h d (List.mem_cons_of_mem _ hd)) hcs2 _ _ _ hl
        simp only [List.mem_cons, forall_eq_or_imp]
        exact ⟨this.1, ⟨hc0, this.2.1⟩, ⟨hc0, this.2.2⟩⟩
    · rw [hc] at hf
      simp only [Option.some.injEq, Prod.mk.injEq] at hf
      obtain ⟨rfl, rfl, rfl⟩ := hf
      obtain ⟨f1, f2, f3⟩ := h c (List.mem_cons_self _ _) res hc hc0
      have hl := replaceWList_keeps res.fga cs (fun d _ => replaceW_keeps res.fga d) hcs2
      simp only [List.mem_cons, forall_eq_or_imp]
      exact ⟨f1, ⟨f2, hl.2⟩, ⟨f3, hl.1⟩⟩

/-- On a formula without GF nodes, the three results of `findW` have no GF
node either. -/
theorem findW_keeps (n : Node) :
    ∀ res, findW n = some res → noGF n = true →
      noGF res.fga = true ∧ noGF res.strong = true ∧ noGF res.tt = true := by
  induction n using Node.induct with
  | hand cs ih =>
    intro res hf hn
    rw [noGF, noGFAll_iff] at hn
    rw [findW] at hf
    rcases hl : findWList cs with _ | ⟨g, sc, tc⟩
    · rw [hl] at hf; simp at hf
    · rw [hl] at hf
      simp only [Option.some.injEq] at hf
      subst hf
      have := findWList_keeps cs ih hn _ _ _ hl
      exact ⟨this.1, noGF_closed.And _ this.2.1, noGF_closed.And _ this.2.2⟩
  | hor cs ih =>
    intro res hf hn
    rw [noGF, noGFAll_iff] at hn
    rw [findW] at hf
    rcases hl : findWList cs with _ | ⟨g, sc, tc⟩
    · rw [hl] at hf; simp at hf
    · rw [hl] at hf
      simp only [Option.some.injEq] at hf
      subst hf
      have := findWList_keeps cs ih hn _ _ _ hl
      exact ⟨this.1, noGF_closed.Or _ this.2.1, noGF_closed.Or _ this.2.2⟩
  | hx c ih =>
    intro res hf hn
    rw [noGF] at hn
    rw [findW] at hf
    rcases hc : findW c with _ | r
    · rw [hc] at hf; simp at hf
    · rw [hc] at hf
      simp only [Option.some.injEq] at hf
      subst hf
      have := ih r hc hn
      exact ⟨this.1, noGF_closed.X _ this.2.1, noGF_closed.X _ this.2.2⟩
  | hu a b iha ihb =>
    intro res hf hn
    simp only [noGF, Bool.and_eq_true] at hn
    rw [findW] at hf
    rcases ha : findW a with _ | r
    · rw [ha] at hf
      rcases hb : findW b with _ | r
      · rw [hb] at hf; simp at hf
      · rw [hb] at hf
        simp only [Option.some.injEq] at hf
        subst hf
        have := ihb r hb hn.2
        exact ⟨this.1, noGF_U _ _ hn.1 this.2.1, noGF_U _ _ hn.1 this.2.2⟩
    · rw [ha] at hf
      simp only [Option.some.injEq] at hf
      subst hf
      have := iha r ha hn.1
      have hb := replaceW_keeps r.fga b hn.2
      exact ⟨this.1, noGF_U _ _ this.2.1 hb.2, noGF_U _ _ this.2.2 hb.1⟩
  | hm a b iha ihb =>
    intro res hf hn
    simp only [noGF, Bool.and_eq_true] at hn
    rw [findW] at hf
    rcases ha : findW a with _ | r
    · rw [ha] at hf
      rcases hb : findW b with _ | r
      · rw [hb] at hf; simp at hf
      · rw [hb] at hf
        simp only [Option.some.injEq] at hf
        subst hf
        have := ihb r hb hn.2
        exact ⟨this.1, noGF_M _ _ hn.1 this.2.1, noGF_M _ _ hn.1 this.2.2⟩
    · rw [ha] at hf
      simp only [Option.some.injEq] at hf
      subst hf
      have := iha r ha hn.1
      have hb := replaceW_keeps r.fga b hn.2
      exact ⟨this.1, noGF_M _ _ this.2.1 hb.2, noGF_M _ _ this.2.2 hb.1⟩
  | hw a b _ _ =>
    intro res hf hn
    simp only [noGF, Bool.and_eq_true] at hn
    rw [findW] at hf
    simp only [Option.some.injEq] at hf
    subst hf
    exact ⟨hn.1, noGF_U _ _ hn.1 hn.2, rfl⟩
  | hr a b _ _ =>
    intro res hf hn
    simp only [noGF, Bool.and_eq_true] at hn
    rw [findW] at hf
    simp only [Option.some.injEq] at hf
    subst hf
    exact ⟨hn.2, noGF_M _ _ hn.1 hn.2, rfl⟩
  | hgf c _ =>
    intro res hf hn
    simp [noGF] at hn
  | hfg c _ =>
    intro res hf hn
    rw [noGF] at hn
    rw [findW] at hf
    simp only [Option.some.injEq] at hf
    subst hf
    exact ⟨hn, rfl, rfl⟩
  | _ => intro res hf; simp [findW] at hf

open Normalizer

/-! ## The variants computed by `findW` and `replaceW` -/

theorem VarW_refl (g c : Node) : VarW g c c c :=
  ⟨Imp_rfl _ _, Imp_rfl _ _, Imp_rfl _ _, Imp_rfl _ _⟩

theorem VarWList_nil (g : Node) : VarWList g [] [] [] :=
  ⟨.nil, .nil, .nil, .nil⟩

theorem VarWList_cons {g c st tv : Node} {cs ss ts : List Node}
    (h : VarW g c st tv) (t : VarWList g cs ss ts) :
    VarWList g (c :: cs) (st :: ss) (tv :: ts) :=
  ⟨.cons h.strong_imp t.strong_imp, .cons h.imp_tt t.imp_tt,
    .cons h.tt_imp t.tt_imp, .cons h.imp_strong t.imp_strong⟩

theorem VarW_X {g c st tv : Node} (h : VarW g c st tv) :
    VarW g (.mkX c) (Node.X st) (Node.X tv) :=
  ⟨Imp_of_equiv (X_sem st) (LtlEquiv.refl _) (Imp_mkX Closed_NoHyp h.strong_imp),
   Imp_of_equiv (LtlEquiv.refl _) (X_sem tv) (Imp_mkX Closed_NoHyp h.imp_tt),
   Imp_of_equiv (X_sem tv) (LtlEquiv.refl _) (Imp_mkX (Closed_Always g) h.tt_imp),
   Imp_of_equiv (LtlEquiv.refl _) (X_sem st) (Imp_mkX (Closed_InfFails g) h.imp_strong)⟩

theorem VarW_U {g a sa ta b sb tb : Node} (ha : VarW g a sa ta) (hb : VarW g b sb tb) :
    VarW g (.mkU a b) (Node.U sa sb) (Node.U ta tb) :=
  ⟨Imp_of_equiv (U_sem sa sb) (LtlEquiv.refl _)
     (Imp_mkU Closed_NoHyp ha.strong_imp hb.strong_imp),
   Imp_of_equiv (LtlEquiv.refl _) (U_sem ta tb) (Imp_mkU Closed_NoHyp ha.imp_tt hb.imp_tt),
   Imp_of_equiv (U_sem ta tb) (LtlEquiv.refl _)
     (Imp_mkU (Closed_Always g) ha.tt_imp hb.tt_imp),
   Imp_of_equiv (LtlEquiv.refl _) (U_sem sa sb)
     (Imp_mkU (Closed_InfFails g) ha.imp_strong hb.imp_strong)⟩

theorem VarW_M {g a sa ta b sb tb : Node} (ha : VarW g a sa ta) (hb : VarW g b sb tb) :
    VarW g (.mkM a b) (Node.M sa sb) (Node.M ta tb) :=
  ⟨Imp_of_equiv (M_sem sa sb) (LtlEquiv.refl _)
     (Imp_mkM Closed_NoHyp ha.strong_imp hb.strong_imp),
   Imp_of_equiv (LtlEquiv.refl _) (M_sem ta tb) (Imp_mkM Closed_NoHyp ha.imp_tt hb.imp_tt),
   Imp_of_equiv (M_sem ta tb) (LtlEquiv.refl _)
     (Imp_mkM (Closed_Always g) ha.tt_imp hb.tt_imp),
   Imp_of_equiv (LtlEquiv.refl _) (M_sem sa sb)
     (Imp_mkM (Closed_InfFails g) ha.imp_strong hb.imp_strong)⟩

theorem VarW_And {g : Node} {cs ss ts : List Node} (h : VarWList g cs ss ts) :
    VarW g (.mkAND cs) (Node.And ss) (Node.And ts) :=
  ⟨Imp_of_equiv (And_equiv ss) (LtlEquiv.refl _) (Imp_mkAND h.strong_imp),
   Imp_of_equiv (LtlEquiv.refl _) (And_equiv ts) (Imp_mkAND h.imp_tt),
   Imp_of_equiv (And_equiv ts) (LtlEquiv.refl _) (Imp_mkAND h.tt_imp),
   Imp_of_equiv (LtlEquiv.refl _) (And_equiv ss) (Imp_mkAND h.imp_strong)⟩

theorem VarW_Or {g : Node} {cs ss ts : List Node} (h : VarWList g cs ss ts) :
    VarW g (.mkOR cs) (Node.Or ss) (Node.Or ts) :=
  ⟨Imp_of_equiv (Or_equiv ss) (LtlEquiv.refl _) (Imp_mkOR h.strong_imp),
   Imp_of_equiv (LtlEquiv.refl _) (Or_equiv ts) (Imp_mkOR h.imp_tt),
   Imp_of_equiv (Or_equiv ts) (LtlEquiv.refl _) (Imp_mkOR h.tt_imp),
   Imp_of_equiv (LtlEquiv.refl _) (Or_equiv ss) (Imp_mkOR h.imp_strong)⟩

/-- The rule for `a W b`: `a U b` and true, with the witness `a`. -/
theorem VarW_mkW (a b : Node) : VarW a (.mkW a b) (Node.U a b) .tt := by
  refine ⟨?_, ?_, ?_, ?_⟩
  · intro w i _ h
    rw [U_sem] at h
    simp only [sem] at h ⊢
    exact Or.inl h
  · intro w i _ _
    simp only [sem]
  · intro w i hg _
    simp only [sem]
    exact Or.inr (fun k hk => hg k hk)
  · intro w i hg h
    rw [U_sem]
    simp only [sem] at h ⊢
    rcases h with h | h
    · exact h
    · obtain ⟨j, hj, hn⟩ := hg i (le_refl _)
      exact absurd (h j hj) hn

/-- The rule for `a R b`: `a M b` and true, with the witness `b`. -/
theorem VarW_mkR (a b : Node) : VarW b (.mkR a b) (Node.M a b) .tt := by
  refine ⟨?_, ?_, ?_, ?_⟩
  · intro w i _ h
    rw [M_sem] at h
    exact sem_mkM_imp_mkR a b w i h
  · intro w i _ _
    simp only [sem]
  · intro w i hg _
    simp only [sem]
    exact fun j hj => Or.inl (hg j hj)
  · intro w i hg h
    rw [M_sem]
    obtain ⟨j, hj, hn⟩ := hg i (le_refl _)
    have h2 := h
    simp only [sem] at h2
    rcases h2 j hj with hb | ⟨k, hk, _, ha⟩
    · exact absurd hb hn
    · exact sem_mkR_imp_mkM a b w i k hk ha h

/-- The rule for `FG c`: false and true, with the witness `c`. -/
theorem VarW_mkFG (c : Node) : VarW c (.mkFG c) .ff .tt := by
  refine ⟨?_, ?_, ?_, ?_⟩
  · intro w i _ h
    simp [sem] at h
  · intro w i _ _
    simp only [sem]
  · intro w i hg _
    simp only [sem]
    exact ⟨i, le_refl _, fun j hj => hg j hj⟩
  · intro w i hg h
    simp only [sem] at h
    obtain ⟨k, hk, h2⟩ := h
    obtain ⟨j, hj, hn⟩ := hg k hk
    exact absurd (h2 j hj) hn

theorem replaceWList_var (g : Node) (cs : List Node)
    (h : ∀ c ∈ cs, VarW g c (copySnd (replaceW g c) c) (copyFst (replaceW g c) c)) :
    VarWList g cs (replaceWList g cs).2.2 (replaceWList g cs).2.1 := by
  induction cs with
  | nil => exact VarWList_nil g
  | cons c cs ih =>
    simp only [replaceWList]
    exact VarWList_cons (h c (List.mem_cons_self _ _))
      (ih (fun d hd => h d (List.mem_cons_of_mem _ hd)))

theorem replaceW_var (g : Node) (n : Node) :
    VarW g n (copySnd (replaceW g n) n) (copyFst (replaceW g n) n) := by
  induction n using Node.induct with
  | hand cs ih =>
    have hl := replaceWList_var g cs ih
    rw [replaceW]
    rcases hr : replaceWList g cs with ⟨ch, tc, sc⟩
    rw [hr] at hl
    cases ch with
    | false => exact VarW_refl _ _
    | true => exact VarW_And hl
  | hor cs ih =>
    have hl := replaceWList_var g cs ih
    rw [replaceW]
    rcases hr : replaceWList g cs with ⟨ch, tc, sc⟩
    rw [hr] at hl
    cases ch with
    | false => exact VarW_refl _ _
    | true => exact VarW_Or hl
  | hx c ih =>
    rw [replaceW]
    rcases hr : replaceW g c with _ | p
    · exact VarW_refl _ _
    · rw [hr] at ih
      exact VarW_X ih
  | hu a b iha ihb =>
    rw [replaceW]
    split
    · exact VarW_refl _ _
    · exact VarW_U iha ihb
  | hm a b iha ihb =>
    rw [replaceW]
    split
    · exact VarW_refl _ _
    · exact VarW_M iha ihb
  | hw a b _ _ =>
    rw [replaceW]
    split
    · rename_i he
      rw [equal_iff] at he
      subst he
      exact VarW_mkW g b
    · exact VarW_refl _ _
  | hr a b _ _ =>
    rw [replaceW]
    split
    · rename_i he
      rw [equal_iff] at he
      subst he
      exact VarW_mkR a g
    · exact VarW_refl _ _
  | _ => rw [replaceW] <;> first | exact VarW_refl _ _ | simp

theorem findWList_var (cs : List Node)
    (h : ∀ c ∈ cs, ∀ res, findW c = some res → noGF c = true →
      VarW res.fga c res.strong res.tt)
    (hcs : ∀ c ∈ cs, noGF c = true) :
    ∀ g sc tc, findWList cs = some (g, sc, tc) → VarWList g cs sc tc := by
  induction cs with
  | nil => intro g sc tc hf; simp [findWList] at hf
  | cons c cs ih =>
    intro g sc tc hf
    rw [findWList] at hf
    rcases hc : findW c with _ | res
    · rw [hc] at hf
      rcases hl : findWList cs with _ | ⟨g2, sc2, tc2⟩
      · rw [hl] at hf; simp at hf
      · rw [hl] at hf
        simp only [Option.some.injEq, Prod.mk.injEq] at hf
        obtain ⟨rfl, rfl, rfl⟩ := hf
        exact VarWList_cons (VarW_refl _ _)
          (ih (fun d hd => h d (List.mem_cons_of_mem _ hd))
            (fun d hd => hcs d (List.mem_cons_of_mem _ hd)) _ _ _ hl)
    · rw [hc] at hf
      simp only [Option.some.injEq, Prod.mk.injEq] at hf
      obtain ⟨rfl, rfl, rfl⟩ := hf
      exact VarWList_cons
        (h c (List.mem_cons_self _ _) res hc (hcs c (List.mem_cons_self _ _)))
        (replaceWList_var res.fga cs (fun d _ => replaceW_var res.fga d))

/-- On a formula without GF nodes, `findW` returns a witness and the two
variants of the formula for it. -/
theorem findW_var (n : Node) :
    ∀ res, findW n = some res → noGF n = true → VarW res.fga n res.strong res.tt := by
  induction n using Node.induct with
  | hand cs ih =>
    intro res hf hn
    rw [noGF, noGFAll_iff] at hn
    rw [findW] at hf
    rcases hl : findWList cs with _ | ⟨g, sc, tc⟩
    · rw [hl] at hf; simp at hf
    · rw [hl] at hf
      simp only [Option.some.injEq] at hf
      subst hf
      exact VarW_And (findWList_var cs ih hn _ _ _ hl)
  | hor cs ih =>
    intro res hf hn
    rw [noGF, noGFAll_iff] at hn
    rw [findW] at hf
    rcases hl : findWList cs with _ | ⟨g, sc, tc⟩
    · rw [hl] at hf; simp at hf
    · rw [hl] at hf
      simp only [Option.some.injEq] at hf
      subst hf
      exact VarW_Or (findWList_var cs ih hn _ _ _ hl)
  | hx c ih =>
    intro res hf hn
    rw [noGF] at hn
    rw [findW] at hf
    rcases hc : findW c with _ | r
    · rw [hc] at hf; simp at hf
    · rw [hc] at hf
      simp only [Option.some.injEq] at hf
      subst hf
      exact VarW_X (ih r hc hn)
  | hu a b iha ihb =>
    intro res hf hn
    simp only [noGF, Bool.and_eq_true] at hn
    rw [findW] at hf
    rcases ha : findW a with _ | r
    · rw [ha] at hf
      rcases hb : findW b with _ | r
      · rw [hb] at hf; simp at hf
      · rw [hb] at hf
        simp only [Option.some.injEq] at hf
        subst hf
        exact VarW_U (VarW_refl _ _) (ihb r hb hn.2)
    · rw [ha] at hf
      simp only [Option.some.injEq] at hf
      subst hf
      exact VarW_U (iha r ha hn.1) (replaceW_var r.fga b)
  | hm a b iha ihb =>
    intro res hf hn
    simp only [noGF, Bool.and_eq_true] at hn
    rw [findW] at hf
    rcases ha : findW a with _ | r
    · rw [ha] at hf
      rcases hb : findW b with _ | r
      · rw [hb] at hf; simp at hf
      · rw [hb] at hf
        simp only [Option.some.injEq] at hf
        subst hf
        exact VarW_M (VarW_refl _ _) (ihb r hb hn.2)
    · rw [ha] at hf
      simp only [Option.some.injEq] at hf
      subst hf
      exact VarW_M (iha r ha hn.1) (replaceW_var r.fga b)
  | hw a b _ _ =>
    intro res hf _
    rw [findW] at hf
    simp only [Option.some.injEq] at hf
    subst hf
    exact VarW_mkW a b
  | hr a b _ _ =>
    intro res hf _
    rw [findW] at hf
    simp only [Option.some.injEq] at hf
    subst hf
    exact VarW_mkR a b
  | hgf c _ =>
    intro res _ hn
    simp [noGF] at hn
  | hfg c _ =>
    intro res hf _
    rw [findW] at hf
    simp only [Option.some.injEq] at hf
    subst hf
    exact VarW_mkFG c
  | _ => intro res hf; simp [findW] at hf

/-! ## The rules of the repair pass -/

/-- Either the witness always holds from some position on, or it fails
infinitely often. -/
theorem always_or_infFails (g : Node) (w : Word) (i : Nat) :
    (∃ i0, i ≤ i0 ∧ Always g w i0) ∨ InfFails g w i := by
  by_cases h : InfFails g w i
  · exact Or.inr h
  · left
    simp only [InfFails, not_forall, not_exists, not_and, not_not] at h
    obtain ⟨k, hk, h2⟩ := h
    exact ⟨k, hk, fun j hj => h2 j hj⟩

/-- Rule (5) of the normalization: `GF f[x W y] = GF f[x U y] ∨ (FG x ∧ GF f[tt])`. -/
theorem rule5_GF {g n st tv : Node} (h : VarW g n st tv) (w : Word) (i : Nat) :
    sem (.mkGF n) w i ↔
      sem (.mkGF st) w i ∨ (sem (.mkFG g) w i ∧ sem (.mkGF tv) w i) := by
  constructor
  · intro hs
    rcases always_or_infFails g w i with ⟨i0, hi0, ha⟩ | hf
    · right
      refine ⟨?_, Imp_mkGF Closed_NoHyp h.imp_tt w i trivial hs⟩
      simp only [sem]
      exact ⟨i0, hi0, ha⟩
    · left
      exact Imp_mkGF (Closed_InfFails g) h.imp_strong w i hf hs
  · rintro (hs | ⟨hg, hs⟩)
    · exact Imp_mkGF Closed_NoHyp h.strong_imp w i trivial hs
    · simp only [sem] at hg hs ⊢
      obtain ⟨i0, _, ha⟩ := hg
      intro k hk
      obtain ⟨j, hj, ht⟩ := hs (max k i0) (le_trans hk (le_max_left _ _))
      exact ⟨j, le_trans (le_max_left _ _) hj,
        h.tt_imp w j (fun j2 hj2 => ha j2 (le_trans (le_trans (le_max_right _ _) hj) hj2)) ht⟩

/-- Rule (6) of the normalization: `FG f[x U y] = (GF y ∧ FG f[x W y]) ∨ FG f[ff]`. -/
theorem rule6_FG {g n f wk : Node} (h : VarU g n f wk) (w : Word) (i : Nat) :
    sem (.mkFG n) w i ↔
      (sem (.mkGF g) w i ∧ sem (.mkFG wk) w i) ∨ sem (.mkFG f) w i := by
  constructor
  · intro hs
    rcases infOften_or_never g w i with hg | ⟨i0, hi0, hn⟩
    · left
      refine ⟨?_, Imp_mkFG Closed_NoHyp h.imp_weak w i trivial hs⟩
      simp only [sem]
      exact hg
    · right
      simp only [sem] at hs ⊢
      obtain ⟨k, hk, hh⟩ := hs
      refine ⟨max k i0, le_trans hk (le_max_left _ _), fun j hj => ?_⟩
      exact h.imp_ff w j (fun j2 hj2 => hn j2 (le_trans (le_trans (le_max_right _ _) hj) hj2))
        (hh j (le_trans (le_max_left _ _) hj))
  · rintro (⟨hg, hs⟩ | hs)
    · have hg2 : InfOften g w i := by
        simp only [sem] at hg
        exact hg
      exact Imp_mkFG (Closed_InfOften g) h.weak_imp w i hg2 hs
    · exact Imp_mkFG Closed_NoHyp h.ff_imp w i trivial hs

open Normalizer

/-! ## The repair pass preserves the semantics -/

theorem orExisting_equiv (e : Option Node) (fresh target : Node)
    (he : ∀ ex, e = some ex → LtlEquiv ex target) (hf : LtlEquiv fresh target) :
    LtlEquiv (orExisting e fresh) target := by
  cases e with
  | none => exact hf
  | some ex => exact he ex rfl

theorem FG_of_F_G (n : Node) : LtlEquiv (Node.F (Node.G n)) (.mkFG n) := by
  intro w i
  rw [F_sem]
  simp only [G_sem, sem]

/-- On a formula without GF nodes `fixGFW` returns a formula equivalent to GF
of it, and on a formula without GF nodes below U/M `fixFGU` returns a formula
equivalent to FG of it. -/
theorem fix_sem (k : Nat) :
    (∀ n e r, noGF n = true → (∀ ex, e = some ex → LtlEquiv ex (.mkGF n)) →
      fixGFW k n e = some r → LtlEquiv r (.mkGF n)) ∧
    (∀ n e r, strongArgsNoGF n = true → (∀ ex, e = some ex → LtlEquiv ex (.mkFG n)) →
      fixFGU k n e = some r → LtlEquiv r (.mkFG n)) := by
  induction k with
  | zero =>
    constructor
    · intro n e r _ _ h; simp [fixGFW] at h
    · intro n e r _ _ h; simp [fixFGU] at h
  | succ k ih =>
    obtain ⟨ihG, ihF⟩ := ih
    have nohyp : ∀ t : Node, ∀ ex, (none : Option Node) = some ex → LtlEquiv ex t :=
      fun _ _ hx => by cases hx
    constructor
    · intro n e r hn he h
      rw [fixGFW] at h
      rcases hf : findW n with _ | found
      · simp only [hf, pure, Option.some.injEq] at h
        subst h
        exact orExisting_equiv e _ _ he (GF_sem n)
      · simp only [hf, bind, pure, Option.bind_eq_some, Option.some.injEq] at h
        obtain ⟨fg1, h1, tt1, h2, st1, h3, hr⟩ := h
        subst hr
        obtain ⟨k1, k2, k3⟩ := findW_keeps n found hf hn
        have e1 := ihF _ _ _ (strongArgsNoGF_of_noGF _ k1) (nohyp _) h1
        have e2 := ihG _ _ _ k3 (nohyp _) h2
        have e3 := ihG _ _ _ k2 (nohyp _) h3
        intro w i
        rw [rule5_GF (findW_var n found hf hn) w i, sem_Or_pair, sem_And_pair,
          e1 w i, e2 w i, e3 w i]
    · intro n e r hn he h
      rw [fixFGU] at h
      rcases hf : findU n with _ | found
      · simp only [hf, pure, Option.some.injEq] at h
        subst h
        exact orExisting_equiv e _ _ he (FG_of_F_G n)
      · simp only [hf, bind, pure, Option.bind_eq_some, Option.some.injEq] at h
        obtain ⟨gf1, h1, wk1, h2, ff1, h3, hr⟩ := h
        subst hr
        obtain ⟨k1, k2, k3⟩ := findU_keeps n found hf hn
        have e1 := ihG _ _ _ k1 (nohyp _) h1
        have e2 := ihF _ _ _ k3 (nohyp _) h2
        have e3 := ihF _ _ _ k2 (nohyp _) h3
        intro w i
        rw [rule6_FG (findU_var n found hf) w i, sem_Or_pair, sem_And_pair,
          e1 w i, e2 w i, e3 w i]

/-! ### The formulas returned by `removeGF` -/

theorem findGFList_none (cs : List Node) (p : Bool)
    (h : ∀ c ∈ cs, findGF c p = none → (if p then fairFree c else topFair c) = true) :
    findGFList cs p = none →
      (if p then fairFreeAll cs else topFairAll cs) = true := by
  induction cs with
  | nil => intro _; cases p <;> rfl
  | cons c cs ih =>
    intro hf
    rw [findGFList] at hf
    rcases hc : findGF c p with _ | g
    · rw [hc] at hf
      have h1 := h c (List.mem_cons_self _ _) hc
      have h2 := ih (fun d hd => h d (List.mem_cons_of_mem _ hd)) hf
      cases p
      · simp only [Bool.false_eq_true, if_false] at h1 h2 ⊢
        rw [topFairAll, h1, h2]; rfl
      · simp only [if_true] at h1 h2 ⊢
        rw [fairFreeAll, h1, h2]; rfl
    · rw [hc] at hf; simp at hf

theorem binary_none {a b : Node}
    (iha : ∀ p, findGF a p = none → (if p then fairFree a else topFair a) = true)
    (ihb : ∀ p, findGF b p = none → (if p then fairFree b else topFair b) = true)
    (hf : (match findGF a true with
      | some g => some g
      | none => findGF b true) = none) :
    fairFree a = true ∧ fairFree b = true := by
  rcases ha : findGF a true with _ | g
  · simp only [ha] at hf
    exact ⟨by simpa using iha true ha, by simpa using ihb true hf⟩
  · simp only [ha] at hf
    cases hf

/-- When `findGF` finds nothing the formula has no GF or FG node below a
temporal operator, and none at all in the proper mode. -/
theorem findGF_none (n : Node) :
    ∀ p, findGF n p = none → (if p then fairFree n else topFair n) = true := by
  induction n using Node.induct with
  | hand cs ih =>
    intro p hf
    rw [findGF] at hf
    have := findGFList_none cs p (fun c hc => ih c hc p) hf
    cases p
    · simpa [topFair] using this
    · simpa [fairFree] using this
  | hor cs ih =>
    intro p hf
    rw [findGF] at hf
    have := findGFList_none cs p (fun c hc => ih c hc p) hf
    cases p
    · simpa [topFair] using this
    · simpa [fairFree] using this
  | hx c ih =>
    intro p hf
    rw [findGF] at hf
    have := ih true hf
    cases p <;> simpa [topFair, fairFree] using this
  | hu a b iha ihb =>
    intro p hf
    rw [findGF] at hf
    have := binary_none iha ihb hf
    cases p <;> simp [topFair, fairFree, this.1, this.2]
  | hw a b iha ihb =>
    intro p hf
    rw [findGF] at hf
    have := binary_none iha ihb hf
    cases p <;> simp [topFair, fairFree, this.1, this.2]
  | hr a b iha ihb =>
    intro p hf
    rw [findGF] at hf
    have := binary_none iha ihb hf
    cases p <;> simp [topFair, fairFree, this.1, this.2]
  | hm a b iha ihb =>
    intro p hf
    rw [findGF] at hf
    have := binary_none iha ihb hf
    cases p <;> simp [topFair, fairFree, this.1, this.2]
  | hgf c ih =>
    intro p hf
    rw [findGF] at hf
    rcases hc : findGF c true with _ | g
    · simp only [hc] at hf
      cases p
      · simpa [topFair] using ih true hc
      · simp at hf
    · simp only [hc] at hf
      cases hf
  | hfg c ih =>
    intro p hf
    rw [findGF] at hf
    rcases hc : findGF c true with _ | g
    · simp only [hc] at hf
      cases p
      · simpa [topFair] using ih true hc
      · simp at hf
    · simp only [hc] at hf
      cases hf
  | _ => intro p _; cases p <;> rfl

theorem findGFList_top (cs : List Node) (p : Bool)
    (h : ∀ c ∈ cs, ∀ g, findGF c p = some g → topFair g = true) :
    ∀ g, findGFList cs p = some g → topFair g = true := by
  induction cs with
  | nil => intro g hf; simp [findGFList] at hf
  | cons c cs ih =>
    intro g hf
    rw [findGFList] at hf
    rcases hc : findGF c p with _ | g2
    · rw [hc] at hf
      exact ih (fun d hd => h d (List.mem_cons_of_mem _ hd)) g hf
    · rw [hc] at hf
      simp only [Option.some.injEq] at hf
      subst hf
      exact h c (List.mem_cons_self _ _) _ hc

theorem binary_top {a b g : Node}
    (iha : ∀ p g, findGF a p = some g → topFair g = true)
    (ihb : ∀ p g, findGF b p = some g → topFair g = true)
    (hf : (match findGF a true with
      | some g => some g
      | none => findGF b true) = some g) : topFair g = true := by
  rcases ha : findGF a true with _ | g2
  · simp only [ha] at hf
    exact ihb true g hf
  · simp only [ha, Option.some.injEq] at hf
    subst hf
    exact iha true _ ha

/-- The node found by `findGF` is innermost: its argument has no GF or FG
node. -/
theorem findGF_top (n : Node) : ∀ p g, findGF n p = some g → topFair g = true := by
  induction n using Node.induct with
  | hand cs ih =>
    intro p g hf
    rw [findGF] at hf
    exact findGFList_top cs p (fun c hc => ih c hc p) g hf
  | hor cs ih =>
    intro p g hf
    rw [findGF] at hf
    exact findGFList_top cs p (fun c hc => ih c hc p) g hf
  | hx c ih =>
    intro p g hf
    rw [findGF] at hf
    exact ih true g hf
  | hu a b iha ihb => intro p g hf; rw [findGF] at hf; exact binary_top iha ihb hf
  | hw a b iha ihb => intro p g hf; rw [findGF] at hf; exact binary_top iha ihb hf
  | hr a b iha ihb => intro p g hf; rw [findGF] at hf; exact binary_top iha ihb hf
  | hm a b iha ihb => intro p g hf; rw [findGF] at hf; exact binary_top iha ihb hf
  | hgf c ih =>
    intro p g hf
    rw [findGF] at hf
    rcases hc : findGF c true with _ | g2
    · simp only [hc] at hf
      cases p
      · simp at hf
      · simp only [if_true, Option.some.injEq] at hf
        subst hf
        simpa [topFair] using findGF_none c true hc
    · simp only [hc, Option.some.injEq] at hf
      subst hf
      exact ih true _ hc
  | hfg c ih =>
    intro p g hf
    rw [findGF] at hf
    rcases hc : findGF c true with _ | g2
    · simp only [hc] at hf
      cases p
      · simp at hf
      · simp only [if_true, Option.some.injEq] at hf
        subst hf
        simpa [topFair] using findGF_none c true hc
    · simp only [hc, Option.some.injEq] at hf
      subst hf
      exact ih true _ hc
  | _ => intro p g hf; simp [findGF] at hf

theorem topFair_pair_And {x y : Node} (hx : topFair x = true) (hy : topFair y = true) :
    topFair (Node.And [x, y]) = true :=
  topFair_closed_And _ (by
    intro c hc
    simp only [List.mem_cons, List.mem_singleton, List.not_mem_nil, or_false] at hc
    rcases hc with rfl | rfl
    · exact hx
    · exact hy)

theorem topFair_pair_Or {x y : Node} (hx : topFair x = true) (hy : topFair y = true) :
    topFair (Node.Or [x, y]) = true :=
  topFair_closed_Or _ (by
    intro c hc
    simp only [List.mem_cons, List.mem_singleton, List.not_mem_nil, or_false] at hc
    rcases hc with rfl | rfl
    · exact hx
    · exact hy)

/-- In the formula returned by `removeGF` every GF or FG node is reached
through And/Or nodes only. -/
theorem removeGF_topFair (k : Nat) : ∀ n r, removeGF k n = some r → topFair r = true := by
  induction k with
  | zero => intro n r h; simp [removeGF] at h
  | succ k ih =>
    intro n r h
    by_cases h1 : ∃ cs, n = .mkAND cs
    · obtain ⟨cs, rfl⟩ := h1
      simp only [removeGF, bind, pure, Option.bind_eq_some, Option.some.injEq] at h
      obtain ⟨copy, h1, h2⟩ := h
      subst h2
      rw [topFair, topFairAll_iff]
      exact forall₂_all (mapOption_forall₂ _ cs copy h1) (fun c _ r e => ih c r e)
    by_cases h2 : ∃ cs, n = .mkOR cs
    · obtain ⟨cs, rfl⟩ := h2
      simp only [removeGF, bind, pure, Option.bind_eq_some, Option.some.injEq] at h
      obtain ⟨copy, h1, h2⟩ := h
      subst h2
      rw [topFair, topFairAll_iff]
      exact forall₂_all (mapOption_forall₂ _ cs copy h1) (fun c _ r e => ih c r e)
    have e1 : ∀ cs, n ≠ .mkAND cs := fun cs hc => h1 ⟨cs, hc⟩
    have e2 : ∀ cs, n ≠ .mkOR cs := fun cs hc => h2 ⟨cs, hc⟩
    rw [removeGF_other _ n e1 e2] at h
    rcases hf : findGF n false with _ | found
    · simp only [hf, Option.some.injEq] at h
      subst h
      simpa using findGF_none n false hf
    · simp only [hf, Option.bind_eq_some, Option.some.injEq] at h
      obtain ⟨t1, ht, f1, hff, hr⟩ := h
      subst hr
      exact topFair_pair_Or (topFair_pair_And (findGF_top n false found hf) (ih _ _ ht))
        (ih _ _ hff)

theorem fixGFList_equiv (k : Nat) (cs : List Node)
    (h : ∀ c ∈ cs, ∀ r, topFair c = true → fixGF k c = some r → LtlEquiv r c)
    (hcs : ∀ c ∈ cs, topFair c = true) :
    ∀ rs, fixGFList k cs = some rs → List.Forall₂ LtlEquiv rs cs := by
  induction cs with
  | nil =>
    intro rs hr
    simp only [fixGFList, Option.some.injEq] at hr
    subst hr
    exact .nil
  | cons c cs ih =>
    intro rs hr
    rw [fixGFList] at hr
    rcases hc : fixGF k c with _ | d
    · simp [hc] at hr
    · rcases hl : fixGFList k cs with _ | ds
      · simp [hc, hl] at hr
      · simp only [hc, hl, Option.some.injEq] at hr
        subst hr
        exact .cons (h c (List.mem_cons_self _ _) d (hcs c (List.mem_cons_self _ _)) hc)
          (ih (fun x hx => h x (List.mem_cons_of_mem _ hx))
            (fun x hx => hcs x (List.mem_cons_of_mem _ hx)) ds hl)

/-- On a formula whose GF and FG nodes are reached through And/Or nodes only,
`fixGF` returns an equivalent formula. -/
theorem fixGF_sem (k : Nat) (n : Node) :
    ∀ r, topFair n = true → fixGF k n = some r → LtlEquiv r n := by
  induction n using Node.induct with
  | hand cs ih =>
    intro r hn h
    rw [topFair, topFairAll_iff] at hn
    simp only [fixGF, bind, pure, Option.bind_eq_some, Option.some.injEq] at h
    obtain ⟨copy, h1, h2⟩ := h
    subst h2
    have e := equiv_mkAND (fixGFList_equiv k cs ih hn copy h1)
    split
    · exact LtlEquiv.trans (And_equiv copy) e
    · exact LtlEquiv.refl _
  | hor cs ih =>
    intro r hn h
    rw [topFair, topFairAll_iff] at hn
    simp only [fixGF, bind, pure, Option.bind_eq_some, Option.some.injEq] at h
    obtain ⟨copy, h1, h2⟩ := h
    subst h2
    have e := equiv_mkOR (fixGFList_equiv k cs ih hn copy h1)
    split
    · exact LtlEquiv.trans (Or_equiv copy) e
    · exact LtlEquiv.refl _
  | hgf c _ =>
    intro r hn h
    rw [topFair] at hn
    rw [fixGF] at h
    exact (fix_sem k).1 c _ r (noGF_of_fairFree c hn)
      (fun ex hx => by cases hx; exact LtlEquiv.refl _) h
  | hfg c _ =>
    intro r hn h
    rw [topFair] at hn
    rw [fixGF] at h
    exact (fix_sem k).2 c _ r (strongArgsNoGF_of_noGF c (noGF_of_fairFree c hn))
      (fun ex hx => by cases hx; exact LtlEquiv.refl _) h
  | _ =>
    intro r _ h
    simp only [fixGF, Option.some.injEq] at h
    subst h
    exact LtlEquiv.refl _

/-- Whenever `normalize` returns a formula, it is equivalent to the argument. -/
theorem normalize_sem (k : Nat) (f g : Node) (h : Normalizer.normalize k f = some g) :
    LtlEquiv g f := by
  simp only [Normalizer.normalize, bind, Option.bind_eq_some] at h
  obtain ⟨t1, h1, t2, h2, h3⟩ := h
  exact LtlEquiv.trans (fixGF_sem k t2 g (removeGF_topFair k t1 t2 h2) h3)
    (LtlEquiv.trans (removeGF_sem k t1 t2 h2) (removeWU_sem k f t1 h1))

open Normalizer

/-! ## `removeGF` on a formula without nested fairness operators -/

theorem findGFList_of_fair (cs : List Node) (p : Bool)
    (h : ∀ c ∈ cs, (if p then fairFree c else topFair c) = true → findGF c p = none)
    (hcs : (if p then fairFreeAll cs else topFairAll cs) = true) :
    findGFList cs p = none := by
  induction cs with
  | nil => rfl
  | cons c cs ih =>
    have hc : (if p then fairFree c else topFair c) = true ∧
        (if p then fairFreeAll cs else topFairAll cs) = true := by
      cases p
      · simpa [topFairAll] using hcs
      · simpa [fairFreeAll] using hcs
    rw [findGFList, h c (List.mem_cons_self _ _) hc.1]
    exact ih (fun d hd => h d (List.mem_cons_of_mem _ hd)) hc.2

theorem binary_of_fair {a b : Node}
    (iha : ∀ p, (if p then fairFree a else topFair a) = true → findGF a p = none)
    (ihb : ∀ p, (if p then fairFree b else topFair b) = true → findGF b p = none)
    (h : (fairFree a && fairFree b) = true) :
    (match findGF a true with
      | some g => some g
      | none => findGF b true) = none := by
  simp only [Bool.and_eq_true] at h
  rw [iha true (by simpa using h.1)]
  exact ihb true (by simpa using h.2)

/-- On a formula whose GF and FG nodes are reached through And/Or nodes only
`findGF` finds nothing, and in the proper mode it finds nothing when there is
no GF or FG node at all. -/
theorem findGF_of_fair (n : Node) :
    ∀ p, (if p then fairFree n else topFair n) = true → findGF n p = none := by
  induction n using Node.induct with
  | hand cs ih =>
    intro p h
    rw [findGF]
    refine findGFList_of_fair cs p (fun c hc => ih c hc p) ?_
    cases p
    · simpa [topFair] using h
    · simpa [fairFree] using h
  | hor cs ih =>
    intro p h
    rw [findGF]
    refine findGFList_of_fair cs p (fun c hc => ih c hc p) ?_
    cases p
    · simpa [topFair] using h
    · simpa [fairFree] using h
  | hx c ih =>
    intro p h
    rw [findGF]
    refine ih true ?_
    cases p <;> simpa [topFair, fairFree] using h
  | hu a b iha ihb =>
    intro p h
    rw [findGF]
    refine binary_of_fair iha ihb ?_
    cases p <;> simpa [topFair, fairFree] using h
  | hw a b iha ihb =>
    intro p h
    rw [findGF]
    refine binary_of_fair iha ihb ?_
    cases p <;> simpa [topFair, fairFree] using h
  | hr a b iha ihb =>
    intro p h
    rw [findGF]
    refine binary_of_fair iha ihb ?_
    cases p <;> simpa [topFair, fairFree] using h
  | hm a b iha ihb =>
    intro p h
    rw [findGF]
    refine binary_of_fair iha ihb ?_
    cases p <;> simpa [topFair, fairFree] using h
  | hgf c ih =>
    intro p h
    cases p
    · rw [findGF, ih true (by simpa [topFair] using h)]
      rfl
    · simp [fairFree] at h
  | hfg c ih =>
    intro p h
    cases p
    · rw [findGF, ih true (by simpa [topFair] using h)]
      rfl
    · simp [fairFree] at h
  | _ => intro p _; simp [findGF]

theorem forall₂_eq_of_fixed {R : Node → Node → Prop} {cs rs : List Node}
    (h2 : List.Forall₂ R cs rs) (h : ∀ c ∈ cs, ∀ r, R c r → r = c) : rs = cs := by
  induction h2 with
  | nil => rfl
  | cons hc _ ih =>
    rw [h _ (List.mem_cons_self _ _) _ hc, ih (fun d hd => h d (List.mem_cons_of_mem _ hd))]

/-- On a formula whose GF and FG nodes are reached through And/Or nodes only,
`removeGF` can only return the formula itself. -/
theorem removeGF_fixed (k : Nat) :
    ∀ n r, topFair n = true → removeGF k n = some r → r = n := by
  induction k with
  | zero => intro n r _ h; simp [removeGF] at h
  | succ k ih =>
    intro n r hn h
    by_cases h1 : ∃ cs, n = .mkAND cs
    · obtain ⟨cs, rfl⟩ := h1
      simp only [removeGF, bind, pure, Option.bind_eq_some, Option.some.injEq] at h
      obtain ⟨copy, h1, h2⟩ := h
      subst h2
      rw [topFair, topFairAll_iff] at hn
      rw [forall₂_eq_of_fixed (mapOption_forall₂ _ cs copy h1)
        (fun c hc r e => ih c r (hn c hc) e)]
    by_cases h2 : ∃ cs, n = .mkOR cs
    · obtain ⟨cs, rfl⟩ := h2
      simp only [removeGF, bind, pure, Option.bind_eq_some, Option.some.injEq] at h
      obtain ⟨copy, h1, h2⟩ := h
      subst h2
      rw [topFair, topFairAll_iff] at hn
      rw [forall₂_eq_of_fixed (mapOption_forall₂ _ cs copy h1)
        (fun c hc r e => ih c r (hn c hc) e)]
    have e1 : ∀ cs, n ≠ .mkAND cs := fun cs hc => h1 ⟨cs, hc⟩
    have e2 : ∀ cs, n ≠ .mkOR cs := fun cs hc => h2 ⟨cs, hc⟩
    rw [removeGF_other _ n e1 e2, findGF_of_fair n false (by simpa using hn)] at h
    simp only [Option.some.injEq] at h
    exact h.symm

open Normalizer

/-! ## The shape of the nodes returned by the constructors -/

theorem mem_of_filter_eq_singleton {p : Node → Bool} {args : List Node} {a : Node}
    (h : args.filter p = [a]) : a ∈ args := by
  have : a ∈ args.filter p := by rw [h]; exact List.mem_singleton_self a
  exact List.mem_of_mem_filter this

theorem rootOk_And (args : List Node) (h : ∀ a ∈ args, rootOk a = true) :
    rootOk (Node.And args) = true := by
  rcases And_cases args with e | ⟨a, ha, e⟩ | e
  · rw [e]; rfl
  · rw [e]; exact h a (mem_of_filter_eq_singleton ha)
  · rw [e]; rfl

theorem rootOk_Or (args : List Node) (h : ∀ a ∈ args, rootOk a = true) :
    rootOk (Node.Or args) = true := by
  rcases Or_cases args with e | ⟨a, ha, e⟩ | e
  · rw [e]; rfl
  · rw [e]; exact h a (mem_of_filter_eq_singleton ha)
  · rw [e]; rfl

theorem rootOk_pair_And {x y : Node} (hx : rootOk x = true) (hy : rootOk y = true) :
    rootOk (Node.And [x, y]) = true :=
  rootOk_And _ (by
    intro c hc
    simp only [List.mem_cons, List.mem_singleton, List.not_mem_nil, or_false] at hc
    rcases hc with rfl | rfl
    · exact hx
    · exact hy)

theorem rootOk_pair_Or {x y : Node} (hx : rootOk x = true) (hy : rootOk y = true) :
    rootOk (Node.Or [x, y]) = true :=
  rootOk_Or _ (by
    intro c hc
    simp only [List.mem_cons, List.mem_singleton, List.not_mem_nil, or_false] at hc
    rcases hc with rfl | rfl
    · exact hx
    · exact hy)

theorem rootOk_X (a : Node) (h : rootOk a = true) : rootOk (Node.X a) = true := by
  rcases X_cases a with e | e
  · rw [e]; exact h
  · rw [e]; rfl

/-- `Node::GF` returns a constant or a GF node. -/
theorem GF_root (a : Node) :
    Node.GF a = .tt ∨ Node.GF a = .ff ∨ ∃ c, Node.GF a = .mkGF c := by
  induction a using Node.induct with
  | htt => exact Or.inl rfl
  | hff => exact Or.inr (Or.inl rfl)
  | hx c ih => rw [Node.GF]; exact ih
  | hu a b _ ihb =>
    by_cases ha : a = .tt
    · subst ha; rw [Node.GF]; exact ihb
    · rw [Node.GF] <;> simp_all
  | hm a b iha _ =>
    by_cases hb : b = .tt
    · subst hb; rw [Node.GF]; exact iha
    · rw [Node.GF] <;> simp_all
  | _ => simp [Node.GF]

/-- `Node::FG` returns a constant or an FG node. -/
theorem FG_root (a : Node) :
    Node.FG a = .tt ∨ Node.FG a = .ff ∨ ∃ c, Node.FG a = .mkFG c := by
  induction a using Node.induct with
  | htt => exact Or.inl rfl
  | hff => exact Or.inr (Or.inl rfl)
  | hx c ih => rw [Node.FG]; exact ih
  | hw a b iha _ =>
    by_cases hb : b = .ff
    · subst hb; rw [Node.FG]; exact iha
    · rw [Node.FG] <;> simp_all
  | hr a b _ ihb =>
    by_cases ha : a = .ff
    · subst ha; rw [Node.FG]; exact ihb
    · rw [Node.FG] <;> simp_all
  | _ => simp [Node.FG]

theorem rootOk_GF (a : Node) : rootOk (Node.GF a) = true := by
  rcases GF_root a with e | e | ⟨c, e⟩ <;> rw [e] <;> rfl

theorem rootOk_FG (a : Node) : rootOk (Node.FG a) = true := by
  rcases FG_root a with e | e | ⟨c, e⟩ <;> rw [e] <;> rfl

theorem rootOk_of_isConstant (n : Node) (h : n.isConstant = true) : rootOk n = true := by
  rcases (isConstant_iff n).mp h with rfl | rfl <;> rfl

theorem rootOk_of_isF (n : Node) (h : n.isF = true) : rootOk n = true := by
  rcases (isF_iff n).mp h with ⟨a, rfl⟩ | ⟨b, rfl⟩ <;> rfl

theorem rootOk_of_isG (n : Node) (h : n.isG = true) : rootOk n = true := by
  rcases (isG_iff n).mp h with ⟨a, rfl⟩ | ⟨b, rfl⟩ <;> rfl

theorem rootOk_U_aux (left right : Node)
    (hOr : ∀ cs, right = .mkOR cs → ∀ c ∈ cs, rootOk (Node.U .tt c) = true)
    (hr : left = .tt ∨ rootOk right = true) : rootOk (Node.U left right) = true := by
  unfold Node.U
  split_ifs with h1 h2 h3
  · rcases hr with rfl | hr
    · simp only [Bool.or_eq_true, is_FF, beq_iff_eq] at h1
      rcases h1 with h1 | h1
      · cases h1
      · rw [← h1]; rfl
    · exact hr
  · simp only [Bool.or_eq_true] at h2
    rcases h2 with h2 | h2
    · exact rootOk_of_isConstant right h2
    · exact rootOk_of_isF right h2
  · split
    · rename_i cs
      apply rootOk_Or
      rw [mapF_eq]
      intro c hc
      obtain ⟨d, hd, rfl⟩ := List.mem_map.mp hc
      exact hOr cs rfl d hd
    · exact rootOk_FG _
    · exact rootOk_FG _
    · rfl
  · rfl

/-- `Node::F` never returns a WeakUntil or Release node against the rule. -/
theorem rootOk_F (c : Node) : rootOk (Node.U .tt c) = true := by
  induction c using Node.induct with
  | hor cs ih =>
    refine rootOk_U_aux .tt _ ?_ (Or.inl rfl)
    intro cs2 h c hc
    cases h
    exact ih c hc
  | _ =>
    refine rootOk_U_aux .tt _ ?_ (Or.inl rfl)
    intro cs2 h
    cases h

theorem rootOk_U (left right : Node) (hr : rootOk right = true) :
    rootOk (Node.U left right) = true :=
  rootOk_U_aux left right (fun _ _ c _ => rootOk_F c) (Or.inr hr)

theorem rootOk_W_aux (left right : Node)
    (hAnd : ∀ cs, left = .mkAND cs → ∀ c ∈ cs, rootOk (Node.W c .ff) = true)
    (hr : rootOk right = true) : rootOk (Node.W left right) = true := by
  unfold Node.W
  split_ifs with h1 h2 h3 h4 h5
  · exact hr
  · rfl
  · rfl
  · exact rootOk_pair_Or (rootOk_of_isG left h4) hr
  · split
    · rename_i cs
      apply rootOk_And
      rw [mapG_eq]
      intro c hc
      obtain ⟨d, hd, rfl⟩ := List.mem_map.mp hc
      exact hAnd cs rfl d hd
    · exact rootOk_GF _
    · exact rootOk_GF _
    · rw [is_FF] at h5
      subst h5
      rfl
  · simp only [rootOk, Bool.not_eq_true', Bool.not_eq_true] at h2 ⊢
    exact h2

/-- `Node::G` never returns a WeakUntil or Release node against the rule. -/
theorem rootOk_G (c : Node) : rootOk (Node.W c .ff) = true := by
  induction c using Node.induct with
  | hand cs ih =>
    refine rootOk_W_aux _ .ff ?_ rfl
    intro cs2 h c hc
    cases h
    exact ih c hc
  | _ =>
    refine rootOk_W_aux _ .ff ?_ rfl
    intro cs2 h
    cases h

theorem rootOk_W (left right : Node) (hr : rootOk right = true) :
    rootOk (Node.W left right) = true :=
  rootOk_W_aux left right (fun _ _ c _ => rootOk_G c) hr

theorem rootOk_R (left right : Node) (hr : rootOk right = true) :
    rootOk (Node.R left right) = true := by
  unfold Node.R
  split_ifs with h1 h2 h3
  · exact hr
  · exact hr
  · split
    · rename_i cs
      apply rootOk_And
      rw [mapG_eq]
      intro c hc
      obtain ⟨d, hd, rfl⟩ := List.mem_map.mp hc
      exact rootOk_G d
    · exact rootOk_GF _
    · exact rootOk_GF _
    · rw [is_FF] at h3
      subst h3
      rfl
  · simp only [Bool.or_eq_true, not_or, Bool.not_eq_true] at h1
    simp only [rootOk, h1.1]
    rfl

theorem rootOk_M (left right : Node) (hr : rootOk right = true) :
    rootOk (Node.M left right) = true := by
  unfold Node.M
  split_ifs with h1 h2 h3 h4 h5
  · exact hr
  · rfl
  · rfl
  · exact rootOk_pair_And (rootOk_of_isF left h4) hr
  · split
    · rename_i cs
      apply rootOk_Or
      rw [mapF_eq]
      intro c hc
      obtain ⟨d, hd, rfl⟩ := List.mem_map.mp hc
      exact rootOk_F d
    · exact rootOk_FG _
    · exact rootOk_FG _
    · rfl
  · rfl

/-- Every formula built by the public constructors respects the shape rule at
its root. -/
theorem rootOk_of_Built {n : Node} (h : Built n) : rootOk n = true := by
  induction h with
  | tt => rfl
  | ff => rfl
  | ap name => rfl
  | X _ ih => exact rootOk_X _ ih
  | And _ ih => exact rootOk_And _ ih
  | Or _ ih => exact rootOk_Or _ ih
  | U _ _ _ ihb => exact rootOk_U _ _ ihb
  | W _ _ _ ihb => exact rootOk_W _ _ ihb
  | R _ _ _ ihb => exact rootOk_R _ _ ihb
  | M _ _ _ ihb => exact rootOk_M _ _ ihb
  | GF _ _ => exact rootOk_GF _
  | FG _ _ => exact rootOk_FG _

open Normalizer

/-! ## The arguments kept by `Node::GF` and `Node::FG` -/

/-- The child of a GF node returned by `Node::GF` is not a constant, not a
Next node and not of "eventually" shape. -/
theorem GF_child (a : Node) :
    ∀ c, Node.GF a = .mkGF c →
      c.isConstant = false ∧ (∀ y, c ≠ .mkX y) ∧ c.isF = false := by
  induction a using Node.induct with
  | htt => intro c h; simp [Node.GF] at h
  | hff => intro c h; simp [Node.GF] at h
  | hx c2 ih => intro c h; rw [Node.GF] at h; exact ih c h
  | hu a b _ ihb =>
    intro c h
    by_cases ha : a = .tt
    · subst ha; rw [Node.GF] at h; exact ihb c h
    · have e : Node.GF (.mkU a b) = .mkGF (.mkU a b) := by
        rw [Node.GF] <;> simp_all
      rw [e] at h
      simp only [Node.mkGF.injEq] at h
      subst h
      simp [Node.isConstant, Node.isF, Node.type, ha]
  | hm a b iha _ =>
    intro c h
    by_cases hb : b = .tt
    · subst hb; rw [Node.GF] at h; exact iha c h
    · have e : Node.GF (.mkM a b) = .mkGF (.mkM a b) := by
        rw [Node.GF] <;> simp_all
      rw [e] at h
      simp only [Node.mkGF.injEq] at h
      subst h
      simp [Node.isConstant, Node.isF, Node.type, hb]
  | _ =>
    intro c h
    simp only [Node.GF, Node.mkGF.injEq] at h
    subst h
    simp [Node.isConstant, Node.isF, Node.type]

/-- The child of an FG node returned by `Node::FG` is not a constant, not a
Next node and not of "always" shape. -/
theorem FG_child (a : Node) :
    ∀ c, Node.FG a = .mkFG c →
      c.isConstant = false ∧ (∀ y, c ≠ .mkX y) ∧ c.isG = false := by
  induction a using Node.induct with
  | htt => intro c h; simp [Node.FG] at h
  | hff => intro c h; simp [Node.FG] at h
  | hx c2 ih => intro c h; rw [Node.FG] at h; exact ih c h
  | hw a b iha _ =>
    intro c h
    by_cases hb : b = .ff
    · subst hb; rw [Node.FG] at h; exact iha c h
    · have e : Node.FG (.mkW a b) = .mkFG (.mkW a b) := by
        rw [Node.FG] <;> simp_all
      rw [e] at h
      simp only [Node.mkFG.injEq] at h
      subst h
      simp [Node.isConstant, Node.isG, Node.type, hb]
  | hr a b _ ihb =>
    intro c h
    by_cases ha : a = .ff
    · subst ha; rw [Node.FG] at h; exact ihb c h
    · have e : Node.FG (.mkR a b) = .mkFG (.mkR a b) := by
        rw [Node.FG] <;> simp_all
      rw [e] at h
      simp only [Node.mkFG.injEq] at h
      subst h
      simp [Node.isConstant, Node.isG, Node.type, ha]
  | _ =>
    intro c h
    simp only [Node.FG, Node.mkFG.injEq] at h
    subst h
    simp [Node.isConstant, Node.isG, Node.type]

theorem GF_X (x : Node) : Node.GF (Node.X x) = Node.GF x := by
  rcases X_cases x with e | e
  · rw [e]
  · rw [e, Node.GF]

theorem FG_X (x : Node) : Node.FG (Node.X x) = Node.FG x := by
  rcases X_cases x with e | e
  · rw [e]
  · rw [e, Node.FG]

/-! ## The comparison `equal`, whatever the sharing of the nodes -/

theorem equalWithList_imp (same : Node → Node → Bool) (as : List Node)
    (h : ∀ a ∈ as, ∀ b, Node.equalWith same a b = true → a = b) :
    ∀ bs, Node.equalWithList same as bs = true → as = bs := by
  induction as with
  | nil =>
    intro bs hb
    cases bs with
    | nil => rfl
    | cons b bs => simp [Node.equalWithList] at hb
  | cons a as ih =>
    intro bs hb
    cases bs with
    | nil => simp [Node.equalWithList] at hb
    | cons b bs =>
      simp only [Node.equalWithList, Bool.and_eq_true] at hb
      rw [h a (List.mem_cons_self _ _) b hb.1,
        ih (fun d hd => h d (List.mem_cons_of_mem _ hd)) bs hb.2]

theorem equalWith_imp (same : Node → Node → Bool)
    (hs : ∀ x y, same x y = true → x = y) (a : Node) :
    ∀ b, Node.equalWith same a b = true → a = b := by
  induction a using Node.induct with
  | hand cs ih =>
    intro b h
    by_cases e : same (.mkAND cs) b = true
    · exact hs _ _ e
    · cases b <;> simp [Node.equalWith, e] at h ⊢
      exact equalWithList_imp same cs ih _ h
  | hor cs ih =>
    intro b h
    by_cases e : same (.mkOR cs) b = true
    · exact hs _ _ e
    · cases b <;> simp [Node.equalWith, e] at h ⊢
      exact equalWithList_imp same cs ih _ h
  | hx c ih =>
    intro b h
    by_cases e : same (.mkX c) b = true
    · exact hs _ _ e
    · cases b <;> simp [Node.equalWith, e] at h ⊢
      exact ih _ h
  | hu a1 a2 ih1 ih2 =>
    intro b h
    by_cases e : same (.mkU a1 a2) b = true
    · exact hs _ _ e
    · cases b <;> simp [Node.equalWith, e] at h ⊢
      exact ⟨ih1 _ h.1, ih2 _ h.2⟩
  | hw a1 a2 ih1 ih2 =>
    intro b h
    by_cases e : same (.mkW a1 a2) b = true
    · exact hs _ _ e
    · cases b <;> simp [Node.equalWith, e] at h ⊢
      exact ⟨ih1 _ h.1, ih2 _ h.2⟩
  | hr a1 a2 ih1 ih2 =>
    intro b h
    by_cases e : same (.mkR a1 a2) b = true
    · exact hs _ _ e
    · cases b <;> simp [Node.equalWith, e] at h ⊢
      exact ⟨ih1 _ h.1, ih2 _ h.2⟩
  | hm a1 a2 ih1 ih2 =>
    intro b h
    by_cases e : same (.mkM a1 a2) b = true
    · exact hs _ _ e
    · cases b <;> simp [Node.equalWith, e] at h ⊢
      exact ⟨ih1 _ h.1, ih2 _ h.2⟩
  | hgf c ih =>
    intro b h
    by_cases e : same (.mkGF c) b = true
    · exact hs _ _ e
    · cases b <;> simp [Node.equalWith, e] at h ⊢
      exact ih _ h
  | hfg c ih =>
    intro b h
    by_cases e : same (.mkFG c) b = true
    · exact hs _ _ e
    · cases b <;> simp [Node.equalWith, e] at h ⊢
      exact ih _ h
  | htt =>
    intro b h
    by_cases e : same .tt b = true
    · exact hs _ _ e
    · cases b <;> simp [Node.equalWith, e] at h ⊢
  | hff =>
    intro b h
    by_cases e : same .ff b = true
    · exact hs _ _ e
    · cases b <;> simp [Node.equalWith, e] at h ⊢
  | hap name =>
    intro b h
    by_cases e : same (.ap name) b = true
    · exact hs _ _ e
    · cases b <;> simp [Node.equalWith, e] at h ⊢

theorem equalWithList_refl (same : Node → Node → Bool) (cs : List Node)
    (h : ∀ c ∈ cs, Node.equalWith same c c = true) :
    Node.equalWithList same cs cs = true := by
  induction cs with
  | nil => simp [Node.equalWithList]
  | cons c cs ih =>
    simp only [Node.equalWithList, Bool.and_eq_true]
    exact ⟨h c (List.mem_cons_self _ _), ih (fun d hd => h d (List.mem_cons_of_mem _ hd))⟩

theorem equalWith_refl (same : Node → Node → Bool)
    (hap : ∀ name, same (.ap name) (.ap name) = true) (a : Node) :
    Node.equalWith same a a = true := by
  induction a using Node.induct with
  | hand cs ih =>
    rw [Node.equalWith]
    split
    · rfl
    · exact equalWithList_refl same cs ih
  | hor cs ih =>
    rw [Node.equalWith]
    split
    · rfl
    · exact equalWithList_refl same cs ih
  | hap name => unfold Node.equalWith; rw [hap name]; rfl
  | _ => rw [Node.equalWith]; split <;> simp_all

/-- `equal` decides the identity of the two trees for every comparison of
references that holds only between identical trees and holds between an atomic
proposition and itself. -/
theorem equalWith_iff (same : Node → Node → Bool)
    (hs : ∀ x y, same x y = true → x = y)
    (hap : ∀ name, same (.ap name) (.ap name) = true) (a b : Node) :
    Node.equalWith same a b = true ↔ a = b :=
  ⟨equalWith_imp same hs a b, fun h => h ▸ equalWith_refl same hap a⟩

/-- Two nodes are identical when they have the same kind, the same children
and the same name. -/
theorem eq_iff_fields (a b : Node) :
    a = b ↔ a.type = b.type ∧ a.children = b.children ∧ a.name = b.name := by
  constructor
  · rintro rfl
    exact ⟨rfl, rfl, rfl⟩
  · rintro ⟨h1, h2, h3⟩
    cases a <;> cases b <;> simp_all [Node.type, Node.children, Node.name]

/-! ## A word that tells `GF a` from `FG a` -/

theorem sem_GF_GF_evenWord : sem (.mkGF (.mkGF (.ap "a"))) evenWord 0 := by
  simp only [sem]
  intro k _
  refine ⟨k, le_refl _, fun k2 _ => ⟨2 * k2, by omega, ?_⟩⟩
  simp [evenWord]

theorem not_sem_FG_evenWord : ¬ sem (.mkFG (.ap "a")) evenWord 0 := by
  simp only [sem]
  rintro ⟨k, _, h⟩
  have := h (2 * k + 1) (by omega)
  simp [evenWord] at this
  omega

open Normalizer

/-! ## `findU` against `containsU`, and the fields of its result -/

theorem findUList_isSome (cs : List Node)
    (h : ∀ c ∈ cs, (findU c).isSome = containsU c) :
    (findUList cs).isSome = containsUAny cs := by
  induction cs with
  | nil => rfl
  | cons c cs ih =>
    have hc := h c (List.mem_cons_self _ _)
    have ht := ih (fun d hd => h d (List.mem_cons_of_mem _ hd))
    rw [findUList, containsUAny, ← hc, ← ht]
    rcases findU c with _ | res
    · rcases findUList cs with _ | ⟨g, fc, wc⟩ <;> rfl
    · rfl

/-- `findU` returns true exactly when `containsU` does. -/
theorem findU_isSome (n : Node) : (findU n).isSome = containsU n := by
  induction n using Node.induct with
  | hand cs ih =>
    rw [findU, containsU, ← findUList_isSome cs ih]
    rcases findUList cs with _ | ⟨g, fc, wc⟩ <;> rfl
  | hor cs ih =>
    rw [findU, containsU, ← findUList_isSome cs ih]
    rcases findUList cs with _ | ⟨g, fc, wc⟩ <;> rfl
  | hx c ih =>
    rw [findU, containsU, ← ih]
    rcases findU c with _ | res <;> rfl
  | hw a b iha ihb =>
    rw [findU, containsU, ← iha, ← ihb]
    rcases findU a with _ | ra
    · rcases findU b with _ | rb <;> rfl
    · rfl
  | hr a b iha ihb =>
    rw [findU, containsU, ← iha, ← ihb]
    rcases findU a with _ | ra
    · rcases findU b with _ | rb <;> rfl
    · rfl
  | _ => simp [findU, containsU]

theorem findUOutList_ok (cs : List Node) (h : ∀ c ∈ cs, SlotsOk c) :
    ∀ s, (∀ g fc wc, findUList cs = some (g, fc, wc) →
        ∃ f w, findUOutList cs s = some (some (fc, wc), ⟨some g, some f, some w⟩)) ∧
      (findUList cs = none → findUOutList cs s = some (none, s)) := by
  induction cs with
  | nil =>
    intro s
    exact ⟨fun g fc wc hf => by simp [findUList] at hf, fun _ => rfl⟩
  | cons c cs ih =>
    intro s
    have hc := h c (List.mem_cons_self _ _) s
    have ht := ih (fun d hd => h d (List.mem_cons_of_mem _ hd))
    rcases hfc : findU c with _ | res
    · have e1 := hc.2 hfc
      rcases hl : findUList cs with _ | ⟨g2, fc2, wc2⟩
      · refine ⟨fun g fc wc hf => ?_, fun _ => ?_⟩
        · simp [findUList, hfc, hl] at hf
        · rw [findUOutList, e1]
          simp only [(ht s).2 hl]
      · refine ⟨fun g fc wc hf => ?_, fun hn => ?_⟩
        · simp only [findUList, hfc, hl, Option.some.injEq, Prod.mk.injEq] at hf
          obtain ⟨rfl, rfl, rfl⟩ := hf
          obtain ⟨f, w, e2⟩ := (ht s).1 _ _ _ hl
          refine ⟨f, w, ?_⟩
          rw [findUOutList, e1]
          simp only [e2]
        · simp [findUList, hfc, hl] at hn
    · have e1 := hc.1 res hfc
      refine ⟨fun g fc wc hf => ?_, fun hn => ?_⟩
      · simp only [findUList, hfc, Option.some.injEq, Prod.mk.injEq] at hf
        obtain ⟨rfl, rfl, rfl⟩ := hf
        refine ⟨res.ff, res.weak, ?_⟩
        rw [findUOutList, e1]
        cases cs with
        | nil => simp [replaceUList]
        | cons d ds => rfl
      · simp [findUList, hfc] at hn

/-- `findU` with its result parameter agrees with `findU` as a function: it
never uses a field that holds no node, it assigns the three fields when it
returns true and leaves the struct as it was when it returns false. -/
theorem findUOut_ok (n : Node) : SlotsOk n := by
  induction n using Node.induct with
  | hand cs ih =>
    intro s
    have hl := findUOutList_ok cs ih s
    rcases hf : findUList cs with _ | ⟨g, fc, wc⟩
    · refine ⟨fun f h => ?_, fun _ => ?_⟩
      · simp [findU, hf] at h
      · rw [findUOut, hl.2 hf]
    · obtain ⟨f0, w0, e⟩ := hl.1 g fc wc hf
      refine ⟨fun f h => ?_, fun h => ?_⟩
      · simp only [findU, hf, Option.some.injEq] at h
        subst h
        rw [findUOut, e]
      · simp [findU, hf] at h
  | hor cs ih =>
    intro s
    have hl := findUOutList_ok cs ih s
    rcases hf : findUList cs with _ | ⟨g, fc, wc⟩
    · refine ⟨fun f h => ?_, fun _ => ?_⟩
      · simp [findU, hf] at h
      · rw [findUOut, hl.2 hf]
    · obtain ⟨f0, w0, e⟩ := hl.1 g fc wc hf
      refine ⟨fun f h => ?_, fun h => ?_⟩
      · simp only [findU, hf, Option.some.injEq] at h
        subst h
        rw [findUOut, e]
      · simp [findU, hf] at h
  | hx c ih =>
    intro s
    rcases hf : findU c with _ | res
    · refine ⟨fun f h => ?_, fun _ => ?_⟩
      · simp [findU, hf] at h
      · rw [findUOut, (ih s).2 hf]
    · refine ⟨fun f h => ?_, fun h => ?_⟩
      · simp only [findU, hf, Option.some.injEq] at h
        subst h
        rw [findUOut, (ih s).1 res hf]
      · simp [findU, hf] at h
  | hw a b iha ihb =>
    intro s
    rcases hfa : findU a with _ | ra
    · have ea := (iha s).2 hfa
      rcases hfb : findU b with _ | rb
      · refine ⟨fun f h => ?_, fun _ => ?_⟩
        · simp [findU, hfa, hfb] at h
        · rw [findUOut, ea]
          simp only [(ihb s).2 hfb]
      · refine ⟨fun f h => ?_, fun h => ?_⟩
        · simp only [findU, hfa, hfb, Option.some.injEq] at h
          subst h
          rw [findUOut, ea]
          simp only [(ihb s).1 rb hfb]
        · simp [findU, hfa, hfb] at h
    · refine ⟨fun f h => ?_, fun h => ?_⟩
      · simp only [findU, hfa, Option.some.injEq] at h
        subst h
        rw [findUOut, (iha s).1 ra hfa]
      · simp [findU, hfa] at h
  | hr a b iha ihb =>
    intro s
    rcases hfa : findU a with _ | ra
    · have ea := (iha s).2 hfa
      rcases hfb : findU b with _ | rb
      · refine ⟨fun f h => ?_, fun _ => ?_⟩
        · simp [findU, hfa, hfb] at h
        · rw [findUOut, ea]
          simp only [(ihb s).2 hfb]
      · refine ⟨fun f h => ?_, fun h => ?_⟩
        · simp only [findU, hfa, hfb, Option.some.injEq] at h
          subst h
          rw [findUOut, ea]
          simp only [(ihb s).1 rb hfb]
        · simp [findU, hfa, hfb] at h
    · refine ⟨fun f h => ?_, fun h => ?_⟩
      · simp only [findU, hfa, Option.some.injEq] at h
        subst h
        rw [findUOut, (iha s).1 ra hfa]
      · simp [findU, hfa] at h
  | hu a b _ _ =>
    intro s
    refine ⟨fun f h => ?_, fun h => ?_⟩
    · simp only [findU, Option.some.injEq] at h
      subst h
      rfl
    · simp [findU] at h
  | hm a b _ _ =>
    intro s
    refine ⟨fun f h => ?_, fun h => ?_⟩
    · simp only [findU, Option.some.injEq] at h
      subst h
      rfl
    · simp [findU] at h
  | _ =>
    intro s
    refine ⟨fun f h => ?_, fun _ => ?_⟩
    · simp [findU] at h
    · rfl

open Normalizer

/-! ## The rules of the first two passes, on the formulas the code builds -/

/-- Rule (1) as `removeWU` applies it: `a W b = (a U b) ∨ G a`. -/
theorem rule1_W_node (a b : Node) :
    LtlEquiv (.mkW a b) (Node.Or [Node.U a b, Node.G a]) := by
  intro w i
  rw [sem_Or_pair, U_sem, G_sem]
  simp only [sem]

/-- Rule (1) for Release: `a R b = (a M b) ∨ G b`. -/
theorem rule1_R_node (a b : Node) :
    LtlEquiv (.mkR a b) (Node.Or [Node.M a b, Node.G b]) := by
  intro w i
  rw [sem_Or_pair, M_sem, G_sem]
  exact rule1_R a b w i

/-- Rule (2) as `removeWU` applies it, with the result of `findU` on the left
operand: `f[x U y] W c = (GF y ∧ f[x W y] W c) ∨ f[x U y] U (c ∨ G f[ff])`. -/
theorem rule2_W_node (a b : Node) (found : FindUResult) (h : findU a = some found) :
    LtlEquiv (.mkW a b)
      (Node.Or [Node.And [Node.GF found.gfa, Node.W found.weak b],
        Node.U a (Node.Or [b, Node.G found.ff])]) := by
  have hv := findU_var a found h
  intro w i
  rw [rule2_W hv b w i, sem_Or_pair, sem_And_pair, GF_sem, W_sem, U_sem]
  apply or_congr
  · exact Iff.rfl
  · simp only [sem]
    apply exists_congr
    intro j
    apply and_congr Iff.rfl
    apply and_congr_left'
    rw [sem_Or_pair, G_sem]
    exact Iff.rfl

/-- Rule (2) for Release, with the result of `findU` on the right operand:
`a R f[x U y] = (GF y ∧ a R f[x W y]) ∨ (a ∨ G f[ff]) M f[x U y]`. -/
theorem rule2_R_node (a b : Node) (found : FindUResult) (h : findU b = some found) :
    LtlEquiv (.mkR a b)
      (Node.Or [Node.And [Node.GF found.gfa, Node.R a found.weak],
        Node.M (Node.Or [a, Node.G found.ff]) b]) := by
  have hv := findU_var b found h
  intro w i
  rw [rule2_R hv a w i, sem_Or_pair, sem_And_pair, GF_sem, R_sem, M_sem]
  apply or_congr
  · exact Iff.rfl
  · simp only [sem]
    apply exists_congr
    intro j
    apply and_congr Iff.rfl
    apply and_congr_left'
    rw [sem_Or_pair, G_sem]
    exact Iff.rfl

/-- The case split of `removeGF` on the node found by `findGF`:
`f[GF a] = (GF a ∧ f[tt]) ∨ f[ff]`, and the same for FG. -/
theorem rule3_node (n : Node) (p : Bool) (g : Node) (h : findGF n p = some g) :
    LtlEquiv n (Node.Or [Node.And [g, replace g .tt n], replace g .ff n]) := by
  intro w i
  rw [rule3 (findGF_fair n p g h) n w i, sem_Or_pair, sem_And_pair]

/-! ## The measures decrease at every recursive call -/

theorem lexLt_wf : WellFounded lexLt :=
  WellFounded.prod_lex Nat.lt_wfRel.wf Nat.lt_wfRel.wf

theorem lexLt_of_fst {a b c d : Nat} (h : a < c) : lexLt (a, b) (c, d) :=
  Prod.Lex.left _ _ h

theorem lexLt_of_le_lt {a b c d : Nat} (h1 : a ≤ c) (h2 : b < d) : lexLt (a, b) (c, d) := by
  rcases Nat.lt_or_eq_of_le h1 with h | h
  · exact Prod.Lex.left _ _ h
  · subst h
    exact Prod.Lex.right _ h2

/-- A child is lighter than the node and has no more Until and StrongRelease
nodes. -/
theorem child_measures (n c : Node) (h : c ∈ n.children) :
    wt c < wt n ∧ nStrong c ≤ nStrong n := by
  cases n with
  | mkAND cs =>
    simp only [Node.children] at h
    have h1 := mem_wtList_lt cs c h
    have h2 := mem_nStrongList_le cs c h
    simp only [wt, nStrong]
    omega
  | mkOR cs =>
    simp only [Node.children] at h
    have h1 := mem_wtList_lt cs c h
    have h2 := mem_nStrongList_le cs c h
    simp only [wt, nStrong]
    omega
  | tt => simp [Node.children] at h
  | ff => simp [Node.children] at h
  | ap name => simp [Node.children] at h
  | mkX a =>
    simp only [Node.children, List.mem_singleton] at h
    subst h
    simp only [wt, nStrong]
    omega
  | mkGF a =>
    simp only [Node.children, List.mem_singleton] at h
    subst h
    simp only [wt, nStrong]
    omega
  | mkFG a =>
    simp only [Node.children, List.mem_singleton] at h
    subst h
    simp only [wt, nStrong]
    omega
  | mkU a b =>
    simp only [Node.children, List.mem_cons, List.mem_singleton, List.not_mem_nil,
      or_false] at h
    rcases h with rfl | rfl <;> simp only [wt, nStrong] <;> omega
  | mkW a b =>
    simp only [Node.children, List.mem_cons, List.mem_singleton, List.not_mem_nil,
      or_false] at h
    rcases h with rfl | rfl <;> simp only [wt, nStrong] <;> omega
  | mkR a b =>
    simp only [Node.children, List.mem_cons, List.mem_singleton, List.not_mem_nil,
      or_false] at h
    rcases h with rfl | rfl <;> simp only [wt, nStrong] <;> omega
  | mkM a b =>
    simp only [Node.children, List.mem_cons, List.mem_singleton, List.not_mem_nil,
      or_false] at h
    rcases h with rfl | rfl <;> simp only [wt, nStrong] <;> omega

/-- The call of `removeWU` on an operand. -/
theorem measWU_child (n c : Node) (h : c ∈ n.children) : lexLt (measWU c) (measWU n) :=
  lexLt_of_le_lt (child_measures n c h).2 (child_measures n c h).1

/-- Rule (1): the call of `removeWU` on `G a` for `a W b`, and on `G b` for
`a R b`. -/
theorem measWU_rule1 (a b : Node) :
    (containsU b = true → lexLt (measWU (Node.G a)) (measWU (.mkW a b))) ∧
    (containsU a = true → lexLt (measWU (Node.G b)) (measWU (.mkR a b))) := by
  constructor
  · intro h
    have h1 := containsU_nStrong b h
    have h2 := (G_measures a).2
    apply lexLt_of_fst
    simp only [nStrong]
    omega
  · intro h
    have h1 := containsU_nStrong a h
    have h2 := (G_measures b).2
    apply lexLt_of_fst
    simp only [nStrong]
    omega

/-- Rule (2): the calls of `removeWU` on the rebuilt node and on `G` of the ff
variant. -/
theorem measWU_rule2 (a b : Node) (found : FindUResult) :
    (findU a = some found →
      lexLt (measWU (Node.W found.weak b)) (measWU (.mkW a b)) ∧
      lexLt (measWU (Node.G found.ff)) (measWU (.mkW a b))) ∧
    (findU b = some found →
      lexLt (measWU (Node.R a found.weak)) (measWU (.mkR a b)) ∧
      lexLt (measWU (Node.G found.ff)) (measWU (.mkR a b))) := by
  constructor
  · intro h
    obtain ⟨_, _, _, f4, f5⟩ := findU_found a found h
    have h1 := (W_measures found.weak b).2
    have h2 := (G_measures found.ff).2
    constructor <;> apply lexLt_of_fst <;> simp only [nStrong] <;> omega
  · intro h
    obtain ⟨_, _, _, f4, f5⟩ := findU_found b found h
    have h1 := (R_measures a found.weak).2
    have h2 := (G_measures found.ff).2
    constructor <;> apply lexLt_of_fst <;> simp only [nStrong] <;> omega

/-- The calls of `removeGF` on the two variants of the formula. -/
theorem wt_variants (n found : Node) (h : findGF n false = some found) :
    wt (replace found .tt n) < wt n ∧ wt (replace found .ff n) < wt n :=
  ⟨findGF_replace_lt .tt rfl n false found h, findGF_replace_lt .ff rfl n false found h⟩

/-- The calls of `fixGFW` and `fixFGU` made by `fixGFW`. -/
theorem measGFW_calls (n : Node) (found : FindWResult) (h : findW n = some found) :
    lexLt (measFGU found.fga) (measGFW n) ∧ lexLt (measGFW found.tt) (measGFW n) ∧
    lexLt (measGFW found.strong) (measGFW n) := by
  obtain ⟨f1, f2, f3, f4, f5⟩ := findW_found n found h
  exact ⟨lexLt_of_fst f1, lexLt_of_le_lt f2 f4, lexLt_of_le_lt f3 f5⟩

/-- The calls of `fixGFW` and `fixFGU` made by `fixFGU`. -/
theorem measFGU_calls (n : Node) (found : FindUResult) (h : findU n = some found) :
    lexLt (measGFW found.gfa) (measFGU n) ∧ lexLt (measFGU found.weak) (measFGU n) ∧
    lexLt (measFGU found.ff) (measFGU n) := by
  obtain ⟨f1, f2, f3, f4, f5⟩ := findU_found n found h
  exact ⟨lexLt_of_fst f1, lexLt_of_le_lt f3 f5, lexLt_of_le_lt f2 f4⟩

/-! ## The smart constructors do not increase the weight `rankGF` -/

theorem pow4_mono {a b : Nat} (h : a ≤ b) : pow4 a ≤ pow4 b :=
  Nat.pow_le_pow_right (by norm_num) (by omega)

theorem pow4_succ (a : Nat) : pow4 (a + 1) = 4 * pow4 a := by
  simp only [pow4]
  rw [pow_succ]
  omega

theorem pow4_lt {a b : Nat} (h : a < b) : 4 * pow4 a ≤ pow4 b := by
  have h1 : pow4 (a + 1) ≤ pow4 b := pow4_mono h
  rw [pow4_succ] at h1
  exact h1

theorem pow4_ge (n : Nat) : n + 4 ≤ pow4 n := by
  induction n with
  | zero => simp [pow4]
  | succ n ih => rw [pow4_succ]; omega

theorem pow4_add (a b : Nat) : pow4 a + 1 + pow4 b ≤ pow4 (a + 1 + b) := by
  have ha := pow4_ge a
  have hb := pow4_ge b
  have e : pow4 (a + 1 + b) = pow4 a * pow4 b := by
    simp only [pow4]
    rw [← pow_add]
    congr 1
  rw [e]
  nlinarith

theorem rankGFList_filter_le (p : Node → Bool) (cs : List Node) :
    rankGFList (cs.filter p) ≤ rankGFList cs := by
  induction cs with
  | nil => simp
  | cons c cs ih =>
    by_cases h : p c = true
    · simp only [List.filter_cons_of_pos h, rankGFList]; omega
    · simp only [List.filter_cons_of_neg h, rankGFList]; omega

theorem rankGF_And_le (args : List Node) :
    rankGF (Node.And args) ≤ 1 + rankGFList args := by
  have hf := rankGFList_filter_le (fun a => !Node.is a Op.TT) args
  rcases And_cases args with h | ⟨a, h1, h2⟩ | h
  · rw [h]; simp [rankGF]
  · rw [h2]; rw [h1] at hf; simp only [rankGFList] at hf; omega
  · rw [h]; simp only [rankGF]; omega

theorem rankGF_Or_le (args : List Node) :
    rankGF (Node.Or args) ≤ 1 + rankGFList args := by
  have hf := rankGFList_filter_le (fun a => !Node.is a Op.FF) args
  rcases Or_cases args with h | ⟨a, h1, h2⟩ | h
  · rw [h]; simp [rankGF]
  · rw [h2]; rw [h1] at hf; simp only [rankGFList] at hf; omega
  · rw [h]; simp only [rankGF]; omega

theorem rankGF_X_le (arg : Node) : rankGF (Node.X arg) ≤ pow4 (rankGF arg) := by
  have := pow4_ge (rankGF arg)
  rcases X_cases arg with h | h <;> rw [h]
  · omega
  · simp [rankGF]

theorem rankGF_GF_le (arg : Node) : rankGF (Node.GF arg) ≤ pow4 (rankGF arg) := by
  induction arg using Node.induct with
  | hx c ih =>
    rw [Node.GF]
    simp only [rankGF]
    have := pow4_mono (le_of_lt (show rankGF c < pow4 (rankGF c) by
      have := pow4_ge (rankGF c); omega))
    omega
  | hu a b _ ihb =>
    by_cases ha : a = .tt
    · subst ha
      rw [Node.GF]
      simp only [rankGF, Nat.zero_add]
      have := pow4_mono (le_of_lt (show rankGF b < pow4 (rankGF b) by
        have := pow4_ge (rankGF b); omega))
      omega
    · rw [Node.GF] <;> simp_all [rankGF]
  | hm a b iha _ =>
    by_cases hb : b = .tt
    · subst hb
      rw [Node.GF]
      simp only [rankGF, Nat.add_zero]
      have := pow4_mono (le_of_lt (show rankGF a < pow4 (rankGF a) by
        have := pow4_ge (rankGF a); omega))
      omega
    · rw [Node.GF] <;> simp_all [rankGF]
  | _ => simp [Node.GF, rankGF]

theorem rankGF_FG_le (arg : Node) : rankGF (Node.FG arg) ≤ pow4 (rankGF arg) := by
  induction arg using Node.induct with
  | hx c ih =>
    rw [Node.FG]
    simp only [rankGF]
    have := pow4_mono (le_of_lt (show rankGF c < pow4 (rankGF c) by
      have := pow4_ge (rankGF c); omega))
    omega
  | hw a b iha _ =>
    by_cases hb : b = .ff
    · subst hb
      rw [Node.FG]
      simp only [rankGF, Nat.add_zero]
      have := pow4_mono (le_of_lt (show rankGF a < pow4 (rankGF a) by
        have := pow4_ge (rankGF a); omega))
      omega
    · rw [Node.FG] <;> simp_all [rankGF]
  | hr a b _ ihb =>
    by_cases ha : a = .ff
    · subst ha
      rw [Node.FG]
      simp only [rankGF, Nat.zero_add]
      have := pow4_mono (le_of_lt (show rankGF b < pow4 (rankGF b) by
        have := pow4_ge (rankGF b); omega))
      omega
    · rw [Node.FG] <;> simp_all [rankGF]
  | _ => simp [Node.FG, rankGF]

theorem rankGF_pair_le (l r : Node) :
    1 + rankGFList [l, r] ≤ pow4 (rankGF l + rankGF r) := by
  have := pow4_ge (rankGF l + rankGF r)
  simp only [rankGFList]
  omega

theorem le_pow4 (n : Nat) : n ≤ pow4 n := by
  have := pow4_ge n
  omega

theorem rankGFList_mapG_aux (cs : List Node)
    (h : ∀ c ∈ cs, rankGF (Node.W c .ff) ≤ pow4 (rankGF c + rankGF Node.ff)) :
    1 + rankGFList (Node.mapG cs) ≤ pow4 (rankGFList cs) := by
  induction cs with
  | nil => simp [Node.mapG, rankGFList, pow4]
  | cons d ds ih =>
    have h1 := h d (List.mem_cons_self _ _)
    have h2 := ih (fun c hc => h c (List.mem_cons_of_mem _ hc))
    have h3 := pow4_add (rankGF d) (rankGFList ds)
    simp only [Node.mapG, rankGFList, rankGF, Nat.add_zero] at h1 h2 ⊢
    omega

theorem rankGFList_mapF_aux (cs : List Node)
    (h : ∀ c ∈ cs, rankGF (Node.U .tt c) ≤ pow4 (rankGF Node.tt + rankGF c)) :
    1 + rankGFList (Node.mapF cs) ≤ pow4 (rankGFList cs) := by
  induction cs with
  | nil => simp [Node.mapF, rankGFList, pow4]
  | cons d ds ih =>
    have h1 := h d (List.mem_cons_self _ _)
    have h2 := ih (fun c hc => h c (List.mem_cons_of_mem _ hc))
    have h3 := pow4_add (rankGF d) (rankGFList ds)
    simp only [Node.mapF, rankGFList, rankGF, Nat.zero_add] at h1 h2 ⊢
    omega

theorem rankGF_W_aux (left right : Node)
    (hAnd : ∀ cs, left = .mkAND cs → ∀ c ∈ cs,
      rankGF (Node.W c .ff) ≤ pow4 (rankGF c + rankGF Node.ff)) :
    rankGF (Node.W left right) ≤ pow4 (rankGF left + rankGF right) := by
  have hge := le_pow4 (rankGF left + rankGF right)
  unfold Node.W
  split_ifs with h1 h2 h3 h4 h5
  · omega
  · simp [rankGF]
  · simp [rankGF]
  · have a1 := rankGF_Or_le [left, right]
    have a2 := rankGF_pair_le left right
    omega
  · rw [is_FF] at h5
    subst h5
    split
    · rename_i cs
      have hw := rankGFList_mapG_aux cs (hAnd cs rfl)
      have a1 := rankGF_And_le (Node.mapG cs)
      have a2 : pow4 (rankGFList cs) ≤ pow4 (rankGF (.mkAND cs) + rankGF Node.ff) :=
        pow4_mono (by simp only [rankGF]; omega)
      omega
    · rename_i b
      have a1 := rankGF_GF_le b
      have a2 : pow4 (rankGF b) ≤ pow4 (rankGF (.mkU .tt b) + rankGF Node.ff) :=
        pow4_mono (by have := le_pow4 (rankGF b); simp only [rankGF, Nat.zero_add, Nat.add_zero]; omega)
      omega
    · rename_i a
      have a1 := rankGF_GF_le a
      have a2 : pow4 (rankGF a) ≤ pow4 (rankGF (.mkM a .tt) + rankGF Node.ff) :=
        pow4_mono (by have := le_pow4 (rankGF a); simp only [rankGF, Nat.zero_add, Nat.add_zero]; omega)
      omega
    · simp [rankGF]
  · simp [rankGF]

theorem rankGF_W_le (left right : Node) :
    rankGF (Node.W left right) ≤ pow4 (rankGF left + rankGF right) := by
  revert right
  induction left using Node.induct with
  | hand cs ih =>
    intro right
    refine rankGF_W_aux _ right ?_
    intro cs2 h c hc
    cases h
    exact ih c hc .ff
  | _ =>
    intro right
    refine rankGF_W_aux _ right ?_
    intro cs2 h
    cases h

theorem rankGFList_mapG_le (cs : List Node) :
    1 + rankGFList (Node.mapG cs) ≤ pow4 (rankGFList cs) :=
  rankGFList_mapG_aux cs (fun c _ => rankGF_W_le c .ff)

theorem rankGF_R_le (left right : Node) :
    rankGF (Node.R left right) ≤ pow4 (rankGF left + rankGF right) := by
  have hge := le_pow4 (rankGF left + rankGF right)
  unfold Node.R
  split_ifs with h1 h2 h3
  · omega
  · omega
  · rw [is_FF] at h3
    subst h3
    split
    · rename_i cs
      have hw := rankGFList_mapG_le cs
      have a1 := rankGF_And_le (Node.mapG cs)
      have a2 : pow4 (rankGFList cs) ≤ pow4 (rankGF Node.ff + rankGF (.mkAND cs)) :=
        pow4_mono (by simp only [rankGF]; omega)
      omega
    · rename_i b
      have a1 := rankGF_GF_le b
      have a2 : pow4 (rankGF b) ≤ pow4 (rankGF Node.ff + rankGF (.mkU .tt b)) :=
        pow4_mono (by have := le_pow4 (rankGF b); simp only [rankGF, Nat.zero_add, Nat.add_zero]; omega)
      omega
    · rename_i a
      have a1 := rankGF_GF_le a
      have a2 : pow4 (rankGF a) ≤ pow4 (rankGF Node.ff + rankGF (.mkM a .tt)) :=
        pow4_mono (by have := le_pow4 (rankGF a); simp only [rankGF, Nat.zero_add, Nat.add_zero]; omega)
      omega
    · simp [rankGF]
  · simp [rankGF]

theorem rankGF_U_aux (left right : Node)
    (hOr : ∀ cs, right = .mkOR cs → ∀ c ∈ cs,
      rankGF (Node.U .tt c) ≤ pow4 (rankGF Node.tt + rankGF c)) :
    rankGF (Node.U left right) ≤ pow4 (rankGF left + rankGF right) := by
  have hge := le_pow4 (rankGF left + rankGF right)
  unfold Node.U
  split_ifs with h1 h2 h3
  · omega
  · omega
  · rw [is_TT] at h3
    subst h3
    split
    · rename_i cs
      have hw := rankGFList_mapF_aux cs (hOr cs rfl)
      have a1 := rankGF_Or_le (Node.mapF cs)
      have a2 : pow4 (rankGFList cs) ≤ pow4 (rankGF Node.tt + rankGF (.mkOR cs)) :=
        pow4_mono (by simp only [rankGF]; omega)
      omega
    · rename_i a
      have a1 := rankGF_FG_le a
      have a2 : pow4 (rankGF a) ≤ pow4 (rankGF Node.tt + rankGF (.mkW a .ff)) :=
        pow4_mono (by have := le_pow4 (rankGF a); simp only [rankGF, Nat.zero_add, Nat.add_zero]; omega)
      omega
    · rename_i b
      have a1 := rankGF_FG_le b
      have a2 : pow4 (rankGF b) ≤ pow4 (rankGF Node.tt + rankGF (.mkR .ff b)) :=
        pow4_mono (by have := le_pow4 (rankGF b); simp only [rankGF, Nat.zero_add, Nat.add_zero]; omega)
      omega
    · simp [rankGF]
  · simp [rankGF]

theorem rankGF_U_le (left right : Node) :
    rankGF (Node.U left right) ≤ pow4 (rankGF left + rankGF right) := by
  revert left
  induction right using Node.induct with
  | hor cs ih =>
    intro left
    refine rankGF_U_aux left _ ?_
    intro cs2 h c hc
    cases h
    exact ih c hc .tt
  | _ =>
    intro left
    refine rankGF_U_aux left _ ?_
    intro cs2 h
    cases h

theorem rankGFList_mapF_le (cs : List Node) :
    1 + rankGFList (Node.mapF cs) ≤ pow4 (rankGFList cs) :=
  rankGFList_mapF_aux cs (fun c _ => rankGF_U_le .tt c)

theorem rankGF_M_le (left right : Node) :
    rankGF (Node.M left right) ≤ pow4 (rankGF left + rankGF right) := by
  have hge := le_pow4 (rankGF left + rankGF right)
  unfold Node.M
  split_ifs with h1 h2 h3 h4 h5
  · omega
  · simp [rankGF]
  · simp [rankGF]
  · have a1 := rankGF_And_le [left, right]
    have a2 := rankGF_pair_le left right
    omega
  · rw [is_TT] at h5
    subst h5
    split
    · rename_i cs
      have hw := rankGFList_mapF_le cs
      have a1 := rankGF_Or_le (Node.mapF cs)
      have a2 : pow4 (rankGFList cs) ≤ pow4 (rankGF (.mkOR cs) + rankGF Node.tt) :=
        pow4_mono (by simp only [rankGF]; omega)
      omega
    · rename_i a
      have a1 := rankGF_FG_le a
      have a2 : pow4 (rankGF a) ≤ pow4 (rankGF (.mkW a .ff) + rankGF Node.tt) :=
        pow4_mono (by have := le_pow4 (rankGF a); simp only [rankGF, Nat.zero_add, Nat.add_zero]; omega)
      omega
    · rename_i b
      have a1 := rankGF_FG_le b
      have a2 : pow4 (rankGF b) ≤ pow4 (rankGF (.mkR .ff b) + rankGF Node.tt) :=
        pow4_mono (by have := le_pow4 (rankGF b); simp only [rankGF, Nat.zero_add, Nat.add_zero]; omega)
      omega
    · simp [rankGF]
  · simp [rankGF]

open Normalizer

/-! ## `replace` and the weight `rankGF` -/

theorem replaceList_rankGF_le (left right : Node) (cs : List Node)
    (h : ∀ c ∈ cs, rankGF (replace left right c) ≤ rankGF c) :
    rankGFList (replaceList left right cs) ≤ rankGFList cs := by
  induction cs with
  | nil => simp [replaceList]
  | cons c cs ih =>
    have h1 := h c (List.mem_cons_self _ _)
    have h2 := ih (fun d hd => h d (List.mem_cons_of_mem _ hd))
    simp only [replaceList, rankGFList]
    omega

theorem replace_rankGF_le (left right : Node) (hr : rankGF right = 0) (n : Node) :
    rankGF (replace left right n) ≤ rankGF n := by
  induction n using Node.induct with
  | hand cs ih =>
    have hl := replaceList_rankGF_le left right cs ih
    have a1 := rankGF_And_le (replaceList left right cs)
    rw [replace]
    try dsimp only
    split
    · simp only [rankGF]; omega
    · exact le_refl _
  | hor cs ih =>
    have hl := replaceList_rankGF_le left right cs ih
    have a1 := rankGF_Or_le (replaceList left right cs)
    rw [replace]
    try dsimp only
    split
    · simp only [rankGF]; omega
    · exact le_refl _
  | hx c ih =>
    have a1 := rankGF_X_le (replace left right c)
    have a2 := pow4_mono ih
    rw [replace]
    try dsimp only
    split
    · simp only [rankGF]; omega
    · exact le_refl _
  | hu a b iha ihb =>
    have a1 := rankGF_U_le (replace left right a) (replace left right b)
    have a2 := pow4_mono (Nat.add_le_add iha ihb)
    rw [replace]
    try dsimp only
    split
    · simp only [rankGF]; omega
    · exact le_refl _
  | hw a b iha ihb =>
    have a1 := rankGF_W_le (replace left right a) (replace left right b)
    have a2 := pow4_mono (Nat.add_le_add iha ihb)
    rw [replace]
    try dsimp only
    split
    · simp only [rankGF]; omega
    · exact le_refl _
  | hr a b iha ihb =>
    have a1 := rankGF_R_le (replace left right a) (replace left right b)
    have a2 := pow4_mono (Nat.add_le_add iha ihb)
    rw [replace]
    try dsimp only
    split
    · simp only [rankGF]; omega
    · exact le_refl _
  | hm a b iha ihb =>
    have a1 := rankGF_M_le (replace left right a) (replace left right b)
    have a2 := pow4_mono (Nat.add_le_add iha ihb)
    rw [replace]
    try dsimp only
    split
    · simp only [rankGF]; omega
    · exact le_refl _
  | hgf c ih =>
    have a1 := rankGF_GF_le (replace left right c)
    have a2 := pow4_mono ih
    rw [replace]
    split
    · omega
    · try dsimp only
      split
      · simp only [rankGF]; omega
      · exact le_refl _
  | hfg c ih =>
    have a1 := rankGF_FG_le (replace left right c)
    have a2 := pow4_mono ih
    rw [replace]
    split
    · omega
    · try dsimp only
      split
      · simp only [rankGF]; omega
      · exact le_refl _
  | _ => simp [replace]

theorem findGFList_replace_rankGF_lt (right : Node) (hr : rankGF right = 0) (cs : List Node)
    (h : ∀ c ∈ cs, ∀ p g, findGF c p = some g → Lighter c (replace g right c)) :
    ∀ p g, findGFList cs p = some g →
      rankGFList (replaceList g right cs) < rankGFList cs := by
  induction cs with
  | nil => intro p g hf; simp [findGFList] at hf
  | cons c cs ih =>
    intro p g hf
    rw [findGFList] at hf
    simp only [replaceList, rankGFList]
    rcases hc : findGF c p with _ | g2
    · rw [hc] at hf
      have h1 := ih (fun d hd => h d (List.mem_cons_of_mem _ hd)) p g hf
      have h2 := replace_rankGF_le g right hr c
      omega
    · rw [hc] at hf
      simp only [Option.some.injEq] at hf
      subst hf
      have h1 := (h c (List.mem_cons_self _ _) p g2 hc).1
      have h2 := replaceList_rankGF_le g2 right cs
        (fun d _ => replace_rankGF_le g2 right hr d)
      omega

theorem binary_replace_rankGF_lt (right g a b : Node) (hr : rankGF right = 0)
    (iha : ∀ p g, findGF a p = some g → Lighter a (replace g right a))
    (ihb : ∀ p g, findGF b p = some g → Lighter b (replace g right b))
    (hf : (match findGF a true with
      | some g => some g
      | none => findGF b true) = some g) :
    rankGF (replace g right a) + rankGF (replace g right b) < rankGF a + rankGF b := by
  have ha := replace_rankGF_le g right hr a
  have hb := replace_rankGF_le g right hr b
  rcases hc : findGF a true with _ | g2
  · rw [hc] at hf
    have := (ihb true g hf).1
    omega
  · rw [hc] at hf
    simp only [Option.some.injEq] at hf
    subst hf
    have := (iha true g2 hc).1
    omega

theorem lighter_of_four {n m : Node} (h : 4 * rankGF m ≤ rankGF n) (hn : 4 ≤ rankGF n) :
    Lighter n m :=
  ⟨by omega, fun _ _ => h⟩

theorem findGF_replace_lighter (right : Node) (hr : rankGF right = 0) (n : Node) :
    ∀ p g, findGF n p = some g → Lighter n (replace g right n) := by
  induction n using Node.induct with
  | hand cs ih =>
    intro p g hf
    rw [findGF] at hf
    have hl := findGFList_replace_rankGF_lt right hr cs ih p g hf
    have a1 := rankGF_And_le (replaceList g right cs)
    refine ⟨?_, fun h _ => absurd rfl (h cs)⟩
    rw [replace]
    try dsimp only
    split
    · simp only [rankGF]; omega
    · rename_i hne
      simp only [bne_iff_ne, ne_eq, Decidable.not_not] at hne
      rw [hne] at hl
      omega
  | hor cs ih =>
    intro p g hf
    rw [findGF] at hf
    have hl := findGFList_replace_rankGF_lt right hr cs ih p g hf
    have a1 := rankGF_Or_le (replaceList g right cs)
    refine ⟨?_, fun _ h => absurd rfl (h cs)⟩
    rw [replace]
    try dsimp only
    split
    · simp only [rankGF]; omega
    · rename_i hne
      simp only [bne_iff_ne, ne_eq, Decidable.not_not] at hne
      rw [hne] at hl
      omega
  | hx c ih =>
    intro p g hf
    rw [findGF] at hf
    have hl := (ih true g hf).1
    have a1 := rankGF_X_le (replace g right c)
    have a2 := pow4_lt hl
    have a3 := pow4_ge (rankGF c)
    refine lighter_of_four ?_ (by simp only [rankGF]; omega)
    rw [replace]
    try dsimp only
    split
    · simp only [rankGF]; omega
    · rename_i hne
      simp only [bne_iff_ne, ne_eq, Decidable.not_not] at hne
      rw [hne] at hl
      omega
  | hu a b iha ihb =>
    intro p g hf
    rw [findGF] at hf
    have hl := binary_replace_rankGF_lt right g a b hr iha ihb hf
    have a1 := rankGF_U_le (replace g right a) (replace g right b)
    have a2 := pow4_lt hl
    have a3 := pow4_ge (rankGF a + rankGF b)
    refine lighter_of_four ?_ (by simp only [rankGF]; omega)
    rw [replace]
    try dsimp only
    split
    · simp only [rankGF]; omega
    · rename_i hne
      simp only [Bool.or_eq_true, bne_iff_ne, ne_eq, not_or, Decidable.not_not] at hne
      rw [hne.1, hne.2] at hl
      omega
  | hw a b iha ihb =>
    intro p g hf
    rw [findGF] at hf
    have hl := binary_replace_rankGF_lt right g a b hr iha ihb hf
    have a1 := rankGF_W_le (replace g right a) (replace g right b)
    have a2 := pow4_lt hl
    have a3 := pow4_ge (rankGF a + rankGF b)
    refine lighter_of_four ?_ (by simp only [rankGF]; omega)
    rw [replace]
    try dsimp only
    split
    · simp only [rankGF]; omega
    · rename_i hne
      simp only [Bool.or_eq_true, bne_iff_ne, ne_eq, not_or, Decidable.not_not] at hne
      rw [hne.1, hne.2] at hl
      omega
  | hr a b iha ihb =>
    intro p g hf
    rw [findGF] at hf
    have hl := binary_replace_rankGF_lt right g a b hr iha ihb hf
    have a1 := rankGF_R_le (replace g right a) (replace g right b)
    have a2 := pow4_lt hl
    have a3 := pow4_ge (rankGF a + rankGF b)
    refine lighter_of_four ?_ (by simp only [rankGF]; omega)
    rw [replace]
    try dsimp only
    split
    · simp only [rankGF]; omega
    · rename_i hne
      simp only [Bool.or_eq_true, bne_iff_ne, ne_eq, not_or, Decidable.not_not] at hne
      rw [hne.1, hne.2] at hl
      omega
  | hm a b iha ihb =>
    intro p g hf
    rw [findGF] at hf
    have hl := binary_replace_rankGF_lt right g a b hr iha ihb hf
    have a1 := rankGF_M_le (replace g right a) (replace g right b)
    have a2 := pow4_lt hl
    have a3 := pow4_ge (rankGF a + rankGF b)
    refine lighter_of_four ?_ (by simp only [rankGF]; omega)
    rw [replace]
    try dsimp only
    split
    · simp only [rankGF]; omega
    · rename_i hne
      simp only [Bool.or_eq_true, bne_iff_ne, ne_eq, not_or, Decidable.not_not] at hne
      rw [hne.1, hne.2] at hl
      omega
  | hgf c ih =>
    intro p g hf
    rw [findGF] at hf
    have a3 := pow4_ge (rankGF c)
    refine lighter_of_four ?_ (by simp only [rankGF]; omega)
    rcases hc : findGF c true with _ | g2
    · simp only [hc] at hf
      split at hf
      · simp only [Option.some.injEq] at hf
        subst hf
        rw [replace, if_pos (sameFairness_self_GF c)]
        omega
      · simp at hf
    · rw [hc] at hf
      simp only [Option.some.injEq] at hf
      subst hf
      have hl := (ih true g2 hc).1
      have a1 := rankGF_GF_le (replace g2 right c)
      have a2 := pow4_lt hl
      rw [replace]
      split
      · omega
      · try dsimp only
        split
        · simp only [rankGF]; omega
        · rename_i hne
          simp only [bne_iff_ne, ne_eq, Decidable.not_not] at hne
          rw [hne] at hl
          omega
  | hfg c ih =>
    intro p g hf
    rw [findGF] at hf
    have a3 := pow4_ge (rankGF c)
    refine lighter_of_four ?_ (by simp only [rankGF]; omega)
    rcases hc : findGF c true with _ | g2
    · simp only [hc] at hf
      split at hf
      · simp only [Option.some.injEq] at hf
        subst hf
        rw [replace, if_pos (sameFairness_self_FG c)]
        omega
      · simp at hf
    · rw [hc] at hf
      simp only [Option.some.injEq] at hf
      subst hf
      have hl := (ih true g2 hc).1
      have a1 := rankGF_FG_le (replace g2 right c)
      have a2 := pow4_lt hl
      rw [replace]
      split
      · omega
      · try dsimp only
        split
        · simp only [rankGF]; omega
        · rename_i hne
          simp only [bne_iff_ne, ne_eq, Decidable.not_not] at hne
          rw [hne] at hl
          omega
  | _ => intro p g hf; simp [findGF] at hf

/-! ## The found node is not heavier than the formula -/

theorem findGFList_rankGF_le (cs : List Node)
    (h : ∀ c ∈ cs, ∀ p g, findGF c p = some g → rankGF g ≤ rankGF c) :
    ∀ p g, findGFList cs p = some g → rankGF g ≤ rankGFList cs := by
  induction cs with
  | nil => intro p g hf; simp [findGFList] at hf
  | cons c cs ih =>
    intro p g hf
    rw [findGFList] at hf
    simp only [rankGFList]
    rcases hc : findGF c p with _ | g2
    · rw [hc] at hf
      have h1 := ih (fun d hd => h d (List.mem_cons_of_mem _ hd)) p g hf
      omega
    · rw [hc] at hf
      simp only [Option.some.injEq] at hf
      subst hf
      have h1 := h c (List.mem_cons_self _ _) p g2 hc
      omega

theorem binary_rankGF_le {a b g : Node}
    (iha : ∀ p g, findGF a p = some g → rankGF g ≤ rankGF a)
    (ihb : ∀ p g, findGF b p = some g → rankGF g ≤ rankGF b)
    (hf : (match findGF a true with
      | some g => some g
      | none => findGF b true) = some g) :
    rankGF g ≤ rankGF a + rankGF b := by
  rcases hc : findGF a true with _ | g2
  · rw [hc] at hf
    have := ihb true g hf
    omega
  · rw [hc] at hf
    simp only [Option.some.injEq] at hf
    subst hf
    have := iha true g2 hc
    omega

/-- The node found by `findGF` is not heavier than the formula. -/
theorem findGF_rankGF_le (n : Node) :
    ∀ p g, findGF n p = some g → rankGF g ≤ rankGF n := by
  induction n using Node.induct with
  | hand cs ih =>
    intro p g hf
    rw [findGF] at hf
    have := findGFList_rankGF_le cs ih p g hf
    simp only [rankGF]; omega
  | hor cs ih =>
    intro p g hf
    rw [findGF] at hf
    have := findGFList_rankGF_le cs ih p g hf
    simp only [rankGF]; omega
  | hx c ih =>
    intro p g hf
    rw [findGF] at hf
    have := ih true g hf
    have := le_pow4 (rankGF c)
    simp only [rankGF]; omega
  | hu a b iha ihb =>
    intro p g hf
    rw [findGF] at hf
    have := binary_rankGF_le iha ihb hf
    have := le_pow4 (rankGF a + rankGF b)
    simp only [rankGF]; omega
  | hw a b iha ihb =>
    intro p g hf
    rw [findGF] at hf
    have := binary_rankGF_le iha ihb hf
    have := le_pow4 (rankGF a + rankGF b)
    simp only [rankGF]; omega
  | hr a b iha ihb =>
    intro p g hf
    rw [findGF] at hf
    have := binary_rankGF_le iha ihb hf
    have := le_pow4 (rankGF a + rankGF b)
    simp only [rankGF]; omega
  | hm a b iha ihb =>
    intro p g hf
    rw [findGF] at hf
    have := binary_rankGF_le iha ihb hf
    have := le_pow4 (rankGF a + rankGF b)
    simp only [rankGF]; omega
  | hgf c ih =>
    intro p g hf
    rw [findGF] at hf
    rcases hc : findGF c true with _ | g2
    · simp only [hc] at hf
      split at hf
      · simp only [Option.some.injEq] at hf
        subst hf
        exact le_refl _
      · simp at hf
    · rw [hc] at hf
      simp only [Option.some.injEq] at hf
      subst hf
      have := ih true g2 hc
      have := le_pow4 (rankGF c)
      simp only [rankGF]; omega
  | hfg c ih =>
    intro p g hf
    rw [findGF] at hf
    rcases hc : findGF c true with _ | g2
    · simp only [hc] at hf
      split at hf
      · simp only [Option.some.injEq] at hf
        subst hf
        exact le_refl _
      · simp at hf
    · rw [hc] at hf
      simp only [Option.some.injEq] at hf
      subst hf
      have := ih true g2 hc
      have := le_pow4 (rankGF c)
      simp only [rankGF]; omega
  | _ => intro p g hf; simp [findGF] at hf

theorem pow4_big {m : Nat} (h : 1 ≤ m) : 2 * m + 12 ≤ pow4 m := by
  obtain ⟨k, rfl⟩ : ∃ k, m = k + 1 := ⟨m - 1, by omega⟩
  have := pow4_ge k
  rw [pow4_succ]
  omega

theorem rankGF_fair {g : Node} (hg : IsFair g) : 4 ≤ rankGF g := by
  rcases hg with ⟨c, rfl⟩ | ⟨c, rfl⟩
  · have := pow4_ge (rankGF c)
    simp only [rankGF]; omega
  · have := pow4_ge (rankGF c)
    simp only [rankGF]; omega

/-- The found node of a temporal formula weighs less than half the formula. -/
theorem found_small (n g : Node) (h1 : ∀ cs, n ≠ .mkAND cs) (h2 : ∀ cs, n ≠ .mkOR cs)
    (hf : findGF n false = some g) : 2 * rankGF g + 12 ≤ rankGF n := by
  have hg := rankGF_fair (findGF_fair n false g hf)
  cases n with
  | mkAND cs => exact absurd rfl (h1 cs)
  | mkOR cs => exact absurd rfl (h2 cs)
  | mkX c =>
    rw [findGF] at hf
    have a1 := findGF_rankGF_le c true g hf
    have a2 := pow4_big (show 1 ≤ rankGF c by omega)
    simp only [rankGF]; omega
  | mkU a b =>
    rw [findGF] at hf
    have a1 := binary_rankGF_le (findGF_rankGF_le a) (findGF_rankGF_le b) hf
    have a2 := pow4_big (show 1 ≤ rankGF a + rankGF b by omega)
    simp only [rankGF]; omega
  | mkW a b =>
    rw [findGF] at hf
    have a1 := binary_rankGF_le (findGF_rankGF_le a) (findGF_rankGF_le b) hf
    have a2 := pow4_big (show 1 ≤ rankGF a + rankGF b by omega)
    simp only [rankGF]; omega
  | mkR a b =>
    rw [findGF] at hf
    have a1 := binary_rankGF_le (findGF_rankGF_le a) (findGF_rankGF_le b) hf
    have a2 := pow4_big (show 1 ≤ rankGF a + rankGF b by omega)
    simp only [rankGF]; omega
  | mkM a b =>
    rw [findGF] at hf
    have a1 := binary_rankGF_le (findGF_rankGF_le a) (findGF_rankGF_le b) hf
    have a2 := pow4_big (show 1 ≤ rankGF a + rankGF b by omega)
    simp only [rankGF]; omega
  | mkGF c =>
    rw [findGF] at hf
    rcases hc : findGF c true with _ | g2
    · simp [hc] at hf
    · rw [hc] at hf
      simp only [Option.some.injEq] at hf
      subst hf
      have a1 := findGF_rankGF_le c true g2 hc
      have a2 := pow4_big (show 1 ≤ rankGF c by omega)
      simp only [rankGF]; omega
  | mkFG c =>
    rw [findGF] at hf
    rcases hc : findGF c true with _ | g2
    · simp [hc] at hf
    · rw [hc] at hf
      simp only [Option.some.injEq] at hf
      subst hf
      have a1 := findGF_rankGF_le c true g2 hc
      have a2 := pow4_big (show 1 ≤ rankGF c by omega)
      simp only [rankGF]; omega
  | _ => simp [findGF] at hf

/-- The formula `(found ∧ tt1) ∨ ff1` that `removeGF` returns is not heavier
than its argument when `tt1` and `ff1` are not heavier than the variants. -/
theorem rankGF_result_le (n found tt1 ff1 : Node) (h1 : ∀ cs, n ≠ .mkAND cs)
    (h2 : ∀ cs, n ≠ .mkOR cs) (hf : findGF n false = some found)
    (ht : rankGF tt1 ≤ rankGF (replace found .tt n))
    (hff : rankGF ff1 ≤ rankGF (replace found .ff n)) :
    rankGF (Node.Or [Node.And [found, tt1], ff1]) ≤ rankGF n := by
  have a1 := found_small n found h1 h2 hf
  have a2 := (findGF_replace_lighter Node.tt rfl n false found hf).2 h1 h2
  have a5 := (findGF_replace_lighter Node.ff rfl n false found hf).2 h1 h2
  have a3 := rankGF_Or_le [Node.And [found, tt1], ff1]
  have a4 := rankGF_And_le [found, tt1]
  simp only [rankGFList] at a3 a4
  omega

open Normalizer

/-! ## What a rewritten node changes in a formula that refers to it -/

theorem forall₂_middle {R : Node → Node → Prop} (hR : ∀ x, R x x) (pre post : List Node)
    {c d : Node} (h : R d c) : List.Forall₂ R (pre ++ d :: post) (pre ++ c :: post) := by
  induction pre with
  | nil =>
    refine List.Forall₂.cons h ?_
    exact List.forall₂_same.mpr (fun x _ => hR x)
  | cons p pre ih => exact List.Forall₂.cons (hR p) ih

theorem rankGFList_append (xs ys : List Node) :
    rankGFList (xs ++ ys) = rankGFList xs + rankGFList ys := by
  induction xs with
  | nil => simp [rankGFList]
  | cons x xs ih =>
    rw [List.cons_append, rankGFList, rankGFList, ih]
    omega

theorem topFair_of_fairFree (n : Node) (h : fairFree n = true) : topFair n = true := by
  induction n using Node.induct with
  | hand cs ih =>
    rw [fairFree, fairFreeAll_iff] at h
    rw [topFair, topFairAll_iff]
    exact fun c hc => ih c hc (h c hc)
  | hor cs ih =>
    rw [fairFree, fairFreeAll_iff] at h
    rw [topFair, topFairAll_iff]
    exact fun c hc => ih c hc (h c hc)
  | _ => simp_all [fairFree, topFair]

theorem Rewrite1_equiv {old new n m : Node} (h : Rewrite1 old new n m)
    (he : LtlEquiv new old) : LtlEquiv m n := by
  induction h with
  | here => exact he
  | inAND pre post c d _ ih => exact equiv_mkAND (forall₂_middle LtlEquiv.refl pre post ih)
  | inOR pre post c d _ ih => exact equiv_mkOR (forall₂_middle LtlEquiv.refl pre post ih)
  | inX c d _ ih => exact equiv_mkX ih
  | inU1 a b d _ ih => exact equiv_mkU ih (LtlEquiv.refl _)
  | inU2 a b d _ ih => exact equiv_mkU (LtlEquiv.refl _) ih
  | inW1 a b d _ ih => exact equiv_mkW ih (LtlEquiv.refl _)
  | inW2 a b d _ ih => exact equiv_mkW (LtlEquiv.refl _) ih
  | inR1 a b d _ ih => exact equiv_mkR ih (LtlEquiv.refl _)
  | inR2 a b d _ ih => exact equiv_mkR (LtlEquiv.refl _) ih
  | inM1 a b d _ ih => exact equiv_mkM ih (LtlEquiv.refl _)
  | inM2 a b d _ ih => exact equiv_mkM (LtlEquiv.refl _) ih
  | inGF c d _ ih => exact equiv_mkGF ih
  | inFG c d _ ih => exact equiv_mkFG ih

theorem Rewrite1_rankGF {old new n m : Node} (h : Rewrite1 old new n m)
    (he : rankGF new ≤ rankGF old) : rankGF m ≤ rankGF n := by
  induction h with
  | here => exact he
  | inAND pre post c d _ ih =>
    simp only [rankGF, rankGFList_append, rankGFList]; omega
  | inOR pre post c d _ ih =>
    simp only [rankGF, rankGFList_append, rankGFList]; omega
  | inX c d _ ih => exact pow4_mono ih
  | inU1 a b d _ ih => exact pow4_mono (by omega)
  | inU2 a b d _ ih => exact pow4_mono (by omega)
  | inW1 a b d _ ih => exact pow4_mono (by omega)
  | inW2 a b d _ ih => exact pow4_mono (by omega)
  | inR1 a b d _ ih => exact pow4_mono (by omega)
  | inR2 a b d _ ih => exact pow4_mono (by omega)
  | inM1 a b d _ ih => exact pow4_mono (by omega)
  | inM2 a b d _ ih => exact pow4_mono (by omega)
  | inGF c d _ ih => exact pow4_mono ih
  | inFG c d _ ih => exact pow4_mono ih

theorem Rewrite1_same {old n m : Node} (h : Rewrite1 old old n m) : m = n := by
  induction h with
  | here => rfl
  | inAND pre post c d _ ih => rw [ih]
  | inOR pre post c d _ ih => rw [ih]
  | inX c d _ ih => rw [ih]
  | inU1 a b d _ ih => rw [ih]
  | inU2 a b d _ ih => rw [ih]
  | inW1 a b d _ ih => rw [ih]
  | inW2 a b d _ ih => rw [ih]
  | inR1 a b d _ ih => rw [ih]
  | inR2 a b d _ ih => rw [ih]
  | inM1 a b d _ ih => rw [ih]
  | inM2 a b d _ ih => rw [ih]
  | inGF c d _ ih => rw [ih]
  | inFG c d _ ih => rw [ih]

/-- A formula without GF and FG nodes has no rewritten node that has one, and
a formula whose GF and FG nodes are reached through And/Or nodes only refers
to such nodes only. -/
theorem Rewrite1_fair {old new n m : Node} (h : Rewrite1 old new n m) :
    (fairFree n = true → fairFree old = true) ∧ (topFair n = true → topFair old = true) := by
  induction h with
  | here => exact ⟨id, id⟩
  | inAND pre post c d _ ih =>
    refine ⟨fun hn => ih.1 ?_, fun hn => ih.2 ?_⟩
    · rw [fairFree, fairFreeAll_iff] at hn
      exact hn c (by simp)
    · rw [topFair, topFairAll_iff] at hn
      exact hn c (by simp)
  | inOR pre post c d _ ih =>
    refine ⟨fun hn => ih.1 ?_, fun hn => ih.2 ?_⟩
    · rw [fairFree, fairFreeAll_iff] at hn
      exact hn c (by simp)
    · rw [topFair, topFairAll_iff] at hn
      exact hn c (by simp)
  | inX c d _ ih =>
    exact ⟨fun hn => ih.1 (by simpa [fairFree] using hn),
      fun hn => topFair_of_fairFree _ (ih.1 (by simpa [topFair] using hn))⟩
  | inU1 a b d _ ih =>
    exact ⟨fun hn => ih.1 (by simp [fairFree] at hn; exact hn.1),
      fun hn => topFair_of_fairFree _ (ih.1 (by simp [topFair] at hn; exact hn.1))⟩
  | inU2 a b d _ ih =>
    exact ⟨fun hn => ih.1 (by simp [fairFree] at hn; exact hn.2),
      fun hn => topFair_of_fairFree _ (ih.1 (by simp [topFair] at hn; exact hn.2))⟩
  | inW1 a b d _ ih =>
    exact ⟨fun hn => ih.1 (by simp [fairFree] at hn; exact hn.1),
      fun hn => topFair_of_fairFree _ (ih.1 (by simp [topFair] at hn; exact hn.1))⟩
  | inW2 a b d _ ih =>
    exact ⟨fun hn => ih.1 (by simp [fairFree] at hn; exact hn.2),
      fun hn => topFair_of_fairFree _ (ih.1 (by simp [topFair] at hn; exact hn.2))⟩
  | inR1 a b d _ ih =>
    exact ⟨fun hn => ih.1 (by simp [fairFree] at hn; exact hn.1),
      fun hn => topFair_of_fairFree _ (ih.1 (by simp [topFair] at hn; exact hn.1))⟩
  | inR2 a b d _ ih =>
    exact ⟨fun hn => ih.1 (by simp [fairFree] at hn; exact hn.2),
      fun hn => topFair_of_fairFree _ (ih.1 (by simp [topFair] at hn; exact hn.2))⟩
  | inM1 a b d _ ih =>
    exact ⟨fun hn => ih.1 (by simp [fairFree] at hn; exact hn.1),
      fun hn => topFair_of_fairFree _ (ih.1 (by simp [topFair] at hn; exact hn.1))⟩
  | inM2 a b d _ ih =>
    exact ⟨fun hn => ih.1 (by simp [fairFree] at hn; exact hn.2),
      fun hn => topFair_of_fairFree _ (ih.1 (by simp [topFair] at hn; exact hn.2))⟩
  | inGF c d _ ih =>
    exact ⟨fun hn => by simp [fairFree] at hn,
      fun hn => topFair_of_fairFree _ (ih.1 (by simpa [topFair] using hn))⟩
  | inFG c d _ ih =>
    exact ⟨fun hn => by simp [fairFree] at hn,
      fun hn => topFair_of_fairFree _ (ih.1 (by simpa [topFair] using hn))⟩

/-- After assignments that keep the meaning, a formula keeps its meaning. -/
theorem Seen_equiv {log : Log} (hl : LogOk log) {n m : Node} (h : Seen log n m) :
    LtlEquiv m n := by
  induction h with
  | refl => exact LtlEquiv.refl _
  | tail _ hs ih =>
    obtain ⟨p, hp, hr⟩ := hs
    exact (Rewrite1_equiv hr (hl p hp).1).trans ih

/-- After assignments that do not make a node heavier, a formula is not
heavier. -/
theorem Seen_rankGF {log : Log} (hl : LogOk log) {n m : Node} (h : Seen log n m) :
    rankGF m ≤ rankGF n := by
  induction h with
  | refl => exact le_refl _
  | tail _ hs ih =>
    obtain ⟨p, hp, hr⟩ := hs
    exact le_trans (Rewrite1_rankGF hr (hl p hp).2.1) ih

/-- A formula whose GF and FG nodes are reached through And/Or nodes only is
read as it was. -/
theorem Seen_topFair {log : Log} (hl : LogOk log) {n m : Node} (h : Seen log n m)
    (hn : topFair n = true) : m = n := by
  induction h with
  | refl => rfl
  | tail _ hs ih =>
    obtain ⟨p, hp, hr⟩ := hs
    rw [ih] at hr
    obtain ⟨old, new⟩ := p
    have e : new = old := (hl _ hp).2.2 ((Rewrite1_fair hr).2 hn)
    subst e
    exact Rewrite1_same hr

theorem readAll_topFair {view : View} (hv : ValidView view) {log : Log} (hl : LogOk log)
    (rs : List Node) (h : ∀ r ∈ rs, topFair r = true) (i : Nat) :
    readAll view log i rs = rs := by
  induction rs generalizing i with
  | nil => rfl
  | cons r rs ih =>
    rw [readAll, Seen_topFair hl (hv i log r) (h r (List.mem_cons_self _ _)),
      ih (fun x hx => h x (List.mem_cons_of_mem _ hx))]

theorem sameView_valid : ValidView sameView :=
  fun _ _ _ => Relation.ReflTransGen.refl

theorem LogOk_nil : LogOk [] := by
  intro p hp
  cases hp

theorem LogOk_cons {log : Log} (hl : LogOk log) {old new : Node} (h1 : LtlEquiv new old)
    (h2 : rankGF new ≤ rankGF old) (h3 : topFair old = true → new = old) :
    LogOk ((old, new) :: log) := by
  intro p hp
  rcases List.mem_cons.mp hp with rfl | hp
  · exact ⟨h1, h2, h3⟩
  · exact hl p hp

open Normalizer

/-! ## `removeGF` in place: budget, result and termination -/

theorem removeGFInPlace_other (view : View) (k : Nat) (s : GFState) (n : Node)
    (h1 : ∀ cs, n ≠ .mkAND cs) (h2 : ∀ cs, n ≠ .mkOR cs) :
    removeGFInPlace view (k + 1) s n =
      match findGF n false with
      | some found =>
        match removeGFInPlace view k s (replace found Node.tt n) with
        | none => none
        | some (tt1, s1) =>
          match removeGFInPlace view k ⟨s1.log, s1.reads + 2⟩
              (view (s1.reads + 1) s1.log (replace found Node.ff n)) with
          | none => none
          | some (ff1, s2) =>
            some (Node.Or [view s2.reads s2.log (Node.And [view s1.reads s1.log found, tt1]),
              ff1], ⟨s2.log, s2.reads + 1⟩)
      | none => some (n, s) := by
  cases n with
  | mkAND cs => exact absurd rfl (h1 cs)
  | mkOR cs => exact absurd rfl (h2 cs)
  | _ => rfl

theorem loopInPlace_mono {call call2 : GFState → Node → Option (Node × GFState)}
    (view : View) (h : ∀ s n x, call s n = some x → call2 s n = some x) :
    ∀ cs s x, loopInPlace call view s cs = some x → loopInPlace call2 view s cs = some x := by
  intro cs
  induction cs with
  | nil => intro s x hx; exact hx
  | cons c cs ih =>
    intro s x hx
    rw [loopInPlace] at hx ⊢
    rcases hc : call ⟨s.log, s.reads + 1⟩ (view s.reads s.log c) with _ | ⟨r, s1⟩
    · rw [hc] at hx; cases hx
    · rw [hc] at hx
      rw [h _ _ _ hc]
      dsimp only at hx ⊢
      rcases hl : loopInPlace call view s1 cs with _ | ⟨rs, s2⟩
      · rw [hl] at hx; cases hx
      · rw [hl] at hx
        rw [ih _ _ hl]
        exact hx

theorem removeGFInPlace_succ (view : View) (k : Nat) :
    ∀ s n x, removeGFInPlace view k s n = some x →
      removeGFInPlace view (k + 1) s n = some x := by
  induction k with
  | zero => intro s n x h; simp [removeGFInPlace] at h
  | succ k ih =>
    intro s n x h
    by_cases h1 : ∃ cs, n = .mkAND cs
    · obtain ⟨cs, rfl⟩ := h1
      rw [removeGFInPlace] at h ⊢
      rcases hl : loopInPlace (removeGFInPlace view k) view s cs with _ | ⟨rs, s1⟩
      · rw [hl] at h; cases h
      · rw [hl] at h
        rw [loopInPlace_mono view ih cs s _ hl]
        exact h
    by_cases h2 : ∃ cs, n = .mkOR cs
    · obtain ⟨cs, rfl⟩ := h2
      rw [removeGFInPlace] at h ⊢
      rcases hl : loopInPlace (removeGFInPlace view k) view s cs with _ | ⟨rs, s1⟩
      · rw [hl] at h; cases h
      · rw [hl] at h
        rw [loopInPlace_mono view ih cs s _ hl]
        exact h
    have e1 : ∀ cs, n ≠ .mkAND cs := fun cs hc => h1 ⟨cs, hc⟩
    have e2 : ∀ cs, n ≠ .mkOR cs := fun cs hc => h2 ⟨cs, hc⟩
    rw [removeGFInPlace_other _ _ _ n e1 e2] at h ⊢
    rcases hf : findGF n false with _ | found
    · simp only [hf] at h ⊢
      exact h
    · simp only [hf] at h ⊢
      rcases ht : removeGFInPlace view k s (replace found Node.tt n) with _ | ⟨tt1, s1⟩
      · rw [ht] at h; cases h
      · rw [ht] at h
        rw [ih _ _ _ ht]
        dsimp only at h ⊢
        rcases hff : removeGFInPlace view k ⟨s1.log, s1.reads + 2⟩
            (view (s1.reads + 1) s1.log (replace found Node.ff n)) with _ | ⟨ff1, s2⟩
        · rw [hff] at h; cases h
        · rw [hff] at h
          rw [ih _ _ _ hff]
          exact h

theorem removeGFInPlace_mono (view : View) {k k2 : Nat} (hk : k ≤ k2) {s : GFState}
    {n : Node} {x : Node × GFState} (h : removeGFInPlace view k s n = some x) :
    removeGFInPlace view k2 s n = some x := by
  induction hk with
  | refl => exact h
  | step _ ih => exact removeGFInPlace_succ _ _ _ _ _ ih

theorem view_ok {view : View} (hv : ValidView view) {log : Log} (hl : LogOk log)
    (i : Nat) (n : Node) :
    LtlEquiv (view i log n) n ∧ rankGF (view i log n) ≤ rankGF n ∧
      (topFair n = true → view i log n = n) :=
  ⟨Seen_equiv hl (hv i log n), Seen_rankGF hl (hv i log n),
    fun h => Seen_topFair hl (hv i log n) h⟩

theorem loopInPlace_ok {view : View} (hv : ValidView view)
    (call : GFState → Node → Option (Node × GFState))
    (hcall : ∀ s n r s1, LogOk s.log → call s n = some (r, s1) → RunOk n r s1) :
    ∀ cs s rs s1, LogOk s.log → loopInPlace call view s cs = some (rs, s1) →
      LogOk s1.log ∧ List.Forall₂ ChildOk cs rs := by
  intro cs
  induction cs with
  | nil =>
    intro s rs s1 hl h
    simp only [loopInPlace, Option.some.injEq, Prod.mk.injEq] at h
    obtain ⟨rfl, rfl⟩ := h
    exact ⟨hl, List.Forall₂.nil⟩
  | cons c cs ih =>
    intro s rs s2 hl h
    rw [loopInPlace] at h
    rcases hc : call ⟨s.log, s.reads + 1⟩ (view s.reads s.log c) with _ | ⟨r, s1⟩
    · rw [hc] at h; cases h
    · rw [hc] at h
      dsimp only at h
      rcases hr : loopInPlace call view s1 cs with _ | ⟨rs1, s3⟩
      · rw [hr] at h; cases h
      · rw [hr] at h
        simp only [Option.some.injEq, Prod.mk.injEq] at h
        obtain ⟨rfl, rfl⟩ := h
        obtain ⟨v1, v2, v3⟩ := view_ok hv hl s.reads c
        obtain ⟨o1, o2, o3, o4, o5⟩ := hcall ⟨s.log, s.reads + 1⟩ _ _ _ hl hc
        obtain ⟨t1, t2⟩ := ih s1 rs1 s3 o1 hr
        refine ⟨t1, List.Forall₂.cons ⟨o2.trans v1, o3, le_trans o4 v2, fun ht => ?_⟩ t2⟩
        have e := v3 ht
        rw [e] at o5
        exact o5 ht

theorem childOk_equiv {cs rs : List Node} (h : List.Forall₂ ChildOk cs rs) :
    List.Forall₂ LtlEquiv rs cs :=
  h.flip.imp (fun _ _ e => e.1)

theorem childOk_topFair {cs rs : List Node} (h : List.Forall₂ ChildOk cs rs) :
    ∀ r ∈ rs, topFair r = true := by
  induction h with
  | nil => intro r hr; cases hr
  | cons hc _ ih =>
    intro r hr
    rcases List.mem_cons.mp hr with rfl | hr
    · exact hc.2.1
    · exact ih r hr

theorem childOk_rankGF {cs rs : List Node} (h : List.Forall₂ ChildOk cs rs) :
    rankGFList rs ≤ rankGFList cs := by
  induction h with
  | nil => exact le_refl _
  | cons hc _ ih =>
    have := hc.2.2.1
    simp only [rankGFList]
    omega

theorem childOk_fixed {cs rs : List Node} (h : List.Forall₂ ChildOk cs rs)
    (hcs : ∀ c ∈ cs, topFair c = true) : rs = cs := by
  induction h with
  | nil => rfl
  | cons hc _ ih =>
    rw [hc.2.2.2 (hcs _ (List.mem_cons_self _ _)),
      ih (fun d hd => hcs d (List.mem_cons_of_mem _ hd))]

/-- What a call of `removeGF` in place returns, whatever the references are
read with: a formula equivalent to its argument and not heavier, in which
every GF or FG node is reached through And/Or nodes only, and the argument
itself when this holds of the argument. -/
theorem removeGFInPlace_ok {view : View} (hv : ValidView view) (k : Nat) :
    ∀ s n r s1, LogOk s.log → removeGFInPlace view k s n = some (r, s1) → RunOk n r s1 := by
  induction k with
  | zero => intro s n r s1 _ h; simp [removeGFInPlace] at h
  | succ k ih =>
    intro s n r s2 hl h
    by_cases h1 : ∃ cs, n = .mkAND cs
    · obtain ⟨cs, rfl⟩ := h1
      rw [removeGFInPlace] at h
      rcases hr : loopInPlace (removeGFInPlace view k) view s cs with _ | ⟨rs, s1⟩
      · rw [hr] at h; cases h
      · rw [hr] at h
        obtain ⟨t1, t2⟩ := loopInPlace_ok hv _ ih cs s rs s1 hl hr
        dsimp only at h
        rw [readAll_topFair hv t1 rs (childOk_topFair t2)] at h
        simp only [Option.some.injEq, Prod.mk.injEq] at h
        obtain ⟨rfl, rfl⟩ := h
        have e1 : LtlEquiv (.mkAND rs) (.mkAND cs) := equiv_mkAND (childOk_equiv t2)
        have e2 : rankGF (.mkAND rs) ≤ rankGF (.mkAND cs) := by
          have := childOk_rankGF t2
          simp only [rankGF]; omega
        have e3 : topFair (.mkAND cs) = true → Node.mkAND rs = .mkAND cs := by
          intro ht
          rw [topFair, topFairAll_iff] at ht
          rw [childOk_fixed t2 ht]
        refine ⟨LogOk_cons t1 e1 e2 e3, e1, ?_, e2, e3⟩
        rw [topFair, topFairAll_iff]
        exact childOk_topFair t2
    by_cases h2 : ∃ cs, n = .mkOR cs
    · obtain ⟨cs, rfl⟩ := h2
      rw [removeGFInPlace] at h
      rcases hr : loopInPlace (removeGFInPlace view k) view s cs with _ | ⟨rs, s1⟩
      · rw [hr] at h; cases h
      · rw [hr] at h
        obtain ⟨t1, t2⟩ := loopInPlace_ok hv _ ih cs s rs s1 hl hr
        dsimp only at h
        rw [readAll_topFair hv t1 rs (childOk_topFair t2)] at h
        simp only [Option.some.injEq, Prod.mk.injEq] at h
        obtain ⟨rfl, rfl⟩ := h
        have e1 : LtlEquiv (.mkOR rs) (.mkOR cs) := equiv_mkOR (childOk_equiv t2)
        have e2 : rankGF (.mkOR rs) ≤ rankGF (.mkOR cs) := by
          have := childOk_rankGF t2
          simp only [rankGF]; omega
        have e3 : topFair (.mkOR cs) = true → Node.mkOR rs = .mkOR cs := by
          intro ht
          rw [topFair, topFairAll_iff] at ht
          rw [childOk_fixed t2 ht]
        refine ⟨LogOk_cons t1 e1 e2 e3, e1, ?_, e2, e3⟩
        rw [topFair, topFairAll_iff]
        exact childOk_topFair t2
    have e1 : ∀ cs, n ≠ .mkAND cs := fun cs hc => h1 ⟨cs, hc⟩
    have e2 : ∀ cs, n ≠ .mkOR cs := fun cs hc => h2 ⟨cs, hc⟩
    rw [removeGFInPlace_other _ _ _ n e1 e2] at h
    rcases hf : findGF n false with _ | found
    · simp only [hf, Option.some.injEq, Prod.mk.injEq] at h
      obtain ⟨rfl, rfl⟩ := h
      exact ⟨hl, LtlEquiv.refl _, by simpa using findGF_none n false hf, le_refl _,
        fun _ => rfl⟩
    · simp only [hf] at h
      rcases ht : removeGFInPlace view k s (replace found Node.tt n) with _ | ⟨tt1, s1⟩
      · rw [ht] at h; cases h
      · rw [ht] at h
        dsimp only at h
        obtain ⟨o1, o2, o3, o4, _⟩ := ih _ _ _ _ hl ht
        have hfound := findGF_top n false found hf
        rw [(view_ok hv o1 s1.reads found).2.2 hfound] at h
        obtain ⟨v1, v2, _⟩ := view_ok hv o1 (s1.reads + 1) (replace found Node.ff n)
        rcases hff : removeGFInPlace view k ⟨s1.log, s1.reads + 2⟩
            (view (s1.reads + 1) s1.log (replace found Node.ff n)) with _ | ⟨ff1, s3⟩
        · rw [hff] at h; cases h
        · rw [hff] at h
          obtain ⟨p1, p2, p3, p4, _⟩ := ih _ _ _ _ (show LogOk
            (GFState.mk s1.log (s1.reads + 2)).log from o1) hff
          dsimp only at h
          rw [(view_ok hv p1 s3.reads (Node.And [found, tt1])).2.2
            (topFair_pair_And hfound o3)] at h
          simp only [Option.some.injEq, Prod.mk.injEq] at h
          obtain ⟨rfl, rfl⟩ := h
          refine ⟨p1, ?_, topFair_pair_Or (topFair_pair_And hfound o3) p3,
            rankGF_result_le n found tt1 ff1 e1 e2 hf o4 (le_trans p4 v2), fun hn => ?_⟩
          · intro w i
            rw [rule3 (findGF_fair n false found hf) n w i, sem_Or_pair, sem_And_pair,
              o2 w i, (p2.trans v1) w i]
          · rw [findGF_of_fair n false (by simpa using hn)] at hf
            cases hf

theorem mem_rankGFList_lt (cs : List Node) (c : Node) (h : c ∈ cs) :
    rankGF c < rankGFList cs := by
  induction cs with
  | nil => cases h
  | cons d ds ih =>
    simp only [rankGFList]
    rcases List.mem_cons.mp h with rfl | h
    · omega
    · have := ih h
      omega

theorem loopInPlace_total {view : View} (hv : ValidView view) (w : Nat)
    (rec1 : ∀ m s, rankGF m < w → LogOk s.log →
      ∃ k r s1, removeGFInPlace view k s m = some (r, s1)) :
    ∀ cs s, (∀ c ∈ cs, rankGF c < w) → LogOk s.log →
      ∃ k rs s1, loopInPlace (removeGFInPlace view k) view s cs = some (rs, s1) := by
  intro cs
  induction cs with
  | nil => intro s _ _; exact ⟨0, [], s, rfl⟩
  | cons c cs ih =>
    intro s hcs hl
    have hc := hcs c (List.mem_cons_self _ _)
    obtain ⟨_, v2, _⟩ := view_ok hv hl s.reads c
    obtain ⟨k1, r, s1, h1⟩ := rec1 (view s.reads s.log c) ⟨s.log, s.reads + 1⟩
      (by omega) hl
    have o1 := (removeGFInPlace_ok hv k1 ⟨s.log, s.reads + 1⟩ _ _ _ hl h1).1
    obtain ⟨k2, rs, s2, h2⟩ := ih s1 (fun d hd => hcs d (List.mem_cons_of_mem _ hd)) o1
    refine ⟨k1 + k2, r :: rs, s2, ?_⟩
    rw [loopInPlace, removeGFInPlace_mono view (Nat.le_add_right k1 k2) h1]
    dsimp only
    rw [loopInPlace_mono view
      (fun s n x hx => removeGFInPlace_mono view (Nat.le_add_left k2 k1) hx) cs s1 _ h2]

theorem removeGFInPlace_total_aux {view : View} (hv : ValidView view) (w : Nat) :
    ∀ n s, rankGF n ≤ w → LogOk s.log →
      ∃ k r s1, removeGFInPlace view k s n = some (r, s1) := by
  induction w using Nat.strong_induction_on with
  | _ w ihw =>
    intro n s hw hl
    have rec1 : ∀ m s, rankGF m < rankGF n → LogOk s.log →
        ∃ k r s1, removeGFInPlace view k s m = some (r, s1) :=
      fun m s hm hs => ihw (rankGF m) (by omega) m s le_rfl hs
    by_cases h1 : ∃ cs, n = .mkAND cs
    · obtain ⟨cs, rfl⟩ := h1
      obtain ⟨k, rs, s1, hrs⟩ := loopInPlace_total hv _ rec1 cs s
        (fun c hc => by have := mem_rankGFList_lt cs c hc; simp only [rankGF]; omega) hl
      exact ⟨k + 1, _, _, by rw [removeGFInPlace, hrs]⟩
    by_cases h2 : ∃ cs, n = .mkOR cs
    · obtain ⟨cs, rfl⟩ := h2
      obtain ⟨k, rs, s1, hrs⟩ := loopInPlace_total hv _ rec1 cs s
        (fun c hc => by have := mem_rankGFList_lt cs c hc; simp only [rankGF]; omega) hl
      exact ⟨k + 1, _, _, by rw [removeGFInPlace, hrs]⟩
    have e1 : ∀ cs, n ≠ .mkAND cs := fun cs hc => h1 ⟨cs, hc⟩
    have e2 : ∀ cs, n ≠ .mkOR cs := fun cs hc => h2 ⟨cs, hc⟩
    rcases hf : findGF n false with _ | found
    · refine ⟨1, n, s, ?_⟩
      rw [removeGFInPlace_other _ _ _ n e1 e2]
      simp only [hf]
    · obtain ⟨kt, t1, s1, ht⟩ := rec1 _ s
        (findGF_replace_lighter Node.tt rfl n false found hf).1 hl
      have o1 := (removeGFInPlace_ok hv kt s _ _ _ hl ht).1
      obtain ⟨_, v2, _⟩ := view_ok hv o1 (s1.reads + 1) (replace found Node.ff n)
      have hlt := (findGF_replace_lighter Node.ff rfl n false found hf).1
      obtain ⟨kf, f1, s2, hff⟩ := rec1 (view (s1.reads + 1) s1.log (replace found Node.ff n))
        ⟨s1.log, s1.reads + 2⟩ (by omega) o1
      refine ⟨kt + kf + 1,
        Node.Or [view s2.reads s2.log (Node.And [view s1.reads s1.log found, t1]), f1],
        ⟨s2.log, s2.reads + 1⟩, ?_⟩
      rw [removeGFInPlace_other _ _ _ n e1 e2]
      simp only [hf, removeGFInPlace_mono view (Nat.le_add_right kt kf) ht,
        removeGFInPlace_mono view (Nat.le_add_left kf kt) hff]

/-- `removeGF` in place returns a result when the budget is large enough,
whatever the references are read with. -/
theorem removeGFInPlace_total {view : View} (hv : ValidView view) (n : Node) (s : GFState)
    (hl : LogOk s.log) : ∃ k r s1, removeGFInPlace view k s n = some (r, s1) :=
  removeGFInPlace_total_aux hv (rankGF n) n s le_rfl hl

open Normalizer

/-! ## `normalize` in place, and the two extreme views -/

theorem normalizeInPlace_total {view : View} (hv : ValidView view) (n : Node) :
    ∃ k r, normalizeInPlace view k n = some r := by
  obtain ⟨k1, t1, h1⟩ := removeWU_total n
  obtain ⟨k2, t2, s2, h2⟩ := removeGFInPlace_total hv t1 ⟨[], 0⟩ LogOk_nil
  obtain ⟨k3, t3, h3⟩ := fixGF_total t2
  refine ⟨k1 + k2 + k3, t3, ?_⟩
  rw [normalizeInPlace, removeWU_mono (by omega) h1]
  dsimp only
  rw [removeGFInPlace_mono view (by omega) h2]
  exact fixGF_mono (by omega) t2 t3 h3

/-- Whenever `normalize` in place returns a formula, it is equivalent to the
argument, whatever the references are read with. -/
theorem normalizeInPlace_sem {view : View} (hv : ValidView view) (k : Nat) (f g : Node)
    (h : normalizeInPlace view k f = some g) : LtlEquiv g f := by
  rw [normalizeInPlace] at h
  rcases h1 : removeWU k f with _ | t1
  · rw [h1] at h; cases h
  · rw [h1] at h
    dsimp only at h
    rcases h2 : removeGFInPlace view k ⟨[], 0⟩ t1 with _ | ⟨t2, s2⟩
    · rw [h2] at h; cases h
    · rw [h2] at h
      dsimp only at h
      obtain ⟨_, o2, o3, _, _⟩ := removeGFInPlace_ok hv k ⟨[], 0⟩ t1 t2 s2 LogOk_nil h2
      exact LtlEquiv.trans (fixGF_sem k t2 g o3 h) (LtlEquiv.trans o2 (removeWU_sem k f t1 h1))

theorem readAll_sameView (log : Log) (rs : List Node) (i : Nat) :
    readAll sameView log i rs = rs := by
  induction rs generalizing i with
  | nil => rfl
  | cons r rs ih => rw [readAll, ih]; rfl

theorem loopInPlace_sameView (call : GFState → Node → Option (Node × GFState))
    (f : Node → Option Node) (h : ∀ s n, (call s n).map Prod.fst = f n) :
    ∀ cs s, (loopInPlace call sameView s cs).map Prod.fst = mapOption f cs := by
  intro cs
  induction cs with
  | nil => intro s; rfl
  | cons c cs ih =>
    intro s
    rw [loopInPlace, mapOption]
    have hc := h ⟨s.log, s.reads + 1⟩ c
    rcases e : call ⟨s.log, s.reads + 1⟩ (sameView s.reads s.log c) with _ | ⟨r, s1⟩
    · have e2 : call ⟨s.log, s.reads + 1⟩ c = none := e
      rw [e2] at hc
      rw [← hc]
      rfl
    · have e2 : call ⟨s.log, s.reads + 1⟩ c = some (r, s1) := e
      rw [e2] at hc
      rw [← hc]
      dsimp only
      have hr := ih s1
      rcases e3 : loopInPlace call sameView s1 cs with _ | ⟨rs, s2⟩
      · rw [e3] at hr
        rw [← hr]
        rfl
      · rw [e3] at hr
        rw [← hr]
        rfl

/-- With the view that reads every reference as it was taken, `removeGF` in
place returns what `removeGF` returns. -/
theorem removeGFInPlace_sameView (k : Nat) :
    ∀ s n, (removeGFInPlace sameView k s n).map Prod.fst = removeGF k n := by
  induction k with
  | zero => intro s n; rfl
  | succ k ih =>
    intro s n
    by_cases h1 : ∃ cs, n = .mkAND cs
    · obtain ⟨cs, rfl⟩ := h1
      have hl := loopInPlace_sameView _ _ ih cs s
      rw [removeGFInPlace, removeGF]
      rcases e : loopInPlace (removeGFInPlace sameView k) sameView s cs with _ | ⟨rs, s1⟩
      · rw [e] at hl
        rw [← hl]
        rfl
      · rw [e] at hl
        rw [← hl]
        dsimp only
        rw [readAll_sameView]
        rfl
    by_cases h2 : ∃ cs, n = .mkOR cs
    · obtain ⟨cs, rfl⟩ := h2
      have hl := loopInPlace_sameView _ _ ih cs s
      rw [removeGFInPlace, removeGF]
      rcases e : loopInPlace (removeGFInPlace sameView k) sameView s cs with _ | ⟨rs, s1⟩
      · rw [e] at hl
        rw [← hl]
        rfl
      · rw [e] at hl
        rw [← hl]
        dsimp only
        rw [readAll_sameView]
        rfl
    have e1 : ∀ cs, n ≠ .mkAND cs := fun cs hc => h1 ⟨cs, hc⟩
    have e2 : ∀ cs, n ≠ .mkOR cs := fun cs hc => h2 ⟨cs, hc⟩
    rw [removeGFInPlace_other _ _ _ n e1 e2, removeGF_other _ n e1 e2]
    rcases hf : findGF n false with _ | found
    · rfl
    · dsimp only
      have ht := ih s (replace found Node.tt n)
      rcases e : removeGFInPlace sameView k s (replace found Node.tt n) with _ | ⟨tt1, s1⟩
      · rw [e] at ht
        rw [← ht]
        rfl
      · rw [e] at ht
        rw [← ht]
        dsimp only
        have hff := ih ⟨s1.log, s1.reads + 2⟩ (replace found Node.ff n)
        have e4 : sameView (s1.reads + 1) s1.log (replace found Node.ff n)
            = replace found Node.ff n := rfl
        rw [e4]
        rcases e3 : removeGFInPlace sameView k ⟨s1.log, s1.reads + 2⟩
            (replace found Node.ff n) with _ | ⟨ff1, s2⟩
        · rw [e3] at hff
          rw [← hff]
          rfl
        · rw [e3] at hff
          rw [← hff]
          rfl

/-- With the view that reads every reference as it was taken, `normalize` in
place is `normalize`. -/
theorem normalizeInPlace_sameView (k : Nat) (n : Node) :
    normalizeInPlace sameView k n = normalize k n := by
  rw [normalizeInPlace, Normalizer.normalize]
  rcases h1 : removeWU k n with _ | t1
  · rfl
  · have h2 := removeGFInPlace_sameView k ⟨[], 0⟩ t1
    simp only [bind, Option.some_bind]
    rcases e : removeGFInPlace sameView k ⟨[], 0⟩ t1 with _ | ⟨t2, s2⟩
    · rw [e] at h2
      rw [← h2]
      rfl
    · rw [e] at h2
      rw [← h2]
      rfl

/-! ## The view that shares every occurrence is valid -/

theorem Seen_trans {log : Log} {a b c : Node} (h1 : Seen log a b) (h2 : Seen log b c) :
    Seen log a c :=
  Relation.ReflTransGen.trans h1 h2

theorem Seen_lift {log : Log} (f : Node → Node)
    (hf : ∀ old new a b, Rewrite1 old new a b → Rewrite1 old new (f a) (f b))
    {a b : Node} (h : Seen log a b) : Seen log (f a) (f b) :=
  Relation.ReflTransGen.lift f (fun _ _ ⟨p, hp, hr⟩ => ⟨p, hp, hf _ _ _ _ hr⟩) h

theorem Seen_binary {log : Log} (f : Node → Node → Node)
    (h1 : ∀ old new a b d, Rewrite1 old new a d → Rewrite1 old new (f a b) (f d b))
    (h2 : ∀ old new a b d, Rewrite1 old new b d → Rewrite1 old new (f a b) (f a d))
    {a a2 b b2 : Node} (ha : Seen log a a2) (hb : Seen log b b2) :
    Seen log (f a b) (f a2 b2) :=
  Seen_trans (Seen_lift (fun x => f x b) (fun _ _ _ _ h => h1 _ _ _ _ _ h) ha)
    (Seen_lift (fun x => f a2 x) (fun _ _ _ _ h => h2 _ _ _ _ _ h) hb)

theorem Seen_list {log : Log} (f : List Node → Node)
    (hf : ∀ old new pre post c d, Rewrite1 old new c d →
      Rewrite1 old new (f (pre ++ c :: post)) (f (pre ++ d :: post)))
    {cs ds : List Node} (h : List.Forall₂ (Seen log) cs ds) :
    ∀ pre, Seen log (f (pre ++ cs)) (f (pre ++ ds)) := by
  induction h with
  | nil => intro pre; exact Relation.ReflTransGen.refl
  | @cons c d cs ds hc _ ih =>
    intro pre
    have s1 : Seen log (f (pre ++ c :: cs)) (f (pre ++ d :: cs)) :=
      Seen_lift (fun x => f (pre ++ x :: cs)) (fun _ _ _ _ h => hf _ _ pre cs _ _ h) hc
    have s2 := ih (pre ++ [d])
    simp only [List.append_assoc, List.singleton_append] at s2
    exact Seen_trans s1 s2

theorem rewriteAllList_seen {log : Log} (old new : Node) (cs : List Node)
    (h : ∀ c ∈ cs, Seen log c (rewriteAll old new c)) :
    List.Forall₂ (Seen log) cs (rewriteAllList old new cs) := by
  induction cs with
  | nil => rw [rewriteAllList]; exact List.Forall₂.nil
  | cons c cs ih =>
    rw [rewriteAllList]
    exact List.Forall₂.cons (h c (List.mem_cons_self _ _))
      (ih (fun d hd => h d (List.mem_cons_of_mem _ hd)))

theorem rewriteAll_seen {log : Log} (old new : Node) (hp : (old, new) ∈ log) (n : Node) :
    Seen log n (rewriteAll old new n) := by
  have here : ∀ m : Node, (m == old) = true → Seen log m new := by
    intro m hm
    rw [eq_of_beq hm]
    exact Relation.ReflTransGen.single ⟨(old, new), hp, Rewrite1.here⟩
  induction n using Node.induct with
  | hand cs ih =>
    rw [rewriteAll]
    split
    · rename_i hm; exact here _ hm
    · exact Seen_list Node.mkAND (fun _ _ pre post c d h => Rewrite1.inAND pre post c d h)
        (rewriteAllList_seen old new cs ih) []
  | hor cs ih =>
    rw [rewriteAll]
    split
    · rename_i hm; exact here _ hm
    · exact Seen_list Node.mkOR (fun _ _ pre post c d h => Rewrite1.inOR pre post c d h)
        (rewriteAllList_seen old new cs ih) []
  | hx c ih =>
    rw [rewriteAll]
    split
    · rename_i hm; exact here _ hm
    · exact Seen_lift Node.mkX (fun _ _ a b h => Rewrite1.inX a b h) ih
  | hu a b iha ihb =>
    rw [rewriteAll]
    split
    · rename_i hm; exact here _ hm
    · exact Seen_binary Node.mkU (fun _ _ a b d h => Rewrite1.inU1 a b d h)
        (fun _ _ a b d h => Rewrite1.inU2 a b d h) iha ihb
  | hw a b iha ihb =>
    rw [rewriteAll]
    split
    · rename_i hm; exact here _ hm
    · exact Seen_binary Node.mkW (fun _ _ a b d h => Rewrite1.inW1 a b d h)
        (fun _ _ a b d h => Rewrite1.inW2 a b d h) iha ihb
  | hr a b iha ihb =>
    rw [rewriteAll]
    split
    · rename_i hm; exact here _ hm
    · exact Seen_binary Node.mkR (fun _ _ a b d h => Rewrite1.inR1 a b d h)
        (fun _ _ a b d h => Rewrite1.inR2 a b d h) iha ihb
  | hm a b iha ihb =>
    rw [rewriteAll]
    split
    · rename_i hm; exact here _ hm
    · exact Seen_binary Node.mkM (fun _ _ a b d h => Rewrite1.inM1 a b d h)
        (fun _ _ a b d h => Rewrite1.inM2 a b d h) iha ihb
  | hgf c ih =>
    rw [rewriteAll]
    split
    · rename_i hm; exact here _ hm
    · exact Seen_lift Node.mkGF (fun _ _ a b h => Rewrite1.inGF a b h) ih
  | hfg c ih =>
    rw [rewriteAll]
    split
    · rename_i hm; exact here _ hm
    · exact Seen_lift Node.mkFG (fun _ _ a b h => Rewrite1.inFG a b h) ih
  | _ =>
    rw [rewriteAll] <;> try simp
    split
    · rename_i hm; exact here _ (by simpa using hm)
    · exact Relation.ReflTransGen.refl

/-- The view that applies every assignment to every occurrence reads each
reference with a value it can have. -/
theorem sharedView_valid : ValidView sharedView := by
  intro i log n
  have : ∀ l : Log, (∀ p ∈ l, p ∈ log) →
      Seen log n (l.foldr (fun p acc => rewriteAll p.1 p.2 acc) n) := by
    intro l
    induction l with
    | nil => intro _; exact Relation.ReflTransGen.refl
    | cons p l ih =>
      intro hl
      exact Seen_trans (ih (fun q hq => hl q (List.mem_cons_of_mem _ hq)))
        (rewriteAll_seen p.1 p.2 (hl p (List.mem_cons_self _ _)) _)
  exact this log (fun p hp => hp)

/-! ## The measure of the calls of `removeGF` in place -/

/-- A child is lighter than the node. -/
theorem rankGF_child_lt (n c : Node) (h : c ∈ n.children) : rankGF c < rankGF n := by
  cases n with
  | mkAND cs =>
    simp only [Node.children] at h
    have h1 := mem_rankGFList_lt cs c h
    simp only [rankGF]
    omega
  | mkOR cs =>
    simp only [Node.children] at h
    have h1 := mem_rankGFList_lt cs c h
    simp only [rankGF]
    omega
  | tt => simp [Node.children] at h
  | ff => simp [Node.children] at h
  | ap name => simp [Node.children] at h
  | mkX a =>
    simp only [Node.children, List.mem_singleton] at h
    subst h
    have := pow4_ge (rankGF c)
    simp only [rankGF]
    omega
  | mkGF a =>
    simp only [Node.children, List.mem_singleton] at h
    subst h
    have := pow4_ge (rankGF c)
    simp only [rankGF]
    omega
  | mkFG a =>
    simp only [Node.children, List.mem_singleton] at h
    subst h
    have := pow4_ge (rankGF c)
    simp only [rankGF]
    omega
  | mkU a b =>
    simp only [Node.children, List.mem_cons, List.mem_singleton, List.not_mem_nil,
      or_false] at h
    have := pow4_ge (rankGF a + rankGF b)
    simp only [rankGF]
    rcases h with rfl | rfl <;> omega
  | mkW a b =>
    simp only [Node.children, List.mem_cons, List.mem_singleton, List.not_mem_nil,
      or_false] at h
    have := pow4_ge (rankGF a + rankGF b)
    simp only [rankGF]
    rcases h with rfl | rfl <;> omega
  | mkR a b =>
    simp only [Node.children, List.mem_cons, List.mem_singleton, List.not_mem_nil,
      or_false] at h
    have := pow4_ge (rankGF a + rankGF b)
    simp only [rankGF]
    rcases h with rfl | rfl <;> omega
  | mkM a b =>
    simp only [Node.children, List.mem_cons, List.mem_singleton, List.not_mem_nil,
      or_false] at h
    have := pow4_ge (rankGF a + rankGF b)
    simp only [rankGF]
    rcases h with rfl | rfl <;> omega

theorem rankGF_wf : WellFounded (fun x y : Node => rankGF x < rankGF y) :=
  InvImage.wf rankGF Nat.lt_wfRel.wf

/-- The child of a node, as it is read when the loop of `removeGF` reaches
it, is lighter than the node. -/
theorem rankGF_child_read {view : View} (hv : ValidView view) {log : Log} (hl : LogOk log)
    (i : Nat) (n c : Node) (h : c ∈ n.children) : rankGF (view i log c) < rankGF n :=
  lt_of_le_of_lt (view_ok hv hl i c).2.1 (rankGF_child_lt n c h)

/-- The tt variant, and the ff variant as it is read after the call on the tt
variant, are lighter than the formula. -/
theorem rankGF_variants {view : View} (hv : ValidView view) (n found : Node)
    (hf : findGF n false = some found) :
    rankGF (replace found .tt n) < rankGF n ∧
    ∀ i log, LogOk log → rankGF (view i log (replace found .ff n)) < rankGF n :=
  ⟨(findGF_replace_lighter Node.tt rfl n false found hf).1,
    fun i _ hl => lt_of_le_of_lt (view_ok hv hl i _).2.1
      (findGF_replace_lighter Node.ff rfl n false found hf).1⟩

open Normalizer

/-! ## The properties of the specification -/

/-- C1: for every formula `f`, `normalize` returns a formula when its
recursion budget is large enough, and every formula it returns is satisfied by
exactly the same words as `f` (and holds at the same positions of every word)
under the LTL semantics `sem`, which reads a zero-child And as true and a
zero-child Or as false.  The pass `removeGF` is taken with its assignments in
place: the statement holds whatever the references to the nodes it rewrites
are read with, that is for every valid view. -/
theorem normalize_equiv (view : View) (hv : ValidView view) (f : Node) :
    (∃ k g, normalizeInPlace view k f = some g) ∧
    ∀ k g, normalizeInPlace view k f = some g →
      (∀ w : Word, sem g w 0 ↔ sem f w 0) ∧ LtlEquiv g f :=
  ⟨normalizeInPlace_total hv f,
    fun k g h => ⟨fun w => normalizeInPlace_sem hv k f g h w 0,
      normalizeInPlace_sem hv k f g h⟩⟩

/-- C1 at `(GF b) R (X (r ∧ (s ∨ (p W GF d))) ∨ e)`, where the ff variant of
`removeGF` refers to the Or node that the call on the tt variant rewrites:
with the view that shares every occurrence, `normalize` returns the formula
`sharedOutput`, which is equivalent to the input. -/
theorem normalize_equiv_witness :
    ValidView sharedView ∧
    normalizeInPlace sharedView 4 sharedInput = some sharedOutput ∧
    LtlEquiv sharedOutput sharedInput :=
  ⟨sharedView_valid, rfl,
    ((normalize_equiv sharedView sharedView_valid sharedInput).2 4 _ rfl).2⟩

/-- C2: the formula `F G (((F a) R F (b U c)) W d)`, built with the smart
constructors, is normalized into a formula in which the node
`GF (b U c) W d` keeps an Until node below a WeakUntil node. -/
theorem normalize_strongBelowWeak :
    normalize 9 (Node.FG (Node.W (Node.R (Node.F (.ap "a"))
        (Node.F (Node.U (.ap "b") (.ap "c")))) (.ap "d")))
      = some (.mkOR [.mkAND [.mkGF (.ap "a"),
          .mkOR [.mkGF (.mkU (.ap "b") (.ap "c")), .mkFG (.ap "d")]],
          .mkFG (.mkW (.mkGF (.mkU (.ap "b") (.ap "c"))) (.ap "d"))])
    ∧ strongBelowWeak (.mkOR [.mkAND [.mkGF (.ap "a"),
          .mkOR [.mkGF (.mkU (.ap "b") (.ap "c")), .mkFG (.ap "d")]],
          .mkFG (.mkW (.mkGF (.mkU (.ap "b") (.ap "c"))) (.ap "d"))]) = true := by
  decide

/-- C3: the formula `F G ((F a) R F (b U c))`, built with the smart
constructors, is normalized into a formula with the node `FG (GF (b U c))`,
an FG node with an Until node among its descendants. -/
theorem normalize_strongBelowFG :
    normalize 9 (Node.FG (Node.R (Node.F (.ap "a"))
        (Node.F (Node.U (.ap "b") (.ap "c")))))
      = some (.mkOR [.mkAND [.mkGF (.ap "a"), .mkGF (.mkU (.ap "b") (.ap "c"))],
          .mkFG (.mkGF (.mkU (.ap "b") (.ap "c")))])
    ∧ strongBelowFG (.mkOR [.mkAND [.mkGF (.ap "a"), .mkGF (.mkU (.ap "b") (.ap "c"))],
          .mkFG (.mkGF (.mkU (.ap "b") (.ap "c")))]) = true := by
  decide

/-- C4: the formula `F G ((F a) R (F b))`, built with the smart constructors,
is normalized into `(GF a ∧ GF b) ∨ FG (GF b)`, and that formula is normalized
into the different formula `(GF a ∧ GF b) ∨ GF b`. -/
theorem normalize_not_idempotent :
    normalize 9 (Node.FG (Node.R (Node.F (.ap "a")) (Node.F (.ap "b"))))
      = some (.mkOR [.mkAND [.mkGF (.ap "a"), .mkGF (.ap "b")], .mkFG (.mkGF (.ap "b"))])
    ∧ normalize 9 (.mkOR [.mkAND [.mkGF (.ap "a"), .mkGF (.ap "b")], .mkFG (.mkGF (.ap "b"))])
      = some (.mkOR [.mkAND [.mkGF (.ap "a"), .mkGF (.ap "b")], .mkGF (.ap "b")])
    ∧ Node.mkOR [.mkAND [.mkGF (.ap "a"), .mkGF (.ap "b")], .mkFG (.mkGF (.ap "b"))]
      ≠ .mkOR [.mkAND [.mkGF (.ap "a"), .mkGF (.ap "b")], .mkGF (.ap "b")] := by
  decide

/-- C5: each binary temporal smart constructor returns a formula satisfied by
the same words, from every position on, as the plain operator on the same
operands; `Node::F` gives "eventually" and `Node::G` gives "always". -/
theorem smart_binary_equiv (a b : Node) :
    LtlEquiv (Node.U a b) (.mkU a b) ∧ LtlEquiv (Node.W a b) (.mkW a b) ∧
    LtlEquiv (Node.R a b) (.mkR a b) ∧ LtlEquiv (Node.M a b) (.mkM a b) ∧
    (∀ (w : Word) (i : Nat), sem (Node.F a) w i ↔ ∃ j, i ≤ j ∧ sem a w j) ∧
    (∀ (w : Word) (i : Nat), sem (Node.G a) w i ↔ ∀ j, i ≤ j → sem a w j) :=
  ⟨U_sem a b, W_sem a b, R_sem a b, M_sem a b, F_sem a, G_sem a⟩

/-- C6: `Node::X`, `Node::GF` and `Node::FG` return a formula equivalent to
the plain operator on the operand, `Node::And` a formula equivalent to the
conjunction of the arguments and `Node::Or` to their disjunction. -/
theorem smart_unary_equiv (a : Node) (args : List Node) :
    LtlEquiv (Node.X a) (.mkX a) ∧ LtlEquiv (Node.GF a) (.mkGF a) ∧
    LtlEquiv (Node.FG a) (.mkFG a) ∧
    (∀ (w : Word) (i : Nat), sem (Node.And args) w i ↔ ∀ c ∈ args, sem c w i) ∧
    (∀ (w : Word) (i : Nat), sem (Node.Or args) w i ↔ ∃ c ∈ args, sem c w i) :=
  ⟨X_sem a, GF_sem a, FG_sem a,
    fun w i => (And_sem args w i).trans (semAll_iff args w i),
    fun w i => (Or_sem args w i).trans (semAny_iff args w i)⟩

/-- C7: `Node::And` on `[True, True]` returns an AND node without children,
not `True`, and `Node::Or` on `[False, False]` returns an OR node without
children, not `False`. -/
theorem And_tt_tt :
    Node.And [.tt, .tt] = .mkAND [] ∧ Node.And [.tt, .tt] ≠ .tt ∧
    Node.Or [.ff, .ff] = .mkOR [] ∧ Node.Or [.ff, .ff] ≠ .ff := by
  decide

/-- C8: `Node::And` returns `False` on every argument list with `False` at
some position, and `Node::Or` returns `True` on every argument list with
`True` at some position; so do `And([False, x])` and `Or([True, x])`. -/
theorem And_absorbs_ff (xs ys : List Node) (x : Node) :
    Node.And (xs ++ .ff :: ys) = .ff ∧ Node.Or (xs ++ .tt :: ys) = .tt ∧
    Node.And [.ff, x] = .ff ∧ Node.Or [.tt, x] = .tt := by
  refine ⟨?_, ?_, ?_, ?_⟩ <;> simp [Node.And, Node.Or]

/-- C9: on the same operand twice, `Node::U`, `Node::W`, `Node::R` and
`Node::M` return the operand. -/
theorem smart_binary_self (a : Node) :
    Node.U a a = a ∧ Node.W a a = a ∧ Node.R a a = a ∧ Node.M a a = a := by
  refine ⟨?_, ?_, ?_, ?_⟩
  · unfold Node.U; simp
  · unfold Node.W; simp
  · unfold Node.R; simp
  · unfold Node.M; simp

open Normalizer

/-- C11: on a formula whose GF and FG nodes are reached from the root through
And/Or nodes only (a Boolean combination of formulas without a GF or FG node
below a temporal or fairness operator), `removeGF` returns the formula itself
when its recursion budget is large enough, and never anything else; in
particular `removeGF (GF a ∧ GF b)` is `GF a ∧ GF b` for atomic propositions
`a` and `b`. -/
theorem removeGF_unchanged (n : Node) (h : topFair n = true) :
    (∃ k, removeGF k n = some n) ∧
    (∀ k r, removeGF k n = some r → r = n) ∧
    ∀ a b : String,
      removeGF 2 (Node.And [Node.GF (.ap a), Node.GF (.ap b)])
        = some (Node.And [Node.GF (.ap a), Node.GF (.ap b)]) := by
  refine ⟨?_, fun k r hr => removeGF_fixed k n r h hr, fun a b => ?_⟩
  · obtain ⟨k, r, hr⟩ := removeGF_total n
    exact ⟨k, by rw [hr, removeGF_fixed k n r h hr]⟩
  · simp [removeGF, mapOption, findGF, Node.And, Node.GF, Node.is, Node.type]

/-- C11 at `GF a ∨ (FG b ∧ X c)`. -/
theorem removeGF_unchanged_witness :
    topFair (Node.Or [Node.GF (.ap "a"), Node.And [Node.FG (.ap "b"), Node.X (.ap "c")]])
      = true ∧
    ∃ k, removeGF k
        (Node.Or [Node.GF (.ap "a"), Node.And [Node.FG (.ap "b"), Node.X (.ap "c")]])
      = some (Node.Or [Node.GF (.ap "a"), Node.And [Node.FG (.ap "b"), Node.X (.ap "c")]]) :=
  ⟨by decide,
    (removeGF_unchanged
      (Node.Or [Node.GF (.ap "a"), Node.And [Node.FG (.ap "b"), Node.X (.ap "c")]])
      (by decide)).1⟩

/-- C12: on `GF (GF a)`, built with the smart constructors, `fixGF` returns
`FG a`, which is not equivalent to it: on the word where `a` holds exactly at
the even positions `GF (GF a)` holds and `FG a` does not.  On `GF (a W b)`
it returns `GF (a U b) ∨ FG a`, without a WeakUntil below a GF. -/
theorem fixGF_GF_GF :
    Node.GF (Node.GF (.ap "a")) = .mkGF (.mkGF (.ap "a")) ∧
    fixGF 2 (Node.GF (Node.GF (.ap "a"))) = some (.mkFG (.ap "a")) ∧
    sem (.mkGF (.mkGF (.ap "a"))) evenWord 0 ∧
    ¬ sem (.mkFG (.ap "a")) evenWord 0 ∧
    ¬ LtlEquiv (.mkFG (.ap "a")) (.mkGF (.mkGF (.ap "a"))) ∧
    fixGF 2 (Node.GF (Node.W (.ap "a") (.ap "b")))
      = some (.mkOR [.mkGF (.mkU (.ap "a") (.ap "b")), .mkFG (.ap "a")]) ∧
    weakBelowGF (.mkOR [.mkGF (.mkU (.ap "a") (.ap "b")), .mkFG (.ap "a")]) = false :=
  ⟨by decide, by decide, sem_GF_GF_evenWord, not_sem_FG_evenWord,
    fun h => not_sem_FG_evenWord ((h evenWord 0).mpr sem_GF_GF_evenWord),
    by decide, by decide⟩

/-- C13, as stated: `Node::W(a, False)`, which is `Node::G(a)`, returns the
WeakUntil node `a W False` for an atomic proposition `a`. -/
theorem W_right_ff :
    Built (Node.W (.ap "a") .ff) ∧
    Node.W (.ap "a") .ff = .mkW (.ap "a") .ff ∧
    Node.G (.ap "a") = .mkW (.ap "a") .ff :=
  ⟨Built.W (Built.ap "a") Built.ff, by decide, by decide⟩

/-- C13, amended: for all formulas `a` and `b` built with the public
constructors, if `Node::W(a, b)` returns a WeakUntil node, then the right
child of that node is not `True`. -/
theorem W_right_not_tt (a b l r : Node) (ha : Built a) (hb : Built b)
    (h : Node.W a b = .mkW l r) : r ≠ .tt := by
  have hok := rootOk_of_Built (Built.W ha hb)
  rw [h] at hok
  simpa [rootOk] using hok

/-- C13, amended, at `a W b` for atomic propositions `a` and `b`. -/
theorem W_right_not_tt_witness :
    Built (.ap "a") ∧ Built (.ap "b") ∧
    Node.W (.ap "a") (.ap "b") = .mkW (.ap "a") (.ap "b") ∧ Node.ap "b" ≠ .tt :=
  ⟨Built.ap "a", Built.ap "b", by decide,
    W_right_not_tt (.ap "a") (.ap "b") (.ap "a") (.ap "b") (Built.ap "a") (Built.ap "b")
      (by decide)⟩

/-- C14: for all formulas `a` and `b` built with the public constructors, if
`Node::R(a, b)` returns a Release node, then the left child of that node is
not `True`. -/
theorem R_left_not_tt (a b l r : Node) (ha : Built a) (hb : Built b)
    (h : Node.R a b = .mkR l r) : l ≠ .tt := by
  have hok := rootOk_of_Built (Built.R ha hb)
  rw [h] at hok
  simpa [rootOk] using hok

/-- C14 at `a R b` for atomic propositions `a` and `b`. -/
theorem R_left_not_tt_witness :
    Built (.ap "a") ∧ Built (.ap "b") ∧
    Node.R (.ap "a") (.ap "b") = .mkR (.ap "a") (.ap "b") ∧ Node.ap "a" ≠ .tt :=
  ⟨Built.ap "a", Built.ap "b", by decide,
    R_left_not_tt (.ap "a") (.ap "b") (.ap "a") (.ap "b") (Built.ap "a") (Built.ap "b")
      (by decide)⟩

/-- C15: `Node::And` returns `False` when an argument is `False`, the one
argument that is left after the `True` arguments are erased when there is
exactly one, and otherwise the And node it builds over the arguments that are
left, none of which is `True` or `False`; dually for `Node::Or`. -/
theorem And_Or_children (args : List Node) :
    ((args.any (fun a => Node.is a Op.FF) = true ∧ Node.And args = .ff) ∨
     (∃ a, args.filter (fun a => !Node.is a Op.TT) = [a] ∧ Node.And args = a) ∨
     ((∀ a, args.filter (fun a => !Node.is a Op.TT) ≠ [a]) ∧
      Node.And args = .mkAND (args.filter (fun a => !Node.is a Op.TT)) ∧
      ∀ c ∈ args.filter (fun a => !Node.is a Op.TT), c ≠ .tt ∧ c ≠ .ff)) ∧
    ((args.any (fun a => Node.is a Op.TT) = true ∧ Node.Or args = .tt) ∨
     (∃ a, args.filter (fun a => !Node.is a Op.FF) = [a] ∧ Node.Or args = a) ∨
     ((∀ a, args.filter (fun a => !Node.is a Op.FF) ≠ [a]) ∧
      Node.Or args = .mkOR (args.filter (fun a => !Node.is a Op.FF)) ∧
      ∀ c ∈ args.filter (fun a => !Node.is a Op.FF), c ≠ .tt ∧ c ≠ .ff)) := by
  constructor
  · unfold Node.And
    by_cases h : args.any (fun a => Node.is a Op.FF) = true
    · exact Or.inl ⟨h, by rw [if_pos h]⟩
    · right
      rw [if_neg h]
      by_cases h1 : ∃ a, args.filter (fun a => !Node.is a Op.TT) = [a]
      · obtain ⟨a, ha⟩ := h1
        exact Or.inl ⟨a, ha, by simp only [ha]⟩
      · right
        have h2 : ∀ a, args.filter (fun a => !Node.is a Op.TT) ≠ [a] :=
          fun a ha => h1 ⟨a, ha⟩
        refine ⟨h2, ?_, ?_⟩
        · dsimp only
          split
          · rename_i a ha
            exact absurd ha (h2 a)
          · rfl
        · intro c hc
          rw [List.mem_filter] at hc
          refine ⟨by simpa using hc.2, ?_⟩
          rintro rfl
          exact h (List.any_eq_true.mpr ⟨.ff, hc.1, rfl⟩)
  · unfold Node.Or
    by_cases h : args.any (fun a => Node.is a Op.TT) = true
    · exact Or.inl ⟨h, by rw [if_pos h]⟩
    · right
      rw [if_neg h]
      by_cases h1 : ∃ a, args.filter (fun a => !Node.is a Op.FF) = [a]
      · obtain ⟨a, ha⟩ := h1
        exact Or.inl ⟨a, ha, by simp only [ha]⟩
      · right
        have h2 : ∀ a, args.filter (fun a => !Node.is a Op.FF) ≠ [a] :=
          fun a ha => h1 ⟨a, ha⟩
        refine ⟨h2, ?_, ?_⟩
        · dsimp only
          split
          · rename_i a ha
            exact absurd ha (h2 a)
          · rfl
        · intro c hc
          rw [List.mem_filter] at hc
          refine ⟨?_, by simpa using hc.2⟩
          rintro rfl
          exact h (List.any_eq_true.mpr ⟨.tt, hc.1, rfl⟩)

/-- C16: `Node::And` on `[True, True]` returns an And node without children:
it is not a constant, it is not one of the arguments and it has fewer than two
children; so does `Node::Or` on `[False, False]`. -/
theorem And_no_children :
    Node.And [.tt, .tt] = .mkAND [] ∧
    (Node.And [.tt, .tt]).isConstant = false ∧
    Node.And [.tt, .tt] ∉ [Node.tt, Node.tt] ∧
    (Node.And [.tt, .tt]).children.length = 0 ∧
    Node.Or [.ff, .ff] = .mkOR [] ∧
    (Node.Or [.ff, .ff]).isConstant = false ∧
    Node.Or [.ff, .ff] ∉ [Node.ff, Node.ff] ∧
    (Node.Or [.ff, .ff]).children.length = 0 := by
  decide

/-- C17, as stated: `Node::U(True, G x)` returns `FG x` for an atomic
proposition `x`, which is not the result `GF x` of the GF constructor. -/
theorem U_tt_G_not_GF :
    (Node.G (.ap "x")).isG = true ∧
    Node.U .tt (Node.G (.ap "x")) = .mkFG (.ap "x") ∧
    Node.GF (.ap "x") = .mkGF (.ap "x") ∧
    Node.U .tt (Node.G (.ap "x")) ≠ Node.GF (.ap "x") := by
  decide

/-- C17, amended: for every formula `b` of "always" shape, `x W False` or
`False R x`, `Node::U(True, b)` returns the result of the FG constructor on
the witness `x`. -/
theorem U_tt_always (x : Node) :
    Node.U .tt (.mkW x .ff) = Node.FG x ∧ Node.U .tt (.mkR .ff x) = Node.FG x := by
  constructor <;> unfold Node.U <;> simp [Node.isConstant, Node.isF, Node.is, Node.type]

/-- C18, as stated: `Node::W(F x, False)` returns `GF x` for an atomic
proposition `x`, which is not the result `FG x` of the FG constructor. -/
theorem W_F_ff_not_FG :
    (Node.F (.ap "x")).isF = true ∧
    Node.W (Node.F (.ap "x")) .ff = .mkGF (.ap "x") ∧
    Node.FG (.ap "x") = .mkFG (.ap "x") ∧
    Node.W (Node.F (.ap "x")) .ff ≠ Node.FG (.ap "x") := by
  decide

/-- C18, amended: for every formula `a` of "eventually" shape, `True U x` or
`x M True`, `Node::W(a, False)` returns the result of the GF constructor on
the witness `x`. -/
theorem W_eventually_ff (x : Node) :
    Node.W (.mkU .tt x) .ff = Node.GF x ∧ Node.W (.mkM x .tt) .ff = Node.GF x := by
  constructor <;> unfold Node.W <;> simp [Node.isG, Node.is, Node.type]

/-- C19: if `Node::GF(a)` returns a GF node, its child is not a constant, not
a Next node and not of "eventually" shape; if `Node::FG(a)` returns an FG
node, its child is not a constant, not a Next node and not of "always" shape;
and `GF (X a) = GF a`, `FG (X a) = FG a`, for the Next node over `a` and for
the result of `Node::X` on `a`. -/
theorem GF_FG_child (a c : Node) :
    (Node.GF a = .mkGF c →
      c.isConstant = false ∧ (∀ y, c ≠ .mkX y) ∧ c.isF = false) ∧
    (Node.FG a = .mkFG c →
      c.isConstant = false ∧ (∀ y, c ≠ .mkX y) ∧ c.isG = false) ∧
    Node.GF (.mkX a) = Node.GF a ∧ Node.FG (.mkX a) = Node.FG a ∧
    Node.GF (Node.X a) = Node.GF a ∧ Node.FG (Node.X a) = Node.FG a :=
  ⟨GF_child a c, FG_child a c, by rw [Node.GF], by rw [Node.FG], GF_X a, FG_X a⟩

/-- C19 at `GF (X (a W b))` and `FG (X (a W b))`. -/
theorem GF_FG_child_witness :
    Node.GF (.mkX (.mkW (.ap "a") (.ap "b"))) = .mkGF (.mkW (.ap "a") (.ap "b")) ∧
    ((Node.mkW (.ap "a") (.ap "b")).isConstant = false ∧
      (∀ y, Node.mkW (.ap "a") (.ap "b") ≠ .mkX y) ∧
      (Node.mkW (.ap "a") (.ap "b")).isF = false) ∧
    Node.FG (.mkX (.mkW (.ap "a") (.ap "b"))) = .mkFG (.mkW (.ap "a") (.ap "b")) ∧
    ((Node.mkW (.ap "a") (.ap "b")).isConstant = false ∧
      (∀ y, Node.mkW (.ap "a") (.ap "b") ≠ .mkX y) ∧
      (Node.mkW (.ap "a") (.ap "b")).isG = false) :=
  ⟨by decide,
    (GF_FG_child (.mkX (.mkW (.ap "a") (.ap "b"))) (.mkW (.ap "a") (.ap "b"))).1 (by decide),
    by decide,
    (GF_FG_child (.mkX (.mkW (.ap "a") (.ap "b"))) (.mkW (.ap "a") (.ap "b"))).2.1
      (by decide)⟩

/-- C20: `equal(a, b)` returns true exactly when `a` and `b` are the same
tree, that is when they have the same kind, the same children and the same
name; it returns true on `(a, a)` and the same on `(a, b)` and `(b, a)`.  This
holds for the comparison of references of the embedding and for every other
one that holds only between identical trees and holds between an atomic
proposition and itself (the leaves being canonical). -/
theorem equal_structural (a b : Node) :
    (Node.equal a b = true ↔ a = b) ∧
    (a = b ↔ a.type = b.type ∧ a.children = b.children ∧ a.name = b.name) ∧
    Node.equal a a = true ∧
    Node.equal a b = Node.equal b a ∧
    ∀ same : Node → Node → Bool,
      (∀ x y, same x y = true → x = y) →
      (∀ name, same (.ap name) (.ap name) = true) →
      (Node.equalWith same a b = true ↔ a = b) := by
  refine ⟨equal_iff a b, eq_iff_fields a b, (equal_iff a a).mpr rfl, ?_,
    fun same hs hap => equalWith_iff same hs hap a b⟩
  rw [Bool.eq_iff_iff, equal_iff, equal_iff]
  exact eq_comm

/-- C20 at `a U b` and `a U c`, and at `a U b` twice, for the comparison of
the trees as comparison of references. -/
theorem equal_structural_witness :
    (Node.equalWith (fun x y => x == y) (.mkU (.ap "a") (.ap "b")) (.mkU (.ap "a") (.ap "c"))
        = true ↔
      Node.mkU (.ap "a") (.ap "b") = .mkU (.ap "a") (.ap "c")) ∧
    (Node.equalWith (fun x y => x == y) (.mkU (.ap "a") (.ap "b")) (.mkU (.ap "a") (.ap "b"))
        = true ↔
      Node.mkU (.ap "a") (.ap "b") = .mkU (.ap "a") (.ap "b")) :=
  ⟨(equal_structural (.mkU (.ap "a") (.ap "b")) (.mkU (.ap "a") (.ap "c"))).2.2.2.2
      (fun x y => x == y) (fun _ _ h => eq_of_beq h) (fun _ => beq_self_eq_true _),
    (equal_structural (.mkU (.ap "a") (.ap "b")) (.mkU (.ap "a") (.ap "b"))).2.2.2.2
      (fun x y => x == y) (fun _ _ h => eq_of_beq h) (fun _ => beq_self_eq_true _)⟩

open Normalizer

/-- C21: for every formula `f`, `removeWU` returns a formula when its
recursion budget is large enough, and every formula it returns is satisfied by
the same words as `f`; rule (1) `a W b = (a U b) ∨ G a` and rule (2)
`f[x U y] W c = (GF y ∧ f[x W y] W c) ∨ f[x U y] U (c ∨ G f[ff])`, and their
Release duals, are equivalences on the formulas the code builds from the
result of `findU`. -/
theorem removeWU_equiv (f : Node) :
    (∃ k g, removeWU k f = some g) ∧
    (∀ k g, removeWU k f = some g →
      (∀ w : Word, sem g w 0 ↔ sem f w 0) ∧ LtlEquiv g f) ∧
    (∀ a b, LtlEquiv (.mkW a b) (Node.Or [Node.U a b, Node.G a]) ∧
      LtlEquiv (.mkR a b) (Node.Or [Node.M a b, Node.G b])) ∧
    (∀ a b found,
      (findU a = some found →
        LtlEquiv (.mkW a b)
          (Node.Or [Node.And [Node.GF found.gfa, Node.W found.weak b],
            Node.U a (Node.Or [b, Node.G found.ff])])) ∧
      (findU b = some found →
        LtlEquiv (.mkR a b)
          (Node.Or [Node.And [Node.GF found.gfa, Node.R a found.weak],
            Node.M (Node.Or [a, Node.G found.ff]) b]))) :=
  ⟨removeWU_total f,
    fun k g h => ⟨fun w => removeWU_sem k f g h w 0, removeWU_sem k f g h⟩,
    fun a b => ⟨rule1_W_node a b, rule1_R_node a b⟩,
    fun a b found => ⟨rule2_W_node a b found, rule2_R_node a b found⟩⟩

/-- C21 at `(a U b) R c`: `removeWU` returns `((a U b) M c) ∨ G c`. -/
theorem removeWU_equiv_witness :
    removeWU 3 (Node.R (Node.U (.ap "a") (.ap "b")) (.ap "c"))
      = some (.mkOR [.mkM (.mkU (.ap "a") (.ap "b")) (.ap "c"), .mkW (.ap "c") .ff]) ∧
    LtlEquiv (.mkOR [.mkM (.mkU (.ap "a") (.ap "b")) (.ap "c"), .mkW (.ap "c") .ff])
      (Node.R (Node.U (.ap "a") (.ap "b")) (.ap "c")) :=
  ⟨by decide,
    ((removeWU_equiv (Node.R (Node.U (.ap "a") (.ap "b")) (.ap "c"))).2.1 3 _
      (by decide)).2⟩

/-- C22: for every formula `f`, `removeGF` returns a formula when its
recursion budget is large enough, and every formula it returns is satisfied by
the same words as `f`; the case split `f[GF a] = (GF a ∧ f[tt]) ∨ f[ff]` on
the node found by `findGF`, with `replace` on every occurrence, is an
equivalence, for GF and for FG.  `removeGF` is taken with its assignments in
place: the statement holds whatever the references to the nodes it rewrites
are read with, that is for every valid view. -/
theorem removeGF_equiv (view : View) (hv : ValidView view) (f : Node) :
    (∃ k g s, removeGFInPlace view k ⟨[], 0⟩ f = some (g, s)) ∧
    (∀ k g s, removeGFInPlace view k ⟨[], 0⟩ f = some (g, s) →
      (∀ w : Word, sem g w 0 ↔ sem f w 0) ∧ LtlEquiv g f) ∧
    (∀ n p g, findGF n p = some g →
      LtlEquiv n (Node.Or [Node.And [g, replace g .tt n], replace g .ff n])) :=
  ⟨removeGFInPlace_total hv f ⟨[], 0⟩ LogOk_nil,
    fun k g s h =>
      ⟨fun w => (removeGFInPlace_ok hv k ⟨[], 0⟩ f g s LogOk_nil h).2.1 w 0,
        (removeGFInPlace_ok hv k ⟨[], 0⟩ f g s LogOk_nil h).2.1⟩,
    fun n p g h => rule3_node n p g h⟩

/-- C22 at `(GF b) R (X (r ∧ (s ∨ (p W GF d))) ∨ e)`: the tt variant is the Or
node itself, the call on it rewrites the node, and with the view that shares
every occurrence the ff variant `False R (…)` is processed with the rewritten
node; `removeGF` returns `sharedOutput`, which is equivalent to the input and
is not what `removeGF` returns when the ff variant is read as it was built. -/
theorem removeGF_equiv_witness :
    ValidView sharedView ∧
    removeGFInPlace sharedView 4 ⟨[], 0⟩ sharedInput
      = some (sharedOutput, ⟨[(sharedOr, sharedOrAfter)], 13⟩) ∧
    LtlEquiv sharedOutput sharedInput ∧
    removeGF 4 sharedInput ≠ some sharedOutput :=
  ⟨sharedView_valid, rfl,
    ((removeGF_equiv sharedView sharedView_valid sharedInput).2.1 4 _ _ rfl).2,
    by decide⟩

/-- C23: for every formula `f`, `removeGF` returns a formula when its
recursion budget is large enough, and in every formula it returns each GF or
FG node is reached from the root through And/Or nodes only: none lies below a
temporal operator or below another GF or FG node.  `removeGF` is taken with
its assignments in place: the statement holds whatever the references to the
nodes it rewrites are read with, that is for every valid view. -/
theorem removeGF_shape (view : View) (hv : ValidView view) (f : Node) :
    (∃ k g s, removeGFInPlace view k ⟨[], 0⟩ f = some (g, s)) ∧
    ∀ k g s, removeGFInPlace view k ⟨[], 0⟩ f = some (g, s) → topFair g = true :=
  ⟨removeGFInPlace_total hv f ⟨[], 0⟩ LogOk_nil,
    fun k g s h => (removeGFInPlace_ok hv k ⟨[], 0⟩ f g s LogOk_nil h).2.2.1⟩

/-- C23 at `(GF b) R (X (r ∧ (s ∨ (p W GF d))) ∨ e)` with the view that shares
every occurrence: in the formula returned, which has the node `GF d` that the
call on the tt variant has moved to the top of the shared Or node, every GF
node is reached through And/Or nodes only. -/
theorem removeGF_shape_witness :
    ValidView sharedView ∧
    removeGFInPlace sharedView 4 ⟨[], 0⟩ sharedInput
      = some (sharedOutput, ⟨[(sharedOr, sharedOrAfter)], 13⟩) ∧
    topFair sharedOutput = true :=
  ⟨sharedView_valid, rfl,
    (removeGF_shape sharedView sharedView_valid sharedInput).2 4 _ _ rfl⟩

/-- C24: `fixGFW` and `fixFGU` return a result on every formula when the
recursion budget is large enough.  The measure of a call of `fixGFW` is the
pair of the weight of its argument and its number of W/R/GF/FG nodes, the one
of a call of `fixFGU` the pair of the weight and the number of U/M nodes; the
lexicographic order is well-founded, and each of the three calls that each
function makes has a strictly smaller measure than the call that makes it. -/
theorem fix_terminates (n : Node) (e : Option Node) :
    (∃ k r, fixGFW k n e = some r) ∧ (∃ k r, fixFGU k n e = some r) ∧
    WellFounded lexLt ∧
    (∀ found, findW n = some found →
      lexLt (measFGU found.fga) (measGFW n) ∧ lexLt (measGFW found.tt) (measGFW n) ∧
      lexLt (measGFW found.strong) (measGFW n)) ∧
    (∀ found, findU n = some found →
      lexLt (measGFW found.gfa) (measFGU n) ∧ lexLt (measFGU found.weak) (measFGU n) ∧
      lexLt (measFGU found.ff) (measFGU n)) :=
  ⟨fixGFW_total n e, fixFGU_total n e, lexLt_wf,
    fun found h => measGFW_calls n found h, fun found h => measFGU_calls n found h⟩

/-- C24 at `a W b`, where `fixGFW` calls `fixFGU` on `a`, `fixGFW` on `True`
and `fixGFW` on `a U b`. -/
theorem fix_terminates_witness :
    findW (.mkW (.ap "a") (.ap "b")) = some ⟨.ap "a", Node.U (.ap "a") (.ap "b"), .tt⟩ ∧
    lexLt (measFGU (.ap "a")) (measGFW (.mkW (.ap "a") (.ap "b"))) ∧
    lexLt (measGFW .tt) (measGFW (.mkW (.ap "a") (.ap "b"))) ∧
    lexLt (measGFW (Node.U (.ap "a") (.ap "b"))) (measGFW (.mkW (.ap "a") (.ap "b"))) :=
  ⟨rfl, (fix_terminates (.mkW (.ap "a") (.ap "b")) none).2.2.2.1
    ⟨.ap "a", Node.U (.ap "a") (.ap "b"), .tt⟩ rfl⟩

/-- C25: `removeWU` and `removeGF` return a result on every formula when the
recursion budget is large enough.  The measure of a call of `removeWU` is the
pair of the number of U/M nodes of its argument and its weight, in the
well-founded lexicographic order, and it is strictly smaller for the call on
an operand, on `G` of an operand in rule (1), on the rebuilt W/R node and on
`G` of the ff variant in rule (2).  `removeGF` is taken with its assignments
in place, for every valid view: the measure of a call is the weight `rankGF`
of its argument as it is when the call starts; every call leaves assignments
that make no node heavier, and after such assignments a child of the node, as
it is read when the loop reaches it, the tt variant, and the ff variant, as it
is read after the call on the tt variant, are strictly lighter than the
argument. -/
theorem removeWU_removeGF_terminate (view : View) (hv : ValidView view) (n : Node) :
    (∃ k r, removeWU k n = some r) ∧
    (∃ k r s, removeGFInPlace view k ⟨[], 0⟩ n = some (r, s)) ∧
    WellFounded lexLt ∧
    (∀ c ∈ n.children, lexLt (measWU c) (measWU n)) ∧
    (∀ a b, (containsU b = true → lexLt (measWU (Node.G a)) (measWU (.mkW a b))) ∧
      (containsU a = true → lexLt (measWU (Node.G b)) (measWU (.mkR a b)))) ∧
    (∀ a b found,
      (findU a = some found →
        lexLt (measWU (Node.W found.weak b)) (measWU (.mkW a b)) ∧
        lexLt (measWU (Node.G found.ff)) (measWU (.mkW a b))) ∧
      (findU b = some found →
        lexLt (measWU (Node.R a found.weak)) (measWU (.mkR a b)) ∧
        lexLt (measWU (Node.G found.ff)) (measWU (.mkR a b)))) ∧
    WellFounded (fun x y : Node => rankGF x < rankGF y) ∧
    LogOk [] ∧
    (∀ k s r s1, LogOk s.log → removeGFInPlace view k s n = some (r, s1) → LogOk s1.log) ∧
    (∀ i log, LogOk log → ∀ c ∈ n.children, rankGF (view i log c) < rankGF n) ∧
    (∀ found, findGF n false = some found →
      rankGF (replace found .tt n) < rankGF n ∧
      ∀ i log, LogOk log → rankGF (view i log (replace found .ff n)) < rankGF n) :=
  ⟨removeWU_total n, removeGFInPlace_total hv n ⟨[], 0⟩ LogOk_nil, lexLt_wf,
    fun c hc => measWU_child n c hc,
    fun a b => measWU_rule1 a b,
    fun a b found => measWU_rule2 a b found,
    rankGF_wf, LogOk_nil,
    fun k s r s1 hl h => (removeGFInPlace_ok hv k s n r s1 hl h).1,
    fun i _ hl c hc => rankGF_child_read hv hl i n c hc,
    fun found h => rankGF_variants hv n found h⟩

/-- C25 at `(GF b) R (X (r ∧ (s ∨ (p W GF d))) ∨ e)` with the view that shares
every occurrence.  `removeGF` finds `GF b`; the tt variant is the Or node, and
the call on it leaves the assignment of `sharedOrAfter` to this node; the ff
variant `False R (…)` is then read with `sharedOrAfter` below it.  This
argument of the second call is heavier than the formula for the weight `wt`
(53 against 45) and lighter for the measure `rankGF`. -/
theorem removeWU_removeGF_terminate_witness :
    ValidView sharedView ∧
    findGF sharedInput false = some (.mkGF (.ap "b")) ∧
    replace (.mkGF (.ap "b")) .tt sharedInput = sharedOr ∧
    removeGFInPlace sharedView 3 ⟨[], 0⟩ sharedOr
      = some (sharedOrAfter, ⟨[(sharedOr, sharedOrAfter)], 7⟩) ∧
    LogOk [(sharedOr, sharedOrAfter)] ∧
    sharedView 8 [(sharedOr, sharedOrAfter)] (replace (.mkGF (.ap "b")) .ff sharedInput)
      = .mkR .ff sharedOrAfter ∧
    wt sharedInput < wt (.mkR .ff sharedOrAfter) ∧
    rankGF (sharedView 8 [(sharedOr, sharedOrAfter)]
      (replace (.mkGF (.ap "b")) .ff sharedInput)) < rankGF sharedInput :=
  ⟨sharedView_valid, rfl, rfl, rfl,
    (removeWU_removeGF_terminate sharedView sharedView_valid sharedOr).2.2.2.2.2.2.2.2.1
      3 ⟨[], 0⟩ sharedOrAfter ⟨[(sharedOr, sharedOrAfter)], 7⟩
      (removeWU_removeGF_terminate sharedView sharedView_valid sharedOr).2.2.2.2.2.2.2.1 rfl,
    rfl, by decide,
    ((removeWU_removeGF_terminate sharedView sharedView_valid
      sharedInput).2.2.2.2.2.2.2.2.2.2 (.mkGF (.ap "b")) rfl).2 8 _
      ((removeWU_removeGF_terminate sharedView sharedView_valid
        sharedOr).2.2.2.2.2.2.2.2.1
        3 ⟨[], 0⟩ sharedOrAfter ⟨[(sharedOr, sharedOrAfter)], 7⟩
        (removeWU_removeGF_terminate sharedView sharedView_valid
          sharedOr).2.2.2.2.2.2.2.1 rfl)⟩

/-- C26: `findU` returns true exactly when `containsU` does.  With the result
parameter of the source, whatever it holds before the call: when `containsU`
is true, `findU` returns true and has assigned the three fields `gfa`, `ff`
and `weak`; when `containsU` is false it returns false and leaves the
parameter as it was; in both cases no field that holds no node is used. -/
theorem findU_containsU (n : Node) (s : FindUSlots) :
    (findU n).isSome = containsU n ∧
    (containsU n = true →
      ∃ g f wk, findU n = some ⟨g, f, wk⟩ ∧
        findUOut n s = some (true, ⟨some g, some f, some wk⟩)) ∧
    (containsU n = false → findU n = none ∧ findUOut n s = some (false, s)) := by
  refine ⟨findU_isSome n, fun h => ?_, fun h => ?_⟩
  · rcases hf : findU n with _ | found
    · have := findU_isSome n
      rw [hf, h] at this
      cases this
    · exact ⟨found.gfa, found.ff, found.weak, rfl, (findUOut_ok n s).1 found hf⟩
  · rcases hf : findU n with _ | found
    · exact ⟨rfl, (findUOut_ok n s).2 hf⟩
    · have := findU_isSome n
      rw [hf, h] at this
      cases this

/-- C26 at `(a U b) W c` with no field assigned before the call, and at the
atomic proposition `c`. -/
theorem findU_containsU_witness :
    (∃ g f wk,
      findU (.mkW (.mkU (.ap "a") (.ap "b")) (.ap "c")) = some ⟨g, f, wk⟩ ∧
      findUOut (.mkW (.mkU (.ap "a") (.ap "b")) (.ap "c")) ⟨none, none, none⟩
        = some (true, ⟨some g, some f, some wk⟩)) ∧
    (findU (.ap "c") = none ∧
      findUOut (.ap "c") ⟨none, none, none⟩ = some (false, ⟨none, none, none⟩)) :=
  ⟨(findU_containsU (.mkW (.mkU (.ap "a") (.ap "b")) (.ap "c")) ⟨none, none, none⟩).2.1
      (by decide),
    (findU_containsU (.ap "c") ⟨none, none, none⟩).2.2 (by decide)⟩
